import Mathlib

/-!
# CoDES: coroutine operation runtime, coroutine socket and MPI serialization

A shallow embedding of `src/coroutine/model/operation.h`,
`src/coroutine/model/coroutine-socket.cpp` and `src/mpi-application/model/mpi-protocol.h`,
followed by the properties established for them.

Conventions of the embedding.
* `std::size_t` values are natural numbers reduced modulo `SIZE_MOD = 2 ^ 64`
  wherever the source does arithmetic that can wrap.
* A coroutine body is the function that tells, for the k-th time the body is run,
  how that run ends: at another suspension point, with `co_return r`, or with an
  exception that escapes the body.
* Completion callbacks are identified by labels; invoking one appends its label to a
  log (`fired`), so the order and the number of invocations can be read off the log.
-/

namespace CoDES

/-! ## Operation runtime (`operation.h`) -/

/-- Number of values of `std::size_t`. -/
def SIZE_MOD : Nat := 2 ^ 64

/-- How one run of a coroutine body ends. -/
inductive BodyStep (R E : Type) where
  | suspend : BodyStep R E
  | ret (r : R) : BodyStep R E
  | raise (e : E) : BodyStep R E

/-- State of a coroutine frame: suspended inside the body, suspended at the final
suspension point (`handle.done()`), or destroyed. -/
inductive FrameState where
  | suspended : FrameState
  | finalSuspended : FrameState
  | destroyed : FrameState
  deriving DecidableEq, Repr

/-- What an API call can end with instead of returning. -/
inductive Fault where
  | outOfFuel : Fault
  | danglingHandle : Fault
  deriving DecidableEq, Repr

/-- What `result()` can throw. -/
inductive Failure (E : Type) where
  | captured (e : E) : Failure E
  | badOptionalAccess : Failure E
  deriving DecidableEq, Repr

/-- `CoroutineOperation<R>::Promise`. -/
structure Promise (R E : Type) where
  terminated : Bool := false
  reference : Nat := 0
  result : Option R := none
  exception : Option E := none
  continuations : List Nat := []

/-- A coroutine frame: its promise, its body, the number of runs of the body so far,
the frame state and the log of invoked callbacks. -/
structure Coroutine (R E : Type) where
  promise : Promise R E
  body : Nat → BodyStep R E
  pc : Nat
  frame : FrameState
  fired : List Nat

variable {R E : Type}

/-- `Promise::terminate(U &&_result)`. -/
def Promise.terminate (p : Promise R E) (v : R) : Promise R E :=
  if p.terminated then p else { p with terminated := true, result := some v }

/-- `Promise::complete()`: every continuation is invoked in order, then the list is
cleared. -/
def Coroutine.complete (c : Coroutine R E) : Coroutine R E :=
  { c with
    fired := c.fired ++ c.promise.continuations
    promise := { c.promise with continuations := [] } }

/-- `Promise::return_value(_result)`. -/
def Coroutine.return_value (c : Coroutine R E) (r : R) : Coroutine R E :=
  let p := c.promise
  let p1 : Promise R E := if !p.terminated then { p with result := some r } else p
  Coroutine.complete { c with promise := { p1 with terminated := true } }

/-- `Promise::unhandled_exception()`. -/
def Coroutine.unhandled_exception (c : Coroutine R E) (e : E) : Coroutine R E :=
  let p := c.promise
  let p1 : Promise R E := if !p.terminated then { p with exception := some e } else p
  Coroutine.complete { c with promise := { p1 with terminated := true } }

/-- `Promise::final_suspend()` returns `ConditionalAwaitable(reference <= 0)`: when
no holder is left the body does not suspend and the frame is destroyed, otherwise it
stays at the final suspension point. -/
def Coroutine.final_suspend (c : Coroutine R E) : Coroutine R E :=
  { c with frame := if c.promise.reference ≤ 0 then .destroyed else .finalSuspended }

/-- `std::coroutine_handle::resume()` on a frame suspended inside the body. -/
def Coroutine.handleResume (c : Coroutine R E) : Coroutine R E :=
  match c.body c.pc with
  | .suspend => { c with pc := c.pc + 1 }
  | .ret r => Coroutine.final_suspend (Coroutine.return_value { c with pc := c.pc + 1 } r)
  | .raise e =>
    Coroutine.final_suspend (Coroutine.unhandled_exception { c with pc := c.pc + 1 } e)

/-- `std::coroutine_handle::done()`. -/
def Coroutine.handleDone (c : Coroutine R E) : Bool :=
  c.frame == .finalSuspended

/-- `CoroutineOperation::done()`. -/
def Coroutine.done (c : Coroutine R E) : Bool :=
  c.handleDone || c.promise.terminated

/-- Entering a coroutine: the promise is created, `get_return_object` builds the first
handle (`reference` becomes 1) and, `initial_suspend` being `suspend_never`, the body
runs to its first suspension point. -/
def Coroutine.create (body : Nat → BodyStep R E) : Coroutine R E :=
  Coroutine.handleResume
    { promise := { reference := 1 }, body := body, pc := 0, frame := .suspended, fired := [] }

/-- Outcome of calling a provider: the value it returns or the exception it throws. -/
def providerStep (provider : Except E R) : BodyStep R E :=
  match provider with
  | .ok r => .ret r
  | .error e => .raise e

/-- Body of `makeCoroutineOperation<R>()` and `makeCoroutineOperation(R &&placeholder)`:
`co_await std::suspend_always{}; co_return placeholder;`. -/
def placeholderBody (placeholder : R) : Nat → BodyStep R E
  | 0 => .suspend
  | _ + 1 => .ret placeholder

/-- Body of `makeCoroutineOperation(R provider)`:
`co_await std::suspend_always{}; co_return provider();`. -/
def providerBody (provider : Except E R) : Nat → BodyStep R E
  | 0 => .suspend
  | _ + 1 => providerStep provider

/-- Body of `makeCoroutineOperation(C condition, R provider)`:
`while (!condition()) co_await std::suspend_always{}; co_return provider();`.
`condition k` is what the k-th call of the condition returns. -/
def conditionBody (condition : Nat → Bool) (provider : Except E R) : Nat → BodyStep R E :=
  fun k => if condition k then providerStep provider else .suspend

/-- `makeCoroutineOperation(R &&placeholder)`. -/
def makeCoroutineOperation (placeholder : R) : Coroutine R E :=
  Coroutine.create (placeholderBody placeholder)

/-- `makeCoroutineOperation(R provider)`. -/
def makeCoroutineOperationProvider (provider : Except E R) : Coroutine R E :=
  Coroutine.create (providerBody provider)

/-- `makeCoroutineOperation(C condition, R provider)`. -/
def makeCoroutineOperationCondition (condition : Nat → Bool) (provider : Except E R) :
    Coroutine R E :=
  Coroutine.create (conditionBody condition provider)

/-- `CoroutineOperation<R>::result()` on a non-null handle: a captured exception is
taken out of the promise and rethrown, otherwise `promise.result.value()`. -/
def Coroutine.result (c : Coroutine R E) : Except (Failure E) R × Coroutine R E :=
  match c.promise.exception with
  | some e => (.error (.captured e), { c with promise := { c.promise with exception := none } })
  | none =>
    match c.promise.result with
    | some r => (.ok r, c)
    | none => (.error .badOptionalAccess, c)

/-- `CoroutineOperation::onComplete(function)` on a non-null handle. -/
def Coroutine.onComplete (c : Coroutine R E) (cb : Nat) : Coroutine R E :=
  if c.done then { c with fired := c.fired ++ [cb] }
  else { c with promise := { c.promise with continuations := c.promise.continuations ++ [cb] } }

/-- `CoroutineOperation::resume()` on a non-null handle. -/
def Coroutine.resume (c : Coroutine R E) : Bool × Coroutine R E :=
  if c.done then (true, c)
  else (c.handleResume.done, c.handleResume)

/-- The loop `while (!handle.done()) handle.resume();` of `terminate`, run for at most
`fuel` resumptions. -/
def terminateLoop : Nat → Coroutine R E → Except Fault (Coroutine R E)
  | 0, c =>
    match c.frame with
    | .suspended => .error .outOfFuel
    | .finalSuspended => .ok c
    | .destroyed => .error .danglingHandle
  | fuel + 1, c =>
    match c.frame with
    | .suspended => terminateLoop fuel c.handleResume
    | .finalSuspended => .ok c
    | .destroyed => .error .danglingHandle

/-- `CoroutineOperation::terminate(T &&result)` on a non-null handle. -/
def Coroutine.terminate (fuel : Nat) (c : Coroutine R E) (v : R) :
    Except Fault (Coroutine R E) :=
  if c.done then .ok c
  else terminateLoop fuel { c with promise := c.promise.terminate v }

/-- A call made on an operation through one of its holders. -/
inductive OperationCall (R : Type) where
  | onComplete (cb : Nat) : OperationCall R
  | resume : OperationCall R
  | terminate (v : R) : OperationCall R

/-- One call on a non-null handle; a handle whose frame has been destroyed dangles. -/
def Coroutine.call (fuel : Nat) (c : Coroutine R E) :
    OperationCall R → Except Fault (Coroutine R E)
  | .onComplete cb => if c.frame = .destroyed then .error .danglingHandle else .ok (c.onComplete cb)
  | .resume => if c.frame = .destroyed then .error .danglingHandle else .ok c.resume.2
  | .terminate v => if c.frame = .destroyed then .error .danglingHandle else c.terminate fuel v

/-- A sequence of calls, each made after the previous one has returned. -/
def Coroutine.calls (fuel : Nat) : Coroutine R E → List (OperationCall R) →
    Except Fault (Coroutine R E)
  | c, [] => .ok c
  | c, a :: rest =>
    match c.call fuel a with
    | .ok c1 => Coroutine.calls fuel c1 rest
    | .error f => .error f

/-- The callbacks a sequence of calls registers, in the order of registration. -/
def registeredCallbacks : List (OperationCall R) → List Nat
  | [] => []
  | .onComplete cb :: rest => cb :: registeredCallbacks rest
  | .resume :: rest => registeredCallbacks rest
  | .terminate _ :: rest => registeredCallbacks rest

/-- State of an operation between two calls, `l` being the callbacks registered so far:
not done with nothing invoked and `l` waiting, or done with `l` invoked and nothing
waiting. -/
def CallbackInv (c : Coroutine R E) (l : List Nat) : Prop :=
  0 < c.promise.reference ∧
    ((c.frame = .suspended ∧ c.promise.terminated = false ∧ c.fired = [] ∧
        c.promise.continuations = l) ∨
      (c.frame = .finalSuspended ∧ c.fired = l ∧ c.promise.continuations = []))

/-- `CoroutineOperation<void>::Promise`. -/
structure VoidPromise (E : Type) where
  terminated : Bool := false
  reference : Nat := 0
  exception : Option E := none
  continuations : List Nat := []

/-- `CoroutineOperation<void>::Promise::unhandled_exception()`; the second component
lists the continuations that `complete()` invokes. -/
def VoidPromise.unhandled_exception (p : VoidPromise E) (e : E) : VoidPromise E × List Nat :=
  let p1 : VoidPromise E := if !p.terminated then { p with exception := some e } else p
  ({ p1 with terminated := true, continuations := [] }, p1.continuations)

/-- `CoroutineOperation<void>::result()` on a non-null handle: a captured exception is
rethrown from `promise.exception.value()`, the promise is not changed. -/
def VoidPromise.result (p : VoidPromise E) : Except (Failure E) Unit × VoidPromise E :=
  match p.exception with
  | some e => (.error (.captured e), p)
  | none => (.ok (), p)

/-! ## Handles and the reference count (`operation.h`) -/

/-- What the handle operations see of a coroutine frame: the promise's `reference`,
`handle.done()`, and whether the frame has been destroyed. -/
structure FrameCell where
  reference : Nat
  done : Bool
  destroyed : Bool
  deriving DecidableEq, Repr

/-- A `CoroutineOperation` variable: out of scope, or holding a null handle, or
holding a handle to the frame with the given index. -/
inductive HandleSlot where
  | dead : HandleSlot
  | null : HandleSlot
  | ref (p : Nat) : HandleSlot
  deriving DecidableEq, Repr

/-- The frames, the `CoroutineOperation` variables, and whether a destroyed frame has
been accessed. -/
structure HandleHeap where
  frames : List FrameCell
  handles : List HandleSlot
  useAfterFree : Bool
  deriving DecidableEq, Repr

/-- An operation on `CoroutineOperation` variables. -/
inductive HandleOp where
  | fromCoroutine (p : Nat) : HandleOp
  | copyConstruct (src : Nat) : HandleOp
  | moveConstruct (src : Nat) : HandleOp
  | copyAssign (dst src : Nat) : HandleOp
  | moveAssign (dst src : Nat) : HandleOp
  | destroy (i : Nat) : HandleOp
  | finish (p : Nat) : HandleOp
  deriving DecidableEq, Repr

/-- The handle held by variable `i`. -/
def HandleHeap.handle (h : HandleHeap) (i : Nat) : HandleSlot :=
  h.handles.getD i .dead

/-- Applies `f` to frame `p`; touching a destroyed frame is recorded. -/
def HandleHeap.updateFrame (h : HandleHeap) (p : Nat) (f : FrameCell → FrameCell) :
    HandleHeap :=
  match h.frames.get? p with
  | some cell =>
    { h with
      frames := h.frames.set p (f cell)
      useAfterFree := h.useAfterFree || cell.destroyed }
  | none => h

/-- `++handle.promise().reference` when the handle is not null. -/
def HandleHeap.retain (h : HandleHeap) (slot : HandleSlot) : HandleHeap :=
  match slot with
  | .ref p => h.updateFrame p (fun cell => { cell with reference := (cell.reference + 1) % SIZE_MOD })
  | _ => h

/-- `CoroutineOperation::releaseHandle()` of variable `i`: the count is decremented
(as a `std::size_t`) and the frame is destroyed when the count is zero and the body is
at its final suspension point. -/
def HandleHeap.releaseHandle (h : HandleHeap) (i : Nat) : HandleHeap :=
  match h.handle i with
  | .ref p =>
    h.updateFrame p (fun cell =>
      let reference := (cell.reference + SIZE_MOD - 1) % SIZE_MOD
      { cell with
        reference := reference
        destroyed := cell.destroyed || (decide (reference ≤ 0) && cell.done) })
  | _ => h

/-- Constructors, assignment operators and destructor of `CoroutineOperation`; a
constructed variable gets the next free index. `finish p` is the body of frame `p`
running to its end: `final_suspend` keeps the frame when a holder is left
(`handle.done()` becomes true) and lets it be destroyed otherwise. -/
def HandleHeap.apply (h : HandleHeap) : HandleOp → HandleHeap
  | .fromCoroutine p =>
    HandleHeap.retain { h with handles := h.handles ++ [.ref p] } (.ref p)
  | .copyConstruct src =>
    HandleHeap.retain { h with handles := h.handles ++ [h.handle src] } (h.handle src)
  | .moveConstruct src =>
    { h with handles := (h.handles.set src .null) ++ [h.handle src] }
  | .copyAssign dst src =>
    let h1 := h.releaseHandle dst
    let h2 := { h1 with handles := h1.handles.set dst (h1.handle src) }
    HandleHeap.retain h2 (h2.handle dst)
  | .moveAssign dst src =>
    let h1 := h.releaseHandle dst
    let moved := h1.handle src
    let h2 := { h1 with handles := h1.handles.set src .null }
    { h2 with handles := h2.handles.set dst moved }
  | .destroy i =>
    let h1 := h.releaseHandle i
    { h1 with handles := h1.handles.set i .dead }
  | .finish p =>
    h.updateFrame p (fun cell =>
      if cell.reference ≤ 0 then { cell with destroyed := true } else { cell with done := true })

/-- A sequence of handle operations. -/
def HandleHeap.applyAll (h : HandleHeap) (ops : List HandleOp) : HandleHeap :=
  ops.foldl HandleHeap.apply h

/-- Number of live variables whose handle refers to frame `p`. -/
def HandleHeap.liveHandles (h : HandleHeap) (p : Nat) : Nat :=
  h.handles.count (.ref p)

/-- One coroutine whose promise has just been created: no handle has been built yet
and the body has not finished. -/
def HandleHeap.entered : HandleHeap :=
  { frames := [{ reference := 0, done := false, destroyed := false }], handles := [],
    useAfterFree := false }

/-! ## Coroutine socket (`coroutine-socket.cpp`)

The loopback branches of `send` and `receive` (no underlying socket) are embedded in
full. A call of the socket's interface and a wake-up run by the simulator are single
steps: what the coroutine awaiting a resolved operation does next is a later step.
`onSend` and `onReceive` walk their queue from the head, the resolved head being popped
by the coroutine that awaited it. -/

/-- `ns3::Socket::SocketErrno`. -/
inductive NS3Error where
  | ERROR_NOTERROR : NS3Error
  | ERROR_ISCONN : NS3Error
  | ERROR_NOTCONN : NS3Error
  | ERROR_MSGSIZE : NS3Error
  | ERROR_AGAIN : NS3Error
  | ERROR_SHUTDOWN : NS3Error
  | ERROR_OPNOTSUPP : NS3Error
  | ERROR_AFNOSUPPORT : NS3Error
  | ERROR_INVAL : NS3Error
  | ERROR_BADF : NS3Error
  | ERROR_NOROUTETOHOST : NS3Error
  | ERROR_NODEV : NS3Error
  | ERROR_ADDRNOTAVAIL : NS3Error
  | ERROR_ADDRINUSE : NS3Error
  | SOCKET_ERRNO_LAST : NS3Error
  deriving DecidableEq, Repr

/-- A simulator event scheduled with `Simulator::ScheduleNow`. -/
inductive Wake where
  | onReceive : Wake
  | onSend : Wake
  deriving DecidableEq, Repr

/-- A pending send: the operation made by `makeCoroutineOperation(condition, provider)`
in `send`, with what its lambdas capture. `packet` holds the bytes not transferred yet,
`size` is `packet->GetSize()` at the call. `tag` labels the call. -/
structure SendOperation where
  tag : Nat
  size : Nat
  packet : List Nat
  deriving DecidableEq, Repr

/-- A pending receive: the operation made in `receive`, with the requested `size` and
the bytes gathered in `data` so far. `tag` labels the call. -/
structure ReceiveOperation where
  tag : Nat
  size : Nat
  data : List Nat
  deriving DecidableEq, Repr

/-- The resolution of an operation returned by the socket; a null packet is `none`. -/
inductive Completion where
  | accept (tag : Nat) (error : NS3Error) : Completion
  | connect (tag : Nat) (error : NS3Error) : Completion
  | send (tag : Nat) (sent : Nat) (error : NS3Error) : Completion
  | receive (tag : Nat) (size : Nat) (data : Option (List Nat)) (error : NS3Error) : Completion
  deriving DecidableEq, Repr

/-- `CoroutineSocket`. `socket` tells whether there is an underlying socket (a loopback
socket has none); packets are lists of bytes; the pending accepts and connects are
the labels of their placeholder operations. `scheduled` is the queue of events given
to `Simulator::ScheduleNow`, oldest first, and `completed` logs the resolutions in the
order they happen. -/
structure CoroutineSocket where
  socket : Bool
  blocked : Bool := false
  connected : Bool := false
  listening : Bool := false
  closed : Bool := false
  pendingAccept : List Nat := []
  pendingConnect : List Nat := []
  pendingSend : List SendOperation := []
  pendingReceive : List ReceiveOperation := []
  cache : List Nat := []
  cacheLimit : Nat := 212992
  tx_size : Nat := 0
  rx_size : Nat := 0
  scheduled : List Wake := []
  completed : List Completion := []
  deriving DecidableEq, Repr

/-- Subtraction of `std::size_t` values. -/
def sizeSub (a b : Nat) : Nat :=
  (a % SIZE_MOD + SIZE_MOD - b % SIZE_MOD) % SIZE_MOD

/-- `CoroutineSocket(size_t cacheLimit)`: the loopback socket. -/
def CoroutineSocket.loopback (cacheLimit : Nat) : CoroutineSocket :=
  { socket := false, cacheLimit := cacheLimit % SIZE_MOD }

/-- The condition lambda of the loopback branch of `send`, called on the operation
`op`: whether the operation is ready, the socket and the operation afterwards. -/
def sendCondition (s : CoroutineSocket) (op : SendOperation) :
    Bool × CoroutineSocket × SendOperation :=
  if s.closed then (true, s, op)
  else
    let available := sizeSub s.cacheLimit s.cache.length
    if s.blocked || decide (available ≤ 0) then (false, s, op)
    else
      let sent := min available op.packet.length
      (decide ((op.packet.drop sent).length ≤ 0),
        { s with
          cache := s.cache ++ op.packet.take sent
          tx_size := (s.tx_size + sent) % SIZE_MOD
          scheduled := s.scheduled ++ [Wake.onReceive] },
        { op with packet := op.packet.drop sent })

/-- The provider lambda of the loopback branch of `send`. -/
def sendProvider (op : SendOperation) : Nat × NS3Error :=
  (sizeSub op.size op.packet.length, .ERROR_NOTERROR)

/-- The condition lambda of the loopback branch of `receive`. -/
def receiveCondition (s : CoroutineSocket) (op : ReceiveOperation) :
    Bool × CoroutineSocket × ReceiveOperation :=
  if s.closed then (true, s, op)
  else if s.blocked || decide (s.cache.length ≤ 0) then (false, s, op)
  else
    let required := if op.size ≤ 0 then s.cache.length else sizeSub op.size op.data.length
    let received := min required s.cache.length
    let data := op.data ++ s.cache.take received
    (decide (op.size ≤ data.length),
      { s with
        cache := s.cache.drop received
        rx_size := (s.rx_size + received) % SIZE_MOD
        scheduled := s.scheduled ++ [Wake.onSend] },
      { op with data := data })

/-- The provider lambda of the loopback branch of `receive`. -/
def receiveProvider (op : ReceiveOperation) : Option (List Nat) × NS3Error :=
  (some op.data, .ERROR_NOTERROR)

/-- `CoroutineSocket::send(packet)` on a socket without underlying socket. The operation
is made and its condition runs at once; when it is not ready the operation is queued.
The first component is the result when the returned operation is resolved at the
call. -/
def CoroutineSocket.send (s : CoroutineSocket) (tag : Nat) (packet : List Nat) :
    Option (Nat × NS3Error) × CoroutineSocket :=
  if s.closed then
    (some (0, .ERROR_BADF), { s with completed := s.completed ++ [.send tag 0 .ERROR_BADF] })
  else
    let r := sendCondition s { tag := tag, size := packet.length, packet := packet }
    if r.1 then
      (some (sendProvider r.2.2),
        { r.2.1 with
          completed := r.2.1.completed ++
            [.send tag (sendProvider r.2.2).1 (sendProvider r.2.2).2] })
    else (none, { r.2.1 with pendingSend := r.2.1.pendingSend ++ [r.2.2] })

/-- `CoroutineSocket::receive(size)` on a socket without underlying socket; `size` is a
`std::size_t`. -/
def CoroutineSocket.receive (s : CoroutineSocket) (tag : Nat) (size : Nat) :
    Option (Option (List Nat) × NS3Error) × CoroutineSocket :=
  let size := size % SIZE_MOD
  if s.closed then
    (some (none, .ERROR_BADF),
      { s with completed := s.completed ++ [.receive tag size none .ERROR_BADF] })
  else
    let r := receiveCondition s { tag := tag, size := size, data := [] }
    if r.1 then
      (some (receiveProvider r.2.2),
        { r.2.1 with
          completed := r.2.1.completed ++
            [.receive tag size (receiveProvider r.2.2).1 (receiveProvider r.2.2).2] })
    else (none, { r.2.1 with pendingReceive := r.2.1.pendingReceive ++ [r.2.2] })

/-- The loop of `CoroutineSocket::onSend` over the pending sends `ops`: the head is
resumed; when it resolves, the `send` coroutine awaiting it pops it from the queue and
the next one is resumed; the loop stops at the first operation that is not ready. -/
def resumeSends (s : CoroutineSocket) : List SendOperation → CoroutineSocket
  | [] => { s with pendingSend := [] }
  | op :: rest =>
    let r := sendCondition s op
    if r.1 then
      resumeSends
        { r.2.1 with
          pendingSend := rest
          completed := r.2.1.completed ++
            [.send op.tag (sendProvider r.2.2).1 (sendProvider r.2.2).2] }
        rest
    else { r.2.1 with pendingSend := r.2.2 :: rest }

/-- `CoroutineSocket::onSend()`. -/
def CoroutineSocket.onSend (s : CoroutineSocket) : CoroutineSocket :=
  resumeSends s s.pendingSend

/-- The loop of `CoroutineSocket::onReceive` over the pending receives `ops`. -/
def resumeReceives (s : CoroutineSocket) : List ReceiveOperation → CoroutineSocket
  | [] => { s with pendingReceive := [] }
  | op :: rest =>
    let r := receiveCondition s op
    if r.1 then
      resumeReceives
        { r.2.1 with
          pendingReceive := rest
          completed := r.2.1.completed ++
            [.receive op.tag op.size (receiveProvider r.2.2).1 (receiveProvider r.2.2).2] }
        rest
    else { r.2.1 with pendingReceive := r.2.2 :: rest }

/-- `CoroutineSocket::onReceive()`. -/
def CoroutineSocket.onReceive (s : CoroutineSocket) : CoroutineSocket :=
  resumeReceives s s.pendingReceive

/-- `CoroutineSocket::block()`. -/
def CoroutineSocket.block (s : CoroutineSocket) : CoroutineSocket :=
  { s with blocked := true }

/-- `CoroutineSocket::unblock()`. -/
def CoroutineSocket.unblock (s : CoroutineSocket) : CoroutineSocket :=
  CoroutineSocket.onReceive (CoroutineSocket.onSend { s with blocked := false })

/-- The simulator runs the oldest scheduled event, if there is one. -/
def CoroutineSocket.wake (s : CoroutineSocket) : CoroutineSocket :=
  match s.scheduled with
  | [] => s
  | Wake.onReceive :: rest => CoroutineSocket.onReceive { s with scheduled := rest }
  | Wake.onSend :: rest => CoroutineSocket.onSend { s with scheduled := rest }

/-- What happens to a loopback socket: a call of its interface, or the simulator
running a scheduled wake-up. -/
inductive SocketCall where
  | send (tag : Nat) (packet : List Nat) : SocketCall
  | receive (tag : Nat) (size : Nat) : SocketCall
  | block : SocketCall
  | unblock : SocketCall
  | wake : SocketCall
  deriving DecidableEq, Repr

/-- One step of a loopback socket. -/
def CoroutineSocket.step (s : CoroutineSocket) : SocketCall → CoroutineSocket
  | .send tag packet => (s.send tag packet).2
  | .receive tag size => (s.receive tag size).2
  | .block => s.block
  | .unblock => s.unblock
  | .wake => s.wake

/-- A sequence of steps. -/
def CoroutineSocket.run (s : CoroutineSocket) (t : List SocketCall) : CoroutineSocket :=
  t.foldl CoroutineSocket.step s

/-- `CoroutineSocket::onClose(error)`: the socket is marked closed and every pending
operation is terminated with the error, queue by queue and from the head of each
queue. A terminated operation resolves with the value it is given (the conditions of
the pending sends and receives return true once `closed` is set), and the coroutine
awaiting it pops it from its queue. -/
def CoroutineSocket.onClose (s : CoroutineSocket) (error : NS3Error) : CoroutineSocket :=
  let error := if error = .ERROR_NOTERROR then NS3Error.ERROR_SHUTDOWN else error
  { s with
    closed := true
    pendingAccept := []
    pendingConnect := []
    pendingSend := []
    pendingReceive := []
    completed := s.completed ++ s.pendingAccept.map (fun tag => Completion.accept tag error)
      ++ s.pendingConnect.map (fun tag => Completion.connect tag error)
      ++ s.pendingSend.map (fun op => Completion.send op.tag 0 error)
      ++ s.pendingReceive.map (fun op => Completion.receive op.tag op.size none error) }

/-- What the underlying socket does when `Close()` is called on it: the value it
returns, its errno afterwards, and the error with which it invokes the close callback
before returning (`none` when it invokes no callback during the call). -/
structure UnderlyingClose where
  returned : Int
  errno : NS3Error
  notified : Option NS3Error
  deriving DecidableEq, Repr

/-- `CoroutineSocket::close()`. -/
def CoroutineSocket.close (s : CoroutineSocket) (u : UnderlyingClose) :
    NS3Error × CoroutineSocket :=
  if !(s.connected || s.listening) || !s.socket || s.closed then (.ERROR_NOTERROR, s)
  else
    let s1 :=
      match u.notified with
      | some error => s.onClose error
      | none => s
    if u.returned ≠ 0 then (u.errno, s1) else (.ERROR_NOTERROR, s1)

/-- `CoroutineSocket::isClosed()`. -/
def CoroutineSocket.isClosed (s : CoroutineSocket) : Bool :=
  s.closed

/-! ## Serialization protocol (`mpi-protocol.h`)

A fixed-size scalar is its object representation, `sizeof(T)` bytes. A reader or writer
is run until it finishes or suspends on a socket operation that is still pending; the
first component of its result is `none` in the second case, and an error stands for the
`MPISocketException` it throws. -/

/-- `sizeof(std::size_t)`. -/
def SIZEOF_SIZE_T : Nat := 8

/-- Object representation of a `std::size_t` (host byte order, least significant byte
first). -/
def encodeSizeT (n : Nat) : List Nat :=
  (List.range SIZEOF_SIZE_T).map (fun i => n / 256 ^ i % 256)

/-- The `std::size_t` with the given object representation. -/
def decodeSizeT (bytes : List Nat) : Nat :=
  bytes.foldr (fun b acc => b + 256 * acc) 0

/-- `MPIObjectWriter<T>::operator()(MPISocket &socket, const T &t)` for a scalar. -/
def writeScalar (s : CoroutineSocket) (tag : Nat) (t : List Nat) :
    Option (Except NS3Error Unit) × CoroutineSocket :=
  match s.send tag t with
  | (some (_, error), s1) =>
    if error ≠ .ERROR_NOTERROR then (some (.error error), s1) else (some (.ok ()), s1)
  | (none, s1) => (none, s1)

/-- `MPIObjectReader<T>::operator()(NS3Packet packet)` for a scalar: `type_size` bytes
are copied out of the packet and removed from it. -/
def readFromPacket (type_size : Nat) (packet : List Nat) : List Nat × List Nat :=
  (packet.take type_size, packet.drop type_size)

/-- `MPIObjectReader<T>::operator()(MPISocket &socket)` for a scalar. -/
def readScalar (s : CoroutineSocket) (tag : Nat) (type_size : Nat) :
    Option (Except NS3Error (List Nat)) × CoroutineSocket :=
  match s.receive tag type_size with
  | (some (packet, error), s1) =>
    if error ≠ .ERROR_NOTERROR then (some (.error error), s1)
    else (some (.ok (readFromPacket type_size (packet.getD [])).1), s1)
  | (none, s1) => (none, s1)

/-- `MPIObjectWriter<std::vector<T>>::operator()(socket, vector)` for a scalar `T`
(the batch branch): the element count, then one packet with all the elements. -/
def writeVector (s : CoroutineSocket) (tag : Nat) (vector : List (List Nat)) :
    Option (Except NS3Error Unit) × CoroutineSocket :=
  match writeScalar s tag (encodeSizeT vector.length) with
  | (some (.ok ()), s1) =>
    match s1.send (tag + 1) vector.flatten with
    | (some (_, error), s2) =>
      if error ≠ .ERROR_NOTERROR then (some (.error error), s2) else (some (.ok ()), s2)
    | (none, s2) => (none, s2)
  | (some (.error error), s1) => (some (.error error), s1)
  | (none, s1) => (none, s1)

/-- The loop `for (i = 0; i < count; ++i) result.push_back(reader(packet));`. -/
def readElements (type_size : Nat) : Nat → List Nat → List (List Nat)
  | 0, _ => []
  | count + 1, packet =>
    (readFromPacket type_size packet).1 ::
      readElements type_size count (readFromPacket type_size packet).2

/-- `MPIObjectReader<std::vector<T>>::operator()(socket)` for a scalar `T` (the batch
branch): the element count is read, then `reader.size() * count` bytes are asked from
the socket. -/
def readVector (s : CoroutineSocket) (tag : Nat) (type_size : Nat) :
    Option (Except NS3Error (List (List Nat))) × CoroutineSocket :=
  match readScalar s tag SIZEOF_SIZE_T with
  | (some (.ok bytes), s1) =>
    let count := decodeSizeT bytes
    let size := (type_size * count) % SIZE_MOD
    match s1.receive (tag + 1) size with
    | (some (packet, error), s2) =>
      if error ≠ .ERROR_NOTERROR then (some (.error error), s2)
      else (some (.ok (readElements type_size count (packet.getD []))), s2)
    | (none, s2) => (none, s2)
  | (some (.error error), s1) => (some (.error error), s1)
  | (none, s1) => (none, s1)

/-! ## Byte accounting on a loopback socket -/

/-- Number of bytes in the packets returned by the resolved receives of a log. -/
def returnedBytes : List Completion → Nat
  | [] => 0
  | .receive _ _ (some data) _ :: rest => data.length + returnedBytes rest
  | .receive _ _ none _ :: rest => returnedBytes rest
  | .accept _ _ :: rest => returnedBytes rest
  | .connect _ _ :: rest => returnedBytes rest
  | .send _ _ _ :: rest => returnedBytes rest

/-- Number of bytes gathered so far by pending receives. -/
def heldBytes : List ReceiveOperation → Nat
  | [] => 0
  | op :: rest => op.data.length + heldBytes rest

/-- Number of bytes pending sends have not transferred yet. -/
def remainingBytes : List SendOperation → Nat
  | [] => 0
  | op :: rest => op.packet.length + remainingBytes rest

/-- Number of bytes in the packets given to the sends of a sequence of steps. -/
def requestedBytes : List SocketCall → Nat
  | [] => 0
  | .send _ packet :: rest => packet.length + requestedBytes rest
  | .receive _ _ :: rest => requestedBytes rest
  | .block :: rest => requestedBytes rest
  | .unblock :: rest => requestedBytes rest
  | .wake :: rest => requestedBytes rest

/-- A resolved receive has no error and carries a packet which, when `size > 0` bytes
were asked, has exactly `size` bytes. -/
def ReceiveResolved : Completion → Prop
  | .receive _ size data error =>
    error = .ERROR_NOTERROR ∧ ∃ d, data = some d ∧ (0 < size → d.length = size)
  | _ => True

/-- A pending receive has gathered fewer bytes than were asked; none when it asked for
whatever is available. -/
def ReceivePending (op : ReceiveOperation) : Prop :=
  op.size < SIZE_MOD ∧ (0 < op.size → op.data.length < op.size) ∧ (op.size = 0 → op.data = [])

/-- The state of an open loopback socket, given by its parts, after sends of `N` bytes
in total: every byte is in a returned packet, held by a pending receive, in the cache,
or still to be transferred by a pending send; the counters count modulo `SIZE_MOD`. -/
structure Conserved (N : Nat) (closed : Bool) (completed : List Completion)
    (receives : List ReceiveOperation) (cache : List Nat) (sends : List SendOperation)
    (rx_size tx_size : Nat) : Prop where
  isOpen : closed = false
  bytes : N = returnedBytes completed + heldBytes receives + cache.length + remainingBytes sends
  rx : rx_size = (returnedBytes completed + heldBytes receives) % SIZE_MOD
  tx : tx_size = (returnedBytes completed + heldBytes receives + cache.length) % SIZE_MOD
  resolved : ∀ c ∈ completed, ReceiveResolved c
  pending : ∀ op ∈ receives, ReceivePending op

/-- The invariant of a loopback socket after sends of `N` bytes in total. -/
def LoopbackInv (N : Nat) (s : CoroutineSocket) : Prop :=
  Conserved N s.closed s.completed s.pendingReceive s.cache s.pendingSend s.rx_size s.tx_size

/-- The cache of the socket holds no more than `cacheLimit` bytes, a `std::size_t`. -/
def CacheBounded (s : CoroutineSocket) : Prop :=
  s.cache.length ≤ s.cacheLimit ∧ s.cacheLimit < SIZE_MOD

/-! ## Reducers and leader election (`mpi-protocol.h`, `mpi-communicator.h`)

A rank (`MPIRankIDType`) is a natural number. -/

/-- `ns3::MPIOperator`. -/
inductive MPIOperator where
  | SUM : MPIOperator
  | PRODUCT : MPIOperator
  | MAX : MPIOperator
  | MIN : MPIOperator
  | LOGICAL_AND : MPIOperator
  | BITWISE_AND : MPIOperator
  | LOGICAL_OR : MPIOperator
  | BITWISE_OR : MPIOperator
  | LOGICAL_XOR : MPIOperator
  | BITWISE_XOR : MPIOperator
  deriving DecidableEq, Repr

/-- `std::accumulate(first, last, init, op)`. -/
def accumulate {α β : Type} (op : β → α → β) (init : β) (r : List α) : β :=
  r.foldl op init

/-- The loop of `std::ranges::max_element`: `largest` is replaced by the next element
when it compares less than that element. -/
def maxElementFrom {α : Type} (less : α → α → Bool) : α → List α → α
  | largest, [] => largest
  | largest, x :: rest => maxElementFrom less (if less largest x then x else largest) rest

/-- `std::ranges::max_element(r, comparator)`; `none` is the end iterator. -/
def max_element {α : Type} (less : α → α → Bool) : List α → Option α
  | [] => none
  | x :: rest => some (maxElementFrom less x rest)

/-- The loop of `std::ranges::min_element`: `smallest` is replaced by the next element
when that element compares less than it. -/
def minElementFrom {α : Type} (less : α → α → Bool) : α → List α → α
  | smallest, [] => smallest
  | smallest, x :: rest => minElementFrom less (if less x smallest then x else smallest) rest

/-- `std::ranges::min_element(r, comparator)`; `none` is the end iterator. -/
def min_element {α : Type} (less : α → α → Bool) : List α → Option α
  | [] => none
  | x :: rest => some (minElementFrom less x rest)

/-- An integral type `T` of the program: `sizeof(T)` and `std::is_signed_v<T>`. -/
structure IntegralType where
  type_size : Nat
  is_signed : Bool
  deriving DecidableEq, Repr

/-- The number of bits of a value of `T`. -/
def IntegralType.bits (T : IntegralType) : Nat := 8 * T.type_size

/-- The object representation of an integer as a value of `T`, as the number that its
bits spell: the integer modulo `2 ^ bits` (two's complement for a negative one). -/
def IntegralType.representation (T : IntegralType) (x : Int) : Nat :=
  (x % 2 ^ T.bits).toNat

/-- The value of `T` whose bits spell `n` (taken modulo `2 ^ bits`): for a signed type
the patterns from `2 ^ (bits - 1)` on are the negative values. -/
def IntegralType.value (T : IntegralType) (n : Nat) : Int :=
  if T.is_signed = true ∧ 2 ^ T.bits ≤ 2 * (n % 2 ^ T.bits) then
    ((n % 2 ^ T.bits : Nat) : Int) - 2 ^ T.bits
  else ((n % 2 ^ T.bits : Nat) : Int)

/-- Conversion of an integer to `T`, as of the result of an arithmetic operator that is
stored in a `T`: the value of `T` congruent to it modulo `2 ^ bits`. -/
def IntegralType.convert (T : IntegralType) (x : Int) : Int := T.value (T.representation x)

/-- The values of `T`: from `0` to `2 ^ bits - 1` for an unsigned type, from
`-2 ^ (bits - 1)` to `2 ^ (bits - 1) - 1` for a signed one. -/
def IntegralType.InRange (T : IntegralType) (x : Int) : Prop :=
  if T.is_signed = true then -(2 ^ T.bits) ≤ 2 * x ∧ 2 * x < 2 ^ T.bits
  else 0 ≤ x ∧ x < 2 ^ T.bits

instance (T : IntegralType) (x : Int) : Decidable (T.InRange x) :=
  inferInstanceAs (Decidable (if T.is_signed = true then
    -(2 ^ T.bits) ≤ 2 * x ∧ 2 * x < 2 ^ T.bits else 0 ≤ x ∧ x < 2 ^ T.bits))

/-- `std::bit_and{}` on two values of `T`: the operator acts on the bits. -/
def IntegralType.bit_and (T : IntegralType) (a b : Int) : Int :=
  T.value (T.representation a &&& T.representation b)

/-- `std::bit_or{}` on two values of `T`. -/
def IntegralType.bit_or (T : IntegralType) (a b : Int) : Int :=
  T.value (T.representation a ||| T.representation b)

/-- `std::bit_xor{}` on two values of `T`. -/
def IntegralType.bit_xor (T : IntegralType) (a b : Int) : Int :=
  T.value (T.representation a ^^^ T.representation b)

/-- `MPIOperatorImplementation<O, T>::operator()(r)` for an integral type `T`, on the
values of the range in iteration order; `none` stands for the dereferenced end iterator of
`max_element` and `min_element` on an empty range. `T{0}` is `0`, `T{1}` is `1` converted
to `T`, and `~T{0}` is the value whose bits are all set. -/
def MPIOperatorImplementation (O : MPIOperator) (T : IntegralType) (r : List Int) :
    Option Int :=
  match O with
  | .SUM => some (accumulate (fun a b => T.convert (a + b)) 0 r)
  | .PRODUCT => some (accumulate (fun a b => T.convert (a * b)) (T.convert 1) r)
  | .MAX => max_element (fun a b => decide (a < b)) r
  | .MIN => min_element (fun a b => decide (a < b)) r
  | .LOGICAL_AND =>
    some (accumulate (fun a b => T.convert (if a ≠ 0 ∧ b ≠ 0 then 1 else 0))
      (T.value (2 ^ T.bits - 1)) r)
  | .BITWISE_AND => some (accumulate T.bit_and (T.value (2 ^ T.bits - 1)) r)
  | .LOGICAL_OR =>
    some (accumulate (fun a b => T.convert (if a ≠ 0 ∨ b ≠ 0 then 1 else 0)) 0 r)
  | .BITWISE_OR => some (accumulate T.bit_or 0 r)
  | .LOGICAL_XOR => some (accumulate T.bit_xor 0 r)
  | .BITWISE_XOR => some (accumulate T.bit_xor 0 r)

/-- Follows the spec: `fold(Op, {v_r})` over values of the integral type `T`, with the
identity elements the spec names (0 for SUM, OR and XOR, 1 for PRODUCT, all-ones for AND),
the greatest value for MAX and the least for MIN; a sum or product is the value of `T`
congruent to the sum or product of the integers; the logical operators are left out. -/
def foldOperator (O : MPIOperator) (T : IntegralType) (values : List Int) : Option Int :=
  match O with
  | .SUM => some (T.convert values.sum)
  | .PRODUCT => some (T.convert values.prod)
  | .MAX => values.max?
  | .MIN => values.min?
  | .BITWISE_AND => some (values.foldl T.bit_and (T.value (2 ^ T.bits - 1)))
  | .BITWISE_OR => some (values.foldl T.bit_or 0)
  | .BITWISE_XOR => some (values.foldl T.bit_xor 0)
  | _ => none

/-- A comparator that is a strict total order. -/
structure StrictTotal {α : Type} (less : α → α → Bool) : Prop where
  irrefl : ∀ a, less a a = false
  trans : ∀ a b c, less a b = true → less b c = true → less a c = true
  total : ∀ a b, a = b ∨ less a b = true ∨ less b a = true

/-- The comparator lambda of `MPICommunicator::Elect` on the entries `(rank, vote)` of
the gathered map. -/
def electLess (p1 p2 : Nat × Nat) : Bool :=
  if p1.2 = p2.2 then decide (p1.1 < p2.1) else decide (p1.2 < p2.2)

/-- The `co_return` expression of `MPICommunicator::Elect`:
`std::ranges::max_element(votes, comparator)->first` on the entries of the gathered map
in iteration order. -/
def electWinner (votes : List (Nat × Nat)) : Option Nat :=
  (max_element electLess votes).map (fun p => p.1)

/-! ## Fake payload mode (`mpi-protocol.h`) -/

/-- `Create<Packet>(size)`: a packet of `size` zero bytes. -/
def fakePacket (size : Nat) : List Nat :=
  List.replicate size 0

/-- The value `partition` of `RingAllReduce`: `std::ceil(1.0 * size / GroupSize())`, for
`size` below 2^53. -/
def ringPartition (size groupSize : Nat) : Nat := (size + groupSize - 1) / groupSize

/-- The partition size `std::min(partition, size - partition * k)` of partition `k`, a
double in the source, negative when the offset of the partition lies beyond the payload. -/
def ringPartitionSize (size groupSize k : Nat) : Int :=
  min (ringPartition size groupSize : Int)
    ((size : Int) - (ringPartition size groupSize : Int) * (k : Int))

/-- Conversion of a double with an integer value to the `std::size_t count` parameter of
the fake vector writer: defined on the values from 0 up to 2^64 - 1, undefined elsewhere. -/
def toSizeT (x : Int) : Option Nat :=
  if 0 ≤ x ∧ x < (SIZE_MOD : Int) then some x.toNat else none

/-- The partitions sent by `RingAllReduce`, in order: `send_partition_index` of every
turn of the first loop, then of every turn of the second loop. -/
def ringSendPartitions (groupSize index : Nat) : List Nat :=
  (List.range (groupSize - 1)).map (fun i => (index + i) % groupSize) ++
    (List.range (groupSize - 1)).map (fun i => (index + i + groupSize - 1) % groupSize)

/-- The bound of the specification: `bytes` is within one byte of
`2 * (groupSize - 1) * size / groupSize`, the quotient taken in the rationals. -/
def withinOneByteOfRingFormula (bytes size groupSize : Nat) : Prop :=
  |(groupSize : Int) * (bytes : Int) - 2 * ((groupSize : Int) - 1) * (size : Int)|
    ≤ (groupSize : Int)

instance (bytes size groupSize : Nat) :
    Decidable (withinOneByteOfRingFormula bytes size groupSize) := by
  unfold withinOneByteOfRingFormula
  infer_instance

/-! ## Collective operations (`mpi-communicator.h`, `mpi-communicator.cpp`)

A value is the list of the bytes that its writer hands to the socket: for a scalar type
the object representation, `sizeof(T)` bytes; for `std::vector` of a scalar type the
object representation of its size followed by those of its elements. A map from ranks to
values (`std::unordered_map<MPIRankIDType, T>`) is the list of its entries. -/

/-- The types of values carried by the collective operations: a scalar type of
`type_size` bytes, `std::vector` of a scalar type of `type_size` bytes, or in fake
payload mode (`MPIFakePacket`) `std::vector` of a scalar type of `type_size` bytes with
the `count` given to its fake writer and to its fake reader. -/
inductive MPIType where
  | scalar (type_size : Nat) : MPIType
  | vector (type_size : Nat) : MPIType
  | fakeVector (type_size count : Nat) : MPIType
  deriving DecidableEq, Repr

/-- The width of `uint32_t`, the type of the size given to `Create<Packet>(size)`. -/
def UINT32_MOD : Nat := 2 ^ 32

/-- The bytes that the fake writer of `std::vector<T>` called with `count` hands to the
socket: the count, a real `std::size_t`, then the packet
`Create<Packet>(count * sizeof(T))`, the product a `std::size_t` that is converted to the
`uint32_t` of the constructor. -/
def fakeVectorValue (type_size count : Nat) : List Nat :=
  encodeSizeT count ++ fakePacket ((count * type_size) % SIZE_MOD % UINT32_MOD)

/-- The packets in which `MPIObjectWriter<T>` hands a value to the socket, in order: one
packet for a scalar; for a vector the size, then all the elements (the batch branch); for
a fake vector the count, then the fake data packet. -/
def MPIType.packets : MPIType → List Nat → List (List Nat)
  | .scalar _, value => [value]
  | .vector _, value => [value.take SIZEOF_SIZE_T, value.drop SIZEOF_SIZE_T]
  | .fakeVector _ _, value => [value.take SIZEOF_SIZE_T, value.drop SIZEOF_SIZE_T]

/-- The value of a `std::vector` with the given elements. -/
def vectorValue (elements : List (List Nat)) : List Nat :=
  encodeSizeT elements.length ++ elements.flatten

/-- One `socket.receive(size)` on the bytes `available` to the socket, when it can
complete: it needs a byte to be there, `size` bytes for `0 < size`, and takes all there
is for `size = 0`; the bytes received and the bytes left. -/
def receiveBytes (available : List Nat) (size : Nat) : Option (List Nat × List Nat) :=
  let required := if size = 0 then available.length else size
  if available.length = 0 ∨ available.length < required then none
  else some (available.take required, available.drop required)

/-- `MPIObjectReader<T>` on the bytes `available` to the socket, when all its receives can
complete: the value read and the bytes left. The reader of a vector receives the size,
then `sizeof(T) * count` bytes (the batch branch). The fake reader of a vector receives a
`std::size_t` and drops it, then asks `count * sizeof(T)` bytes with the `count` that it
was called with (see `fakeReadVector`); the bytes it received stand for its value. -/
def MPIType.read : MPIType → List Nat → Option (List Nat × List Nat)
  | .scalar type_size, available => receiveBytes available type_size
  | .vector type_size, available =>
    match receiveBytes available SIZEOF_SIZE_T with
    | none => none
    | some (count, rest) =>
      match receiveBytes rest ((type_size * decodeSizeT count) % SIZE_MOD) with
      | none => none
      | some (elements, rest2) => some (count ++ elements, rest2)
  | .fakeVector type_size count, available =>
    match receiveBytes available SIZEOF_SIZE_T with
    | none => none
    | some (written, rest) =>
      match receiveBytes rest ((count * type_size) % SIZE_MOD) with
      | none => none
      | some (data, rest2) => some (written ++ data, rest2)

/-- The values of type `T` that are written and read here: every value of a scalar type,
every vector of scalars that is not empty, and every fake vector of at least one byte and
fewer than 2^32 bytes, written with the count that its reader is called with. -/
def MPIType.ReadsBack : MPIType → List Nat → Prop
  | .scalar type_size, value => 0 < type_size ∧ value.length = type_size
  | .vector type_size, value =>
    ∃ elements : List (List Nat), elements ≠ [] ∧ 0 < type_size ∧
      (∀ e ∈ elements, e.length = type_size) ∧ elements.length * type_size < SIZE_MOD ∧
      value = vectorValue elements
  | .fakeVector type_size count, value =>
    0 < count * type_size ∧ count * type_size < UINT32_MOD ∧
      value = fakeVectorValue type_size count

/-- Object representation of an unsigned integer of `type_size` bytes (host byte order,
least significant byte first). -/
def encodeUnsigned (type_size n : Nat) : List Nat :=
  (List.range type_size).map (fun i => n / 256 ^ i % 256)

/-- The unsigned integer with the given object representation. -/
def decodeUnsigned (bytes : List Nat) : Nat :=
  bytes.foldr (fun b acc => b + 256 * acc) 0

/-- An operation of a communicator, as the rank that called it runs it. In a `phase` the
operation has handed to its sockets the packets of `sends` (peer and bytes) and has
issued the `Recv<T>`s of `recvs` (peer and `T`), and awaits them; it goes on with `next`,
given the values received in the order of `recvs`. `done` is `co_return`; `failed` is an
operation that ended with an exception. -/
inductive Collective (α : Type) where
  | done (result : α) : Collective α
  | failed : Collective α
  | phase (sends : List (Nat × List Nat)) (recvs : List (Nat × MPIType))
      (next : List (List Nat) → Collective α) : Collective α

/-- The `Send`s issued by the operation before it awaits. -/
def Collective.sends {α : Type} : Collective α → List (Nat × List Nat)
  | .phase sends _ _ => sends
  | _ => []

/-- The `Recv`s issued by the operation before it awaits. -/
def Collective.recvs {α : Type} : Collective α → List (Nat × MPIType)
  | .phase _ recvs _ => recvs
  | _ => []

/-- The rest of the operation once the values `received` have arrived. -/
def Collective.after {α : Type} : Collective α → List (List Nat) → Collective α
  | .phase _ _ next, received => next received
  | c, _ => c

/-- `co_await` of the operation inside another coroutine, which goes on with `f`. -/
def Collective.bind {α β : Type} : Collective α → (α → Collective β) → Collective β
  | .done result, f => f result
  | .failed, _ => .failed
  | .phase sends recvs next, f => .phase sends recvs (fun received => (next received).bind f)

/-- `CoroutineOperation::then(f)`. -/
def Collective.map {α β : Type} (f : α → β) (c : Collective α) : Collective β :=
  c.bind (fun result => .done (f result))

/-- The operation `c` started before the operations that `rest` stands for, all awaited
together: the sends and receives of both are issued before any is awaited. The phases
are paired in order, which is what happens when the operations have one phase. -/
def Collective.both {α : Type} : Collective α → Collective (List α) → Collective (List α)
  | .done result, rest => rest.map (fun results => result :: results)
  | .failed, _ => .failed
  | .phase sends recvs next, rest =>
    .phase (sends ++ rest.sends) (recvs ++ rest.recvs)
      (fun received =>
        (next (received.take recvs.length)).both (rest.after (received.drop recvs.length)))

/-- A container of operations that were started one after the other and are then all
awaited. -/
def Collective.all {α : Type} : List (Collective α) → Collective (List α)
  | [] => .done []
  | c :: rest => c.both (Collective.all rest)

/-- The part of `MPICommunicator` that the collective operations use: `rankID`, the keys
of `sockets` in iteration order, and for a map with the given entries the order in which
they are iterated. -/
structure MPICommunicator where
  rankID : Nat
  sockets : List Nat
  iteration : List (Nat × List Nat) → List (Nat × List Nat)

/-- The packets that `MPICommunicator::Send(rank, data)` hands to the socket of `rank`. -/
def MPICommunicator.Send (_c : MPICommunicator) (T : MPIType) (rank : Nat)
    (data : List Nat) : List (Nat × List Nat) :=
  (T.packets data).map (fun packet => (rank, packet))

/-- `MPICommunicator::Gather(root, data)` for values of type `T`. -/
def MPICommunicator.Gather (c : MPICommunicator) (T : MPIType) (root : Nat)
    (data : List Nat) : Collective (List (Nat × List Nat)) :=
  .phase (c.Send T root data)
    (if c.rankID = root then c.sockets.map (fun rank => (rank, T)) else [])
    (fun received => .done (if c.rankID = root then c.sockets.zip received else []))

/-- `MPICommunicator::Scatter(root, data)`; `data.at(rank)` throws when `data` has no
entry for `rank`, and the operation is then taken as failed from the start. -/
def MPICommunicator.Scatter (c : MPICommunicator) (T : MPIType) (root : Nat)
    (data : List (Nat × List Nat)) : Collective (List Nat) :=
  if c.rankID = root then
    match c.sockets.mapM (fun rank => (data.lookup rank).map (fun value => c.Send T rank value))
    with
    | some sends => .phase sends.flatten [(root, T)] (fun received => .done (received.headD []))
    | none => .failed
  else .phase [] [(root, T)] (fun received => .done (received.headD []))

/-- `MPICommunicator::Broadcast(root, data)`; `data.value()` throws when the optional is
empty. -/
def MPICommunicator.Broadcast (c : MPICommunicator) (T : MPIType) (root : Nat)
    (data : Option (List Nat)) : Collective (List Nat) :=
  if c.rankID = root then
    match data with
    | some value =>
      .phase (c.sockets.flatMap (fun rank => c.Send T rank value)) [(root, T)]
        (fun received => .done (received.headD []))
    | none => if c.sockets = [] then
        .phase [] [(root, T)] (fun received => .done (received.headD []))
      else .failed
  else .phase [] [(root, T)] (fun received => .done (received.headD []))

/-- The bytes that the writer of the integral type `T` hands to the socket for the value
`x`: its object representation. -/
def IntegralType.bytes (T : IntegralType) (x : Int) : List Nat :=
  encodeUnsigned T.type_size (T.representation x)

/-- The value of the integral type `T` that its reader makes of the bytes received. -/
def IntegralType.ofBytes (T : IntegralType) (bytes : List Nat) : Int :=
  T.value (decodeUnsigned bytes)

/-- `MPICommunicator::Reduce<O>(root, data)` for an integral type `T`: the operator runs
over the values of the gathered map in iteration order. -/
def MPICommunicator.Reduce (c : MPICommunicator) (O : MPIOperator) (T : IntegralType)
    (root : Nat) (data : Int) : Collective (Option Int) :=
  (c.Gather (.scalar T.type_size) root (T.bytes data)).bind (fun result =>
    if c.rankID = root then
      match MPIOperatorImplementation O T
          ((c.iteration result).map (fun p => T.ofBytes p.2)) with
      | some value => .done (some value)
      | none => .failed
    else .done none)

/-- `MPICommunicator::Elect(votes)`; a vote is an `MPIRankIDType`, of 8 bytes. -/
def MPICommunicator.Elect (c : MPICommunicator) (votes : Nat) : Collective Nat :=
  (Collective.all
      (c.sockets.map (fun rank => c.Gather (.scalar 8) rank (encodeUnsigned 8 votes)))).bind
    (fun results =>
      match (c.sockets.zip results).lookup c.rankID with
      | some gathered =>
        match electWinner ((c.iteration gathered).map (fun p => (p.1, decodeUnsigned p.2))) with
        | some root => .done root
        | none => .failed
      | none => .failed)

/-- `MPICommunicator::AllReduce<O>(data)` for an integral type `T`; `vote` is the value
drawn from `voteGenerator`. -/
def MPICommunicator.AllReduce (c : MPICommunicator) (O : MPIOperator) (T : IntegralType)
    (vote : Nat) (data : Int) : Collective Int :=
  (c.Elect vote).bind (fun root =>
    (c.Reduce O T root data).bind (fun result =>
      (c.Broadcast (.scalar T.type_size) root (result.map T.bytes)).map T.ofBytes))

/-- `MPICommunicator::AllToAll(data)`: one `Send` and one `Recv` for every entry of
`data`, in iteration order. -/
def MPICommunicator.AllToAll (c : MPICommunicator) (T : MPIType)
    (data : List (Nat × List Nat)) : Collective (List (Nat × List Nat)) :=
  .phase (data.flatMap (fun p => c.Send T p.1 p.2)) (data.map (fun p => (p.1, T)))
    (fun received => .done ((data.map (fun p => p.1)).zip received))

/-- `MPICommunicator::Barrier()`. -/
def MPICommunicator.Barrier (c : MPICommunicator) : Collective Unit :=
  (Collective.all
      (c.sockets.map (fun rank =>
        (c.Gather (.scalar 8) rank (encodeUnsigned 8 c.rankID)).map (fun _ => ())))).map
    (fun _ => ())

/-! ### Execution of a group

The socket of rank `a` for its peer `b`, the socket of `b` for `a` and the connection
between them are one queue of bytes in each direction; for `a = b` the queue is the cache
of the loopback socket. A queue takes every byte it is given, so that a `Send` is
complete as soon as it is issued. -/

/-- The state of a rank: the number of phases it has completed, whether the `Send`s and
`Recv`s of the current phase are issued, and the rest of its operation. -/
structure RankState (α : Type) where
  phase : Nat
  started : Bool
  program : Collective α

/-- The state of the group: `channel a b` holds the bytes sent by `a` to `b` that `b`
has not received. -/
structure World (α : Type) where
  channel : Nat → Nat → List Nat
  rank : Nat → RankState α

/-- The `Send`s of rank `src`, in order. -/
def sendAll (channel : Nat → Nat → List Nat) (src : Nat) :
    List (Nat × List Nat) → Nat → Nat → List Nat
  | [] => channel
  | (dst, bytes) :: rest =>
    sendAll (fun a b => if a = src ∧ b = dst then channel a b ++ bytes else channel a b)
      src rest

/-- One `Recv<T>(src)` of rank `dst`, when it can complete: the value and the channels
afterwards. -/
def receiveOne (channel : Nat → Nat → List Nat) (src dst : Nat) (T : MPIType) :
    Option (List Nat × (Nat → Nat → List Nat)) :=
  match T.read (channel src dst) with
  | none => none
  | some (value, rest) =>
    some (value, fun a b => if a = src ∧ b = dst then rest else channel a b)

/-- The `Recv`s of rank `dst` when all of them can complete, in order: the values
received and the channels afterwards. -/
def receiveAll (channel : Nat → Nat → List Nat) (dst : Nat) :
    List (Nat × MPIType) → Option (List (List Nat) × (Nat → Nat → List Nat))
  | [] => some ([], channel)
  | (src, T) :: rest =>
    match receiveOne channel src dst T with
    | none => none
    | some (value, channel1) =>
      match receiveAll channel1 dst rest with
      | none => none
      | some (values, channel2) => some (value :: values, channel2)

/-- Rank `r` runs: it issues the `Send`s and `Recv`s of its phase when it has not yet,
and goes on to its next phase when all it awaits has arrived; otherwise nothing
changes. -/
def World.step {α : Type} (w : World α) (r : Nat) : World α :=
  match (w.rank r).program with
  | .phase sends recvs next =>
    if (w.rank r).started then
      match receiveAll w.channel r recvs with
      | none => w
      | some (received, channel) =>
        { channel := channel
          rank := Function.update w.rank r
            { phase := (w.rank r).phase + 1, started := false, program := next received } }
    else
      { channel := sendAll w.channel r sends
        rank := Function.update w.rank r { (w.rank r) with started := true } }
  | _ => w

/-- The ranks of `schedule` run one after the other. -/
def World.run {α : Type} (w : World α) (schedule : List Nat) : World α :=
  schedule.foldl World.step w

/-- Every rank `r` is about to call the operation `prog r`; nothing is in flight. -/
def World.init {α : Type} (prog : Nat → Collective α) : World α :=
  { channel := fun _ _ => []
    rank := fun r => { phase := 0, started := false, program := prog r } }

/-- The result of rank `r`, once its operation has returned. -/
def World.result {α : Type} (w : World α) (r : Nat) : Option α :=
  match (w.rank r).program with
  | .done result => some result
  | _ => none

/-- Whether rank `r` has called its operation: its first `Send`s and `Recv`s are
issued. -/
def World.entered {α : Type} (w : World α) (r : Nat) : Prop :=
  (w.rank r).started = true ∨ 0 < (w.rank r).phase

/-- The schedule in which every rank of `group` runs in turn, `rounds` times. -/
def roundRobin (group : List Nat) (rounds : Nat) : List Nat :=
  (List.replicate rounds group).flatten

/-! ### The reference execution in rounds -/

/-- The bytes that the `Send`s of `sends` address to `dst`. -/
def outBytes (sends : List (Nat × List Nat)) (dst : Nat) : List Nat :=
  ((sends.filter (fun p => p.1 = dst)).map (fun p => p.2)).flatten

/-- One round: every rank receives what the others send in their current phase. -/
def advance {α : Type} (c : Nat → Collective α) : Nat → Collective α :=
  fun b => (c b).after ((c b).recvs.map (fun p => outBytes (c p.1).sends b))

/-- The operations of the ranks after `j` rounds. -/
def lockstep {α : Type} (prog : Nat → Collective α) : Nat → Nat → Collective α
  | 0 => prog
  | j + 1 => advance (lockstep prog j)

/-- The message of `a` for `b` in round `j`. -/
def message {α : Type} (prog : Nat → Collective α) (j a b : Nat) : List Nat :=
  outBytes (lockstep prog j a).sends b

/-- In the round of the operations `c`, each rank of `group` receives from distinct
ranks of `group`, awaits from each a value of the type of what it is sent, and is sent
nothing by the other ranks of `group`. -/
def Matched {α : Type} (group : List Nat) (c : Nat → Collective α) : Prop :=
  ∀ b ∈ group,
    ((c b).recvs.map (fun p => p.1)).Nodup ∧
      (∀ p ∈ (c b).recvs, p.1 ∈ group ∧ p.2.ReadsBack (outBytes (c p.1).sends b)) ∧
      ∀ a ∈ group, outBytes (c a).sends b ≠ [] → a ∈ (c b).recvs.map (fun p => p.1)

/-- The messages of `a` for `b` of the rounds from `lo` up to `hi`, `hi` excluded. -/
def pending {α : Type} (prog : Nat → Collective α) (a b lo hi : Nat) : List Nat :=
  ((List.range (hi - lo)).map (fun i => message prog (lo + i) a b)).flatten

/-- The number of phases of which a rank has issued the `Send`s. -/
def RankState.sent {α : Type} (s : RankState α) : Nat :=
  s.phase + (if s.started then 1 else 0)

/-- The invariant of an execution of `group`: the operation of a rank that has completed
`j` phases is the one the reference execution gives it after `j` rounds, and a channel
holds the messages of the rounds that its sender has started and its receiver has not
completed. -/
def WorldInv {α : Type} (group : List Nat) (prog : Nat → Collective α) (w : World α) : Prop :=
  (∀ b ∈ group, (w.rank b).program = lockstep prog (w.rank b).phase b) ∧
    ∀ a ∈ group, ∀ b ∈ group,
      w.channel a b = pending prog a b (w.rank b).phase (w.rank a).sent ∧
        ∀ k, (w.rank a).sent ≤ k → k < (w.rank b).phase → message prog k a b = []

/-- The number of times a rank has moved on: twice the number of its completed phases,
plus one when the current phase is issued. -/
def RankState.progress {α : Type} (s : RankState α) : Nat :=
  2 * s.phase + (if s.started then 1 else 0)

/-- Rank `b` has returned or has moved on at least `n` times. -/
def World.ahead {α : Type} (w : World α) (n b : Nat) : Prop :=
  (∃ x, (w.rank b).program = .done x) ∨ n ≤ (w.rank b).progress

/-! ### The group of the unit tests (`test/unit_test.cpp`)

Three ranks 0, 1 and 2, each with a socket for every rank. -/

/-- The ranks of the unit tests. -/
def testGroup : List Nat := [0, 1, 2]

/-- The communicator of rank `r` in the unit tests, with one of the orders in which its
maps can be iterated. -/
def testCommunicator (r : Nat) : MPICommunicator :=
  { rankID := r, sockets := [2, 0, 1], iteration := List.reverse }

/-- The results of operations of one phase that were started one after the other and
awaited together, from the values `received` by all of them: the operation `i` awaits
the receives `r i` and returns `g i` of what they receive. -/
def splitReceived {ι α : Type} (r : ι → List (Nat × MPIType))
    (g : ι → List (List Nat) → α) :
    List ι → List (List Nat) → List α
  | [], _ => []
  | i :: rest, received =>
    g i (received.take (r i).length) :: splitReceived r g rest (received.drop (r i).length)


/-! ## Byte counters of a communicator (`mpi-communicator.cpp`) -/

/-- The type `int`: four bytes, signed. -/
def INT : IntegralType := { type_size := 4, is_signed := true }

/-- The type `std::size_t`: eight bytes, unsigned. -/
def SIZE_T : IntegralType := { type_size := 8, is_signed := false }

/-- One step of `std::accumulate(first, last, 0, std::plus{})` over `std::size_t` values:
the accumulator `init` has the type of the initial value `0`, which is `int`; in
`init + x` it is converted to `std::size_t`, and the sum is converted to `int` when it is
stored in the accumulator. -/
def plusIntoInt (init : Int) (x : Nat) : Int :=
  INT.convert (SIZE_T.convert (SIZE_T.convert init + SIZE_T.convert (x : Int)))

/-- `MPICommunicator::TxBytes()` of a communicator with the given `rankID` and `sockets`
(the entries of the map in iteration order): the accumulator is returned as a
`std::size_t`. -/
def TxBytes (rankID : Nat) (sockets : List (Nat × CoroutineSocket)) : Nat :=
  (SIZE_T.convert
    (accumulate plusIntoInt 0
      ((sockets.filter (fun p => decide (p.1 ≠ rankID))).map (fun p => p.2.tx_size)))).toNat

/-- `MPICommunicator::RxBytes()`. -/
def RxBytes (rankID : Nat) (sockets : List (Nat × CoroutineSocket)) : Nat :=
  (SIZE_T.convert
    (accumulate plusIntoInt 0
      ((sockets.filter (fun p => decide (p.1 ≠ rankID))).map (fun p => p.2.rx_size)))).toNat

/-- Follows the spec: the sum, as a `std::size_t`, of the counters `counter` of the
sockets whose rank differs from `rankID`. -/
def peerBytes (counter : CoroutineSocket → Nat) (rankID : Nat)
    (sockets : List (Nat × CoroutineSocket)) : Nat :=
  ((sockets.filter (fun p => decide (p.1 ≠ rankID))).map (fun p => counter p.2)).sum % SIZE_MOD

/-! ## Priority flow control (`pfc-header.cpp`, `rdma-device-driver.cpp`, `rdma-node-driver.cpp`)

A `rdma::PFCPauseTimeVector` (`std::array<uint16_t, 8>`) is the list of its eight
entries. Simulator times are numbers of ticks of the simulator's clock. -/

/-- `rdma::PFC_OP_CODE`. -/
def PFC_OP_CODE : Nat := 0x0101

/-- `rdma::PFC_PAUSE_TIME_VECTOR_LENGTH`. -/
def PFC_PAUSE_TIME_VECTOR_LENGTH : Nat := 8

/-- Conversion of an integer value to `uint16_t`. -/
def toUInt16 (n : Nat) : Nat := n % 2 ^ 16

/-- `PFCHeader`. -/
structure PFCHeader where
  m_op_code : Nat
  m_mask : Nat
  m_pause_time : List Nat
  deriving DecidableEq, Repr

/-- `PFCHeader::PFCHeader(mask, pause_time)`. -/
def PFCHeader.create (mask : Nat) (pause_time : List Nat) : PFCHeader :=
  { m_op_code := PFC_OP_CODE, m_mask := mask, m_pause_time := pause_time }

/-- `RDMADeviceDriver::send_pause(trigger, priority)`: the header of the frame handed to
the traffic control layer, `none` when the function returns early because the incoming
device (`device`) or the traffic control layer (`tc`) is not found. The local `vector` is
declared without an initializer: `indeterminate` stands for what its memory holds. The
shift `1 << priority` is an `int`, here for `priority < 31`. -/
def send_pause (device tc : Bool) (indeterminate : List Nat) (priority : Nat) :
    Option PFCHeader :=
  if !device then none
  else if !tc then none
  else
    let vector := indeterminate.set priority 0xffff
    some (PFCHeader.create (toUInt16 (1 <<< priority)) vector)

/-- `RDMADeviceDriver::send_resume(trigger, priority)`: as `send_pause`, but nothing is
stored in `vector`. -/
def send_resume (device tc : Bool) (indeterminate : List Nat) (priority : Nat) :
    Option PFCHeader :=
  if !device then none
  else if !tc then none
  else
    let vector := indeterminate
    some (PFCHeader.create (toUInt16 (1 <<< priority)) vector)

/-- `RDMANodeDriver::PauseTimer`. A pending `operation` is the simulator time at which its
timeout is scheduled. -/
structure PauseTimer where
  quanta : Nat
  last_updated_time : Nat
  pause_time : List Nat
  operation : Option Nat
  deriving DecidableEq, Repr

/-- `((Simulator::Now() - last_updated_time) / quanta).Round()` for an elapsed time that
is not negative and a positive `quanta`: the quotient rounded to the nearest integer,
halves upwards. -/
def roundedQuotient (elapsed quanta : Nat) : Nat :=
  (2 * elapsed + quanta) / (2 * quanta)

/-- `PauseTimer::Update()` at the simulator time `now`. A pending operation is terminated
with `false`, after which its timeout has no effect. `delta` and the entries are
`uint16_t`. -/
def PauseTimer.Update (timer : PauseTimer) (now : Nat) : PauseTimer :=
  let delta := toUInt16 (roundedQuotient (now - timer.last_updated_time) timer.quanta)
  { timer with
    operation := none
    pause_time := timer.pause_time.map
      (fun x => if 0 < x then toUInt16 (x + 2 ^ 16 - delta) else x) }

/-- Follows the spec: a remaining pause `x` after `Update` at `now`: decremented by
`⌊(now − last_updated)/quanta⌋`, saturated at zero. -/
def decayedPause (x now last_updated quanta : Nat) : Nat :=
  x - (now - last_updated) / quanta

/-- What the node driver holds for a device: `quanta` is
`rdma::get_data_rate(device).CalculateBitsTxTime(QUANTA_BIT_SIZE)`, `timer` is the entry
of `timers` for the device, if there is one, and `paused` tells for each class of the
priority queue of the device whether its queue disc is paused. -/
structure PFCDevice where
  quanta : Nat
  timer : Option PauseTimer
  paused : List Bool
  deriving DecidableEq, Repr

/-- `RDMANodeDriver::process_timer(device, timer)`: the queue discs of the first
`min(GetNQueueDiscClasses(), 8)` classes are paused or resumed. -/
def process_timer (paused : List Bool) (timer : PauseTimer) : List Bool :=
  (List.range paused.length).map (fun i =>
    if i < min paused.length PFC_PAUSE_TIME_VECTOR_LENGTH then
      decide (0 < timer.pause_time.getD i 0)
    else paused.getD i false)

/-- `RDMANodeDriver::register_timer(device, timer)` called at the simulator time `now`,
up to its first suspension: with no positive entry it returns; otherwise it awaits an
operation that times out after `quanta * next_update`. -/
def register_timer (timer : PauseTimer) (now : Nat) : PauseTimer :=
  match (timer.pause_time.filter (fun x => decide (0 < x))).min? with
  | none => timer
  | some next_update => { timer with operation := some (now + timer.quanta * next_update) }

/-- `RDMANodeDriver::NotifyPauseTimeUpdated(device, mask, pause_time_in_quanta)` called at
the simulator time `now`. -/
def NotifyPauseTimeUpdated (d : PFCDevice) (now : Nat) (mask : Nat)
    (pause_time_in_quanta : List Nat) : PFCDevice :=
  let timer : PauseTimer :=
    match d.timer with
    | none =>
      { quanta := d.quanta, last_updated_time := now
        pause_time := List.replicate PFC_PAUSE_TIME_VECTOR_LENGTH 0, operation := none }
    | some timer => timer.Update now
  let timer := { timer with
    pause_time := (List.range PFC_PAUSE_TIME_VECTOR_LENGTH).map (fun i =>
      if mask &&& (1 <<< i) ≠ 0 then pause_time_in_quanta.getD i 0
      else timer.pause_time.getD i 0) }
  { d with paused := process_timer d.paused timer, timer := some (register_timer timer now) }

/-- The timeout of the operation awaited by `register_timer` is due at the simulator time
`now`: when that operation is still pending, `register_timer` goes on after its
`co_await`, with `Update`, `process_timer` and `register_timer` again; a timeout of an
operation that `Update` has terminated has no effect. -/
def timeoutDue (d : PFCDevice) (now : Nat) : PFCDevice :=
  match d.timer with
  | none => d
  | some timer =>
    if timer.operation = some now then
      let timer := ({ timer with operation := none } : PauseTimer).Update now
      { d with paused := process_timer d.paused timer, timer := some (register_timer timer now) }
    else d

/-- The simulator runs the next timeout of the device, if one is pending: the time of the
timeout and the device afterwards. -/
def nextTimeout (d : PFCDevice) : Option (Nat × PFCDevice) :=
  match d.timer with
  | none => none
  | some timer =>
    match timer.operation with
    | none => none
    | some now => some (now, timeoutDue d now)

/-- With no further frames, the first `n` timeouts of the device: after each, its time and
the device. -/
def timeouts : Nat → PFCDevice → List (Nat × PFCDevice)
  | 0, _ => []
  | n + 1, d =>
    match nextTimeout d with
    | none => []
    | some (now, d1) => (now, d1) :: timeouts n d1

/-! ### Neighbours and partitions of the ring all-reduce (`mpi-communicator.h`)

`ranks` is the member `ranks` of the communicator, the keys of its sockets, and
`GroupSize()` is their number. -/

/-- The value `ranks_sorted` of `RingAllReduce`: `ranks` after `std::sort`. -/
def ranks_sorted (ranks : List Nat) : List Nat :=
  ranks.insertionSort (fun a b => a ≤ b)

/-- The value `index` of `RingAllReduce`:
`std::count_if(ranks.begin(), ranks.end(), item < rankID)`. -/
def ringIndex (ranks : List Nat) (rankID : Nat) : Nat :=
  ranks.countP (fun item => decide (item < rankID))

/-- The value `send_target` of `RingAllReduce`. -/
def ringSendTarget (ranks : List Nat) (rankID : Nat) : Nat :=
  (ranks_sorted ranks).getD ((ringIndex ranks rankID + ranks.length - 1) % ranks.length) 0

/-- The value `receive_target` of `RingAllReduce`. -/
def ringReceiveTarget (ranks : List Nat) (rankID : Nat) : Nat :=
  (ranks_sorted ranks).getD ((ringIndex ranks rankID + 1) % ranks.length) 0

/-- The partitions received by `RingAllReduce`, in order: `receive_partition_index` of
every turn of the first loop, then of every turn of the second loop. -/
def ringReceivePartitions (groupSize index : Nat) : List Nat :=
  (List.range (groupSize - 1)).map (fun i => (index + i + 1) % groupSize) ++
    (List.range (groupSize - 1)).map (fun i => (index + i) % groupSize)

/-- The element counts that `RingAllReduce` passes to its `Send` calls, in order; `none`
where the partition size has no conversion to `std::size_t`. -/
def ringSendCounts (size groupSize index : Nat) : List (Option Nat) :=
  (ringSendPartitions groupSize index).map
    (fun k => toSizeT (ringPartitionSize size groupSize k))

/-- The element counts that `RingAllReduce` passes to its `Recv` calls, in order. -/
def ringReceiveCounts (size groupSize index : Nat) : List (Option Nat) :=
  (ringReceivePartitions groupSize index).map
    (fun k => toSizeT (ringPartitionSize size groupSize k))

/-! ## Communicator registry (`mpi-application.cpp`)

The registry `communicators` (`std::unordered_map<MPICommunicatorIDType, MPICommunicator>`)
is the list of its entries; a copy of a communicator, which shares the sockets and the
random engine of the original, is the same value. A member function returns what it
returns or throws, and the application afterwards. -/

/-- `ERROR_COMMUNICATOR`. -/
def ERROR_COMMUNICATOR : Nat := 0

/-- `NULL_COMMUNICATOR`. -/
def NULL_COMMUNICATOR : Nat := 1

/-- `WORLD_COMMUNICATOR`. -/
def WORLD_COMMUNICATOR : Nat := 2

/-- `SELF_COMMUNICATOR`. -/
def SELF_COMMUNICATOR : Nat := 3

/-- `MPIApplication::Status`. -/
inductive Status where
  | INITIAL : Status
  | WORKING : Status
  | FINALIZED : Status
  deriving DecidableEq, Repr

/-- The exceptions thrown by the registry. -/
inductive StdException where
  | runtime_error : StdException
  | domain_error : StdException
  | out_of_range : StdException
  deriving DecidableEq, Repr

/-- The part of `MPIApplication` that the registry uses. -/
structure MPIApplication where
  status : Status
  rankID : Nat
  communicators : List (Nat × MPICommunicator)

/-- `MPICommunicator()`, the value-initialized communicator. -/
def MPICommunicator.null : MPICommunicator :=
  { rankID := 0, sockets := [], iteration := fun entries => entries }

/-- The call `communicators.emplace(id, communicator)`: the map afterwards and whether the
entry was inserted, which it is unless the map has an entry for `id`. -/
def emplace (communicators : List (Nat × MPICommunicator)) (id : Nat)
    (communicator : MPICommunicator) : List (Nat × MPICommunicator) × Bool :=
  if (communicators.lookup id).isSome then (communicators, false)
  else (communicators ++ [(id, communicator)], true)

/-- `MPIApplication::Initialized()`. -/
def MPIApplication.Initialized (app : MPIApplication) : Bool :=
  decide (app.status = .WORKING)

/-- `communicators.contains(id)`. -/
def MPIApplication.contains (app : MPIApplication) (id : Nat) : Bool :=
  (app.communicators.lookup id).isSome

/-- `MPIApplication::Initialize`, once `connect` has returned: `world` and `self` are the
communicators constructed from `worldSockets` and `selfSockets`. -/
def MPIApplication.Initialize (app : MPIApplication) (world self : MPICommunicator) :
    Except StdException Unit × MPIApplication :=
  if app.status ≠ .INITIAL then (.error .runtime_error, app)
  else
    let c1 := (emplace app.communicators NULL_COMMUNICATOR MPICommunicator.null).1
    let c2 := (emplace c1 WORLD_COMMUNICATOR world).1
    let c3 := (emplace c2 SELF_COMMUNICATOR self).1
    (.ok (), { app with communicators := c3, status := .WORKING })

/-- `MPIApplication::duplicate_communicator(oldID, newID)`: the communicator it returns a
reference to, or the exception it throws. -/
def MPIApplication.duplicate_communicator (app : MPIApplication) (oldID newID : Nat) :
    Except StdException MPICommunicator × MPIApplication :=
  if !app.Initialized then (.error .domain_error, app)
  else if !app.contains oldID then (.error .domain_error, app)
  else if app.contains newID then (.error .domain_error, app)
  else
    match app.communicators.lookup oldID with
    | none => (.error .out_of_range, app)
    | some communicator =>
      let r := emplace app.communicators newID communicator
      if !r.2 then (.error .domain_error, { app with communicators := r.1 })
      else (.ok communicator, { app with communicators := r.1 })

/-- The application of rank 0 in the unit tests, after `Initialize`. -/
def testApplication : MPIApplication :=
  ((MPIApplication.mk .INITIAL 0 []).Initialize (testCommunicator 0)
    { rankID := 0, sockets := [0], iteration := fun entries => entries }).2

/-! ## Connections of a coroutine socket (`coroutine-socket.cpp`) -/

/-- What the underlying socket answers to `Listen()` or to `Connect(address)`: the value
it returns and its errno afterwards. -/
structure UnderlyingAnswer where
  returned : Int
  errno : NS3Error
  deriving DecidableEq, Repr

/-- A newly constructed socket, with an underlying socket (`socket = true`) or without
(the loopback socket). -/
def CoroutineSocket.fresh (socket : Bool) (cacheLimit : Nat) : CoroutineSocket :=
  { socket := socket, cacheLimit := cacheLimit % SIZE_MOD }

/-- `CoroutineSocket::accept()`, up to its first suspension; `listen` is what
`socket->Listen()` answers if it is called. The first component is the error of the
result when the returned operation is resolved at the call. -/
def CoroutineSocket.accept (s : CoroutineSocket) (tag : Nat) (listen : UnderlyingAnswer) :
    Option NS3Error × CoroutineSocket :=
  if s.connected || s.closed || !s.socket then
    (some .ERROR_BADF, { s with completed := s.completed ++ [.accept tag .ERROR_BADF] })
  else if !s.listening && decide (listen.returned ≠ 0) then
    (some listen.errno, { s with completed := s.completed ++ [.accept tag listen.errno] })
  else (none, { s with pendingAccept := s.pendingAccept ++ [tag], listening := true })

/-- `CoroutineSocket::connect(address)`, up to its first suspension; `answer` is what
`socket->Connect(address)` answers if it is called. -/
def CoroutineSocket.connect (s : CoroutineSocket) (tag : Nat) (answer : UnderlyingAnswer) :
    Option NS3Error × CoroutineSocket :=
  if s.listening || s.closed || !s.socket then
    (some .ERROR_BADF, { s with completed := s.completed ++ [.connect tag .ERROR_BADF] })
  else if decide (answer.returned ≠ 0) then
    (some answer.errno, { s with completed := s.completed ++ [.connect tag answer.errno] })
  else (none, { s with pendingConnect := s.pendingConnect ++ [tag], connected := true })

/-- `CoroutineSocket::onAccept(s, remoteAddress)`, with the errno of the underlying
socket: the oldest pending accept is resolved, and the `accept` coroutine awaiting it
pops it from the queue; with no pending accept the function throws and nothing
changes. -/
def CoroutineSocket.onAccept (s : CoroutineSocket) (errno : NS3Error) : CoroutineSocket :=
  match s.pendingAccept with
  | [] => s
  | tag :: rest =>
    { s with pendingAccept := rest, completed := s.completed ++ [.accept tag errno] }

/-- `CoroutineSocket::onConnect(error)`. -/
def CoroutineSocket.onConnect (s : CoroutineSocket) (error : NS3Error) : CoroutineSocket :=
  match s.pendingConnect with
  | [] => s
  | tag :: rest =>
    { s with pendingConnect := rest, completed := s.completed ++ [.connect tag error] }

/-- What happens to a socket. On a socket without underlying socket, `call` is a step of
the loopback socket. On a socket with an underlying socket, what `send`, `receive`,
`block`, `unblock` and the callbacks `onSend` and `onReceive` do depends on the answers of
the underlying socket; they assign `blocked`, `tx_size`, `rx_size` and the queues of
pending sends and receives, and resolve operations of these queues: `transfer after`
stands for any of them, and gives these fields the values they have in `after`. -/
inductive SocketEvent where
  | call (c : SocketCall) : SocketEvent
  | transfer (after : CoroutineSocket) : SocketEvent
  | accept (tag : Nat) (listen : UnderlyingAnswer) : SocketEvent
  | connect (tag : Nat) (answer : UnderlyingAnswer) : SocketEvent
  | close (u : UnderlyingClose) : SocketEvent
  | onAccept (errno : NS3Error) : SocketEvent
  | onConnect (error : NS3Error) : SocketEvent
  | onClose (error : NS3Error) : SocketEvent
  deriving DecidableEq, Repr

/-- The socket after an event. -/
def CoroutineSocket.handle (s : CoroutineSocket) : SocketEvent → CoroutineSocket
  | .call c => if s.socket then s else s.step c
  | .transfer after =>
    if s.socket then
      { s with
        blocked := after.blocked
        pendingSend := after.pendingSend
        pendingReceive := after.pendingReceive
        tx_size := after.tx_size
        rx_size := after.rx_size
        completed := after.completed }
    else s
  | .accept tag listen => (s.accept tag listen).2
  | .connect tag answer => (s.connect tag answer).2
  | .close u => (s.close u).2
  | .onAccept errno => if s.socket then s.onAccept errno else s
  | .onConnect error => if s.socket then s.onConnect error else s
  | .onClose error => if s.socket then s.onClose error else s

/-- The socket after a sequence of events. -/
def CoroutineSocket.handleAll (s : CoroutineSocket) (events : List SocketEvent) :
    CoroutineSocket :=
  events.foldl CoroutineSocket.handle s

/-- Follows the spec: the fold of LOGICAL_XOR over values, each taken as a truth value
(non-zero is true): 1 when an odd number of the values are non-zero, 0 otherwise. -/
def logicalXorFold (values : List Int) : Int :=
  if (values.filter (fun x => decide (x ≠ 0))).length % 2 = 1 then 1 else 0

/-! ### Ring all-reduce as an operation of a group -/

/-- The member `ranks` of `MPICommunicator`: the keys of `sockets`, sorted by the
constructor. -/
def MPICommunicator.ranks (c : MPICommunicator) : List Nat :=
  ranks_sorted c.sockets

/-- The packets that `MPICommunicator::Send<std::vector<T>>(FakePacket, rank, count)` hands
to the socket of `rank`, `T` a scalar type of `type_size` bytes: the count, a real
`std::size_t`, then `Create<Packet>(count * sizeof(T))`, the product a `std::size_t` that
is converted to the `uint32_t` of the constructor. -/
def MPICommunicator.SendFake (_c : MPICommunicator) (type_size rank count : Nat) :
    List (Nat × List Nat) :=
  [(rank, encodeSizeT count),
    (rank, fakePacket ((count * type_size) % SIZE_MOD % UINT32_MOD))]

/-- One turn of a loop of `RingAllReduce` with the partitions `send_partition_index` and
`receive_partition_index` of the turn, followed by `rest`: the `Send` and the `Recv` are
issued, then both are awaited. The partition sizes are doubles that are converted to the
`std::size_t count` of the fake writer and of the fake reader; where a size has no
conversion the behaviour is undefined, and the operation is taken as failed. -/
def MPICommunicator.ringTurn (c : MPICommunicator) (type_size size : Nat)
    (partitions : Nat × Nat) (rest : Collective Unit) : Collective Unit :=
  match toSizeT (ringPartitionSize size c.sockets.length partitions.1),
    toSizeT (ringPartitionSize size c.sockets.length partitions.2) with
  | some send_count, some receive_count =>
    .phase (c.SendFake type_size (ringSendTarget c.ranks c.rankID) send_count)
      [(ringReceiveTarget c.ranks c.rankID, .fakeVector type_size receive_count)]
      (fun _ => rest)
  | _, _ => .failed

/-- `MPICommunicator::RingAllReduce<T>(FakePacket, size)` for a scalar type `T` of
`type_size` bytes: the turns of the first loop, then the turns of the second loop. -/
def MPICommunicator.RingAllReduce (c : MPICommunicator) (type_size size : Nat) :
    Collective Unit :=
  ((ringSendPartitions c.sockets.length (ringIndex c.ranks c.rankID)).zip
      (ringReceivePartitions c.sockets.length (ringIndex c.ranks c.rankID))).foldr
    (c.ringTurn type_size size) (.done ())

/-- The number of bytes in the packets of `sends`. -/
def sendBytes (sends : List (Nat × List Nat)) : Nat :=
  (sends.map (fun p => p.2.length)).sum

/-- The number of bytes that rank `r` hands to its sockets when it runs in the state `w`:
the bytes of the `Send`s of its phase when it issues them (see `World.step`). -/
def World.handedBy {α : Type} (w : World α) (r : Nat) : Nat :=
  match (w.rank r).program with
  | .phase sends _ _ => if (w.rank r).started then 0 else sendBytes sends
  | _ => 0

/-- The total number of bytes that rank `a` hands to its sockets while the ranks of
`schedule` run one after the other from the state `w`. -/
def World.handed {α : Type} (w : World α) (a : Nat) : List Nat → Nat
  | [] => 0
  | r :: rest => (if r = a then w.handedBy r else 0) + (w.step r).handed a rest

/-- The number of bytes in the `Send`s that the reference execution gives rank `a` in its
first `n` rounds. -/
def roundsBytes {α : Type} (prog : Nat → Collective α) (a n : Nat) : Nat :=
  ((List.range n).map (fun j => sendBytes (lockstep prog j a).sends)).sum

/-- The operation that issues and awaits the `Send`s and `Recv`s of `steps`, one step
after the other, whatever it receives. -/
def Collective.ofSteps (steps : List (List (Nat × List Nat) × List (Nat × MPIType))) :
    Collective Unit :=
  steps.foldr (fun s rest => .phase s.1 s.2 (fun _ => rest)) (.done ())

/-- The element count of partition `k` where its size converts to `std::size_t`. -/
def ringCount (size groupSize k : Nat) : Nat :=
  (ringPartitionSize size groupSize k).toNat

/-- The steps of `RingAllReduce` where every partition size converts to `std::size_t`:
the `Send` and the `Recv` of every turn of the first loop, then of the second loop. -/
def MPICommunicator.ringSteps (c : MPICommunicator) (type_size size : Nat) :
    List (List (Nat × List Nat) × List (Nat × MPIType)) :=
  ((ringSendPartitions c.sockets.length (ringIndex c.ranks c.rankID)).zip
      (ringReceivePartitions c.sockets.length (ringIndex c.ranks c.rankID))).map
    (fun p =>
      (c.SendFake type_size (ringSendTarget c.ranks c.rankID)
          (ringCount size c.sockets.length p.1),
        [(ringReceiveTarget c.ranks c.rankID,
          .fakeVector type_size (ringCount size c.sockets.length p.2))]))

/-! ## Properties of the operation runtime -/

theorem terminateLoop_of_final (fuel : Nat) (c : Coroutine R E)
    (h : c.frame = .finalSuspended) : terminateLoop fuel c = .ok c := by
  cases fuel <;> simp [terminateLoop, h]

theorem terminateLoop_of_suspended (fuel : Nat) (c : Coroutine R E)
    (h : c.frame = .suspended) :
    terminateLoop (fuel + 1) c = terminateLoop fuel c.handleResume := by
  simp [terminateLoop, h]

/-- C1: a pending placeholder operation that is terminated with `v` and then with `w`
is done and its result is `v`: the first terminate returns after one resumption of the
body, the body's own `co_return` of the placeholder and the second terminate leave the
result alone. -/
theorem terminate_twice_keeps_first_result (c : Coroutine R E) (placeholder v w : R)
    (fuel1 fuel2 : Nat)
    (hbody : c.body = placeholderBody placeholder) (hpc : c.pc = 1)
    (hframe : c.frame = .suspended) (hterm : c.promise.terminated = false)
    (hexc : c.promise.exception = none) (href : 0 < c.promise.reference) :
    ∃ c1 c2, c.terminate (fuel1 + 1) v = .ok c1 ∧ c1.terminate fuel2 w = .ok c2 ∧
      c2.done = true ∧ c2.result.1 = .ok v := by
  have hne : ¬ c.promise.reference = 0 := Nat.pos_iff_ne_zero.mp href
  have hdone : c.done = false := by
    simp [Coroutine.done, Coroutine.handleDone, hframe, hterm]
  have hres : (Coroutine.handleResume { c with promise := c.promise.terminate v }).frame
      = .finalSuspended := by
    simp [Coroutine.handleResume, hbody, hpc, placeholderBody, Coroutine.final_suspend,
      Coroutine.return_value, Coroutine.complete, Promise.terminate, hterm, hne]
  refine ⟨Coroutine.handleResume { c with promise := c.promise.terminate v },
    Coroutine.handleResume { c with promise := c.promise.terminate v }, ?_, ?_, ?_, ?_⟩
  · rw [Coroutine.terminate, if_neg (by simp [hdone]),
      terminateLoop_of_suspended _ _ (by exact hframe)]
    exact terminateLoop_of_final _ _ hres
  · simp [Coroutine.terminate, Coroutine.done, Coroutine.handleDone, hres]
  · simp [Coroutine.done, Coroutine.handleDone, hres]
  · simp [Coroutine.result, Coroutine.handleResume, hbody, hpc,
      placeholderBody, Coroutine.final_suspend, Coroutine.return_value, Coroutine.complete,
      Promise.terminate, hterm, hexc]

/-- Witness for C1: the placeholder operation `makeCoroutineOperation(0)`, terminated
with 5 and then with 9, is done with result 5. -/
theorem terminate_twice_keeps_first_result_witness :
    ∃ c1 c2, (makeCoroutineOperation 0 : Coroutine Nat Unit).terminate (0 + 1) 5 = .ok c1 ∧
      c1.terminate 0 9 = .ok c2 ∧ c2.done = true ∧ c2.result.1 = .ok 5 :=
  terminate_twice_keeps_first_result (makeCoroutineOperation 0) 0 5 9 0 0 rfl rfl rfl rfl rfl
    (by decide)

theorem handleResume_callbacks (c : Coroutine R E) (l : List Nat)
    (href : 0 < c.promise.reference) (hframe : c.frame = .suspended) (hfired : c.fired = [])
    (hcont : c.promise.continuations = l) :
    (c.handleResume.frame = .suspended ∧ c.handleResume.fired = [] ∧
        c.handleResume.promise.continuations = l ∧
        c.handleResume.promise.terminated = c.promise.terminated ∧
        0 < c.handleResume.promise.reference) ∨
      (c.handleResume.frame = .finalSuspended ∧ c.handleResume.fired = l ∧
        c.handleResume.promise.continuations = [] ∧ 0 < c.handleResume.promise.reference) := by
  have hne : ¬ c.promise.reference = 0 := Nat.pos_iff_ne_zero.mp href
  unfold Coroutine.handleResume
  cases hb : c.body c.pc with
  | suspend => left; simp [hframe, hfired, hcont, href]
  | ret r =>
    right
    cases ht : c.promise.terminated <;>
      simp [Coroutine.final_suspend, Coroutine.return_value, Coroutine.complete, ht, hne,
        hfired, hcont, href]
  | raise e =>
    right
    cases ht : c.promise.terminated <;>
      simp [Coroutine.final_suspend, Coroutine.unhandled_exception, Coroutine.complete, ht,
        hne, hfired, hcont, href]

theorem terminateLoop_callbacks (fuel : Nat) (l : List Nat) :
    ∀ (c c1 : Coroutine R E), 0 < c.promise.reference → c.frame = .suspended →
      c.fired = [] → c.promise.continuations = l → terminateLoop fuel c = .ok c1 →
      c1.frame = .finalSuspended ∧ c1.fired = l ∧ c1.promise.continuations = [] ∧
        0 < c1.promise.reference := by
  induction fuel with
  | zero =>
    intro c c1 _ hframe _ _ h
    simp [terminateLoop, hframe] at h
  | succ n ih =>
    intro c c1 href hframe hfired hcont h
    rw [terminateLoop_of_suspended _ _ hframe] at h
    rcases handleResume_callbacks c l href hframe hfired hcont with h1 | h1
    · exact ih _ _ h1.2.2.2.2 h1.1 h1.2.1 h1.2.2.1 h
    · rw [terminateLoop_of_final _ _ h1.1] at h
      cases h
      exact h1

theorem call_callbacks (fuel : Nat) (c c1 : Coroutine R E) (l : List Nat)
    (a : OperationCall R) (hinv : CallbackInv c l) (h : c.call fuel a = .ok c1) :
    CallbackInv c1 (l ++ registeredCallbacks [a]) := by
  obtain ⟨href, hst⟩ := hinv
  have hnd : c.frame ≠ .destroyed := by
    rcases hst with h1 | h1 <;> simp [h1.1]
  cases a with
  | onComplete cb =>
    simp only [Coroutine.call, if_neg hnd, Except.ok.injEq] at h
    subst h
    rcases hst with h1 | h1
    · refine ⟨?_, Or.inl ?_⟩ <;>
        simp [Coroutine.onComplete, Coroutine.done, Coroutine.handleDone, h1, href,
          registeredCallbacks]
    · refine ⟨?_, Or.inr ?_⟩ <;>
        simp [Coroutine.onComplete, Coroutine.done, Coroutine.handleDone, h1, href,
          registeredCallbacks]
  | resume =>
    simp only [Coroutine.call, if_neg hnd, Except.ok.injEq] at h
    subst h
    simp only [registeredCallbacks, List.append_nil]
    rcases hst with h1 | h1
    · have hd : c.done = false := by simp [Coroutine.done, Coroutine.handleDone, h1]
      simp only [Coroutine.resume, hd, Bool.false_eq_true, if_false]
      rcases handleResume_callbacks c l href h1.1 h1.2.2.1 h1.2.2.2 with h2 | h2
      · exact ⟨h2.2.2.2.2, Or.inl ⟨h2.1, by rw [h2.2.2.2.1]; exact h1.2.1, h2.2.1, h2.2.2.1⟩⟩
      · exact ⟨h2.2.2.2, Or.inr ⟨h2.1, h2.2.1, h2.2.2.1⟩⟩
    · have hd : c.done = true := by simp [Coroutine.done, Coroutine.handleDone, h1]
      simp only [Coroutine.resume, hd, if_true]
      exact ⟨href, Or.inr h1⟩
  | terminate v =>
    simp only [Coroutine.call, if_neg hnd] at h
    simp only [registeredCallbacks, List.append_nil]
    rcases hst with h1 | h1
    · have hd : c.done = false := by simp [Coroutine.done, Coroutine.handleDone, h1]
      rw [Coroutine.terminate, if_neg (by simp [hd])] at h
      have h2 := terminateLoop_callbacks fuel l _ c1 (by simpa [Promise.terminate, h1] using href)
        (by exact h1.1) (by exact h1.2.2.1) (by simp [Promise.terminate, h1]) h
      exact ⟨h2.2.2.2, Or.inr ⟨h2.1, h2.2.1, h2.2.2.1⟩⟩
    · have hd : c.done = true := by simp [Coroutine.done, Coroutine.handleDone, h1]
      rw [Coroutine.terminate, if_pos hd] at h
      cases h
      exact ⟨href, Or.inr h1⟩

theorem registeredCallbacks_cons (a : OperationCall R) (t : List (OperationCall R)) :
    registeredCallbacks (a :: t) = registeredCallbacks [a] ++ registeredCallbacks t := by
  cases a <;> simp [registeredCallbacks]

theorem calls_callbacks (fuel : Nat) (t : List (OperationCall R)) :
    ∀ (c c1 : Coroutine R E) (l : List Nat), CallbackInv c l →
      Coroutine.calls fuel c t = .ok c1 → CallbackInv c1 (l ++ registeredCallbacks t) := by
  induction t with
  | nil =>
    intro c c1 l hinv h
    simp only [Coroutine.calls, Except.ok.injEq] at h
    subst h
    simpa [registeredCallbacks] using hinv
  | cons a t ih =>
    intro c c1 l hinv h
    rw [Coroutine.calls] at h
    cases hc : c.call fuel a with
    | error f => simp [hc] at h
    | ok c2 =>
      simp only [hc] at h
      have := ih c2 c1 _ (call_callbacks fuel c c2 l a hinv hc) h
      rw [registeredCallbacks_cons, ← List.append_assoc]
      exact this

theorem handleResume_live (c : Coroutine R E) (K : Nat)
    (hend : c.body K ≠ .suspend) (hpc : c.pc ≤ K) :
    c.handleResume.body = c.body ∧ c.handleResume.pc = c.pc + 1 ∧
      c.handleResume.promise.reference = c.promise.reference ∧
      (c.handleResume.frame = .suspended → c.pc < K) := by
  unfold Coroutine.handleResume
  cases hb : c.body c.pc with
  | suspend =>
    refine ⟨rfl, rfl, rfl, fun _ => ?_⟩
    rcases Nat.lt_or_eq_of_le hpc with h | h
    · exact h
    · rw [h] at hb
      exact absurd hb hend
  | ret r =>
    cases ht : c.promise.terminated <;>
      by_cases h0 : c.promise.reference = 0 <;>
      simp [Coroutine.final_suspend, Coroutine.return_value, Coroutine.complete, ht, h0]
  | raise e =>
    cases ht : c.promise.terminated <;>
      by_cases h0 : c.promise.reference = 0 <;>
      simp [Coroutine.final_suspend, Coroutine.unhandled_exception, Coroutine.complete, ht, h0]

theorem handleResume_not_destroyed (c : Coroutine R E)
    (href : 0 < c.promise.reference) (hframe : c.frame = .suspended) :
    c.handleResume.frame ≠ .destroyed := by
  have hne : ¬ c.promise.reference = 0 := Nat.pos_iff_ne_zero.mp href
  unfold Coroutine.handleResume
  cases hb : c.body c.pc with
  | suspend => simp [hframe]
  | ret r =>
    cases ht : c.promise.terminated <;>
      simp [Coroutine.final_suspend, Coroutine.return_value, Coroutine.complete, ht, hne]
  | raise e =>
    cases ht : c.promise.terminated <;>
      simp [Coroutine.final_suspend, Coroutine.unhandled_exception, Coroutine.complete, ht, hne]

theorem terminateLoop_returns (K : Nat) (fuel : Nat) :
    ∀ (c : Coroutine R E), 0 < c.promise.reference → c.frame = .suspended → c.pc ≤ K →
      c.body K ≠ .suspend → K < c.pc + fuel →
      ∃ c1, terminateLoop fuel c = .ok c1 ∧ c1.body = c.body ∧ c.pc ≤ c1.pc := by
  induction fuel with
  | zero =>
    intro c _ _ hpc _ hfuel
    omega
  | succ n ih =>
    intro c href hframe hpc hend hfuel
    rw [terminateLoop_of_suspended _ _ hframe]
    obtain ⟨hbody, hpc1, hrefeq, hsusp⟩ := handleResume_live c K hend hpc
    cases hf : c.handleResume.frame with
    | suspended =>
      have hlt := hsusp hf
      obtain ⟨c1, h1, h2, h3⟩ := ih c.handleResume (by rw [hrefeq]; exact href) hf
        (by omega) (by rw [hbody]; exact hend) (by omega)
      exact ⟨c1, h1, by rw [h2, hbody], by omega⟩
    | finalSuspended =>
      exact ⟨c.handleResume, terminateLoop_of_final _ _ hf, hbody, by omega⟩
    | destroyed =>
      exact absurd hf (handleResume_not_destroyed c href hframe)

theorem call_returns (fuel K : Nat) (c : Coroutine R E) (l : List Nat) (a : OperationCall R)
    (hinv : CallbackInv c l) (hend : c.body K ≠ .suspend)
    (hpc : c.frame = .suspended → c.pc ≤ K) (hfuel : K < c.pc + fuel) :
    ∃ c1, c.call fuel a = .ok c1 ∧ c1.body K ≠ .suspend ∧
      (c1.frame = .suspended → c1.pc ≤ K) ∧ K < c1.pc + fuel := by
  obtain ⟨href, hst⟩ := hinv
  have hnd : c.frame ≠ .destroyed := by
    rcases hst with h1 | h1 <;> simp [h1.1]
  cases a with
  | onComplete cb =>
    refine ⟨c.onComplete cb, by simp [Coroutine.call, hnd], ?_, ?_, ?_⟩ <;>
      unfold Coroutine.onComplete <;> split_ifs <;> assumption
  | resume =>
    refine ⟨c.resume.2, by simp [Coroutine.call, hnd], ?_⟩
    unfold Coroutine.resume
    split_ifs with hd
    · exact ⟨hend, hpc, hfuel⟩
    · have hframe : c.frame = .suspended := by
        rcases hst with h1 | h1
        · exact h1.1
        · simp [Coroutine.done, Coroutine.handleDone, h1.1] at hd
      obtain ⟨hbody, hpc1, _, hsusp⟩ := handleResume_live c K hend (hpc hframe)
      dsimp only
      refine ⟨by rw [hbody]; exact hend, fun hf => ?_, by omega⟩
      have := hsusp hf
      omega
  | terminate v =>
    simp only [Coroutine.call, if_neg hnd]
    unfold Coroutine.terminate
    split_ifs with hd
    · exact ⟨c, rfl, hend, hpc, hfuel⟩
    · have hframe : c.frame = .suspended := by
        rcases hst with h1 | h1
        · exact h1.1
        · simp [Coroutine.done, Coroutine.handleDone, h1.1] at hd
      have hterm : c.promise.terminated = false := by
        rcases hst with h1 | h1
        · exact h1.2.1
        · simp [Coroutine.done, Coroutine.handleDone, h1.1] at hd
      obtain ⟨c1, h1, h2, h3⟩ := terminateLoop_returns K fuel
        { c with promise := c.promise.terminate v }
        (by simpa [Promise.terminate, hterm] using href) hframe (hpc hframe) hend hfuel
      have h4 := terminateLoop_callbacks fuel c.promise.continuations
        { c with promise := c.promise.terminate v } c1
        (by simpa [Promise.terminate, hterm] using href) hframe
        (by rcases hst with h5 | h5
            · exact h5.2.2.1
            · rw [h5.1] at hframe; cases hframe)
        (by simp [Promise.terminate, hterm]) h1
      refine ⟨c1, h1, by rw [h2]; exact hend, fun hf => ?_, ?_⟩
      · rw [h4.1] at hf; cases hf
      · have : c.pc ≤ c1.pc := h3
        omega

theorem calls_return (fuel K : Nat) (t : List (OperationCall R)) :
    ∀ (c : Coroutine R E) (l : List Nat), CallbackInv c l → c.body K ≠ .suspend →
      (c.frame = .suspended → c.pc ≤ K) → K < c.pc + fuel →
      ∃ c1, Coroutine.calls fuel c t = .ok c1 := by
  induction t with
  | nil =>
    intro c l _ _ _ _
    exact ⟨c, rfl⟩
  | cons a t ih =>
    intro c l hinv hend hpc hfuel
    obtain ⟨c2, h1, h2, h3, h4⟩ := call_returns fuel K c l a hinv hend hpc hfuel
    obtain ⟨c1, h5⟩ := ih c2 _ (call_callbacks fuel c c2 l a hinv h1) h2 h3 h4
    exact ⟨c1, by rw [Coroutine.calls, h1]; exact h5⟩

/-- C2: on an operation that is not done and has no callback registered yet, after any
sequence of onComplete, resume and terminate calls that have returned: as long as the
operation is not done no callback has been invoked and all registered ones are waiting;
once it is done (the body returned, the body failed, or terminate drove it to its end)
the invoked callbacks are exactly the registered ones, each once, in the order of
registration, and none is waiting to be invoked again. Every such sequence of calls
returns when the body ends one of its next `fuel` runs. -/
theorem callbacks_fire_once_in_registration_order (fuel : Nat) (c : Coroutine R E)
    (t : List (OperationCall R))
    (href : 0 < c.promise.reference) (hframe : c.frame = .suspended)
    (hterm : c.promise.terminated = false) (hfired : c.fired = [])
    (hcont : c.promise.continuations = []) :
    (∀ c1, Coroutine.calls fuel c t = .ok c1 →
      (c1.done = false → c1.fired = [] ∧ c1.promise.continuations = registeredCallbacks t) ∧
      (c1.done = true → c1.fired = registeredCallbacks t ∧ c1.promise.continuations = [])) ∧
    (∀ k, k < fuel → c.body (c.pc + k) ≠ .suspend →
      ∃ c1, Coroutine.calls fuel c t = .ok c1) := by
  have hinv : CallbackInv c [] := ⟨href, Or.inl ⟨hframe, hterm, hfired, hcont⟩⟩
  constructor
  · intro c1 hrun
    have h := calls_callbacks fuel t c c1 [] hinv hrun
    simp only [List.nil_append] at h
    obtain ⟨_, h1 | h1⟩ := h
    · constructor
      · intro _; exact ⟨h1.2.2.1, h1.2.2.2⟩
      · intro hd; simp [Coroutine.done, Coroutine.handleDone, h1] at hd
    · constructor
      · intro hd; simp [Coroutine.done, Coroutine.handleDone, h1] at hd
      · intro _; exact ⟨h1.2.1, h1.2.2⟩
  · intro k hk hend
    exact calls_return fuel (c.pc + k) t c [] hinv hend (fun _ => by omega) (by omega)

/-- Witness for C2: on `makeCoroutineOperation(0)` the callbacks 7 and 8 are registered,
then the operation is terminated, resumed and terminated again; the calls return and
the callbacks invoked are 7 then 8. -/
theorem callbacks_fire_once_in_registration_order_witness :
    ∃ c1, Coroutine.calls 2 (makeCoroutineOperation 0 : Coroutine Nat Unit)
        [.onComplete 7, .onComplete 8, .terminate 5, .resume, .terminate 6] = .ok c1 ∧
      c1.done = true ∧ c1.fired = [7, 8] ∧ c1.promise.continuations = [] :=
  ⟨_, rfl, rfl,
    ((callbacks_fire_once_in_registration_order 2 (makeCoroutineOperation 0 : Coroutine Nat Unit)
      [.onComplete 7, .onComplete 8, .terminate 5, .resume, .terminate 6]
      (by decide) rfl rfl rfl rfl).1 _ rfl).2 rfl⟩

/-- C3: on a void operation whose body ended with the captured failure `e`, the first
call of `result()` raises `e` and leaves it in the promise, so the second call raises
`e` again; on a value-returning operation with the same body the first call raises `e`
and takes it out, and the second call does not raise `e`. -/
theorem void_result_raises_captured_failure_again (e : E) :
    ((VoidPromise.unhandled_exception ({ reference := 1 } : VoidPromise E) e).1.result.1
        = .error (.captured e) ∧
      (VoidPromise.unhandled_exception ({ reference := 1 } : VoidPromise E) e).1.result.2.result.1
        = .error (.captured e)) ∧
    ((makeCoroutineOperationProvider (.error e) : Coroutine R E).handleResume.result.1
        = .error (.captured e) ∧
      (makeCoroutineOperationProvider (.error e) : Coroutine R E).handleResume.result.2.result.1
        = .error .badOptionalAccess) := by
  refine ⟨⟨?_, ?_⟩, ?_, ?_⟩ <;>
    simp [VoidPromise.unhandled_exception, VoidPromise.result, makeCoroutineOperationProvider,
      Coroutine.create, Coroutine.handleResume, providerBody, providerStep,
      Coroutine.unhandled_exception, Coroutine.complete, Coroutine.final_suspend,
      Coroutine.result]

/-- C4: a handle that is the only holder of a coroutine and is move-assigned to itself
still refers to the coroutine while the reference count is 0, and the frame is then
destroyed when the body finishes although the holder exists; a handle that is the only
holder of a finished coroutine and is copy-assigned to itself has its frame destroyed
and then accessed. -/
theorem self_assignment_breaks_reference_count :
    ((HandleHeap.entered.applyAll [.fromCoroutine 0, .moveAssign 0 0]).frames
        = [{ reference := 0, done := false, destroyed := false }] ∧
      (HandleHeap.entered.applyAll [.fromCoroutine 0, .moveAssign 0 0]).liveHandles 0 = 1) ∧
    ((HandleHeap.entered.applyAll [.fromCoroutine 0, .moveAssign 0 0, .finish 0]).frames
        = [{ reference := 0, done := false, destroyed := true }] ∧
      (HandleHeap.entered.applyAll [.fromCoroutine 0, .moveAssign 0 0, .finish 0]).liveHandles 0
        = 1) ∧
    ((HandleHeap.entered.applyAll [.fromCoroutine 0, .finish 0, .copyAssign 0 0]).frames
        = [{ reference := 1, done := true, destroyed := true }] ∧
      (HandleHeap.entered.applyAll [.fromCoroutine 0, .finish 0, .copyAssign 0 0]).liveHandles 0
        = 1 ∧
      (HandleHeap.entered.applyAll [.fromCoroutine 0, .finish 0, .copyAssign 0 0]).useAfterFree
        = true) := by
  decide

theorem terminateLoop_condition_never (provider : Except E R) (fuel : Nat) :
    ∀ (c : Coroutine R E), c.body = conditionBody (fun _ => false) provider →
      c.frame = .suspended → terminateLoop fuel c = .error .outOfFuel := by
  induction fuel with
  | zero =>
    intro c _ hframe
    simp [terminateLoop, hframe]
  | succ n ih =>
    intro c hbody hframe
    rw [terminateLoop_of_suspended _ _ hframe]
    have hstep : c.handleResume = { c with pc := c.pc + 1 } := by
      simp [Coroutine.handleResume, hbody, conditionBody]
    rw [hstep]
    exact ih _ hbody hframe

/-- C5: on an operation made by `makeCoroutineOperation(condition, provider)` whose
condition keeps returning false, `terminate(v)` has not returned after any number of
resumptions of the body: the body is suspended inside its loop after each of them. -/
theorem terminate_spins_on_false_condition (provider : Except E R) (v : R) (fuel : Nat) :
    (makeCoroutineOperationCondition (fun _ => false) provider : Coroutine R E).done = false ∧
      (makeCoroutineOperationCondition (fun _ => false) provider : Coroutine R E).terminate
        fuel v = .error .outOfFuel := by
  have hc : (makeCoroutineOperationCondition (fun _ => false) provider : Coroutine R E)
      = { promise := { reference := 1 }, body := conditionBody (fun _ => false) provider,
          pc := 1, frame := .suspended, fired := [] } := by
    simp [makeCoroutineOperationCondition, Coroutine.create, Coroutine.handleResume,
      conditionBody]
  rw [hc]
  refine ⟨by simp [Coroutine.done, Coroutine.handleDone], ?_⟩
  rw [Coroutine.terminate, if_neg (by simp [Coroutine.done, Coroutine.handleDone])]
  exact terminateLoop_condition_never provider fuel _ rfl rfl

/-! ## Properties of the coroutine socket -/

/-- C6: on a loopback socket with cache limit 4, a send of bytes 1 to 6 leaves 5 and 6
pending; after a receive has emptied the cache, a second send of byte 7 puts it into
the cache at the call, before the first send is resumed, so the next receive returns
7, 5, 6: a byte of the second send is transferred before bytes of the first. -/
theorem second_send_overtakes_pending_send :
    ((CoroutineSocket.loopback 4).run
        [.send 1 [1, 2, 3, 4, 5, 6], .receive 2 0, .send 3 [7]]).cache = [7] ∧
    ((CoroutineSocket.loopback 4).run
        [.send 1 [1, 2, 3, 4, 5, 6], .receive 2 0, .send 3 [7]]).pendingSend
      = [{ tag := 1, size := 6, packet := [5, 6] }] ∧
    ((CoroutineSocket.loopback 4).run
        [.send 1 [1, 2, 3, 4, 5, 6], .receive 2 0, .send 3 [7], .wake, .wake, .wake,
          .receive 4 0]).completed
      = [.receive 2 0 (some [1, 2, 3, 4]) .ERROR_NOTERROR, .send 3 1 .ERROR_NOTERROR,
          .send 1 6 .ERROR_NOTERROR, .receive 4 0 (some [7, 5, 6]) .ERROR_NOTERROR] := by
  decide

/-- C8, as stated, fails: on a connected socket with a pending send whose underlying
socket accepts the close and reports it later, `close()` returns without error while
the socket is not closed and the send is still pending. -/
theorem close_returns_before_socket_is_closed :
    (CoroutineSocket.close
        { socket := true, connected := true,
          pendingSend := [{ tag := 1, size := 3, packet := [1, 2, 3] }] }
        { returned := 0, errno := .ERROR_NOTERROR, notified := none }).1 = .ERROR_NOTERROR ∧
    (CoroutineSocket.close
        { socket := true, connected := true,
          pendingSend := [{ tag := 1, size := 3, packet := [1, 2, 3] }] }
        { returned := 0, errno := .ERROR_NOTERROR, notified := none }).2.isClosed = false ∧
    (CoroutineSocket.close
        { socket := true, connected := true,
          pendingSend := [{ tag := 1, size := 3, packet := [1, 2, 3] }] }
        { returned := 0, errno := .ERROR_NOTERROR, notified := none }).2.pendingSend
      = [{ tag := 1, size := 3, packet := [1, 2, 3] }] ∧
    (CoroutineSocket.close
        { socket := true, connected := true,
          pendingSend := [{ tag := 1, size := 3, packet := [1, 2, 3] }] }
        { returned := 0, errno := .ERROR_NOTERROR, notified := none }).2.completed = [] := by
  decide

/-- C8, amended: `close()` changes the socket only through the close callback of the
underlying socket; once `onClose(error)` has run, the socket is closed, the four
queues are empty, every operation that was pending has been resolved, in the order of
its queue, with the error (the shutdown error when the close was reported without
error), and a `close()` after that returns no error and changes nothing. -/
theorem close_fans_out_through_onClose (s : CoroutineSocket) (u : UnderlyingClose)
    (error : NS3Error) :
    ((s.close { u with notified := none }).2 = s ∧
      ((s.close { u with notified := some error }).2 = s ∨
        (s.close { u with notified := some error }).2 = s.onClose error)) ∧
    ((s.onClose error).isClosed = true ∧
      (s.onClose error).pendingAccept = [] ∧ (s.onClose error).pendingConnect = [] ∧
      (s.onClose error).pendingSend = [] ∧ (s.onClose error).pendingReceive = [] ∧
      (s.onClose error).completed = s.completed
        ++ s.pendingAccept.map
            (fun tag => .accept tag (if error = .ERROR_NOTERROR then .ERROR_SHUTDOWN else error))
        ++ s.pendingConnect.map
            (fun tag => .connect tag (if error = .ERROR_NOTERROR then .ERROR_SHUTDOWN else error))
        ++ s.pendingSend.map
            (fun op => .send op.tag 0 (if error = .ERROR_NOTERROR then .ERROR_SHUTDOWN else error))
        ++ s.pendingReceive.map
            (fun op => .receive op.tag op.size none
              (if error = .ERROR_NOTERROR then .ERROR_SHUTDOWN else error))) ∧
    (s.onClose error).close u = (.ERROR_NOTERROR, s.onClose error) := by
  refine ⟨⟨?_, ?_⟩, ?_, ?_⟩
  · unfold CoroutineSocket.close
    split_ifs <;> rfl
  · unfold CoroutineSocket.close
    split_ifs
    · exact Or.inl rfl
    · exact Or.inr rfl
    · exact Or.inr rfl
  · simp [CoroutineSocket.onClose, CoroutineSocket.isClosed]
  · simp [CoroutineSocket.close, CoroutineSocket.onClose]

theorem length_take_add_length_drop (k : Nat) (l : List Nat) :
    (l.take k).length + (l.drop k).length = l.length := by
  rw [← List.length_append, List.take_append_drop]

theorem returnedBytes_append (a b : List Completion) :
    returnedBytes (a ++ b) = returnedBytes a + returnedBytes b := by
  induction a with
  | nil => simp [returnedBytes]
  | cons c rest ih =>
    cases c with
    | receive tag size data error =>
      cases data <;> simp [returnedBytes, ih]; omega
    | accept tag error => simp [returnedBytes, ih]
    | connect tag error => simp [returnedBytes, ih]
    | send tag sent error => simp [returnedBytes, ih]

theorem heldBytes_append (a b : List ReceiveOperation) :
    heldBytes (a ++ b) = heldBytes a + heldBytes b := by
  induction a with
  | nil => simp [heldBytes]
  | cons c rest ih => simp [heldBytes, ih]; omega

theorem remainingBytes_append (a b : List SendOperation) :
    remainingBytes (a ++ b) = remainingBytes a + remainingBytes b := by
  induction a with
  | nil => simp [remainingBytes]
  | cons c rest ih => simp [remainingBytes, ih]; omega

theorem sendCondition_waits (s : CoroutineSocket) (op : SendOperation)
    (hopen : s.closed = false)
    (h : (s.blocked || decide (sizeSub s.cacheLimit s.cache.length ≤ 0)) = true) :
    sendCondition s op = (false, s, op) := by
  unfold sendCondition
  rw [if_neg (by simp [hopen])]
  dsimp only
  rw [if_pos h]

theorem sendCondition_serves (s : CoroutineSocket) (op : SendOperation)
    (hopen : s.closed = false)
    (h : ¬ (s.blocked || decide (sizeSub s.cacheLimit s.cache.length ≤ 0)) = true) :
    sendCondition s op =
      (decide ((op.packet.drop
          (min (sizeSub s.cacheLimit s.cache.length) op.packet.length)).length ≤ 0),
        { s with
          cache := s.cache ++
            op.packet.take (min (sizeSub s.cacheLimit s.cache.length) op.packet.length)
          tx_size := (s.tx_size + min (sizeSub s.cacheLimit s.cache.length) op.packet.length)
            % SIZE_MOD
          scheduled := s.scheduled ++ [Wake.onReceive] },
        { op with
          packet := op.packet.drop
            (min (sizeSub s.cacheLimit s.cache.length) op.packet.length) }) := by
  unfold sendCondition
  rw [if_neg (by simp [hopen])]
  dsimp only
  rw [if_neg h]

theorem sendCondition_spec (s : CoroutineSocket) (op : SendOperation)
    (hopen : s.closed = false) :
    ∃ k, (sendCondition s op).2.1.closed = false ∧
      (sendCondition s op).2.1.completed = s.completed ∧
      (sendCondition s op).2.1.pendingReceive = s.pendingReceive ∧
      (sendCondition s op).2.1.rx_size = s.rx_size ∧
      (sendCondition s op).2.1.cache = s.cache ++ op.packet.take k ∧
      (sendCondition s op).2.2.packet = op.packet.drop k ∧
      (∀ X, s.tx_size = X % SIZE_MOD →
        (sendCondition s op).2.1.tx_size = (X + (op.packet.take k).length) % SIZE_MOD) ∧
      ((sendCondition s op).1 = true → op.packet.drop k = []) := by
  by_cases h1 : (s.blocked || decide (sizeSub s.cacheLimit s.cache.length ≤ 0)) = true
  · rw [sendCondition_waits s op hopen h1]
    refine ⟨0, hopen, rfl, rfl, rfl, by simp, by simp, ?_, by simp⟩
    intro X hX
    simpa using hX
  · rw [sendCondition_serves s op hopen h1]
    refine ⟨min (sizeSub s.cacheLimit s.cache.length) op.packet.length, hopen, rfl, rfl, rfl,
      rfl, rfl, ?_, ?_⟩
    · intro X hX
      dsimp only
      rw [hX, List.length_take]
      simp [Nat.add_mod]
    · intro h
      dsimp only at h
      exact List.length_eq_zero.mp (Nat.le_zero.mp (of_decide_eq_true h))

theorem sizeSub_of_le (a b : Nat) (hb : b ≤ a) (ha : a < SIZE_MOD) : sizeSub a b = a - b := by
  unfold sizeSub
  unfold SIZE_MOD at *
  omega

theorem receiveCondition_waits (s : CoroutineSocket) (op : ReceiveOperation)
    (hopen : s.closed = false) (h : (s.blocked || decide (s.cache.length ≤ 0)) = true) :
    receiveCondition s op = (false, s, op) := by
  unfold receiveCondition
  rw [if_neg (by simp [hopen]), if_pos h]

theorem receiveCondition_serves (s : CoroutineSocket) (op : ReceiveOperation)
    (hopen : s.closed = false) (h : ¬ (s.blocked || decide (s.cache.length ≤ 0)) = true) :
    receiveCondition s op =
      (decide (op.size ≤ (op.data ++ s.cache.take
          (min (if op.size ≤ 0 then s.cache.length else sizeSub op.size op.data.length)
            s.cache.length)).length),
        { s with
          cache := s.cache.drop
            (min (if op.size ≤ 0 then s.cache.length else sizeSub op.size op.data.length)
              s.cache.length)
          rx_size := (s.rx_size +
            min (if op.size ≤ 0 then s.cache.length else sizeSub op.size op.data.length)
              s.cache.length) % SIZE_MOD
          scheduled := s.scheduled ++ [Wake.onSend] },
        { op with
          data := op.data ++ s.cache.take
            (min (if op.size ≤ 0 then s.cache.length else sizeSub op.size op.data.length)
              s.cache.length) }) := by
  unfold receiveCondition
  rw [if_neg (by simp [hopen]), if_neg h]

theorem receiveCondition_spec (s : CoroutineSocket) (op : ReceiveOperation)
    (hopen : s.closed = false) :
    ∃ k, (receiveCondition s op).2.1.closed = false ∧
      (receiveCondition s op).2.1.completed = s.completed ∧
      (receiveCondition s op).2.1.pendingSend = s.pendingSend ∧
      (receiveCondition s op).2.1.cache = s.cache.drop k ∧
      (receiveCondition s op).2.2.data = op.data ++ s.cache.take k ∧
      (receiveCondition s op).2.2.size = op.size ∧
      (receiveCondition s op).2.2.tag = op.tag ∧
      (∀ X, s.rx_size = X % SIZE_MOD →
        (receiveCondition s op).2.1.rx_size = (X + (s.cache.take k).length) % SIZE_MOD) ∧
      (∀ Y, s.tx_size = Y % SIZE_MOD → (receiveCondition s op).2.1.tx_size = Y % SIZE_MOD) ∧
      (ReceivePending op →
        if (receiveCondition s op).1 then
          (0 < op.size → (op.data ++ s.cache.take k).length = op.size)
        else ReceivePending (receiveCondition s op).2.2) := by
  by_cases h1 : (s.blocked || decide (s.cache.length ≤ 0)) = true
  · rw [receiveCondition_waits s op hopen h1]
    refine ⟨0, hopen, rfl, rfl, by simp, by simp, rfl, rfl, ?_, fun Y hY => hY, ?_⟩
    · intro X hX
      simpa using hX
    · intro hp
      simpa using hp
  · rw [receiveCondition_serves s op hopen h1]
    refine ⟨min (if op.size ≤ 0 then s.cache.length else sizeSub op.size op.data.length)
      s.cache.length, hopen, rfl, rfl, rfl, rfl, rfl, rfl, ?_, fun Y hY => hY, ?_⟩
    · intro X hX
      dsimp only
      rw [hX, List.length_take]
      simp [Nat.add_mod]
    · intro hp
      obtain ⟨hlt, hpos, _⟩ := hp
      dsimp only
      by_cases hz : op.size ≤ 0
      · have hz0 : op.size = 0 := Nat.le_zero.mp hz
        simp [hz0]
      · have hposz : 0 < op.size := Nat.pos_of_ne_zero (fun h => hz (by omega))
        have hlen := hpos hposz
        rw [if_neg hz, sizeSub_of_le _ _ (Nat.le_of_lt hlen) hlt]
        split_ifs with hd
        · intro _
          have hd1 := of_decide_eq_true hd
          simp only [List.length_append, List.length_take] at hd1 ⊢
          omega
        · have hd1 : ¬ op.size ≤ (op.data ++ List.take
              (min (op.size - op.data.length) s.cache.length) s.cache).length := by
            intro hle
            exact hd (decide_eq_true hle)
          refine ⟨hlt, fun _ => ?_, fun h0 => absurd h0 (Nat.pos_iff_ne_zero.mp hposz)⟩
          dsimp only
          omega

theorem resumeSends_ready (s : CoroutineSocket) (op : SendOperation)
    (rest : List SendOperation) (h : (sendCondition s op).1 = true) :
    resumeSends s (op :: rest) =
      resumeSends
        { (sendCondition s op).2.1 with
          pendingSend := rest
          completed := (sendCondition s op).2.1.completed ++
            [.send op.tag (sendProvider (sendCondition s op).2.2).1
              (sendProvider (sendCondition s op).2.2).2] }
        rest := by
  rw [resumeSends]
  dsimp only
  rw [if_pos h]

theorem resumeSends_wait (s : CoroutineSocket) (op : SendOperation)
    (rest : List SendOperation) (h : ¬ (sendCondition s op).1 = true) :
    resumeSends s (op :: rest) =
      { (sendCondition s op).2.1 with pendingSend := (sendCondition s op).2.2 :: rest } := by
  rw [resumeSends]
  dsimp only
  rw [if_neg h]

theorem resolved_append_send (l : List Completion) (tag sent : Nat) (error : NS3Error)
    (h : ∀ c ∈ l, ReceiveResolved c) :
    ∀ c ∈ l ++ [Completion.send tag sent error], ReceiveResolved c := by
  intro c hc
  rcases List.mem_append.mp hc with h1 | h1
  · exact h c h1
  · rw [List.mem_singleton.mp h1]
    exact True.intro

theorem returnedBytes_append_send (l : List Completion) (tag sent : Nat) (error : NS3Error) :
    returnedBytes (l ++ [Completion.send tag sent error]) = returnedBytes l := by
  rw [returnedBytes_append]
  simp [returnedBytes]

theorem resumeSends_inv (N : Nat) (ops : List SendOperation) :
    ∀ (s : CoroutineSocket),
      Conserved N s.closed s.completed s.pendingReceive s.cache ops s.rx_size s.tx_size →
      LoopbackInv N (resumeSends s ops) := by
  induction ops with
  | nil =>
    intro s h
    exact h
  | cons op rest ih =>
    intro s h
    obtain ⟨k, hclosed, hcompleted, hreceives, hrx, hcache, hpacket, htx, hready⟩ :=
      sendCondition_spec s op h.isOpen
    have hlen := length_take_add_length_drop k op.packet
    by_cases hr : (sendCondition s op).1 = true
    · rw [resumeSends_ready s op rest hr]
      apply ih
      dsimp only
      rw [hclosed, hcompleted, hreceives, hrx, hcache,
        htx _ h.tx]
      have hdrop := hready hr
      rw [hdrop] at hlen
      refine ⟨rfl, ?_, ?_, ?_, resolved_append_send _ _ _ _ h.resolved, h.pending⟩
      · rw [returnedBytes_append_send, List.length_append]
        have := h.bytes
        simp only [remainingBytes] at this
        simp only [List.length_nil] at hlen
        omega
      · rw [returnedBytes_append_send]
        exact h.rx
      · rw [returnedBytes_append_send, List.length_append, Nat.add_assoc]
    · rw [resumeSends_wait s op rest hr]
      unfold LoopbackInv
      dsimp only
      rw [hclosed, hcompleted, hreceives, hrx, hcache, htx _ h.tx]
      refine ⟨rfl, ?_, h.rx, ?_, h.resolved, h.pending⟩
      · rw [List.length_append]
        have := h.bytes
        simp only [remainingBytes, hpacket] at this ⊢
        omega
      · rw [List.length_append, Nat.add_assoc]

theorem resumeReceives_ready (s : CoroutineSocket) (op : ReceiveOperation)
    (rest : List ReceiveOperation) (h : (receiveCondition s op).1 = true) :
    resumeReceives s (op :: rest) =
      resumeReceives
        { (receiveCondition s op).2.1 with
          pendingReceive := rest
          completed := (receiveCondition s op).2.1.completed ++
            [.receive op.tag op.size (receiveProvider (receiveCondition s op).2.2).1
              (receiveProvider (receiveCondition s op).2.2).2] }
        rest := by
  rw [resumeReceives]
  dsimp only
  rw [if_pos h]

theorem resumeReceives_wait (s : CoroutineSocket) (op : ReceiveOperation)
    (rest : List ReceiveOperation) (h : ¬ (receiveCondition s op).1 = true) :
    resumeReceives s (op :: rest) =
      { (receiveCondition s op).2.1 with
        pendingReceive := (receiveCondition s op).2.2 :: rest } := by
  rw [resumeReceives]
  dsimp only
  rw [if_neg h]

theorem returnedBytes_append_receive (l : List Completion) (tag size : Nat) (d : List Nat)
    (error : NS3Error) :
    returnedBytes (l ++ [Completion.receive tag size (some d) error])
      = returnedBytes l + d.length := by
  rw [returnedBytes_append]
  simp [returnedBytes]

theorem resolved_append_receive (l : List Completion) (tag size : Nat) (d : List Nat)
    (h : ∀ c ∈ l, ReceiveResolved c) (hd : 0 < size → d.length = size) :
    ∀ c ∈ l ++ [Completion.receive tag size (some d) .ERROR_NOTERROR], ReceiveResolved c := by
  intro c hc
  rcases List.mem_append.mp hc with h1 | h1
  · exact h c h1
  · rw [List.mem_singleton.mp h1]
    exact ⟨rfl, d, rfl, hd⟩

theorem resumeReceives_inv (N : Nat) (ops : List ReceiveOperation) :
    ∀ (s : CoroutineSocket),
      Conserved N s.closed s.completed ops s.cache s.pendingSend s.rx_size s.tx_size →
      LoopbackInv N (resumeReceives s ops) := by
  induction ops with
  | nil =>
    intro s h
    exact h
  | cons op rest ih =>
    intro s h
    obtain ⟨k, hclosed, hcompleted, hsends, hcache, hdata, hsize, _, hrx, htx, hexact⟩ :=
      receiveCondition_spec s op h.isOpen
    have hlen := length_take_add_length_drop k s.cache
    have hop : ReceivePending op := h.pending op (List.mem_cons_self _ _)
    have hrest : ∀ o ∈ rest, ReceivePending o :=
      fun o ho => h.pending o (List.mem_cons_of_mem _ ho)
    have hbytes := h.bytes
    simp only [heldBytes] at hbytes
    have hX := hrx _ h.rx
    have hY := htx _ h.tx
    simp only [heldBytes] at hX hY
    by_cases hr : (receiveCondition s op).1 = true
    · rw [resumeReceives_ready s op rest hr]
      apply ih
      dsimp only
      have hex := hexact hop
      rw [if_pos hr] at hex
      rw [hclosed, hcompleted, hsends, hcache, hX, hY]
      simp only [receiveProvider, hdata]
      refine ⟨rfl, ?_, ?_, ?_, resolved_append_receive _ _ _ _ h.resolved hex, hrest⟩
      · rw [returnedBytes_append_receive, List.length_append]
        omega
      · rw [returnedBytes_append_receive, List.length_append]
        congr 1
        omega
      · rw [returnedBytes_append_receive, List.length_append]
        congr 1
        omega
    · rw [resumeReceives_wait s op rest hr]
      unfold LoopbackInv
      dsimp only
      have hex := hexact hop
      rw [if_neg hr] at hex
      rw [hclosed, hcompleted, hsends, hcache, hX, hY]
      refine ⟨rfl, ?_, ?_, ?_, h.resolved, ?_⟩
      · simp only [heldBytes, hdata, List.length_append]
        omega
      · simp only [heldBytes, hdata, List.length_append]
        congr 1
        omega
      · simp only [heldBytes, hdata, List.length_append]
        congr 1
        omega
      · intro o ho
        rcases List.mem_cons.mp ho with h1 | h1
        · rw [h1]; exact hex
        · exact hrest o h1

theorem sendCondition_pendingSend (s : CoroutineSocket) (op : SendOperation) :
    (sendCondition s op).2.1.pendingSend = s.pendingSend := by
  unfold sendCondition
  dsimp only
  split_ifs <;> rfl

theorem receiveCondition_pendingReceive (s : CoroutineSocket) (op : ReceiveOperation) :
    (receiveCondition s op).2.1.pendingReceive = s.pendingReceive := by
  unfold receiveCondition
  dsimp only
  split_ifs <;> rfl

theorem onSend_inv (N : Nat) (s : CoroutineSocket) (h : LoopbackInv N s) :
    LoopbackInv N s.onSend :=
  resumeSends_inv N s.pendingSend s h

theorem onReceive_inv (N : Nat) (s : CoroutineSocket) (h : LoopbackInv N s) :
    LoopbackInv N s.onReceive :=
  resumeReceives_inv N s.pendingReceive s h

theorem send_inv (N : Nat) (s : CoroutineSocket) (tag : Nat) (packet : List Nat)
    (h : LoopbackInv N s) : LoopbackInv (N + packet.length) (s.send tag packet).2 := by
  obtain ⟨k, hclosed, hcompleted, hreceives, hrx, hcache, hpacket, htx, hready⟩ :=
    sendCondition_spec s { tag := tag, size := packet.length, packet := packet } h.isOpen
  have hsends := sendCondition_pendingSend s
    { tag := tag, size := packet.length, packet := packet }
  have hlen := length_take_add_length_drop k packet
  have hbytes := h.bytes
  dsimp only at hcache hpacket htx hready
  unfold CoroutineSocket.send
  rw [if_neg (by simp [h.isOpen])]
  dsimp only
  split_ifs with hr
  · unfold LoopbackInv
    dsimp only
    rw [hclosed, hcompleted, hreceives, hrx, hcache, hsends, htx _ h.tx]
    have hdrop := hready hr
    rw [hdrop] at hlen
    simp only [List.length_nil] at hlen
    refine ⟨rfl, ?_, ?_, ?_, resolved_append_send _ _ _ _ h.resolved, h.pending⟩
    · rw [returnedBytes_append_send, List.length_append]
      omega
    · rw [returnedBytes_append_send]
      exact h.rx
    · rw [returnedBytes_append_send, List.length_append, Nat.add_assoc]
  · unfold LoopbackInv
    dsimp only
    rw [hclosed, hcompleted, hreceives, hrx, hcache, hsends, htx _ h.tx]
    refine ⟨rfl, ?_, h.rx, ?_, h.resolved, h.pending⟩
    · rw [remainingBytes_append, List.length_append]
      simp only [remainingBytes, hpacket]
      omega
    · rw [List.length_append, Nat.add_assoc]

theorem receive_inv (N : Nat) (s : CoroutineSocket) (tag : Nat) (size : Nat)
    (h : LoopbackInv N s) : LoopbackInv N (s.receive tag size).2 := by
  obtain ⟨k, hclosed, hcompleted, hsends, hcache, hdata, hsize, _, hrx, htx, hexact⟩ :=
    receiveCondition_spec s { tag := tag, size := size % SIZE_MOD, data := [] } h.isOpen
  have hreceives := receiveCondition_pendingReceive s
    { tag := tag, size := size % SIZE_MOD, data := [] }
  have hlen := length_take_add_length_drop k s.cache
  have hop : ReceivePending { tag := tag, size := size % SIZE_MOD, data := [] } :=
    ⟨Nat.mod_lt _ (by unfold SIZE_MOD; omega), fun h0 => h0, fun _ => rfl⟩
  have hbytes := h.bytes
  have hX := hrx _ h.rx
  have hY := htx _ h.tx
  have hex := hexact hop
  dsimp only at hdata hex
  unfold CoroutineSocket.receive
  dsimp only
  rw [if_neg (by simp [h.isOpen])]
  split_ifs with hr
  · unfold LoopbackInv
    dsimp only
    rw [if_pos hr] at hex
    rw [hclosed, hcompleted, hsends, hcache, hreceives, hX, hY]
    simp only [receiveProvider, hdata]
    refine ⟨rfl, ?_, ?_, ?_, resolved_append_receive _ _ _ _ h.resolved hex, h.pending⟩
    · rw [returnedBytes_append_receive, List.length_append]
      simp only [List.length_nil]
      omega
    · rw [returnedBytes_append_receive, List.length_append]
      congr 1
      simp only [List.length_nil]
      omega
    · rw [returnedBytes_append_receive, List.length_append]
      congr 1
      simp only [List.length_nil]
      omega
  · unfold LoopbackInv
    dsimp only
    rw [if_neg hr] at hex
    rw [hclosed, hcompleted, hsends, hcache, hreceives, hX, hY]
    refine ⟨rfl, ?_, ?_, ?_, h.resolved, ?_⟩
    · rw [heldBytes_append]
      simp only [heldBytes, hdata, List.length_append, List.length_nil]
      omega
    · rw [heldBytes_append]
      simp only [heldBytes, hdata, List.length_append, List.length_nil]
      congr 1
      omega
    · rw [heldBytes_append]
      simp only [heldBytes, hdata, List.length_append, List.length_nil]
      congr 1
      omega
    · intro o ho
      rcases List.mem_append.mp ho with h1 | h1
      · exact h.pending o h1
      · rw [List.mem_singleton.mp h1]; exact hex

theorem wake_inv (N : Nat) (s : CoroutineSocket) (h : LoopbackInv N s) :
    LoopbackInv N s.wake := by
  unfold CoroutineSocket.wake
  split
  · exact h
  · exact onReceive_inv N _ h
  · exact onSend_inv N _ h

theorem step_inv (N : Nat) (s : CoroutineSocket) (a : SocketCall) (h : LoopbackInv N s) :
    LoopbackInv (N + requestedBytes [a]) (s.step a) := by
  cases a with
  | send tag packet => exact send_inv N s tag packet h
  | receive tag size => exact receive_inv N s tag size h
  | block => exact h
  | unblock => exact onReceive_inv N _ (onSend_inv N _ h)
  | wake => exact wake_inv N s h

theorem requestedBytes_cons (a : SocketCall) (t : List SocketCall) :
    requestedBytes (a :: t) = requestedBytes [a] + requestedBytes t := by
  cases a <;> simp [requestedBytes]

theorem run_inv (t : List SocketCall) :
    ∀ (N : Nat) (s : CoroutineSocket), LoopbackInv N s →
      LoopbackInv (N + requestedBytes t) (s.run t) := by
  induction t with
  | nil =>
    intro N s h
    exact h
  | cons a t ih =>
    intro N s h
    rw [requestedBytes_cons, ← Nat.add_assoc]
    exact ih _ _ (step_inv N s a h)

theorem loopback_inv (cacheLimit : Nat) : LoopbackInv 0 (CoroutineSocket.loopback cacheLimit) := by
  refine ⟨rfl, rfl, rfl, rfl, ?_, ?_⟩ <;> intro c hc <;> cases hc

/-- C7, as stated, fails: on a loopback socket with cache limit 64, after a send of 5
bytes and a receive asking 8 bytes, the send is resolved, the cache is empty and both
counters are 5, yet the receives have returned no byte: the receive took the 5 bytes out
of the cache, is still pending and holds them. -/
theorem loopback_pending_receive_holds_bytes :
    requestedBytes [.send 0 [1, 2, 3, 4, 5], .receive 1 8] = 5 ∧
      ((CoroutineSocket.loopback 64).run [.send 0 [1, 2, 3, 4, 5], .receive 1 8]).pendingSend
        = [] ∧
      ((CoroutineSocket.loopback 64).run [.send 0 [1, 2, 3, 4, 5], .receive 1 8]).cache = [] ∧
      ((CoroutineSocket.loopback 64).run [.send 0 [1, 2, 3, 4, 5], .receive 1 8]).tx_size = 5 ∧
      ((CoroutineSocket.loopback 64).run [.send 0 [1, 2, 3, 4, 5], .receive 1 8]).rx_size = 5 ∧
      ((CoroutineSocket.loopback 64).run [.send 0 [1, 2, 3, 4, 5], .receive 1 8]).completed
        = [.send 0 5 .ERROR_NOTERROR] ∧
      returnedBytes
        ((CoroutineSocket.loopback 64).run [.send 0 [1, 2, 3, 4, 5], .receive 1 8]).completed
        = 0 ∧
      ((CoroutineSocket.loopback 64).run
          [.send 0 [1, 2, 3, 4, 5], .receive 1 8]).pendingReceive
        = [{ tag := 1, size := 8, data := [1, 2, 3, 4, 5] }] := by
  decide

/-- C7, amended: on a loopback socket, after every sequence of sends, receives, block and
unblock calls and wake-ups, `tx_size` equals `rx_size` plus the size of the cache (as
`std::size_t` values); and when no send is pending and the cache is empty, both
counters equal the number `N` of bytes given to the sends (as `std::size_t` values) and
the receives have taken exactly `N` bytes out of the cache: the bytes returned by the
resolved receives and the bytes held by the pending receives are `N` together, so the
receives returned exactly `N` bytes when no pending receive holds any. -/
theorem loopback_conserves_bytes (cacheLimit : Nat) (t : List SocketCall) :
    ((CoroutineSocket.loopback cacheLimit).run t).tx_size
        = (((CoroutineSocket.loopback cacheLimit).run t).rx_size
            + ((CoroutineSocket.loopback cacheLimit).run t).cache.length) % SIZE_MOD ∧
      (((CoroutineSocket.loopback cacheLimit).run t).pendingSend = [] →
        ((CoroutineSocket.loopback cacheLimit).run t).cache = [] →
        ((CoroutineSocket.loopback cacheLimit).run t).tx_size
            = requestedBytes t % SIZE_MOD ∧
          ((CoroutineSocket.loopback cacheLimit).run t).rx_size
            = requestedBytes t % SIZE_MOD ∧
          returnedBytes ((CoroutineSocket.loopback cacheLimit).run t).completed
              + heldBytes ((CoroutineSocket.loopback cacheLimit).run t).pendingReceive
            = requestedBytes t ∧
          (heldBytes ((CoroutineSocket.loopback cacheLimit).run t).pendingReceive = 0 →
            returnedBytes ((CoroutineSocket.loopback cacheLimit).run t).completed
              = requestedBytes t)) := by
  have h := run_inv t 0 _ (loopback_inv cacheLimit)
  rw [Nat.zero_add] at h
  refine ⟨?_, ?_⟩
  · rw [h.tx, h.rx, Nat.mod_add_mod]
  · intro hsend hcache
    have hb := h.bytes
    have hrx := h.rx
    have htx := h.tx
    rw [hsend, hcache] at hb
    rw [hcache] at htx
    simp only [remainingBytes, List.length_nil, Nat.add_zero] at hb htx hrx
    refine ⟨by rw [htx, hb], by rw [hrx, hb], hb.symm, fun hheld => ?_⟩
    rw [hheld, Nat.add_zero] at hb
    exact hb.symm

/-- Witness for C7, amended: with cache limit 4, a send of 6 bytes, a receive, two
wake-ups and a second receive leave no send pending and the cache empty; the receives
returned 6 bytes and both counters are 6. -/
theorem loopback_conserves_bytes_witness :
    returnedBytes ((CoroutineSocket.loopback 4).run
        [.send 1 [1, 2, 3, 4, 5, 6], .receive 2 0, .wake, .wake, .receive 3 0]).completed = 6 ∧
      ((CoroutineSocket.loopback 4).run
        [.send 1 [1, 2, 3, 4, 5, 6], .receive 2 0, .wake, .wake, .receive 3 0]).tx_size
        = 6 % SIZE_MOD ∧
      ((CoroutineSocket.loopback 4).run
        [.send 1 [1, 2, 3, 4, 5, 6], .receive 2 0, .wake, .wake, .receive 3 0]).rx_size
        = 6 % SIZE_MOD :=
  have h := (loopback_conserves_bytes 4
    [.send 1 [1, 2, 3, 4, 5, 6], .receive 2 0, .wake, .wake, .receive 3 0]).2
    (by decide) (by decide)
  ⟨h.2.2.2 (by decide), h.1, h.2.1⟩

/-- C9: on a loopback socket, after every sequence of sends, receives, block and unblock
calls and wake-ups: every resolved receive has no error and returns a packet, of exactly
`n` bytes when `n > 0` bytes were asked; every pending receive that asked `n > 0` bytes
holds fewer than `n` and one that asked 0 holds none; and when the condition of a
receive that asked 0 is met, the operation gets exactly the bytes of the cache and the
cache is left empty. -/
theorem receive_returns_exact_size (cacheLimit : Nat) (t : List SocketCall) :
    (∀ tag n data error,
        Completion.receive tag n data error ∈ ((CoroutineSocket.loopback cacheLimit).run t).completed →
        error = .ERROR_NOTERROR ∧ ∃ d, data = some d ∧ (0 < n → d.length = n)) ∧
      (∀ op ∈ ((CoroutineSocket.loopback cacheLimit).run t).pendingReceive,
        (0 < op.size → op.data.length < op.size) ∧ (op.size = 0 → op.data = [])) ∧
      (∀ op : ReceiveOperation, op.size = 0 → op.data = [] →
        (receiveCondition ((CoroutineSocket.loopback cacheLimit).run t) op).1 = true →
        (receiveCondition ((CoroutineSocket.loopback cacheLimit).run t) op).2.2.data
            = ((CoroutineSocket.loopback cacheLimit).run t).cache ∧
          (receiveCondition ((CoroutineSocket.loopback cacheLimit).run t) op).2.1.cache = []) := by
  have h := run_inv t 0 _ (loopback_inv cacheLimit)
  refine ⟨?_, ?_, ?_⟩
  · intro tag n data error hmem
    exact h.resolved _ hmem
  · intro op hmem
    exact (h.pending op hmem).2
  · intro op hsize hdata hserved
    by_cases h1 : (((CoroutineSocket.loopback cacheLimit).run t).blocked
        || decide (((CoroutineSocket.loopback cacheLimit).run t).cache.length ≤ 0)) = true
    · rw [receiveCondition_waits _ op h.isOpen h1] at hserved
      cases hserved
    · rw [receiveCondition_serves _ op h.isOpen h1]
      simp [hsize, hdata]

/-- Witness for C9: after a send of 5 bytes, a receive of 3 is resolved with a packet of
3 bytes. -/
theorem receive_returns_exact_size_witness :
    NS3Error.ERROR_NOTERROR = NS3Error.ERROR_NOTERROR ∧
      ∃ d, some [1, 2, 3] = some d ∧ (0 < 3 → d.length = 3) :=
  (receive_returns_exact_size 8 [.send 1 [1, 2, 3, 4, 5], .receive 2 3]).1 2 3
    (some [1, 2, 3]) .ERROR_NOTERROR (by decide)

/-! ## Properties of the serialization protocol -/

/-- C10: on a loopback socket, an empty vector of one-byte scalars is written and then
the scalar 7; reading a vector back yields the empty vector but also takes the byte 7
out of the cache, so that the read of the scalar that follows finds nothing and stays
pending; and when nothing is written after the empty vector, the read of the vector
itself stays pending. -/
theorem empty_vector_read_consumes_following_bytes :
    (writeScalar (writeVector (CoroutineSocket.loopback 212992) 10 []).2 20 [7]).2.cache
      = [0, 0, 0, 0, 0, 0, 0, 0, 7] ∧
    (readVector (writeScalar (writeVector (CoroutineSocket.loopback 212992) 10 []).2 20 [7]).2
        30 1).1 = some (.ok []) ∧
    (readVector (writeScalar (writeVector (CoroutineSocket.loopback 212992) 10 []).2 20 [7]).2
        30 1).2.cache = [] ∧
    (readScalar
        (readVector (writeScalar (writeVector (CoroutineSocket.loopback 212992) 10 []).2 20 [7]).2
          30 1).2 40 1).1 = none ∧
    (writeVector (CoroutineSocket.loopback 212992) 10 []).1 = some (.ok ()) ∧
    (readVector (writeVector (CoroutineSocket.loopback 212992) 10 []).2 30 1).1 = none := by
  exact ⟨by decide, rfl, by decide, rfl, rfl, rfl⟩

/-! ## Properties of the reducers and of the election -/

theorem maxElementFrom_spec {α : Type} (less : α → α → Bool) (h : StrictTotal less)
    (l : List α) : ∀ a, maxElementFrom less a l ∈ a :: l ∧
      ∀ y ∈ a :: l, less (maxElementFrom less a l) y = false := by
  induction l with
  | nil =>
    intro a
    simp [maxElementFrom, h.irrefl]
  | cons x rest ih =>
    intro a
    rw [maxElementFrom]
    obtain ⟨hmem, hmax⟩ := ih (if less a x then x else a)
    by_cases hax : less a x = true
    · rw [if_pos hax] at hmem hmax ⊢
      refine ⟨List.mem_cons_of_mem _ hmem, ?_⟩
      intro y hy
      rcases List.mem_cons.mp hy with rfl | hy
      · cases hr : less (maxElementFrom less x rest) y with
        | false => rfl
        | true =>
          have := h.trans _ _ _ hr hax
          rw [hmax x (List.mem_cons_self _ _)] at this
          cases this
      · exact hmax y hy
    · rw [if_neg hax] at hmem hmax ⊢
      refine ⟨?_, ?_⟩
      · rcases List.mem_cons.mp hmem with h1 | h1
        · rw [h1]; exact List.mem_cons_self _ _
        · exact List.mem_cons_of_mem _ (List.mem_cons_of_mem _ h1)
      · intro y hy
        rcases List.mem_cons.mp hy with rfl | hy
        · exact hmax y (List.mem_cons_self _ _)
        · rcases List.mem_cons.mp hy with rfl | hy
          · cases hr : less (maxElementFrom less a rest) y with
            | false => rfl
            | true =>
              exfalso
              rcases h.total a (maxElementFrom less a rest) with h1 | h1 | h1
              · rw [← h1] at hr; exact hax hr
              · exact hax (h.trans _ _ _ h1 hr)
              · rw [hmax a (List.mem_cons_self _ _)] at h1; cases h1
          · exact hmax y (List.mem_cons_of_mem _ hy)

theorem minElementFrom_spec {α : Type} (less : α → α → Bool) (h : StrictTotal less)
    (l : List α) : ∀ a, minElementFrom less a l ∈ a :: l ∧
      ∀ y ∈ a :: l, less y (minElementFrom less a l) = false := by
  induction l with
  | nil =>
    intro a
    simp [minElementFrom, h.irrefl]
  | cons x rest ih =>
    intro a
    rw [minElementFrom]
    obtain ⟨hmem, hmin⟩ := ih (if less x a then x else a)
    by_cases hxa : less x a = true
    · rw [if_pos hxa] at hmem hmin ⊢
      refine ⟨List.mem_cons_of_mem _ hmem, ?_⟩
      intro y hy
      rcases List.mem_cons.mp hy with rfl | hy
      · cases hr : less y (minElementFrom less x rest) with
        | false => rfl
        | true =>
          have := h.trans _ _ _ hxa hr
          rw [hmin x (List.mem_cons_self _ _)] at this
          cases this
      · exact hmin y hy
    · rw [if_neg hxa] at hmem hmin ⊢
      refine ⟨?_, ?_⟩
      · rcases List.mem_cons.mp hmem with h1 | h1
        · rw [h1]; exact List.mem_cons_self _ _
        · exact List.mem_cons_of_mem _ (List.mem_cons_of_mem _ h1)
      · intro y hy
        rcases List.mem_cons.mp hy with rfl | hy
        · exact hmin y (List.mem_cons_self _ _)
        · rcases List.mem_cons.mp hy with rfl | hy
          · cases hr : less y (minElementFrom less a rest) with
            | false => rfl
            | true =>
              exfalso
              rcases h.total a (minElementFrom less a rest) with h1 | h1 | h1
              · rw [← h1] at hr; exact hxa hr
              · rw [hmin a (List.mem_cons_self _ _)] at h1; cases h1
              · exact hxa (h.trans _ _ _ hr h1)
          · exact hmin y (List.mem_cons_of_mem _ hy)

theorem max_element_spec {α : Type} (less : α → α → Bool) (h : StrictTotal less)
    (l : List α) (m : α) :
    max_element less l = some m ↔ m ∈ l ∧ ∀ y ∈ l, less m y = false := by
  cases l with
  | nil => simp [max_element]
  | cons x rest =>
    obtain ⟨hmem, hmax⟩ := maxElementFrom_spec less h rest x
    simp only [max_element, Option.some.injEq]
    constructor
    · intro heq
      rw [← heq]
      exact ⟨hmem, hmax⟩
    · rintro ⟨hm, hmm⟩
      rcases h.total (maxElementFrom less x rest) m with h1 | h1 | h1
      · exact h1
      · rw [hmax m hm] at h1; cases h1
      · rw [hmm _ hmem] at h1; cases h1

theorem min_element_spec {α : Type} (less : α → α → Bool) (h : StrictTotal less)
    (l : List α) (m : α) :
    min_element less l = some m ↔ m ∈ l ∧ ∀ y ∈ l, less y m = false := by
  cases l with
  | nil => simp [min_element]
  | cons x rest =>
    obtain ⟨hmem, hmin⟩ := minElementFrom_spec less h rest x
    simp only [min_element, Option.some.injEq]
    constructor
    · intro heq
      rw [← heq]
      exact ⟨hmem, hmin⟩
    · rintro ⟨hm, hmm⟩
      rcases h.total (minElementFrom less x rest) m with h1 | h1 | h1
      · exact h1
      · rw [hmm _ hmem] at h1; cases h1
      · rw [hmin m hm] at h1; cases h1

theorem max_element_perm {α : Type} (less : α → α → Bool) (h : StrictTotal less)
    (l1 l2 : List α) (hp : l1.Perm l2) : max_element less l1 = max_element less l2 := by
  cases h2 : max_element less l2 with
  | none =>
    cases l2 with
    | nil => rw [hp.eq_nil]; rfl
    | cons x rest => simp [max_element] at h2
  | some m =>
    have := (max_element_spec less h l2 m).mp h2
    exact (max_element_spec less h l1 m).mpr
      ⟨hp.mem_iff.mpr this.1, fun y hy => this.2 y (hp.mem_iff.mp hy)⟩

theorem min_element_perm {α : Type} (less : α → α → Bool) (h : StrictTotal less)
    (l1 l2 : List α) (hp : l1.Perm l2) : min_element less l1 = min_element less l2 := by
  cases h2 : min_element less l2 with
  | none =>
    cases l2 with
    | nil => rw [hp.eq_nil]; rfl
    | cons x rest => simp [min_element] at h2
  | some m =>
    have := (min_element_spec less h l2 m).mp h2
    exact (min_element_spec less h l1 m).mpr
      ⟨hp.mem_iff.mpr this.1, fun y hy => this.2 y (hp.mem_iff.mp hy)⟩

theorem intLess_strictTotal : StrictTotal (fun a b : Int => decide (a < b)) := by
  refine ⟨?_, ?_, ?_⟩
  · intro a; simp
  · intro a b c h1 h2
    simp only [decide_eq_true_eq] at h1 h2 ⊢
    omega
  · intro a b
    simp only [decide_eq_true_eq]
    omega

theorem electLess_iff (p1 p2 : Nat × Nat) :
    electLess p1 p2 = true ↔ p1.2 < p2.2 ∨ (p1.2 = p2.2 ∧ p1.1 < p2.1) := by
  unfold electLess
  by_cases h : p1.2 = p2.2
  · rw [if_pos h, decide_eq_true_eq]
    constructor
    · intro h1; exact Or.inr ⟨h, h1⟩
    · rintro (h1 | h1)
      · omega
      · exact h1.2
  · rw [if_neg h, decide_eq_true_eq]
    constructor
    · intro h1; exact Or.inl h1
    · rintro (h1 | h1)
      · exact h1
      · exact absurd h1.1 h

theorem electLess_strictTotal : StrictTotal electLess := by
  refine ⟨?_, ?_, ?_⟩
  · intro a
    cases hl : electLess a a with
    | false => rfl
    | true =>
      have := (electLess_iff a a).mp hl
      omega
  · intro a b c h1 h2
    have h3 := (electLess_iff a b).mp h1
    have h4 := (electLess_iff b c).mp h2
    apply (electLess_iff a c).mpr
    omega
  · rintro ⟨a1, a2⟩ ⟨b1, b2⟩
    rw [electLess_iff, electLess_iff, Prod.mk.injEq]
    dsimp only
    omega

theorem representation_lt (T : IntegralType) (x : Int) : T.representation x < 2 ^ T.bits := by
  unfold IntegralType.representation
  have hpos : (0 : Int) < 2 ^ T.bits := by positivity
  have h1 := Int.emod_lt_of_pos x hpos
  have h2 := Int.emod_nonneg x (ne_of_gt hpos)
  zify
  rw [Int.toNat_of_nonneg h2]
  exact h1

theorem representation_cast (T : IntegralType) (x : Int) :
    ((T.representation x : Nat) : Int) = x % 2 ^ T.bits := by
  unfold IntegralType.representation
  have hpos : (0 : Int) < 2 ^ T.bits := by positivity
  exact Int.toNat_of_nonneg (Int.emod_nonneg x (ne_of_gt hpos))

theorem value_emod (T : IntegralType) (n : Nat) :
    T.value n % 2 ^ T.bits = ((n % 2 ^ T.bits : Nat) : Int) := by
  have hlt : n % 2 ^ T.bits < 2 ^ T.bits := Nat.mod_lt _ (Nat.two_pow_pos _)
  have hcast : (((n % 2 ^ T.bits : Nat) : Int)) % 2 ^ T.bits = ((n % 2 ^ T.bits : Nat) : Int) := by
    apply Int.emod_eq_of_lt (by positivity)
    exact_mod_cast hlt
  unfold IntegralType.value
  split_ifs
  · rw [Int.sub_emod, Int.emod_self, sub_zero, Int.emod_emod_of_dvd _ (dvd_refl _), hcast]
  · exact hcast

theorem representation_value (T : IntegralType) (n : Nat) :
    T.representation (T.value n) = n % 2 ^ T.bits := by
  have := representation_cast T (T.value n)
  rw [value_emod] at this
  exact_mod_cast this

theorem convert_emod (T : IntegralType) (x : Int) :
    T.convert x % 2 ^ T.bits = x % 2 ^ T.bits := by
  unfold IntegralType.convert
  rw [value_emod, Nat.mod_eq_of_lt (representation_lt T x), representation_cast]

theorem representation_congr (T : IntegralType) (x y : Int)
    (h : x % 2 ^ T.bits = y % 2 ^ T.bits) : T.representation x = T.representation y := by
  unfold IntegralType.representation
  rw [h]

theorem convert_congr (T : IntegralType) (x y : Int)
    (h : x % 2 ^ T.bits = y % 2 ^ T.bits) : T.convert x = T.convert y := by
  unfold IntegralType.convert
  rw [representation_congr T x y h]

theorem convert_add_left (T : IntegralType) (a b : Int) :
    T.convert (T.convert a + b) = T.convert (a + b) := by
  apply convert_congr
  rw [Int.add_emod, convert_emod, ← Int.add_emod]

theorem convert_mul_left (T : IntegralType) (a b : Int) :
    T.convert (T.convert a * b) = T.convert (a * b) := by
  apply convert_congr
  rw [Int.mul_emod, convert_emod, ← Int.mul_emod]

theorem inRange_value (T : IntegralType) (n : Nat) : T.InRange (T.value n) := by
  have hlt : n % 2 ^ T.bits < 2 ^ T.bits := Nat.mod_lt _ (Nat.two_pow_pos _)
  have hlt2 : ((n % 2 ^ T.bits : Nat) : Int) < 2 ^ T.bits := by exact_mod_cast hlt
  unfold IntegralType.InRange IntegralType.value
  by_cases hs : T.is_signed = true
  · rw [if_pos hs]
    by_cases hbig : 2 ^ T.bits ≤ 2 * (n % 2 ^ T.bits)
    · rw [if_pos ⟨hs, hbig⟩]
      have : ((2 ^ T.bits : Nat) : Int) ≤ 2 * ((n % 2 ^ T.bits : Nat) : Int) := by
        exact_mod_cast hbig
      push_cast at this hlt2 ⊢
      constructor <;> linarith
    · rw [if_neg (fun h => hbig h.2)]
      have : 2 * ((n % 2 ^ T.bits : Nat) : Int) < ((2 ^ T.bits : Nat) : Int) := by
        exact_mod_cast Nat.lt_of_not_le hbig
      push_cast at this hlt2 ⊢
      constructor
      · have h0 : (0 : Int) ≤ (n : Int) % 2 ^ T.bits := Int.emod_nonneg _ (by positivity)
        have hp : (0 : Int) < 2 ^ T.bits := by positivity
        linarith
      · linarith
  · rw [if_neg hs, if_neg (fun h => hs h.1)]
    exact ⟨Int.natCast_nonneg _, hlt2⟩

theorem convert_of_inRange (T : IntegralType) (x : Int) (h : T.InRange x) :
    T.convert x = x := by
  have hpos : (0 : Int) < 2 ^ T.bits := by positivity
  unfold IntegralType.convert IntegralType.value
  have hcast := representation_cast T x
  have hmod := Nat.mod_eq_of_lt (representation_lt T x)
  rw [hmod]
  unfold IntegralType.InRange at h
  by_cases hs : T.is_signed = true
  · rw [if_pos hs] at h
    by_cases hneg : x < 0
    · have hx : x % 2 ^ T.bits = x + 2 ^ T.bits := by
        rw [← Int.add_emod_self]
        apply Int.emod_eq_of_lt <;> linarith
      rw [hx] at hcast
      have hbig : 2 ^ T.bits ≤ 2 * T.representation x := by
        zify
        rw [hcast]
        linarith
      rw [if_pos ⟨hs, hbig⟩, hcast]
      ring
    · have hx : x % 2 ^ T.bits = x := by
        apply Int.emod_eq_of_lt <;> linarith
      rw [hx] at hcast
      have hsmall : ¬ 2 ^ T.bits ≤ 2 * T.representation x := by
        zify
        rw [hcast]
        linarith
      rw [if_neg (fun h => hsmall h.2), hcast]
  · rw [if_neg hs] at h
    rw [if_neg (fun h => hs h.1), hcast]
    exact Int.emod_eq_of_lt h.1 h.2

theorem maxElementFrom_int (l : List Int) :
    ∀ a, maxElementFrom (fun a b : Int => decide (a < b)) a l = l.foldl max a := by
  induction l with
  | nil => intro a; rfl
  | cons x rest ih =>
    intro a
    rw [maxElementFrom, List.foldl_cons, ih]
    congr 1
    by_cases h : a < x
    · simp only [decide_eq_true_eq, h, if_true]
      omega
    · simp only [decide_eq_true_eq, h, if_false]
      omega

theorem minElementFrom_int (l : List Int) :
    ∀ a, minElementFrom (fun a b : Int => decide (a < b)) a l = l.foldl min a := by
  induction l with
  | nil => intro a; rfl
  | cons x rest ih =>
    intro a
    rw [minElementFrom, List.foldl_cons, ih]
    congr 1
    by_cases h : x < a
    · simp only [decide_eq_true_eq, h, if_true]
      omega
    · simp only [decide_eq_true_eq, h, if_false]
      omega

theorem accumulate_sum (T : IntegralType) (l : List Int) :
    ∀ init, accumulate (fun a b => T.convert (a + b)) (T.convert init) l
      = T.convert (init + l.sum) := by
  induction l with
  | nil => intro init; simp [accumulate]
  | cons x rest ih =>
    intro init
    have := ih (init + x)
    simp only [accumulate, List.foldl_cons, List.sum_cons] at this ⊢
    rw [convert_add_left, this, add_assoc]

theorem accumulate_prod (T : IntegralType) (l : List Int) :
    ∀ init, accumulate (fun a b => T.convert (a * b)) (T.convert init) l
      = T.convert (init * l.prod) := by
  induction l with
  | nil => intro init; simp [accumulate]
  | cons x rest ih =>
    intro init
    have := ih (init * x)
    simp only [accumulate, List.foldl_cons, List.prod_cons] at this ⊢
    rw [convert_mul_left, this, mul_assoc]

theorem inRange_zero (T : IntegralType) : T.InRange 0 := by
  unfold IntegralType.InRange
  have hpos : (0 : Int) < 2 ^ T.bits := by positivity
  split_ifs
  · constructor <;> linarith
  · exact ⟨le_refl _, hpos⟩

theorem convert_zero (T : IntegralType) : T.convert 0 = 0 :=
  convert_of_inRange T 0 (inRange_zero T)

theorem representation_and (T : IntegralType) (a b : Int) :
    T.representation (T.bit_and a b) = T.representation a &&& T.representation b := by
  unfold IntegralType.bit_and
  rw [representation_value]
  exact Nat.mod_eq_of_lt (Nat.and_lt_two_pow _ (representation_lt T b))

theorem representation_or (T : IntegralType) (a b : Int) :
    T.representation (T.bit_or a b) = T.representation a ||| T.representation b := by
  unfold IntegralType.bit_or
  rw [representation_value]
  exact Nat.mod_eq_of_lt (Nat.or_lt_two_pow (representation_lt T a) (representation_lt T b))

theorem representation_xor (T : IntegralType) (a b : Int) :
    T.representation (T.bit_xor a b) = T.representation a ^^^ T.representation b := by
  unfold IntegralType.bit_xor
  rw [representation_value]
  exact Nat.mod_eq_of_lt (Nat.xor_lt_two_pow (representation_lt T a) (representation_lt T b))

theorem bit_and_right_comm (T : IntegralType) (a b c : Int) :
    T.bit_and (T.bit_and a b) c = T.bit_and (T.bit_and a c) b := by
  show T.value (T.representation (T.bit_and a b) &&& T.representation c)
    = T.value (T.representation (T.bit_and a c) &&& T.representation b)
  rw [representation_and, representation_and, Nat.and_assoc,
    Nat.and_comm (T.representation b), ← Nat.and_assoc]

theorem bit_or_right_comm (T : IntegralType) (a b c : Int) :
    T.bit_or (T.bit_or a b) c = T.bit_or (T.bit_or a c) b := by
  show T.value (T.representation (T.bit_or a b) ||| T.representation c)
    = T.value (T.representation (T.bit_or a c) ||| T.representation b)
  rw [representation_or, representation_or, Nat.or_assoc,
    Nat.or_comm (T.representation b), ← Nat.or_assoc]

theorem bit_xor_right_comm (T : IntegralType) (a b c : Int) :
    T.bit_xor (T.bit_xor a b) c = T.bit_xor (T.bit_xor a c) b := by
  show T.value (T.representation (T.bit_xor a b) ^^^ T.representation c)
    = T.value (T.representation (T.bit_xor a c) ^^^ T.representation b)
  rw [representation_xor, representation_xor, Nat.xor_assoc,
    Nat.xor_comm (T.representation b), ← Nat.xor_assoc]

theorem operator_perm (O : MPIOperator) (T : IntegralType) (l1 l2 : List Int)
    (hp : l1.Perm l2)
    (hO : O = .SUM ∨ O = .PRODUCT ∨ O = .MAX ∨ O = .MIN ∨ O = .BITWISE_AND ∨
      O = .BITWISE_OR ∨ O = .BITWISE_XOR) :
    MPIOperatorImplementation O T l1 = foldOperator O T l2 := by
  rcases hO with h | h | h | h | h | h | h <;> subst h
  · have := accumulate_sum T l1 0
    rw [convert_zero, zero_add] at this
    simp only [MPIOperatorImplementation, foldOperator, this, hp.sum_eq]
  · have := accumulate_prod T l1 1
    rw [one_mul] at this
    simp only [MPIOperatorImplementation, foldOperator, this, hp.prod_eq]
  · simp only [MPIOperatorImplementation, foldOperator]
    rw [max_element_perm _ intLess_strictTotal l1 l2 hp]
    cases l2 with
    | nil => rfl
    | cons x rest => simp [max_element, maxElementFrom_int, List.max?]
  · simp only [MPIOperatorImplementation, foldOperator]
    rw [min_element_perm _ intLess_strictTotal l1 l2 hp]
    cases l2 with
    | nil => rfl
    | cons x rest => simp [min_element, minElementFrom_int, List.min?]
  · simp only [MPIOperatorImplementation, foldOperator, accumulate, Option.some.injEq]
    exact hp.foldl_eq' (fun x _ y _ z => bit_and_right_comm T z x y) _
  · simp only [MPIOperatorImplementation, foldOperator, accumulate, Option.some.injEq]
    exact hp.foldl_eq' (fun x _ y _ z => bit_or_right_comm T z x y) _
  · simp only [MPIOperatorImplementation, foldOperator, accumulate, Option.some.injEq]
    exact hp.foldl_eq' (fun x _ y _ z => bit_xor_right_comm T z x y) _

/-- C18: on a non-empty map of votes, in whatever order its entries `(rank, vote)` are
iterated, `Elect` returns the rank of the entry whose `(vote, rank)` pair is
lexicographically greatest: every entry has a smaller vote, or the same vote and a rank
that is not larger. -/
theorem elect_returns_greatest_vote_rank (votes : List (Nat × Nat)) (hne : votes ≠ []) :
    ∃ m ∈ votes, electWinner votes = some m.1 ∧
      (∀ p ∈ votes, p.2 < m.2 ∨ (p.2 = m.2 ∧ p.1 ≤ m.1)) ∧
      ∀ iterated : List (Nat × Nat), iterated.Perm votes → electWinner iterated = some m.1 := by
  cases hm : max_element electLess votes with
  | none =>
    cases votes with
    | nil => exact absurd rfl hne
    | cons x rest => simp [max_element] at hm
  | some m =>
    obtain ⟨hmem, hmax⟩ := (max_element_spec electLess electLess_strictTotal votes m).mp hm
    refine ⟨m, hmem, by simp [electWinner, hm], ?_, ?_⟩
    · intro p hp
      have h1 := hmax p hp
      have h2 : ¬ (m.2 < p.2 ∨ (m.2 = p.2 ∧ m.1 < p.1)) := by
        intro h3
        rw [(electLess_iff m p).mpr h3] at h1
        cases h1
      omega
    · intro iterated hperm
      simp [electWinner, max_element_perm electLess electLess_strictTotal iterated votes hperm, hm]

/-- Witness for C18: with votes 5, 9 and 9 of the ranks 0, 1 and 2, rank 2 is elected. -/
theorem elect_returns_greatest_vote_rank_witness :
    ∃ m ∈ [(0, 5), (2, 9), (1, 9)], electWinner [(0, 5), (2, 9), (1, 9)] = some m.1 ∧
      (∀ p ∈ [(0, 5), (2, 9), (1, 9)], p.2 < m.2 ∨ (p.2 = m.2 ∧ p.1 ≤ m.1)) ∧
      ∀ iterated : List (Nat × Nat), iterated.Perm [(0, 5), (2, 9), (1, 9)] →
        electWinner iterated = some m.1 :=
  elect_returns_greatest_vote_rank [(0, 5), (2, 9), (1, 9)] (by decide)

/-! ## Properties of the fake payload mode -/

theorem flatten_length_of_scalars (type_size : Nat) (v : List (List Nat))
    (hv : ∀ e ∈ v, e.length = type_size) : v.flatten.length = v.length * type_size := by
  induction v with
  | nil => simp
  | cons e rest ih =>
    rw [List.flatten_cons, List.length_append, List.length_cons,
      ih (fun x hx => hv x (List.mem_cons_of_mem _ hx)), hv e (List.mem_cons_self _ _),
      Nat.succ_mul, Nat.add_comm]

theorem map_add_mod_range_perm (n a : Nat) :
    ((List.range n).map (fun i => (a + i) % n)).Perm (List.range n) := by
  have h : (List.range n).map (fun i => (a + i) % n) = (List.range n).rotate a := by
    apply List.ext_getElem
    · simp
    · intro k h1 h2
      simp only [List.length_map, List.length_range] at h1
      simp [List.getElem_rotate, Nat.add_comm]
  rw [h]
  exact List.rotate_perm _ _


theorem cyclic_sum (f : Nat → Nat) (n a : Nat) (hn : 0 < n) :
    ((List.range (n - 1)).map (fun i => f ((a + i) % n))).sum + f ((a + (n - 1)) % n)
      = ((List.range n).map f).sum := by
  obtain ⟨m, rfl⟩ : ∃ m, n = m + 1 := ⟨n - 1, by omega⟩
  have h := ((map_add_mod_range_perm (m + 1) a).map f).sum_eq
  rw [← h, List.map_map, List.range_succ, List.map_append, List.sum_append]
  simp [Function.comp_def]

theorem mapM_of_forall_some {α β : Type} (f : α → Option β) (g : α → β) (l : List α)
    (h : ∀ x ∈ l, f x = some (g x)) : l.mapM f = some (l.map g) := by
  induction l with
  | nil => rfl
  | cons x xs ih =>
    rw [List.mapM_cons, h x (List.mem_cons_self _ _),
      ih (fun y hy => h y (List.mem_cons_of_mem _ hy))]
    rfl

theorem le_ringPartition_mul (size groupSize : Nat) (hN : 0 < groupSize) :
    size ≤ ringPartition size groupSize * groupSize := by
  unfold ringPartition
  have h1 := Nat.div_add_mod (size + groupSize - 1) groupSize
  have h2 := Nat.mod_lt (size + groupSize - 1) hN
  rw [Nat.mul_comm] at h1
  omega

/-- The size of partition `k` when no partition starts beyond the payload: the
partition length for all but the last partition, the rest of the payload for the last. -/
theorem ringPartitionSize_covered (size groupSize k : Nat) (hN : 0 < groupSize)
    (hk : k < groupSize) (hcover : (groupSize - 1) * ringPartition size groupSize ≤ size) :
    ringPartitionSize size groupSize k
      = ((if k + 1 < groupSize then ringPartition size groupSize
          else size - (groupSize - 1) * ringPartition size groupSize : Nat) : Int) := by
  obtain ⟨m, rfl⟩ : ∃ m, groupSize = m + 1 := ⟨groupSize - 1, by omega⟩
  have hle := le_ringPartition_mul size (m + 1) hN
  simp only [Nat.add_sub_cancel] at hcover ⊢
  unfold ringPartitionSize
  generalize ringPartition size (m + 1) = P at hcover hle ⊢
  split_ifs with h
  · have h1 : P * (k + 1) ≤ P * m := Nat.mul_le_mul_left P (by omega)
    have h2 : (P : Int) * ((k : Int) + 1) ≤ (size : Int) := by
      have : P * (k + 1) ≤ size := by rw [Nat.mul_comm P m] at h1; omega
      exact_mod_cast this
    rw [min_eq_left]
    linarith
  · have hkm : k = m := by omega
    subst hkm
    have h2 : (size : Int) ≤ (P : Int) * ((k : Int) + 1) := by exact_mod_cast hle
    rw [min_eq_right (by linarith), Nat.cast_sub hcover]
    push_cast
    ring

theorem sum_covered_partitions (size P m : Nat) (hcover : m * P ≤ size) :
    ((List.range (m + 1)).map
      (fun k => if k + 1 < m + 1 then P else size - m * P)).sum = size := by
  rw [List.range_succ, List.map_append, List.sum_append]
  have h : (List.range m).map (fun k => if k + 1 < m + 1 then P else size - m * P)
      = (List.range m).map (fun _ => P) := by
    apply List.map_congr_left
    intro k hk
    rw [List.mem_range] at hk
    rw [if_pos (by omega)]
  rw [h]
  simp
  omega

/-! ## Properties of the execution of a group -/

theorem encodeUnsigned_succ (type_size n : Nat) :
    encodeUnsigned (type_size + 1) n = n % 256 :: encodeUnsigned type_size (n / 256) := by
  unfold encodeUnsigned
  rw [List.range_succ_eq_map, List.map_cons, List.map_map]
  congr 1
  · simp
  · apply List.map_congr_left
    intro i _
    simp only [Function.comp, Nat.succ_eq_add_one]
    rw [Nat.pow_succ, Nat.mul_comm, Nat.div_div_eq_div_mul]

theorem decode_encodeUnsigned (type_size n : Nat) :
    decodeUnsigned (encodeUnsigned type_size n) = n % 256 ^ type_size := by
  induction type_size generalizing n with
  | zero => simp [encodeUnsigned, decodeUnsigned, Nat.mod_one]
  | succ k ih =>
    rw [encodeUnsigned_succ]
    have h := ih (n / 256)
    unfold decodeUnsigned at h ⊢
    rw [List.foldr_cons, h, Nat.pow_succ, Nat.mul_comm (256 ^ k) 256, Nat.mod_mul]

theorem length_encodeUnsigned (type_size n : Nat) :
    (encodeUnsigned type_size n).length = type_size := by
  simp [encodeUnsigned]

theorem decode_encodeSizeT (n : Nat) (h : n < SIZE_MOD) : decodeSizeT (encodeSizeT n) = n := by
  have h1 := decode_encodeUnsigned SIZEOF_SIZE_T n
  have h2 : (256 : Nat) ^ SIZEOF_SIZE_T = SIZE_MOD := by norm_num [SIZEOF_SIZE_T, SIZE_MOD]
  rw [h2, Nat.mod_eq_of_lt h] at h1
  exact h1

theorem outBytes_nil (dst : Nat) : outBytes [] dst = [] := rfl

theorem outBytes_cons (p : Nat × List Nat) (rest : List (Nat × List Nat)) (dst : Nat) :
    outBytes (p :: rest) dst = (if p.1 = dst then p.2 else []) ++ outBytes rest dst := by
  unfold outBytes
  by_cases h : p.1 = dst
  · simp [List.filter_cons, h]
  · simp [List.filter_cons, h]

theorem outBytes_append (s1 s2 : List (Nat × List Nat)) (dst : Nat) :
    outBytes (s1 ++ s2) dst = outBytes s1 dst ++ outBytes s2 dst := by
  unfold outBytes
  rw [List.filter_append, List.map_append, List.flatten_append]

theorem sendAll_apply (channel : Nat → Nat → List Nat) (src : Nat)
    (sends : List (Nat × List Nat)) (a b : Nat) :
    sendAll channel src sends a b
      = if a = src then channel a b ++ outBytes sends b else channel a b := by
  induction sends generalizing channel with
  | nil => simp [sendAll, outBytes_nil]
  | cons p rest ih =>
    obtain ⟨dst, bytes⟩ := p
    rw [sendAll, ih, outBytes_cons]
    by_cases ha : a = src
    · by_cases hb : dst = b
      · simp [ha, hb]
      · have hb2 : ¬ b = dst := fun h => hb h.symm
        simp [ha, hb, hb2]
    · simp [ha]

theorem receiveBytes_nil (size : Nat) : receiveBytes [] size = none := by
  simp [receiveBytes]

theorem receiveBytes_append (value rest : List Nat) (size : Nat) (hsize : 0 < size)
    (h : value.length = size) : receiveBytes (value ++ rest) size = some (value, rest) := by
  unfold receiveBytes
  have hs : ¬ size = 0 := by omega
  simp only [hs, if_false, List.length_append]
  rw [if_neg (by omega), List.take_left' h, List.drop_left' h]

theorem read_nil (T : MPIType) : T.read [] = none := by
  cases T <;> simp [MPIType.read, receiveBytes_nil]

/-- A value that is written and read here is read back from the front of the bytes
available, which leaves the bytes behind it. -/
theorem read_back (T : MPIType) (value rest : List Nat) (h : T.ReadsBack value) :
    T.read (value ++ rest) = some (value, rest) := by
  cases T with
  | scalar type_size =>
    obtain ⟨hpos, hlen⟩ := h
    exact receiveBytes_append value rest type_size hpos hlen
  | vector type_size =>
    obtain ⟨elements, hne, hpos, helem, hfit, rfl⟩ := h
    have hcount : elements.length < SIZE_MOD := by
      have : elements.length * 1 ≤ elements.length * type_size :=
        Nat.mul_le_mul_left _ hpos
      omega
    have hflat := flatten_length_of_scalars type_size elements helem
    have hlenpos : 0 < elements.length := List.length_pos.2 hne
    have hpayload : 0 < elements.length * type_size := Nat.mul_pos hlenpos hpos
    simp only [MPIType.read, vectorValue, List.append_assoc]
    rw [receiveBytes_append _ _ SIZEOF_SIZE_T (by decide) (by simp [encodeSizeT])]
    dsimp only
    rw [decode_encodeSizeT _ hcount, Nat.mul_comm type_size, Nat.mod_eq_of_lt hfit,
      receiveBytes_append _ _ _ hpayload hflat]
  | fakeVector type_size count =>
    obtain ⟨hpos, hfit, rfl⟩ := h
    have hfit64 : count * type_size < SIZE_MOD :=
      Nat.lt_trans hfit (by decide : UINT32_MOD < SIZE_MOD)
    simp only [MPIType.read, fakeVectorValue, List.append_assoc]
    rw [receiveBytes_append _ _ SIZEOF_SIZE_T (by decide) (by simp [encodeSizeT])]
    dsimp only
    rw [Nat.mod_eq_of_lt hfit64, Nat.mod_eq_of_lt hfit,
      receiveBytes_append _ _ _ hpos (by simp [fakePacket])]

theorem readsBack_ne_nil (T : MPIType) (value : List Nat) (h : T.ReadsBack value) :
    value ≠ [] := by
  intro hnil
  have := read_back T value [] h
  rw [hnil, List.append_nil, read_nil] at this
  cases this

theorem packets_flatten (T : MPIType) (value : List Nat) : (T.packets value).flatten = value := by
  cases T with
  | scalar type_size => simp [MPIType.packets]
  | vector type_size => simp [MPIType.packets]
  | fakeVector type_size count => simp [MPIType.packets]

theorem outBytes_Send (c : MPICommunicator) (T : MPIType) (rank : Nat) (data : List Nat)
    (b : Nat) : outBytes (c.Send T rank data) b = if rank = b then data else [] := by
  unfold MPICommunicator.Send outBytes
  by_cases h : rank = b
  · rw [if_pos h]
    have : (List.map (fun packet => (rank, packet)) (T.packets data)).filter
        (fun p => decide (p.1 = b)) = List.map (fun packet => (rank, packet)) (T.packets data) := by
      rw [List.filter_eq_self]
      intro p hp
      obtain ⟨packet, -, rfl⟩ := List.mem_map.1 hp
      simpa using h
    rw [this, List.map_map]
    have hid : ((fun p : Nat × List Nat => p.2) ∘ fun packet => (rank, packet)) = id := rfl
    rw [hid, List.map_id, packets_flatten]
  · rw [if_neg h]
    have : (List.map (fun packet => (rank, packet)) (T.packets data)).filter
        (fun p => decide (p.1 = b)) = [] := by
      rw [List.filter_eq_nil_iff]
      intro p hp
      obtain ⟨packet, -, rfl⟩ := List.mem_map.1 hp
      simpa using h
    rw [this]
    rfl

theorem outBytes_flatMap_Send (c : MPICommunicator) (T : MPIType) (l : List Nat)
    (f : Nat → List Nat) (b : Nat) (hnodup : l.Nodup) :
    outBytes (l.flatMap (fun rank => c.Send T rank (f rank))) b
      = if b ∈ l then f b else [] := by
  induction l with
  | nil => rfl
  | cons x xs ih =>
    rw [List.nodup_cons] at hnodup
    rw [List.flatMap_cons, outBytes_append, outBytes_Send, ih hnodup.2]
    by_cases hx : x = b
    · subst hx
      simp [hnodup.1]
    · have hx2 : ¬ b = x := fun h => hx h.symm
      simp [hx, hx2]

theorem receiveOne_some (channel : Nat → Nat → List Nat) (src dst : Nat) (T : MPIType)
    (value : List Nat) (channel1 : Nat → Nat → List Nat)
    (h : receiveOne channel src dst T = some (value, channel1)) :
    T.read (channel src dst) = some (value, channel1 src dst) ∧
      ∀ a b, ¬ (a = src ∧ b = dst) → channel1 a b = channel a b := by
  unfold receiveOne at h
  rcases hr : T.read (channel src dst) with _ | ⟨value1, rest⟩
  · rw [hr] at h
    cases h
  · rw [hr] at h
    simp only [Option.some.injEq, Prod.mk.injEq] at h
    obtain ⟨h1, h2⟩ := h
    subst h1
    constructor
    · rw [← h2]
      simp
    · intro a b hab
      rw [← h2]
      simp only [if_neg hab]

theorem receiveOne_readsBack (channel : Nat → Nat → List Nat) (src dst : Nat) (T : MPIType)
    (msg rest : List Nat) (hch : channel src dst = msg ++ rest) (h : T.ReadsBack msg) :
    receiveOne channel src dst T
      = some (msg, fun a b => if a = src ∧ b = dst then rest else channel a b) := by
  unfold receiveOne
  rw [hch, read_back T msg rest h]

theorem receiveAll_nonempty (dst : Nat) (recvs : List (Nat × MPIType))
    (channel : Nat → Nat → List Nat) (r : List (List Nat) × (Nat → Nat → List Nat))
    (hnodup : (recvs.map (fun p => p.1)).Nodup)
    (h : receiveAll channel dst recvs = some r) :
    ∀ p ∈ recvs, channel p.1 dst ≠ [] := by
  induction recvs generalizing channel r with
  | nil =>
    intro p hp
    cases hp
  | cons q rest ih =>
    obtain ⟨src, T⟩ := q
    rw [List.map_cons, List.nodup_cons] at hnodup
    obtain ⟨hsrc, hnodup1⟩ := hnodup
    rw [receiveAll] at h
    rcases h1 : receiveOne channel src dst T with _ | ⟨value, channel1⟩
    · rw [h1] at h
      cases h
    · rw [h1] at h
      dsimp only at h
      obtain ⟨hread, hsame⟩ := receiveOne_some channel src dst T value channel1 h1
      rcases h2 : receiveAll channel1 dst rest with _ | r1
      · rw [h2] at h
        cases h
      · intro p hp
        rcases List.mem_cons.1 hp with rfl | hp
        · intro hnil
          rw [hnil, read_nil] at hread
          cases hread
        · rw [← hsame p.1 dst (by
            rintro ⟨hp1, -⟩
            exact hsrc (List.mem_map.2 ⟨p, hp, hp1⟩))]
          exact ih channel1 r1 hnodup1 h2 p hp

theorem receiveAll_readsBack (dst : Nat) (recvs : List (Nat × MPIType))
    (channel : Nat → Nat → List Nat) (msg rest : Nat → List Nat)
    (hnodup : (recvs.map (fun p => p.1)).Nodup)
    (h : ∀ p ∈ recvs, channel p.1 dst = msg p.1 ++ rest p.1 ∧ p.2.ReadsBack (msg p.1)) :
    ∃ channel2, receiveAll channel dst recvs = some (recvs.map (fun p => msg p.1), channel2) ∧
      (∀ p ∈ recvs, channel2 p.1 dst = rest p.1) ∧
      ∀ a b, (b ≠ dst ∨ a ∉ recvs.map (fun p => p.1)) → channel2 a b = channel a b := by
  induction recvs generalizing channel with
  | nil =>
    refine ⟨channel, rfl, ?_, fun _ _ _ => rfl⟩
    intro p hp
    cases hp
  | cons q tail ih =>
    obtain ⟨src, T⟩ := q
    rw [List.map_cons, List.nodup_cons] at hnodup
    obtain ⟨hsrc, hnodup1⟩ := hnodup
    obtain ⟨hch, hT⟩ := h (src, T) (List.mem_cons_self _ _)
    have h1 := receiveOne_readsBack channel src dst T (msg src) (rest src) hch hT
    obtain ⟨channel2, h2, h3, h4⟩ := ih
      (fun a b => if a = src ∧ b = dst then rest src else channel a b) hnodup1
      (fun p hp => by
        have hne : ¬ (p.1 = src ∧ dst = dst) := by
          rintro ⟨hp1, -⟩
          exact hsrc (List.mem_map.2 ⟨p, hp, hp1⟩)
        have hp2 := h p (List.mem_cons_of_mem _ hp)
        refine ⟨?_, hp2.2⟩
        show (if p.1 = src ∧ dst = dst then rest src else channel p.1 dst) = _
        rw [if_neg hne]
        exact hp2.1)
    refine ⟨channel2, ?_, ?_, ?_⟩
    · rw [receiveAll, h1]
      dsimp only
      rw [h2]
      rfl
    · intro p hp
      rcases List.mem_cons.1 hp with rfl | hp
      · rw [h4 _ _ (Or.inr hsrc)]
        simp
      · exact h3 p hp
    · intro a b hab
      have h5 : b ≠ dst ∨ a ∉ tail.map (fun p => p.1) := by
        rcases hab with hb | ha
        · exact Or.inl hb
        · exact Or.inr (fun hm => ha (List.mem_cons_of_mem _ hm))
      rw [h4 a b h5]
      have hne : ¬ (a = src ∧ b = dst) := by
        rintro ⟨ha1, hb1⟩
        rcases hab with hb | ha
        · exact hb hb1
        · exact ha (by rw [ha1]; exact List.mem_cons_self _ _)
      simp only [if_neg hne]

theorem pending_empty {α : Type} (prog : Nat → Collective α) (a b lo hi : Nat)
    (h : hi ≤ lo) : pending prog a b lo hi = [] := by
  unfold pending
  rw [Nat.sub_eq_zero_of_le h]
  rfl

theorem pending_succ_right {α : Type} (prog : Nat → Collective α) (a b lo hi : Nat)
    (h : lo ≤ hi) :
    pending prog a b lo (hi + 1) = pending prog a b lo hi ++ message prog hi a b := by
  unfold pending
  have h1 : hi + 1 - lo = (hi - lo) + 1 := by omega
  rw [h1, List.range_succ, List.map_append, List.flatten_append]
  have h2 : lo + (hi - lo) = hi := by omega
  simp [h2]

theorem pending_succ_left {α : Type} (prog : Nat → Collective α) (a b lo hi : Nat)
    (h : lo < hi) :
    pending prog a b lo hi = message prog lo a b ++ pending prog a b (lo + 1) hi := by
  unfold pending
  have h1 : hi - lo = (hi - (lo + 1)) + 1 := by omega
  rw [h1, List.range_succ_eq_map, List.map_cons, List.flatten_cons, List.map_map]
  congr 2
  apply List.map_congr_left
  intro i _
  simp only [Function.comp, Nat.succ_eq_add_one]
  congr 1
  omega

theorem pending_skip {α : Type} (prog : Nat → Collective α) (a b lo hi : Nat)
    (h : message prog lo a b = []) :
    pending prog a b lo hi = pending prog a b (lo + 1) hi := by
  by_cases hlt : lo < hi
  · rw [pending_succ_left prog a b lo hi hlt, h, List.nil_append]
  · rw [pending_empty prog a b lo hi (by omega), pending_empty prog a b (lo + 1) hi (by omega)]

theorem lockstep_succ {α : Type} (prog : Nat → Collective α) (j b : Nat) :
    lockstep prog (j + 1) b
      = (lockstep prog j b).after
          ((lockstep prog j b).recvs.map (fun p => message prog j p.1 b)) := rfl

theorem init_inv {α : Type} (group : List Nat) (prog : Nat → Collective α) :
    WorldInv group prog (World.init prog) := by
  refine ⟨fun b _ => rfl, fun a _ b _ => ⟨?_, ?_⟩⟩
  · simp [World.init, pending, RankState.sent]
  · intro k _ hk
    simp [World.init] at hk

theorem start_inv {α : Type} (group : List Nat) (prog : Nat → Collective α) (w : World α)
    (r : Nat) (sends : List (Nat × List Nat)) (recvs : List (Nat × MPIType))
    (next : List (List Nat) → Collective α) (hinv : WorldInv group prog w) (hr : r ∈ group)
    (hp : (w.rank r).program = .phase sends recvs next)
    (hs : (w.rank r).started = false) :
    WorldInv group prog
      { channel := sendAll w.channel r sends
        rank := Function.update w.rank r { (w.rank r) with started := true } } := by
  obtain ⟨h1, h2⟩ := hinv
  have hmsg : ∀ b, outBytes sends b = message prog (w.rank r).phase r b := by
    intro b
    unfold message
    rw [← h1 r hr, hp]
    rfl
  have hphase : ∀ b, ((Function.update w.rank r { (w.rank r) with started := true }) b).phase
      = (w.rank b).phase := by
    intro b
    by_cases hbr : b = r
    · subst hbr
      rw [Function.update_same]
    · rw [Function.update_noteq hbr]
  have hprogram : ∀ b,
      ((Function.update w.rank r { (w.rank r) with started := true }) b).program
        = (w.rank b).program := by
    intro b
    by_cases hbr : b = r
    · subst hbr
      rw [Function.update_same]
    · rw [Function.update_noteq hbr]
  have hsentr : (w.rank r).sent = (w.rank r).phase := by
    simp [RankState.sent, hs]
  refine ⟨?_, ?_⟩
  · intro b hb
    dsimp only
    rw [hprogram, hphase]
    exact h1 b hb
  · intro a ha b hb
    dsimp only
    rw [hphase, sendAll_apply]
    obtain ⟨h3, h4⟩ := h2 a ha b hb
    by_cases har : a = r
    · subst har
      rw [if_pos rfl, Function.update_same]
      have hsent : RankState.sent { (w.rank a) with started := true } = (w.rank a).phase + 1 := by
        simp [RankState.sent]
      rw [hsent, hmsg, h3, hsentr]
      constructor
      · by_cases hle : (w.rank b).phase ≤ (w.rank a).phase
        · rw [pending_succ_right _ _ _ _ _ hle]
        · rw [h4 (w.rank a).phase (by omega) (by omega), List.append_nil,
            pending_empty _ _ _ _ _ (by omega), pending_empty _ _ _ _ _ (by omega)]
      · intro k hk1 hk2
        exact h4 k (by omega) hk2
    · rw [if_neg har, Function.update_noteq har]
      exact ⟨h3, h4⟩

theorem complete_inv {α : Type} (group : List Nat) (prog : Nat → Collective α) (w : World α)
    (r : Nat) (sends : List (Nat × List Nat)) (recvs : List (Nat × MPIType))
    (next : List (List Nat) → Collective α) (received : List (List Nat))
    (channel : Nat → Nat → List Nat)
    (hmatched : ∀ j, Matched group (lockstep prog j))
    (hinv : WorldInv group prog w) (hr : r ∈ group)
    (hp : (w.rank r).program = .phase sends recvs next)
    (hs : (w.rank r).started = true)
    (hrecv : receiveAll w.channel r recvs = some (received, channel)) :
    WorldInv group prog
      { channel := channel
        rank := Function.update w.rank r
          { phase := (w.rank r).phase + 1, started := false, program := next received } } := by
  obtain ⟨h1, h2⟩ := hinv
  have hj := h1 r hr
  rw [hp] at hj
  have hrecvs : (lockstep prog (w.rank r).phase r).recvs = recvs := by rw [← hj]; rfl
  obtain ⟨hm1, hm2, hm3⟩ := hmatched (w.rank r).phase r hr
  rw [hrecvs] at hm1 hm2 hm3
  have hnonempty := receiveAll_nonempty r recvs w.channel (received, channel) hm1 hrecv
  have hsentr : (w.rank r).sent = (w.rank r).phase + 1 := by
    simp [RankState.sent, hs]
  -- a source has started the phase, and its message is at the front of its channel
  have hsrc : ∀ p ∈ recvs, (w.rank r).phase < (w.rank p.1).sent ∧
      w.channel p.1 r = message prog (w.rank r).phase p.1 r
        ++ pending prog p.1 r ((w.rank r).phase + 1) (w.rank p.1).sent := by
    intro p hp
    obtain ⟨hg, -⟩ := hm2 p hp
    obtain ⟨h3, -⟩ := h2 p.1 hg r hr
    have hlt : (w.rank r).phase < (w.rank p.1).sent := by
      by_contra hcon
      exact hnonempty p hp (by rw [h3, pending_empty _ _ _ _ _ (by omega)])
    exact ⟨hlt, by rw [h3, pending_succ_left _ _ _ _ _ hlt]⟩
  obtain ⟨channel2, hall, hc1, hc2⟩ := receiveAll_readsBack r recvs w.channel
    (fun a => message prog (w.rank r).phase a r)
    (fun a => pending prog a r ((w.rank r).phase + 1) (w.rank a).sent) hm1
    (fun p hp => ⟨(hsrc p hp).2, (hm2 p hp).2⟩)
  rw [hrecv] at hall
  simp only [Option.some.injEq, Prod.mk.injEq] at hall
  obtain ⟨hv, hch⟩ := hall
  subst hch
  have hnext : next received = lockstep prog ((w.rank r).phase + 1) r := by
    rw [lockstep_succ, ← hj, hv]
    rfl
  have hsent : ∀ a, ((Function.update w.rank r
      { phase := (w.rank r).phase + 1, started := false, program := next received }) a).sent
      = (w.rank a).sent := by
    intro a
    by_cases har : a = r
    · subst har
      rw [Function.update_same, hsentr]
      simp [RankState.sent]
    · rw [Function.update_noteq har]
  refine ⟨?_, ?_⟩
  · intro b hb
    dsimp only
    by_cases hbr : b = r
    · subst hbr
      rw [Function.update_same]
      exact hnext
    · rw [Function.update_noteq hbr]
      exact h1 b hb
  · intro a ha b hb
    dsimp only
    rw [hsent]
    obtain ⟨h3, h4⟩ := h2 a ha b hb
    by_cases hbr : b = r
    · subst hbr
      rw [Function.update_same]
      dsimp only
      by_cases hmem : a ∈ recvs.map (fun p => p.1)
      · obtain ⟨p, hp, rfl⟩ := List.mem_map.1 hmem
        obtain ⟨hlt, -⟩ := hsrc p hp
        refine ⟨?_, ?_⟩
        · rw [hc1 p hp]
        · intro k hk1 hk2
          exact h4 k hk1 (by omega)
      · have hnone : message prog (w.rank b).phase a b = [] := by
          by_contra hcon
          exact hmem (hm3 a ha hcon)
        refine ⟨?_, ?_⟩
        · rw [hc2 a b (Or.inr hmem), h3, pending_skip _ _ _ _ _ hnone]
        · intro k hk1 hk2
          by_cases hk : k = (w.rank b).phase
          · rw [hk]
            exact hnone
          · exact h4 k hk1 (by omega)
    · rw [Function.update_noteq hbr, hc2 a b (Or.inl hbr)]
      exact ⟨h3, h4⟩

theorem step_world_inv {α : Type} (group : List Nat) (prog : Nat → Collective α)
    (hmatched : ∀ j, Matched group (lockstep prog j)) (w : World α) (r : Nat)
    (hinv : WorldInv group prog w) (hr : r ∈ group) : WorldInv group prog (w.step r) := by
  unfold World.step
  rcases hp : (w.rank r).program with x | _ | ⟨sends, recvs, next⟩
  · exact hinv
  · exact hinv
  · dsimp only
    by_cases hs : (w.rank r).started = true
    · rw [if_pos hs]
      rcases hrecv : receiveAll w.channel r recvs with _ | ⟨received, channel⟩
      · exact hinv
      · exact complete_inv group prog w r sends recvs next received channel hmatched hinv hr
          hp hs hrecv
    · rw [if_neg hs]
      exact start_inv group prog w r sends recvs next hinv hr hp (by simpa using hs)

theorem run_world_inv {α : Type} (group : List Nat) (prog : Nat → Collective α)
    (hmatched : ∀ j, Matched group (lockstep prog j)) (schedule : List Nat) (w : World α)
    (hinv : WorldInv group prog w) (hsched : ∀ r ∈ schedule, r ∈ group) :
    WorldInv group prog (w.run schedule) := by
  induction schedule generalizing w with
  | nil => exact hinv
  | cons r rest ih =>
    exact ih (w.step r)
      (step_world_inv group prog hmatched w r hinv (hsched r (List.mem_cons_self _ _)))
      (fun x hx => hsched x (List.mem_cons_of_mem _ hx))

theorem lockstep_stable {α : Type} (prog : Nat → Collective α) (j b : Nat)
    (h : ∀ received, (lockstep prog j b).after received = lockstep prog j b) (k : Nat) :
    lockstep prog (j + k) b = lockstep prog j b := by
  induction k with
  | zero => rfl
  | succ k ih =>
    rw [← Nat.add_assoc, lockstep_succ, ih, h]

theorem lockstep_done_stable {α : Type} (prog : Nat → Collective α) (j b : Nat) (x : α)
    (h : lockstep prog j b = .done x) (k : Nat) : lockstep prog (j + k) b = .done x := by
  rw [lockstep_stable prog j b (by rw [h]; intro received; rfl) k, h]

theorem lockstep_done_unique {α : Type} (prog : Nat → Collective α) (j P b : Nat) (x y : α)
    (hx : lockstep prog j b = .done x) (hy : lockstep prog P b = .done y) : x = y := by
  have h1 := lockstep_done_stable prog j b x hx P
  have h2 := lockstep_done_stable prog P b y hy j
  rw [Nat.add_comm] at h2
  rw [h1] at h2
  cases h2
  rfl

theorem lockstep_not_failed {α : Type} (prog : Nat → Collective α) (j P b : Nat) (y : α)
    (hx : lockstep prog j b = .failed) (hy : lockstep prog P b = .done y) : False := by
  have h1 := lockstep_stable prog j b (by rw [hx]; intro received; rfl) P
  have h2 := lockstep_done_stable prog P b y hy j
  rw [Nat.add_comm] at h2
  rw [h1, hx] at h2
  cases h2

theorem ahead_step {α : Type} (w : World α) (n b r : Nat) (h : w.ahead n b) :
    (w.step r).ahead n b := by
  unfold World.step
  rcases hp : (w.rank r).program with x | _ | ⟨sends, recvs, next⟩
  · exact h
  · exact h
  · dsimp only
    by_cases hbr : b = r
    · subst hbr
      rcases h with ⟨x, hx⟩ | h
      · rw [hp] at hx
        cases hx
      · right
        unfold RankState.progress at h ⊢
        by_cases hs : (w.rank b).started = true
        · rw [if_pos hs]
          rcases receiveAll w.channel b recvs with _ | ⟨received, channel⟩
          · exact h
          · dsimp only
            rw [Function.update_same]
            dsimp only
            simp only [hs, if_true] at h
            omega
        · rw [if_neg hs]
          dsimp only
          rw [Function.update_same]
          dsimp only
          simp only [hs] at h
          simp only [if_true]
          simp at h
          omega
    · have hsame : ((w.step r).rank b) = w.rank b := by
        unfold World.step
        rw [hp]
        dsimp only
        split_ifs
        · rcases receiveAll w.channel r recvs with _ | ⟨received, channel⟩
          · rfl
          · exact Function.update_noteq hbr _ _
        · exact Function.update_noteq hbr _ _
      unfold World.step at hsame
      rw [hp] at hsame
      dsimp only at hsame
      unfold World.ahead at h ⊢
      rw [hsame]
      exact h

theorem ahead_run {α : Type} (schedule : List Nat) (w : World α) (n b : Nat)
    (h : w.ahead n b) : (w.run schedule).ahead n b := by
  induction schedule generalizing w with
  | nil => exact h
  | cons r rest ih => exact ih (w.step r) (ahead_step w n b r h)

theorem ahead_own_step {α : Type} (group : List Nat) (prog : Nat → Collective α) (P : Nat)
    (hmatched : ∀ j, Matched group (lockstep prog j))
    (hdone : ∀ b ∈ group, ∃ x, lockstep prog P b = .done x)
    (w : World α) (n b : Nat) (hinv : WorldInv group prog w) (hb : b ∈ group)
    (hall : ∀ a ∈ group, w.ahead n a) : (w.step b).ahead (n + 1) b := by
  by_cases hbig : w.ahead (n + 1) b
  · exact ahead_step w (n + 1) b b hbig
  obtain ⟨h1, h2⟩ := hinv
  have hj := h1 b hb
  have hn : (w.rank b).progress = n := by
    rcases hall b hb with hx | h
    · exact absurd (Or.inl hx) hbig
    · have : ¬ n + 1 ≤ (w.rank b).progress := fun hle => hbig (Or.inr hle)
      omega
  unfold World.step
  rcases hp : (w.rank b).program with x | _ | ⟨sends, recvs, next⟩
  · exact Or.inl ⟨x, hp⟩
  · exfalso
    obtain ⟨y, hy⟩ := hdone b hb
    rw [hp] at hj
    exact lockstep_not_failed prog _ P b y hj.symm hy
  · dsimp only
    unfold RankState.progress at hn
    by_cases hs : (w.rank b).started = true
    · rw [if_pos hs]
      simp only [hs, if_true] at hn
      rw [hp] at hj
      have hrecvs : (lockstep prog (w.rank b).phase b).recvs = recvs := by rw [← hj]; rfl
      obtain ⟨hm1, hm2, -⟩ := hmatched (w.rank b).phase b hb
      rw [hrecvs] at hm1 hm2
      have hready : ∀ p ∈ recvs,
          w.channel p.1 b = message prog (w.rank b).phase p.1 b
            ++ pending prog p.1 b ((w.rank b).phase + 1) (w.rank p.1).sent ∧
          p.2.ReadsBack (message prog (w.rank b).phase p.1 b) := by
        intro p hp
        obtain ⟨hg, hread⟩ := hm2 p hp
        obtain ⟨h3, -⟩ := h2 p.1 hg b hb
        have hlt : (w.rank b).phase < (w.rank p.1).sent := by
          rcases hall p.1 hg with ⟨x, hx⟩ | h
          · by_contra hcon
            have hle : (w.rank p.1).phase ≤ (w.rank b).phase := by
              unfold RankState.sent at hcon
              omega
            have hst := lockstep_done_stable prog (w.rank p.1).phase p.1 x
              ((h1 p.1 hg).symm.trans hx) ((w.rank b).phase - (w.rank p.1).phase)
            rw [Nat.add_sub_cancel' hle] at hst
            rw [hst] at hread
            exact readsBack_ne_nil _ _ hread rfl
          · unfold RankState.progress at h
            unfold RankState.sent
            split_ifs at h ⊢ <;> omega
        exact ⟨by rw [h3, pending_succ_left _ _ _ _ _ hlt], hread⟩
      obtain ⟨channel, hr, -, -⟩ := receiveAll_readsBack b recvs w.channel
        (fun a => message prog (w.rank b).phase a b)
        (fun a => pending prog a b ((w.rank b).phase + 1) (w.rank a).sent) hm1 hready
      rw [hr]
      right
      show n + 1 ≤ RankState.progress (Function.update w.rank b _ b)
      rw [Function.update_same]
      unfold RankState.progress
      dsimp only
      simp
      omega
    · rw [if_neg hs]
      right
      show n + 1 ≤ RankState.progress (Function.update w.rank b _ b)
      rw [Function.update_same]
      unfold RankState.progress
      dsimp only
      simp only [hs] at hn
      simp at hn ⊢
      omega

theorem ahead_pass {α : Type} (group : List Nat) (prog : Nat → Collective α) (P : Nat)
    (hmatched : ∀ j, Matched group (lockstep prog j))
    (hdone : ∀ b ∈ group, ∃ x, lockstep prog P b = .done x)
    (pass : List Nat) (w : World α) (n : Nat) (hinv : WorldInv group prog w)
    (hpass : ∀ r ∈ pass, r ∈ group) (hall : ∀ a ∈ group, w.ahead n a) :
    ∀ b ∈ pass, (w.run pass).ahead (n + 1) b := by
  induction pass generalizing w with
  | nil =>
    intro b hb
    cases hb
  | cons r rest ih =>
    intro b hb
    have hr := hpass r (List.mem_cons_self _ _)
    by_cases hbr : b ∈ rest
    · exact ih (w.step r) (step_world_inv group prog hmatched w r hinv hr)
        (fun x hx => hpass x (List.mem_cons_of_mem _ hx))
        (fun a ha => ahead_step w n a r (hall a ha)) b hbr
    · have hbeq : b = r := by
        rcases List.mem_cons.1 hb with h | h
        · exact h
        · exact absurd h hbr
      subst hbeq
      exact ahead_run rest (w.step b) (n + 1) b
        (ahead_own_step group prog P hmatched hdone w n b hinv hr hall)

theorem run_append {α : Type} (w : World α) (l1 l2 : List Nat) :
    w.run (l1 ++ l2) = (w.run l1).run l2 := by
  unfold World.run
  rw [List.foldl_append]

theorem ahead_rounds {α : Type} (group : List Nat) (prog : Nat → Collective α) (P : Nat)
    (hmatched : ∀ j, Matched group (lockstep prog j))
    (hdone : ∀ b ∈ group, ∃ x, lockstep prog P b = .done x)
    (rounds : Nat) (w : World α) (n : Nat) (hinv : WorldInv group prog w)
    (hall : ∀ a ∈ group, w.ahead n a) :
    ∀ a ∈ group, (w.run (roundRobin group rounds)).ahead (n + rounds) a := by
  induction rounds generalizing w n with
  | zero => exact hall
  | succ k ih =>
    have hsplit : roundRobin group (k + 1) = group ++ roundRobin group k := by
      unfold roundRobin
      rw [List.replicate_succ, List.flatten_cons]
    rw [hsplit, run_append]
    have h := ih (w.run group) (n + 1)
      (run_world_inv group prog hmatched group w hinv (fun r hr => hr))
      (ahead_pass group prog P hmatched hdone group w n hinv (fun r hr => hr) hall)
    intro a ha
    have := h a ha
    rw [Nat.add_assoc, Nat.add_comm 1 k] at this
    exact this

/-- The execution of a group against the reference execution in rounds: when every
round is matched and the reference execution has all ranks return within `P` rounds,
then in every execution a rank that has returned has the result of the reference
execution, and after any execution, `2 * P` more turns of every rank make every rank
return. -/
theorem execution_follows_rounds {α : Type} (group : List Nat) (prog : Nat → Collective α)
    (P : Nat) (hmatched : ∀ j, Matched group (lockstep prog j))
    (hdone : ∀ b ∈ group, ∃ x, lockstep prog P b = .done x)
    (schedule : List Nat) (hsched : ∀ r ∈ schedule, r ∈ group) (b : Nat) (hb : b ∈ group) :
    (∀ x, ((World.init prog).run schedule).result b = some x →
        lockstep prog P b = .done x) ∧
      ∃ x, lockstep prog P b = .done x ∧
        ((World.init prog).run (schedule ++ roundRobin group (2 * P))).result b = some x := by
  have hinv := run_world_inv group prog hmatched schedule (World.init prog)
    (init_inv group prog) hsched
  obtain ⟨y, hy⟩ := hdone b hb
  constructor
  · intro x hx
    unfold World.result at hx
    rcases hp : (((World.init prog).run schedule).rank b).program with z | _ | ⟨s, r, nx⟩
    · rw [hp] at hx
      simp only [Option.some.injEq] at hx
      subst hx
      have := lockstep_done_unique prog _ P b z y ((hinv.1 b hb).symm.trans hp) hy
      rw [this]
      exact hy
    · rw [hp] at hx
      cases hx
    · rw [hp] at hx
      cases hx
  · refine ⟨y, hy, ?_⟩
    rw [run_append]
    have hahead := ahead_rounds group prog P hmatched hdone (2 * P)
      ((World.init prog).run schedule) 0 hinv (fun a _ => Or.inr (Nat.zero_le _)) b hb
    have hinv2 := run_world_inv group prog hmatched (roundRobin group (2 * P))
      ((World.init prog).run schedule) hinv (by
        intro r hr
        unfold roundRobin at hr
        rw [List.mem_flatten] at hr
        obtain ⟨l, hl, hrl⟩ := hr
        rw [List.eq_of_mem_replicate hl] at hrl
        exact hrl)
    generalize ((World.init prog).run schedule).run (roundRobin group (2 * P)) = w2
      at hahead hinv2
    have hprog := hinv2.1 b hb
    unfold World.result
    rcases hahead with ⟨x, hx⟩ | hle
    · rw [hx]
      rw [hx] at hprog
      rw [lockstep_done_unique prog _ P b x y hprog.symm hy]
    · unfold RankState.progress at hle
      have hge : P ≤ (w2.rank b).phase := by
        split_ifs at hle <;> omega
      have hst := lockstep_done_stable prog P b y hy ((w2.rank b).phase - P)
      rw [Nat.add_sub_cancel' hge] at hst
      rw [hprog, hst]

theorem matched_of_done {α : Type} (group : List Nat) (prog : Nat → Collective α) (P : Nat)
    (hmatched : ∀ j, j < P → Matched group (lockstep prog j))
    (hdone : ∀ b ∈ group, ∃ x, lockstep prog P b = .done x) :
    ∀ j, Matched group (lockstep prog j) := by
  intro j
  by_cases hj : j < P
  · exact hmatched j hj
  · have hst : ∀ b ∈ group, ∃ x, lockstep prog j b = .done x := by
      intro b hb
      obtain ⟨x, hx⟩ := hdone b hb
      have := lockstep_done_stable prog P b x hx (j - P)
      rw [Nat.add_sub_cancel' (by omega)] at this
      exact ⟨x, this⟩
    intro b hb
    obtain ⟨x, hx⟩ := hst b hb
    rw [hx]
    refine ⟨List.nodup_nil, fun p hp => ?_, ?_⟩
    · cases hp
    intro a ha hne
    obtain ⟨y, hy⟩ := hst a ha
    rw [hy] at hne
    exact absurd rfl hne

/-- An operation of one phase: when the phase is matched and every rank returns after
it, then in every execution a rank that has returned has the result of the phase, and
after any execution two more turns of every rank make every rank return. -/
theorem one_phase_execution {α : Type} (group : List Nat) (prog : Nat → Collective α)
    (res : Nat → α) (hmatched : Matched group prog)
    (hres : ∀ b ∈ group, advance prog b = .done (res b))
    (schedule : List Nat) (hsched : ∀ r ∈ schedule, r ∈ group) (b : Nat) (hb : b ∈ group) :
    (∀ x, ((World.init prog).run schedule).result b = some x → x = res b) ∧
      ((World.init prog).run (schedule ++ roundRobin group 2)).result b = some (res b) := by
  have hdone : ∀ b ∈ group, ∃ x, lockstep prog 1 b = .done x := fun b hb => ⟨_, hres b hb⟩
  have hm := matched_of_done group prog 1
    (fun j hj => by
      have : j = 0 := by omega
      subst this
      exact hmatched) hdone
  obtain ⟨h1, x, h2, h3⟩ := execution_follows_rounds group prog 1 hm hdone schedule hsched b hb
  have hx : x = res b := by
    have := h2.symm.trans (hres b hb)
    cases this
    rfl
  subst hx
  refine ⟨fun y hy => ?_, h3⟩
  have := (h1 y hy).symm.trans (hres b hb)
  cases this
  rfl

/-! ## Properties of operations awaited together -/

theorem sends_phase {α : Type} (sends : List (Nat × List Nat)) (recvs : List (Nat × MPIType))
    (next : List (List Nat) → Collective α) :
    (Collective.phase sends recvs next).sends = sends := rfl

theorem recvs_phase {α : Type} (sends : List (Nat × List Nat)) (recvs : List (Nat × MPIType))
    (next : List (List Nat) → Collective α) :
    (Collective.phase sends recvs next).recvs = recvs := rfl

theorem after_phase {α : Type} (sends : List (Nat × List Nat)) (recvs : List (Nat × MPIType))
    (next : List (List Nat) → Collective α) (received : List (List Nat)) :
    (Collective.phase sends recvs next).after received = next received := rfl

theorem all_cons_phase {α : Type} (sends : List (Nat × List Nat)) (recvs : List (Nat × MPIType))
    (g : List (List Nat) → α) (rest : List (Collective α)) :
    Collective.all (.phase sends recvs (fun received => .done (g received)) :: rest)
      = .phase (sends ++ (Collective.all rest).sends) (recvs ++ (Collective.all rest).recvs)
          (fun received =>
            ((Collective.all rest).after (received.drop recvs.length)).map
              (fun results => g (received.take recvs.length) :: results)) := rfl

theorem all_phases {ι α : Type} (s : ι → List (Nat × List Nat)) (r : ι → List (Nat × MPIType))
    (g : ι → List (List Nat) → α) (l : List ι) :
    (Collective.all (l.map (fun i =>
        Collective.phase (s i) (r i) (fun received => .done (g i received))))).sends
        = l.flatMap s ∧
      (Collective.all (l.map (fun i =>
        Collective.phase (s i) (r i) (fun received => .done (g i received))))).recvs
        = l.flatMap r ∧
      ∀ received, (Collective.all (l.map (fun i =>
        Collective.phase (s i) (r i) (fun received => .done (g i received))))).after received
        = .done (splitReceived r g l received) := by
  induction l with
  | nil => exact ⟨rfl, rfl, fun _ => rfl⟩
  | cons i rest ih =>
    obtain ⟨h1, h2, h3⟩ := ih
    rw [List.map_cons, all_cons_phase]
    refine ⟨?_, ?_, ?_⟩
    · rw [sends_phase, h1, List.flatMap_cons]
    · rw [recvs_phase, h2, List.flatMap_cons]
    · intro received
      rw [after_phase, h3]
      rfl

theorem all_phases_cons {ι α : Type} (s : ι → List (Nat × List Nat))
    (r : ι → List (Nat × MPIType)) (g : ι → List (List Nat) → α) (l : List ι) (hl : l ≠ []) :
    Collective.all (l.map (fun i =>
        Collective.phase (s i) (r i) (fun received => .done (g i received))))
      = .phase (l.flatMap s) (l.flatMap r)
          (fun received => .done (splitReceived r g l received)) := by
  obtain ⟨h1, h2, h3⟩ := all_phases s r g l
  cases l with
  | nil => exact absurd rfl hl
  | cons i rest =>
    rw [List.map_cons, all_cons_phase] at h1 h2 h3 ⊢
    rw [sends_phase] at h1
    rw [recvs_phase] at h2
    rw [h1, h2]
    congr 1
    funext received
    exact h3 received

theorem lookup_zip_splitReceived {α : Type} (r : Nat → List (Nat × MPIType))
    (g : Nat → List (List Nat) → α) (c : Nat) (l : List Nat) (received : List (List Nat))
    (hc : c ∈ l) (hr : ∀ x ∈ l, x ≠ c → r x = []) :
    (l.zip (splitReceived r g l received)).lookup c
      = some (g c (received.take (r c).length)) := by
  induction l with
  | nil => cases hc
  | cons x xs ih =>
    rw [splitReceived, List.zip_cons_cons, List.lookup_cons]
    by_cases hcx : c = x
    · subst hcx
      simp
    · have hne : (c == x) = false := by simpa using hcx
      rw [hne]
      dsimp only
      rw [hr x (List.mem_cons_self _ _) (fun h => hcx h.symm)]
      simp only [List.length_nil, List.drop_zero]
      apply ih
      · rcases List.mem_cons.1 hc with h | h
        · exact absurd h hcx
        · exact h
      · intro y hy
        exact hr y (List.mem_cons_of_mem _ hy)

theorem flatMap_pick {β : Type} (c : Nat) (l : List Nat) (t : List β) (hnodup : l.Nodup)
    (hc : c ∈ l) : l.flatMap (fun x => if c = x then t else []) = t := by
  induction l with
  | nil => cases hc
  | cons x xs ih =>
    rw [List.nodup_cons] at hnodup
    rw [List.flatMap_cons]
    by_cases hcx : c = x
    · subst hcx
      rw [if_pos rfl]
      have : xs.flatMap (fun x => if c = x then t else []) = [] := by
        rw [List.flatMap_eq_nil_iff]
        intro y hy
        rw [if_neg]
        rintro rfl
        exact hnodup.1 hy
      rw [this, List.append_nil]
    · rw [if_neg hcx, List.nil_append]
      apply ih hnodup.2
      rcases List.mem_cons.1 hc with h | h
      · exact absurd h hcx
      · exact h

theorem flatMap_single {α β : Type} (l : List α) (f : α → β) :
    l.flatMap (fun x => [f x]) = l.map f := by
  induction l with
  | nil => rfl
  | cons x xs ih => rw [List.flatMap_cons, ih, List.map_cons, List.singleton_append]

theorem zip_map_self {α β : Type} (l : List α) (f : α → β) :
    l.zip (l.map f) = l.map (fun x => (x, f x)) := by
  induction l with
  | nil => rfl
  | cons x xs ih => rw [List.map_cons, List.zip_cons_cons, ih, List.map_cons]

theorem lockstep_zero {α : Type} (prog : Nat → Collective α) : lockstep prog 0 = prog := by
  unfold lockstep
  rfl

theorem entered_of_message {α : Type} (group : List Nat) (prog : Nat → Collective α)
    (w : World α) (a b : Nat) (hinv : WorldInv group prog w) (ha : a ∈ group)
    (hb : b ∈ group) (hphase : 0 < (w.rank b).phase) (hmsg : message prog 0 a b ≠ []) :
    w.entered a := by
  by_contra hcon
  unfold World.entered at hcon
  have hsent : (w.rank a).sent = 0 := by
    unfold RankState.sent
    have h1 : (w.rank a).started = false := by
      cases hs : (w.rank a).started
      · rfl
      · exact absurd (Or.inl hs) hcon
    have h2 : (w.rank a).phase = 0 := by
      by_contra h
      exact hcon (Or.inr (by omega))
    simp [h1, h2]
  exact hmsg ((hinv.2 a ha b hb).2 0 (by omega) hphase)

theorem pending_eq_nil {α : Type} (prog : Nat → Collective α) (a b lo hi : Nat)
    (h : ∀ k, lo ≤ k → message prog k a b = []) : pending prog a b lo hi = [] := by
  unfold pending
  rw [List.flatten_eq_nil_iff]
  intro l hl
  obtain ⟨i, -, rfl⟩ := List.mem_map.1 hl
  exact h (lo + i) (by omega)

/-! ## Rounds of the collective operations -/

/-- The round of a group in which every member `b` sends `d b` to every member and
awaits the value of every member is matched, and gives to `b` the values of the members
in the order of its sockets. -/
theorem allgather_round {α : Type} (group : List Nat) (comm : Nat → MPICommunicator)
    (T : MPIType) (d : Nat → List Nat) (c : Nat → Collective α)
    (next : Nat → List (List Nat) → Collective α) (hnodup : group.Nodup)
    (hcomm : ∀ r ∈ group, (comm r).rankID = r ∧ (comm r).sockets.Perm group)
    (hd : ∀ r ∈ group, T.ReadsBack (d r))
    (hshape : ∀ b ∈ group, c b
      = .phase ((comm b).sockets.flatMap (fun k => (comm b).Send T k (d b)))
          ((comm b).sockets.map (fun k => (k, T))) (next b)) :
    Matched group c ∧ ∀ b ∈ group, advance c b = next b ((comm b).sockets.map d) := by
  have hsends : ∀ b ∈ group, ∀ a ∈ group, outBytes (c a).sends b = d a := by
    intro b hb a ha
    rw [hshape a ha, sends_phase,
      outBytes_flatMap_Send _ T _ (fun _ => d a) _ ((hcomm a ha).2.nodup_iff.2 hnodup),
      if_pos ((hcomm a ha).2.symm.subset hb)]
  have hkeys : ∀ l : List Nat, l.map ((fun p : Nat × MPIType => p.1) ∘ fun k => (k, T))
      = l := by
    intro l
    have : ((fun p : Nat × MPIType => p.1) ∘ fun k => (k, T)) = id := rfl
    rw [this, List.map_id]
  constructor
  · intro b hb
    rw [hshape b hb, recvs_phase, List.map_map, hkeys]
    refine ⟨(hcomm b hb).2.nodup_iff.2 hnodup, ?_, ?_⟩
    · intro p hp
      obtain ⟨k, hk, rfl⟩ := List.mem_map.1 hp
      have hkg := (hcomm b hb).2.subset hk
      dsimp only
      rw [hsends b hb k hkg]
      exact ⟨hkg, hd k hkg⟩
    · intro a ha _
      exact (hcomm b hb).2.symm.subset ha
  · intro b hb
    unfold advance
    rw [hshape b hb, recvs_phase, after_phase, List.map_map]
    congr 1
    apply List.map_congr_left
    intro k hk
    simp only [Function.comp]
    exact hsends b hb k ((hcomm b hb).2.subset hk)

/-- The round of a group in which every member `b` sends `d b` to `root` and `root`
awaits the value of every member is matched, and gives to `root` the values of the
members in the order of its sockets. -/
theorem gather_round {α : Type} (group : List Nat) (comm : Nat → MPICommunicator)
    (T : MPIType) (root : Nat) (d : Nat → List Nat) (c : Nat → Collective α)
    (next : Nat → List (List Nat) → Collective α) (hnodup : group.Nodup)
    (hcomm : ∀ r ∈ group, (comm r).rankID = r ∧ (comm r).sockets.Perm group)
    (hd : ∀ r ∈ group, T.ReadsBack (d r))
    (hshape : ∀ b ∈ group, c b
      = .phase ((comm b).Send T root (d b))
          (if b = root then (comm b).sockets.map (fun k => (k, T)) else [])
          (next b)) :
    Matched group c ∧
      ∀ b ∈ group, advance c b = next b (if b = root then (comm b).sockets.map d else []) := by
  have hsends : ∀ b, ∀ a ∈ group, outBytes (c a).sends b = if root = b then d a else [] := by
    intro b a ha
    rw [hshape a ha, sends_phase, outBytes_Send]
  have hkeys : ∀ l : List Nat, l.map ((fun p : Nat × MPIType => p.1) ∘ fun k => (k, T))
      = l := by
    intro l
    have : ((fun p : Nat × MPIType => p.1) ∘ fun k => (k, T)) = id := rfl
    rw [this, List.map_id]
  constructor
  · intro b hb
    rw [hshape b hb, recvs_phase]
    by_cases hbr : b = root
    · subst hbr
      rw [if_pos rfl, List.map_map, hkeys]
      refine ⟨(hcomm b hb).2.nodup_iff.2 hnodup, ?_, ?_⟩
      · intro p hp
        obtain ⟨k, hk, rfl⟩ := List.mem_map.1 hp
        have hkg := (hcomm b hb).2.subset hk
        dsimp only
        rw [hsends b k hkg, if_pos rfl]
        exact ⟨hkg, hd k hkg⟩
      · intro a ha _
        exact (hcomm b hb).2.symm.subset ha
    · rw [if_neg hbr]
      refine ⟨List.nodup_nil, ?_, ?_⟩
      · intro p hp
        cases hp
      · intro a ha hne
        rw [hsends b a ha, if_neg (fun h => hbr h.symm)] at hne
        exact absurd rfl hne
  · intro b hb
    unfold advance
    rw [hshape b hb, recvs_phase, after_phase]
    by_cases hbr : b = root
    · subst hbr
      rw [if_pos rfl, if_pos rfl, List.map_map]
      congr 1
      apply List.map_congr_left
      intro k hk
      simp only [Function.comp]
      have := hsends b k ((hcomm b hb).2.subset hk)
      rw [if_pos rfl] at this
      exact this
    · rw [if_neg hbr, if_neg hbr]
      rfl

/-- The round of a group in which `root` sends `x` to every member and every member
awaits it is matched, and gives `x` to every member. -/
theorem broadcast_round {α : Type} (group : List Nat) (comm : Nat → MPICommunicator)
    (T : MPIType) (root : Nat) (x : List Nat) (c : Nat → Collective α)
    (next : Nat → List (List Nat) → Collective α) (hnodup : group.Nodup)
    (hcomm : ∀ r ∈ group, (comm r).rankID = r ∧ (comm r).sockets.Perm group)
    (hroot : root ∈ group) (hx : T.ReadsBack x)
    (hshape_root : c root
      = .phase ((comm root).sockets.flatMap (fun rank => (comm root).Send T rank x))
          [(root, T)] (next root))
    (hshape : ∀ b ∈ group, b ≠ root → c b = .phase [] [(root, T)] (next b)) :
    Matched group c ∧ ∀ b ∈ group, advance c b = next b [x] := by
  obtain ⟨hidroot, hpermroot⟩ := hcomm root hroot
  have hsends : ∀ b ∈ group, ∀ a ∈ group,
      outBytes (c a).sends b = if a = root then x else [] := by
    intro b hb a ha
    by_cases har : a = root
    · subst har
      rw [hshape_root, if_pos rfl]
      simp only [Collective.sends]
      rw [outBytes_flatMap_Send _ T _ (fun _ => x) _ (hpermroot.nodup_iff.2 hnodup),
        if_pos (hpermroot.symm.subset hb)]
    · rw [hshape a ha har, if_neg har]
      rfl
  have hrecvs : ∀ b ∈ group, (c b).recvs = [(root, T)] := by
    intro b hb
    by_cases hbr : b = root
    · subst hbr
      rw [hshape_root]
      rfl
    · rw [hshape b hb hbr]
      rfl
  have hafter : ∀ b ∈ group, ∀ received, (c b).after received = next b received := by
    intro b hb received
    by_cases hbr : b = root
    · subst hbr
      rw [hshape_root]
      rfl
    · rw [hshape b hb hbr]
      rfl
  constructor
  · intro b hb
    rw [hrecvs b hb]
    refine ⟨by simp, ?_, ?_⟩
    · intro p hp
      rw [List.mem_singleton] at hp
      subst hp
      dsimp only
      rw [hsends b hb root hroot, if_pos rfl]
      exact ⟨hroot, hx⟩
    · intro a ha hne
      rw [hsends b hb a ha] at hne
      by_cases har : a = root
      · simp [har]
      · rw [if_neg har] at hne
        exact absurd rfl hne
  · intro b hb
    unfold advance
    rw [hafter b hb, hrecvs b hb, List.map_cons, List.map_nil]
    dsimp only
    rw [hsends b hb root hroot, if_pos rfl]

/-! ## Properties of the collective operations -/

/-- `Gather` on values that are written and read here: in a group whose members `r` all
call `Gather(root, v r)`, in every execution a member that has returned has, at the root,
the map with the entry `(r, v r)` for every key `r` of its sockets, which are the members
of the group, one entry each, and elsewhere the empty map; and after any execution two
more turns of every member make every member return. -/
theorem gather_collects_every_value (group : List Nat) (comm : Nat → MPICommunicator)
    (T : MPIType) (root : Nat) (v : Nat → List Nat) (schedule : List Nat) (b : Nat)
    (hnodup : group.Nodup)
    (hcomm : ∀ r ∈ group, (comm r).rankID = r ∧ (comm r).sockets.Perm group)
    (hroot : root ∈ group) (hv : ∀ r ∈ group, T.ReadsBack (v r))
    (hsched : ∀ r ∈ schedule, r ∈ group) (hb : b ∈ group) :
    (∀ x, ((World.init (fun r => (comm r).Gather T root (v r))).run schedule).result b
          = some x →
        x = if b = root then (comm root).sockets.map (fun r => (r, v r)) else []) ∧
      ((World.init (fun r => (comm r).Gather T root (v r))).run
          (schedule ++ roundRobin group 2)).result b
        = some (if b = root then (comm root).sockets.map (fun r => (r, v r)) else []) ∧
      ((comm root).sockets.map (fun r => (r, v r))).Perm (group.map (fun r => (r, v r))) := by
  obtain ⟨hmatched, hres⟩ := gather_round group comm T root v
    (fun r => (comm r).Gather T root (v r))
    (fun b received => .done (if b = root then (comm b).sockets.zip received else []))
    hnodup hcomm hv
    (fun c hc => by
      dsimp only
      unfold MPICommunicator.Gather
      rw [(hcomm c hc).1])
  have hres2 : ∀ c ∈ group, advance (fun r => (comm r).Gather T root (v r)) c
      = .done (if c = root then (comm root).sockets.map (fun r => (r, v r)) else []) := by
    intro c hc
    rw [hres c hc]
    by_cases hcr : c = root
    · subst hcr
      rw [if_pos rfl, if_pos rfl, if_pos rfl, zip_map_self]
    · rw [if_neg hcr, if_neg hcr]
  obtain ⟨h1, h2⟩ := one_phase_execution group _ _ hmatched hres2 schedule hsched b hb
  exact ⟨h1, h2, ((hcomm root hroot).2).map _⟩

theorem gather_collects_every_value_witness :
    (∀ x, ((World.init (fun r => (testCommunicator r).Gather (.vector 4) 0
            (vectorValue [encodeUnsigned 4 (100 * (r + 1))]))).run [1, 0, 0]).result 0
          = some x →
        x = if 0 = 0 then (testCommunicator 0).sockets.map
            (fun r => (r, vectorValue [encodeUnsigned 4 (100 * (r + 1))])) else []) ∧
      ((World.init (fun r => (testCommunicator r).Gather (.vector 4) 0
            (vectorValue [encodeUnsigned 4 (100 * (r + 1))]))).run
          ([1, 0, 0] ++ roundRobin testGroup 2)).result 0
        = some (if 0 = 0 then (testCommunicator 0).sockets.map
            (fun r => (r, vectorValue [encodeUnsigned 4 (100 * (r + 1))])) else []) ∧
      ((testCommunicator 0).sockets.map
          (fun r => (r, vectorValue [encodeUnsigned 4 (100 * (r + 1))]))).Perm
        (testGroup.map (fun r => (r, vectorValue [encodeUnsigned 4 (100 * (r + 1))]))) :=
  gather_collects_every_value testGroup testCommunicator (.vector 4) 0
    (fun r => vectorValue [encodeUnsigned 4 (100 * (r + 1))]) [1, 0, 0] 0 (by decide)
    (fun r _ => ⟨rfl, (by decide : [2, 0, 1].Perm [0, 1, 2])⟩) (by decide)
    (fun r _ => ⟨[encodeUnsigned 4 (100 * (r + 1))], by simp, by decide,
      by simp [encodeUnsigned], by norm_num [SIZE_MOD], rfl⟩)
    (by decide) (by decide)

theorem flatten_map_eq_flatMap {α β : Type} (l : List α) (f : α → List β) :
    (l.map f).flatten = l.flatMap f := by
  induction l with
  | nil => rfl
  | cons x xs ih => rw [List.map_cons, List.flatten_cons, ih, List.flatMap_cons]

theorem scatter_at_root (c : MPICommunicator) (T : MPIType) (root : Nat)
    (data : List (Nat × List Nat)) (m : Nat → List Nat) (hroot : c.rankID = root)
    (hm : ∀ r ∈ c.sockets, data.lookup r = some (m r)) :
    c.Scatter T root data
      = .phase (c.sockets.flatMap (fun rank => c.Send T rank (m rank))) [(root, T)]
          (fun received => .done (received.headD [])) := by
  unfold MPICommunicator.Scatter
  rw [if_pos hroot, mapM_of_forall_some _ (fun rank => c.Send T rank (m rank)) c.sockets
    (fun r hr => by rw [hm r hr]; rfl)]
  dsimp only
  rw [flatten_map_eq_flatMap]

theorem scatter_elsewhere (c : MPICommunicator) (T : MPIType) (root : Nat)
    (data : List (Nat × List Nat)) (hroot : c.rankID ≠ root) :
    c.Scatter T root data
      = .phase [] [(root, T)] (fun received => .done (received.headD [])) := by
  unfold MPICommunicator.Scatter
  rw [if_neg hroot]

/-- `Scatter` on values that are written and read here: in a group whose members all call
`Scatter(root, ·)`, the root with a map that has the entry `m r` for every member `r` and
the others with any map, in every execution a member `b` that has returned has the result
`m b`; and after any execution two more turns of every member make every member
return. -/
theorem scatter_delivers_each_entry (group : List Nat) (comm : Nat → MPICommunicator)
    (T : MPIType) (root : Nat) (data : Nat → List (Nat × List Nat)) (m : Nat → List Nat)
    (schedule : List Nat) (b : Nat) (hnodup : group.Nodup)
    (hcomm : ∀ r ∈ group, (comm r).rankID = r ∧ (comm r).sockets.Perm group)
    (hroot : root ∈ group)
    (hm : ∀ r ∈ group, (data root).lookup r = some (m r) ∧ T.ReadsBack (m r))
    (hsched : ∀ r ∈ schedule, r ∈ group) (hb : b ∈ group) :
    (∀ x, ((World.init (fun r => (comm r).Scatter T root (data r))).run
          schedule).result b = some x → x = m b) ∧
      ((World.init (fun r => (comm r).Scatter T root (data r))).run
          (schedule ++ roundRobin group 2)).result b = some (m b) := by
  obtain ⟨hidroot, hpermroot⟩ := hcomm root hroot
  have hshape_root := scatter_at_root (comm root) T root (data root) m hidroot
    (fun r hr => (hm r (hpermroot.subset hr)).1)
  have hshape : ∀ c ∈ group, c ≠ root → (comm c).Scatter T root (data c)
      = .phase [] [(root, T)] (fun received => .done (received.headD [])) := by
    intro c hc hne
    exact scatter_elsewhere (comm c) T root (data c) (by rw [(hcomm c hc).1]; exact hne)
  have hsends : ∀ c ∈ group, ∀ a ∈ group,
      outBytes ((comm a).Scatter T root (data a)).sends c
        = if a = root then m c else [] := by
    intro c hc a ha
    by_cases har : a = root
    · subst har
      rw [hshape_root, if_pos rfl, sends_phase,
        outBytes_flatMap_Send _ T _ _ _ (hpermroot.nodup_iff.2 hnodup),
        if_pos (hpermroot.symm.subset hc)]
    · rw [hshape a ha har, if_neg har]
      rfl
  have hrecvs : ∀ c ∈ group, ((comm c).Scatter T root (data c)).recvs = [(root, T)] := by
    intro c hc
    by_cases hcr : c = root
    · subst hcr
      rw [hshape_root]
      rfl
    · rw [hshape c hc hcr]
      rfl
  have hafter : ∀ c ∈ group, ∀ received,
      ((comm c).Scatter T root (data c)).after received = .done (received.headD []) := by
    intro c hc received
    by_cases hcr : c = root
    · subst hcr
      rw [hshape_root]
      rfl
    · rw [hshape c hc hcr]
      rfl
  have hmatched : Matched group (fun r => (comm r).Scatter T root (data r)) := by
    intro c hc
    dsimp only
    rw [hrecvs c hc]
    refine ⟨by simp, ?_, ?_⟩
    · intro p hp
      rw [List.mem_singleton] at hp
      subst hp
      dsimp only
      rw [hsends c hc root hroot, if_pos rfl]
      exact ⟨hroot, (hm c hc).2⟩
    · intro a ha hne
      rw [hsends c hc a ha] at hne
      by_cases har : a = root
      · simp [har]
      · rw [if_neg har] at hne
        exact absurd rfl hne
  have hres : ∀ c ∈ group, advance (fun r => (comm r).Scatter T root (data r)) c
      = .done (m c) := by
    intro c hc
    unfold advance
    dsimp only
    rw [hafter c hc, hrecvs c hc, List.map_cons, List.map_nil]
    dsimp only
    rw [hsends c hc root hroot, if_pos rfl]
    rfl
  exact one_phase_execution group _ m hmatched hres schedule hsched b hb

theorem scatter_delivers_each_entry_witness :
    (∀ x, ((World.init (fun r => (testCommunicator r).Scatter (.scalar 4) 0
          (if r = 0 then testGroup.map (fun k => (k, encodeUnsigned 4 (k + 4))) else []))).run
          [2, 0, 0]).result 2 = some x → x = encodeUnsigned 4 (2 + 4)) ∧
      ((World.init (fun r => (testCommunicator r).Scatter (.scalar 4) 0
          (if r = 0 then testGroup.map (fun k => (k, encodeUnsigned 4 (k + 4))) else []))).run
          ([2, 0, 0] ++ roundRobin testGroup 2)).result 2 = some (encodeUnsigned 4 (2 + 4)) :=
  scatter_delivers_each_entry testGroup testCommunicator (.scalar 4) 0
    (fun r => if r = 0 then testGroup.map (fun k => (k, encodeUnsigned 4 (k + 4))) else [])
    (fun k => encodeUnsigned 4 (k + 4)) [2, 0, 0] 2 (by decide)
    (fun r _ => ⟨rfl, (by decide : [2, 0, 1].Perm [0, 1, 2])⟩) (by decide)
    (by
      intro r hr
      simp only [testGroup, List.mem_cons, List.mem_singleton, List.not_mem_nil, or_false] at hr
      rcases hr with rfl | rfl | rfl
      · exact ⟨rfl, by decide, rfl⟩
      · exact ⟨rfl, by decide, rfl⟩
      · exact ⟨rfl, by decide, rfl⟩)
    (by decide) (by decide)

theorem broadcast_at_root (c : MPICommunicator) (T : MPIType) (root : Nat) (x : List Nat)
    (hroot : c.rankID = root) :
    c.Broadcast T root (some x)
      = .phase (c.sockets.flatMap (fun rank => c.Send T rank x)) [(root, T)]
          (fun received => .done (received.headD [])) := by
  unfold MPICommunicator.Broadcast
  rw [if_pos hroot]

theorem broadcast_elsewhere (c : MPICommunicator) (T : MPIType) (root : Nat)
    (data : Option (List Nat)) (hroot : c.rankID ≠ root) :
    c.Broadcast T root data
      = .phase [] [(root, T)] (fun received => .done (received.headD [])) := by
  unfold MPICommunicator.Broadcast
  rw [if_neg hroot]

/-- `Broadcast` on a value that is written and read here: in a group whose members all
call `Broadcast(root, ·)`, the root with the value `x` and the others with any optional
value, in every execution a member that has returned has the result `x`; and after any
execution two more turns of every member make every member return. -/
theorem broadcast_delivers_root_value (group : List Nat) (comm : Nat → MPICommunicator)
    (T : MPIType) (root : Nat) (data : Nat → Option (List Nat)) (x : List Nat)
    (schedule : List Nat) (b : Nat) (hnodup : group.Nodup)
    (hcomm : ∀ r ∈ group, (comm r).rankID = r ∧ (comm r).sockets.Perm group)
    (hroot : root ∈ group) (hdata : data root = some x) (hx : T.ReadsBack x)
    (hsched : ∀ r ∈ schedule, r ∈ group) (hb : b ∈ group) :
    (∀ y, ((World.init (fun r => (comm r).Broadcast T root (data r))).run
          schedule).result b = some y → y = x) ∧
      ((World.init (fun r => (comm r).Broadcast T root (data r))).run
          (schedule ++ roundRobin group 2)).result b = some x := by
  obtain ⟨hmatched, hres⟩ := broadcast_round group comm T root x
    (fun r => (comm r).Broadcast T root (data r))
    (fun _ received => .done (received.headD [])) hnodup hcomm hroot hx
    (by
      dsimp only
      rw [hdata]
      exact broadcast_at_root (comm root) T root x (hcomm root hroot).1)
    (fun c hc hne => broadcast_elsewhere (comm c) T root (data c)
      (by rw [(hcomm c hc).1]; exact hne))
  exact one_phase_execution group _ (fun _ => x) hmatched hres schedule hsched b hb

theorem broadcast_delivers_root_value_witness :
    (∀ y, ((World.init (fun r => (testCommunicator r).Broadcast (.scalar 4) 0
          (if r = 0 then some (encodeUnsigned 4 1) else none))).run [1, 0, 1]).result 1
          = some y → y = encodeUnsigned 4 1) ∧
      ((World.init (fun r => (testCommunicator r).Broadcast (.scalar 4) 0
          (if r = 0 then some (encodeUnsigned 4 1) else none))).run
          ([1, 0, 1] ++ roundRobin testGroup 2)).result 1 = some (encodeUnsigned 4 1) :=
  broadcast_delivers_root_value testGroup testCommunicator (.scalar 4) 0
    (fun r => if r = 0 then some (encodeUnsigned 4 1) else none) (encodeUnsigned 4 1)
    [1, 0, 1] 1 (by decide) (fun r _ => ⟨rfl, (by decide : [2, 0, 1].Perm [0, 1, 2])⟩)
    (by decide) rfl ⟨by decide, rfl⟩ (by decide) (by decide)

theorem flatMap_map_eq {α β γ : Type} (l : List α) (g : α → β) (h : β → List γ) :
    (l.map g).flatMap h = l.flatMap (fun x => h (g x)) := by
  induction l with
  | nil => rfl
  | cons x xs ih => rw [List.map_cons, List.flatMap_cons, ih, List.flatMap_cons]

/-- `AllToAll` on values that are written and read here: in a group whose members `r` all
call `AllToAll` with a map that has the entry `m r k` for every member `k`, and no other
entry, in every execution a member `b` that has returned has the map with the entry
`(k, m k b)` for every member `k`; and after any execution two more turns of every member
make every member return. -/
theorem all_to_all_transposes (group : List Nat) (comm : Nat → MPICommunicator)
    (T : MPIType) (order : Nat → List Nat) (m : Nat → Nat → List Nat)
    (schedule : List Nat) (b : Nat) (hnodup : group.Nodup)
    (horder : ∀ r ∈ group, (order r).Perm group)
    (hm : ∀ r ∈ group, ∀ k ∈ group, T.ReadsBack (m r k))
    (hsched : ∀ r ∈ schedule, r ∈ group) (hb : b ∈ group) :
    (∀ x, ((World.init (fun r => (comm r).AllToAll T
            ((order r).map (fun k => (k, m r k))))).run schedule).result b = some x →
        x = (order b).map (fun k => (k, m k b))) ∧
      ((World.init (fun r => (comm r).AllToAll T
            ((order r).map (fun k => (k, m r k))))).run
          (schedule ++ roundRobin group 2)).result b
        = some ((order b).map (fun k => (k, m k b))) ∧
      ((order b).map (fun k => (k, m k b))).Perm (group.map (fun k => (k, m k b))) := by
  have hsends : ∀ c ∈ group, ∀ a ∈ group,
      outBytes ((comm a).AllToAll T ((order a).map (fun k => (k, m a k)))).sends c
        = m a c := by
    intro c hc a ha
    simp only [MPICommunicator.AllToAll, Collective.sends]
    rw [flatMap_map_eq]
    dsimp only
    rw [outBytes_flatMap_Send _ T _ _ _ ((horder a ha).nodup_iff.2 hnodup),
      if_pos ((horder a ha).symm.subset hc)]
  have hrecvs : ∀ c,
      ((comm c).AllToAll T ((order c).map (fun k => (k, m c k)))).recvs
        = (order c).map (fun k => (k, T)) := by
    intro c
    simp only [MPICommunicator.AllToAll, Collective.recvs, List.map_map]
    rfl
  have hkeys : ∀ l : List Nat, l.map ((fun p : Nat × MPIType => p.1) ∘ fun k => (k, T))
      = l := by
    intro l
    have : ((fun p : Nat × MPIType => p.1) ∘ fun k => (k, T)) = id := rfl
    rw [this, List.map_id]
  have hmatched : Matched group (fun r => (comm r).AllToAll T
      ((order r).map (fun k => (k, m r k)))) := by
    intro c hc
    dsimp only
    rw [hrecvs c, List.map_map, hkeys]
    refine ⟨(horder c hc).nodup_iff.2 hnodup, ?_, ?_⟩
    · intro p hp
      obtain ⟨k, hk, rfl⟩ := List.mem_map.1 hp
      have hkg := (horder c hc).subset hk
      dsimp only
      rw [hsends c hc k hkg]
      exact ⟨hkg, hm k hkg c hc⟩
    · intro a ha _
      exact (horder c hc).symm.subset ha
  have hres : ∀ c ∈ group, advance (fun r => (comm r).AllToAll T
      ((order r).map (fun k => (k, m r k)))) c
      = .done ((order c).map (fun k => (k, m k c))) := by
    intro c hc
    unfold advance
    dsimp only
    rw [hrecvs c, List.map_map]
    have hdata : (order c).map ((fun p : Nat × MPIType =>
        outBytes ((comm p.1).AllToAll T
          ((order p.1).map (fun k => (k, m p.1 k)))).sends c) ∘ fun k => (k, T))
        = (order c).map (fun k => m k c) := by
      apply List.map_congr_left
      intro k hk
      exact hsends c hc k ((horder c hc).subset hk)
    rw [hdata]
    simp only [MPICommunicator.AllToAll, Collective.after, List.map_map]
    have hfst : (order c).map ((fun p : Nat × List Nat => p.1) ∘ fun k => (k, m c k))
        = order c := by
      have : ((fun p : Nat × List Nat => p.1) ∘ fun k => (k, m c k)) = id := rfl
      rw [this, List.map_id]
    rw [hfst, zip_map_self]
  obtain ⟨h1, h2⟩ := one_phase_execution group _ _ hmatched hres schedule hsched b hb
  exact ⟨h1, h2, (horder b hb).map _⟩

theorem all_to_all_transposes_witness :
    (∀ x, ((World.init (fun r => (testCommunicator r).AllToAll (.scalar 4)
            ([1, 2, 0].map (fun k => (k, encodeUnsigned 4 (r + k)))))).run
          [0, 1, 0]).result 1 = some x →
        x = [1, 2, 0].map (fun k => (k, encodeUnsigned 4 (k + 1)))) ∧
      ((World.init (fun r => (testCommunicator r).AllToAll (.scalar 4)
            ([1, 2, 0].map (fun k => (k, encodeUnsigned 4 (r + k)))))).run
          ([0, 1, 0] ++ roundRobin testGroup 2)).result 1
        = some ([1, 2, 0].map (fun k => (k, encodeUnsigned 4 (k + 1)))) ∧
      ([1, 2, 0].map (fun k => (k, encodeUnsigned 4 (k + 1)))).Perm
        (testGroup.map (fun k => (k, encodeUnsigned 4 (k + 1)))) :=
  all_to_all_transposes testGroup testCommunicator (.scalar 4) (fun _ => [1, 2, 0])
    (fun r k => encodeUnsigned 4 (r + k)) [0, 1, 0] 1 (by decide)
    (fun _ _ => (by decide : [1, 2, 0].Perm [0, 1, 2]))
    (fun r _ k _ => ⟨by decide, by simp [encodeUnsigned]⟩) (by decide) (by decide)

theorem barrier_shape (c : MPICommunicator) (hself : c.rankID ∈ c.sockets)
    (hnodup : c.sockets.Nodup) :
    c.Barrier
      = .phase (c.sockets.flatMap (fun k => c.Send (.scalar 8) k (encodeUnsigned 8 c.rankID)))
          (c.sockets.map (fun k => (k, MPIType.scalar 8))) (fun _ => .done ()) := by
  unfold MPICommunicator.Barrier
  have heach : (fun rank =>
        (c.Gather (.scalar 8) rank (encodeUnsigned 8 c.rankID)).map (fun _ => ()))
      = (fun rank => Collective.phase (c.Send (.scalar 8) rank (encodeUnsigned 8 c.rankID))
          (if c.rankID = rank then c.sockets.map (fun k => (k, MPIType.scalar 8)) else [])
          (fun _ => .done ())) := by
    funext rank
    rfl
  rw [heach, all_phases_cons
    (fun rank => c.Send (.scalar 8) rank (encodeUnsigned 8 c.rankID))
    (fun rank => if c.rankID = rank then c.sockets.map (fun k => (k, MPIType.scalar 8)) else [])
    (fun _ _ => ()) c.sockets (List.ne_nil_of_mem hself),
    flatMap_pick c.rankID c.sockets _ hnodup hself]
  rfl

/-- C19: in a group whose members all call `Barrier()`, in every execution, when the
`Barrier` of a member `b` has returned then every member `a` has called its `Barrier`,
and `b` has received what `a` sent to it; and after any execution two more turns of
every member make the `Barrier` of every member return. -/
theorem barrier_waits_for_every_member (group : List Nat) (comm : Nat → MPICommunicator)
    (schedule : List Nat) (a b : Nat) (hnodup : group.Nodup)
    (hcomm : ∀ r ∈ group, (comm r).rankID = r ∧ (comm r).sockets.Perm group)
    (hsched : ∀ r ∈ schedule, r ∈ group) (ha : a ∈ group) (hb : b ∈ group) :
    (((World.init (fun r => (comm r).Barrier)).run schedule).result b = some () →
        ((World.init (fun r => (comm r).Barrier)).run schedule).entered a ∧
          ((World.init (fun r => (comm r).Barrier)).run schedule).channel a b = []) ∧
      ((World.init (fun r => (comm r).Barrier)).run
        (schedule ++ roundRobin group 2)).result b = some () := by
  have hshape : ∀ c ∈ group, (comm c).Barrier
      = .phase ((comm c).sockets.flatMap
            (fun k => (comm c).Send (.scalar 8) k (encodeUnsigned 8 c)))
          ((comm c).sockets.map (fun k => (k, MPIType.scalar 8))) (fun _ => .done ()) := by
    intro c hc
    obtain ⟨hid, hperm⟩ := hcomm c hc
    have := barrier_shape (comm c) (by rw [hid]; exact hperm.symm.subset hc)
      (hperm.nodup_iff.2 hnodup)
    rw [hid] at this
    exact this
  obtain ⟨hmatched, hres⟩ := allgather_round group comm (.scalar 8)
    (fun r => encodeUnsigned 8 r) (fun r => (comm r).Barrier) (fun _ _ => .done ()) hnodup
    hcomm (fun r _ => ⟨by decide, length_encodeUnsigned 8 r⟩) hshape
  have hdone : ∀ c ∈ group, ∃ x, lockstep (fun r => (comm r).Barrier) 1 c = .done x :=
    fun c hc => ⟨(), hres c hc⟩
  have hm := matched_of_done group (fun r => (comm r).Barrier) 1
    (fun j hj => by
      have : j = 0 := by omega
      subst this
      exact hmatched) hdone
  constructor
  · intro hret
    have hinv := run_world_inv group (fun r => (comm r).Barrier) hm schedule
      (World.init (fun r => (comm r).Barrier)) (init_inv group _) hsched
    generalize (World.init (fun r => (comm r).Barrier)).run schedule = w at hret hinv
    have hphase : 0 < (w.rank b).phase := by
      by_contra hcon
      have h0 : (w.rank b).phase = 0 := by omega
      have hp := hinv.1 b hb
      rw [h0, lockstep_zero, hshape b hb] at hp
      unfold World.result at hret
      rw [hp] at hret
      cases hret
    have hmsg : message (fun r => (comm r).Barrier) 0 a b = encodeUnsigned 8 a := by
      unfold message
      change outBytes ((comm a).Barrier).sends b = _
      rw [hshape a ha, sends_phase,
        outBytes_flatMap_Send _ _ _ (fun _ => encodeUnsigned 8 a) _
          ((hcomm a ha).2.nodup_iff.2 hnodup),
        if_pos ((hcomm a ha).2.symm.subset hb)]
    refine ⟨entered_of_message group _ w a b hinv ha hb hphase ?_, ?_⟩
    · rw [hmsg]
      intro h
      have := congrArg List.length h
      rw [length_encodeUnsigned] at this
      cases this
    · rw [(hinv.2 a ha b hb).1]
      apply pending_eq_nil
      intro k hk
      unfold message
      obtain ⟨x, hx⟩ := hdone a ha
      have hst := lockstep_done_stable _ 1 a x hx (k - 1)
      rw [Nat.add_sub_cancel' (by omega)] at hst
      rw [hst]
      rfl
  · exact (one_phase_execution group _ (fun _ => ()) hmatched hres schedule hsched b hb).2

theorem barrier_waits_for_every_member_witness :
    (((World.init (fun r => (testCommunicator r).Barrier)).run [0, 1, 2, 0]).result 0
          = some () →
        ((World.init (fun r => (testCommunicator r).Barrier)).run [0, 1, 2, 0]).entered 2 ∧
          ((World.init (fun r => (testCommunicator r).Barrier)).run [0, 1, 2, 0]).channel 2 0
            = []) ∧
      ((World.init (fun r => (testCommunicator r).Barrier)).run
        ([0, 1, 2, 0] ++ roundRobin testGroup 2)).result 0 = some () :=
  barrier_waits_for_every_member testGroup testCommunicator [0, 1, 2, 0] 2 0 (by decide)
    (fun r _ => ⟨rfl, (by decide : [2, 0, 1].Perm [0, 1, 2])⟩) (by decide) (by decide)
    (by decide)

theorem foldOperator_isSome (O : MPIOperator) (T : IntegralType) (values : List Int)
    (hne : values ≠ [])
    (hO : O = .SUM ∨ O = .PRODUCT ∨ O = .MAX ∨ O = .MIN ∨ O = .BITWISE_AND ∨
      O = .BITWISE_OR ∨ O = .BITWISE_XOR) :
    ∃ value, foldOperator O T values = some value := by
  cases values with
  | nil => exact absurd rfl hne
  | cons x rest =>
    rcases hO with h | h | h | h | h | h | h <;> subst h <;> exact ⟨_, rfl⟩

theorem pow_256 (type_size : Nat) : 256 ^ type_size = 2 ^ (8 * type_size) := by
  rw [Nat.pow_mul]

theorem value_mod (T : IntegralType) (n : Nat) : T.value (n % 2 ^ T.bits) = T.value n := by
  unfold IntegralType.value
  rw [Nat.mod_mod]

theorem length_bytes (T : IntegralType) (x : Int) : (T.bytes x).length = T.type_size :=
  length_encodeUnsigned T.type_size _

/-- The reader of an integral type gives back the value that the writer was given. -/
theorem ofBytes_bytes (T : IntegralType) (x : Int) (h : T.InRange x) :
    T.ofBytes (T.bytes x) = x := by
  unfold IntegralType.ofBytes IntegralType.bytes
  rw [decode_encodeUnsigned, pow_256]
  show T.value (T.representation x % 2 ^ T.bits) = x
  rw [value_mod]
  exact convert_of_inRange T x h

/-- The values that the operator of `Reduce` runs over at the root, whatever the order
in which the gathered map is iterated, are the values of the members in some order. -/
theorem gathered_values_perm (group sockets : List Nat) (T : IntegralType) (v : Nat → Int)
    (iterated : List (Nat × List Nat)) (hsockets : sockets.Perm group)
    (hv : ∀ r ∈ group, T.InRange (v r))
    (hiter : iterated.Perm (sockets.map (fun k => (k, T.bytes (v k))))) :
    (iterated.map (fun p => T.ofBytes p.2)).Perm (group.map v) := by
  refine (hiter.map _).trans ?_
  rw [List.map_map]
  have : sockets.map ((fun p : Nat × List Nat => T.ofBytes p.2) ∘
      fun k => (k, T.bytes (v k))) = sockets.map v := by
    apply List.map_congr_left
    intro k hk
    simp only [Function.comp]
    exact ofBytes_bytes T (v k) (hv k (hsockets.subset hk))
  rw [this]
  exact hsockets.map v

theorem reduce_shape (c : MPICommunicator) (O : MPIOperator) (T : IntegralType) (root : Nat)
    (data : Int) :
    c.Reduce O T root data
      = .phase (c.Send (.scalar T.type_size) root (T.bytes data))
          (if c.rankID = root then c.sockets.map (fun k => (k, MPIType.scalar T.type_size))
            else [])
          (fun received =>
            if c.rankID = root then
              match MPIOperatorImplementation O T
                  ((c.iteration (if c.rankID = root then c.sockets.zip received else [])).map
                    (fun p => T.ofBytes p.2)) with
              | some value => .done (some value)
              | none => .failed
            else .done none) := rfl

/-- The rest of `Reduce` after its `Gather`: the fold of the values of the members at
the root, nothing elsewhere. -/
theorem reduce_next_value (group : List Nat) (comm : Nat → MPICommunicator) (O : MPIOperator)
    (T : IntegralType) (root : Nat) (v : Nat → Int) (b : Nat)
    (hcomm : ∀ r ∈ group, (comm r).rankID = r ∧ (comm r).sockets.Perm group)
    (hiter : ∀ r ∈ group, ∀ m, ((comm r).iteration m).Perm m)
    (hv : ∀ r ∈ group, T.InRange (v r))
    (hO : O = .SUM ∨ O = .PRODUCT ∨ O = .MAX ∨ O = .MIN ∨ O = .BITWISE_AND ∨
      O = .BITWISE_OR ∨ O = .BITWISE_XOR) (hb : b ∈ group) :
    (if (comm b).rankID = root then
        match MPIOperatorImplementation O T
            (((comm b).iteration
              (if (comm b).rankID = root then
                (comm b).sockets.zip
                  (if b = root then
                    (comm b).sockets.map (fun r => T.bytes (v r)) else [])
              else [])).map (fun p => T.ofBytes p.2)) with
        | some value => Collective.done (some value)
        | none => .failed
      else .done none)
      = .done (if b = root then foldOperator O T (group.map v) else none) := by
  obtain ⟨hid, hperm⟩ := hcomm b hb
  rw [hid]
  by_cases hbr : b = root
  · rw [if_pos hbr, if_pos hbr, if_pos hbr, if_pos hbr, zip_map_self]
    have hvalues := gathered_values_perm group (comm b).sockets T v
      ((comm b).iteration ((comm b).sockets.map
        (fun k => (k, T.bytes (v k))))) hperm hv (hiter b hb _)
    rw [operator_perm O T _ _ hvalues hO]
    obtain ⟨value, hvalue⟩ := foldOperator_isSome O T (group.map v)
      (by
        intro h
        rw [List.map_eq_nil_iff] at h
        rw [h] at hb
        cases hb) hO
    rw [hvalue]
  · rw [if_neg hbr, if_neg hbr]

/-- The round of `Reduce`: it is matched, and gives the fold of the values of the members
to the root and nothing to the others. -/
theorem reduce_round (group : List Nat) (comm : Nat → MPICommunicator) (O : MPIOperator)
    (T : IntegralType) (root : Nat) (v : Nat → Int) (hnodup : group.Nodup)
    (hcomm : ∀ r ∈ group, (comm r).rankID = r ∧ (comm r).sockets.Perm group)
    (hiter : ∀ r ∈ group, ∀ m, ((comm r).iteration m).Perm m)
    (hsize : 0 < T.type_size)
    (hv : ∀ r ∈ group, T.InRange (v r))
    (hO : O = .SUM ∨ O = .PRODUCT ∨ O = .MAX ∨ O = .MIN ∨ O = .BITWISE_AND ∨
      O = .BITWISE_OR ∨ O = .BITWISE_XOR) :
    Matched group (fun r => (comm r).Reduce O T root (v r)) ∧
      ∀ b ∈ group, advance (fun r => (comm r).Reduce O T root (v r)) b
        = .done (if b = root then foldOperator O T (group.map v) else none) := by
  obtain ⟨hmatched, hres⟩ := gather_round group comm (.scalar T.type_size) root
    (fun r => T.bytes (v r))
    (fun r => (comm r).Reduce O T root (v r))
    (fun b received =>
      if (comm b).rankID = root then
        match MPIOperatorImplementation O T
            (((comm b).iteration
              (if (comm b).rankID = root then (comm b).sockets.zip received else [])).map
              (fun p => T.ofBytes p.2)) with
        | some value => .done (some value)
        | none => .failed
      else .done none)
    hnodup hcomm (fun r _ => ⟨hsize, length_bytes T (v r)⟩)
    (fun b hb => by
      dsimp only
      rw [reduce_shape, (hcomm b hb).1])
  refine ⟨hmatched, ?_⟩
  intro b hb
  rw [hres b hb]
  exact reduce_next_value group comm O T root v b hcomm hiter hv hO hb

/-- C15: in a group whose members `r` all call `Reduce<O>(root, v r)` on values of an
integral type, signed or unsigned, with `O` one of SUM, PRODUCT, MAX, MIN and the bitwise
operators, in every execution a member that has returned has, at the root, the fold of the
values of the members, whatever the order in which the communicators iterate their maps,
and elsewhere no value; and after any execution two more turns of every member make every
member return. -/
theorem reduce_folds_at_root (group : List Nat) (comm : Nat → MPICommunicator)
    (O : MPIOperator) (T : IntegralType) (root : Nat) (v : Nat → Int) (schedule : List Nat)
    (b : Nat) (hnodup : group.Nodup)
    (hcomm : ∀ r ∈ group, (comm r).rankID = r ∧ (comm r).sockets.Perm group)
    (hiter : ∀ r ∈ group, ∀ m, ((comm r).iteration m).Perm m)
    (hsize : 0 < T.type_size)
    (hv : ∀ r ∈ group, T.InRange (v r))
    (hO : O = .SUM ∨ O = .PRODUCT ∨ O = .MAX ∨ O = .MIN ∨ O = .BITWISE_AND ∨
      O = .BITWISE_OR ∨ O = .BITWISE_XOR)
    (hsched : ∀ r ∈ schedule, r ∈ group) (hb : b ∈ group) :
    (∀ x, ((World.init (fun r => (comm r).Reduce O T root (v r))).run
          schedule).result b = some x →
        x = if b = root then foldOperator O T (group.map v) else none) ∧
      ((World.init (fun r => (comm r).Reduce O T root (v r))).run
          (schedule ++ roundRobin group 2)).result b
        = some (if b = root then foldOperator O T (group.map v) else none) ∧
      ∃ value, foldOperator O T (group.map v) = some value := by
  obtain ⟨hmatched, hres⟩ := reduce_round group comm O T root v hnodup hcomm hiter
    hsize hv hO
  obtain ⟨h1, h2⟩ := one_phase_execution group _ _ hmatched hres schedule hsched b hb
  refine ⟨h1, h2, foldOperator_isSome O T (group.map v) ?_ hO⟩
  intro h
  rw [List.map_eq_nil_iff] at h
  rw [h] at hb
  cases hb

theorem reduce_folds_at_root_witness :
    (∀ x, ((World.init (fun r => (testCommunicator r).Reduce .MAX ⟨4, true⟩ 0
          ((r : Int) - 1))).run [0, 1, 2, 0]).result 0 = some x →
        x = if 0 = 0 then foldOperator .MAX ⟨4, true⟩ (testGroup.map (fun r => (r : Int) - 1))
          else none) ∧
      ((World.init (fun r => (testCommunicator r).Reduce .MAX ⟨4, true⟩ 0
          ((r : Int) - 1))).run ([0, 1, 2, 0] ++ roundRobin testGroup 2)).result 0
        = some (if 0 = 0 then
            foldOperator .MAX ⟨4, true⟩ (testGroup.map (fun r => (r : Int) - 1))
          else none) ∧
      ∃ value, foldOperator .MAX ⟨4, true⟩ (testGroup.map (fun r => (r : Int) - 1))
        = some value :=
  reduce_folds_at_root testGroup testCommunicator .MAX ⟨4, true⟩ 0 (fun r => (r : Int) - 1)
    [0, 1, 2, 0] 0
    (by decide) (fun r _ => ⟨rfl, (by decide : [2, 0, 1].Perm [0, 1, 2])⟩)
    (fun _ _ m => List.reverse_perm m) (by decide)
    (by
      intro r hr
      simp only [testGroup, List.mem_cons, List.mem_singleton, List.not_mem_nil, or_false] at hr
      rcases hr with rfl | rfl | rfl <;> decide)
    (by decide) (by decide) (by decide)

theorem electWinner_perm (l1 l2 : List (Nat × Nat)) (hp : l1.Perm l2) :
    electWinner l1 = electWinner l2 := by
  unfold electWinner
  rw [max_element_perm electLess electLess_strictTotal l1 l2 hp]

theorem electWinner_mem (votes : List (Nat × Nat)) (hne : votes ≠ []) :
    ∃ root, electWinner votes = some root ∧ root ∈ votes.map (fun p => p.1) := by
  cases hm : max_element electLess votes with
  | none =>
    cases votes with
    | nil => exact absurd rfl hne
    | cons x rest => simp [max_element] at hm
  | some m =>
    obtain ⟨hmem, -⟩ := (max_element_spec electLess electLess_strictTotal votes m).mp hm
    exact ⟨m.1, by simp [electWinner, hm], List.mem_map.2 ⟨m, hmem, rfl⟩⟩

theorem elect_shape (c : MPICommunicator) (votes : Nat) (hself : c.rankID ∈ c.sockets)
    (hnodup : c.sockets.Nodup) :
    c.Elect votes
      = .phase (c.sockets.flatMap (fun k => c.Send (.scalar 8) k (encodeUnsigned 8 votes)))
          (c.sockets.map (fun k => (k, MPIType.scalar 8)))
          (fun received =>
            match electWinner
                ((c.iteration (c.sockets.zip (received.take c.sockets.length))).map
                  (fun p => (p.1, decodeUnsigned p.2))) with
            | some root => .done root
            | none => .failed) := by
  unfold MPICommunicator.Elect
  have heach : (fun rank => c.Gather (.scalar 8) rank (encodeUnsigned 8 votes))
      = (fun rank => Collective.phase (c.Send (.scalar 8) rank (encodeUnsigned 8 votes))
          (if c.rankID = rank then c.sockets.map (fun k => (k, MPIType.scalar 8)) else [])
          (fun received => .done (if c.rankID = rank then c.sockets.zip received else []))) := by
    funext rank
    rfl
  rw [heach, all_phases_cons (fun rank => c.Send (.scalar 8) rank (encodeUnsigned 8 votes))
    (fun rank => if c.rankID = rank then c.sockets.map (fun k => (k, MPIType.scalar 8)) else [])
    (fun rank received => if c.rankID = rank then c.sockets.zip received else [])
    c.sockets (List.ne_nil_of_mem hself),
    flatMap_pick c.rankID c.sockets _ hnodup hself]
  show Collective.phase _ _ _ = _
  congr 1
  funext received
  simp only [Collective.bind]
  rw [lookup_zip_splitReceived _ _ c.rankID c.sockets received hself
    (fun x _ hx => if_neg (fun h => hx h.symm))]
  simp only [if_true, List.length_map]

/-- The values that `Elect` compares, whatever the order in which the gathered map is
iterated, are the votes of the members in some order. -/
theorem gathered_votes_perm (group sockets : List Nat) (vote : Nat → Nat)
    (iterated : List (Nat × List Nat)) (hsockets : sockets.Perm group)
    (hvote : ∀ r ∈ group, vote r < 2 ^ 64)
    (hiter : iterated.Perm (sockets.map (fun k => (k, encodeUnsigned 8 (vote k))))) :
    (iterated.map (fun p => (p.1, decodeUnsigned p.2))).Perm
      (group.map (fun r => (r, vote r))) := by
  refine (hiter.map _).trans ?_
  rw [List.map_map]
  have : sockets.map ((fun p : Nat × List Nat => (p.1, decodeUnsigned p.2)) ∘
      fun k => (k, encodeUnsigned 8 (vote k))) = sockets.map (fun r => (r, vote r)) := by
    apply List.map_congr_left
    intro k hk
    simp only [Function.comp]
    rw [decode_encodeUnsigned, Nat.mod_eq_of_lt (by
      have := hvote k (hsockets.subset hk)
      norm_num at this ⊢
      exact this)]
  rw [this]
  exact hsockets.map _

theorem foldl_inRange (T : IntegralType) (op : Int → Int → Int)
    (hop : ∀ a b, T.InRange (op a b)) (values : List Int) (init : Int)
    (hinit : T.InRange init) : T.InRange (values.foldl op init) := by
  induction values generalizing init with
  | nil => exact hinit
  | cons x rest ih =>
    rw [List.foldl_cons]
    exact ih _ (hop init x)

theorem foldOperator_inRange (O : MPIOperator) (T : IntegralType) (values : List Int)
    (value : Int) (hvalues : ∀ x ∈ values, T.InRange x)
    (h : foldOperator O T values = some value) : T.InRange value := by
  cases O <;> simp only [foldOperator, Option.some.injEq] at h
  · rw [← h]
    exact inRange_value T _
  · rw [← h]
    exact inRange_value T _
  · exact hvalues value (List.max?_mem (fun a b => by omega) h)
  · exact hvalues value (List.min?_mem (fun a b => by omega) h)
  · cases h
  · rw [← h]
    exact foldl_inRange T _ (fun a b => inRange_value T _) values _ (inRange_value T _)
  · cases h
  · rw [← h]
    exact foldl_inRange T _ (fun a b => inRange_value T _) values _ (inRange_zero T)
  · cases h
  · rw [← h]
    exact foldl_inRange T _ (fun a b => inRange_value T _) values _ (inRange_zero T)

/-- The reference execution of `AllReduce`: three matched rounds, the election, the
reduction at the elected root and the broadcast of the fold, after which every member
returns the fold. -/
theorem all_reduce_rounds (group : List Nat) (comm : Nat → MPICommunicator) (O : MPIOperator)
    (T : IntegralType) (vote : Nat → Nat) (v : Nat → Int) (hnodup : group.Nodup)
    (hne : group ≠ [])
    (hcomm : ∀ r ∈ group, (comm r).rankID = r ∧ (comm r).sockets.Perm group)
    (hiter : ∀ r ∈ group, ∀ m, ((comm r).iteration m).Perm m)
    (hsize : 0 < T.type_size) (hvote : ∀ r ∈ group, vote r < 2 ^ 64)
    (hv : ∀ r ∈ group, T.InRange (v r))
    (hO : O = .SUM ∨ O = .PRODUCT ∨ O = .MAX ∨ O = .MIN ∨ O = .BITWISE_AND ∨
      O = .BITWISE_OR ∨ O = .BITWISE_XOR) :
    ∃ root value, root ∈ group ∧
      electWinner (group.map (fun r => (r, vote r))) = some root ∧
      foldOperator O T (group.map v) = some value ∧
      (∀ j, Matched group
        (lockstep (fun r => (comm r).AllReduce O T (vote r) (v r)) j)) ∧
      (∀ b ∈ group, lockstep (fun r => (comm r).AllReduce O T (vote r) (v r)) 1 b
        = ((comm b).Reduce O T root (v b)).bind (fun result =>
            ((comm b).Broadcast (.scalar T.type_size) root
              (result.map T.bytes)).map T.ofBytes)) ∧
      ∀ b ∈ group, lockstep (fun r => (comm r).AllReduce O T (vote r) (v r)) 3 b
        = .done value := by
  obtain ⟨root, hwin, hrootmem⟩ := electWinner_mem (group.map (fun r => (r, vote r)))
    (by
      intro h
      rw [List.map_eq_nil_iff] at h
      exact hne h)
  have hroot : root ∈ group := by
    rw [List.map_map] at hrootmem
    obtain ⟨r, hr, rfl⟩ := List.mem_map.1 hrootmem
    exact hr
  obtain ⟨value, hvalue⟩ := foldOperator_isSome O T (group.map v)
    (by
      intro h
      rw [List.map_eq_nil_iff] at h
      exact hne h) hO
  have hlt : T.InRange value :=
    foldOperator_inRange O T (group.map v) value
      (by
        intro x hx
        obtain ⟨r, hr, rfl⟩ := List.mem_map.1 hx
        exact hv r hr) hvalue
  have hself : ∀ b ∈ group, (comm b).rankID ∈ (comm b).sockets ∧ (comm b).sockets.Nodup := by
    intro b hb
    obtain ⟨hid, hperm⟩ := hcomm b hb
    exact ⟨by rw [hid]; exact hperm.symm.subset hb, hperm.nodup_iff.2 hnodup⟩
  -- the election
  obtain ⟨hmatched0, hres0⟩ := allgather_round group comm (.scalar 8)
    (fun r => encodeUnsigned 8 (vote r))
    (fun r => (comm r).AllReduce O T (vote r) (v r))
    (fun b received =>
      (match electWinner
          (((comm b).iteration ((comm b).sockets.zip
            (received.take (comm b).sockets.length))).map
            (fun p : Nat × List Nat => (p.1, decodeUnsigned p.2))) with
        | some root => Collective.done root
        | none => .failed).bind (fun root =>
          ((comm b).Reduce O T root (v b)).bind (fun result =>
            ((comm b).Broadcast (.scalar T.type_size) root
              (result.map T.bytes)).map T.ofBytes)))
    hnodup hcomm (fun r _ => ⟨by decide, length_encodeUnsigned 8 (vote r)⟩)
    (fun b hb => by
      dsimp only
      unfold MPICommunicator.AllReduce
      rw [elect_shape (comm b) (vote b) (hself b hb).1 (hself b hb).2]
      rfl)
  have h1 : ∀ b ∈ group, lockstep (fun r => (comm r).AllReduce O T (vote r) (v r)) 1 b
      = ((comm b).Reduce O T root (v b)).bind (fun result =>
          ((comm b).Broadcast (.scalar T.type_size) root
            (result.map T.bytes)).map T.ofBytes) := by
    intro b hb
    show advance (lockstep _ 0) b = _
    rw [lockstep_zero, hres0 b hb]
    have htake : ((comm b).sockets.map (fun r => encodeUnsigned 8 (vote r))).take
        (comm b).sockets.length = (comm b).sockets.map (fun r => encodeUnsigned 8 (vote r)) := by
      apply List.take_of_length_le
      rw [List.length_map]
    rw [htake, zip_map_self,
      electWinner_perm _ _ (gathered_votes_perm group (comm b).sockets vote _ (hcomm b hb).2
        hvote (hiter b hb _)), hwin]
    rfl
  -- the reduction
  obtain ⟨hmatched1, hres1⟩ := gather_round group comm (.scalar T.type_size) root
    (fun r => T.bytes (v r))
    (lockstep (fun r => (comm r).AllReduce O T (vote r) (v r)) 1)
    (fun b received =>
      (if (comm b).rankID = root then
        match MPIOperatorImplementation O T
            (((comm b).iteration
              (if (comm b).rankID = root then (comm b).sockets.zip received else [])).map
              (fun p : Nat × List Nat => T.ofBytes p.2)) with
        | some value => Collective.done (some value)
        | none => .failed
      else .done none).bind (fun result =>
        ((comm b).Broadcast (.scalar T.type_size) root
          (result.map T.bytes)).map T.ofBytes))
    hnodup hcomm (fun r _ => ⟨hsize, length_bytes T (v r)⟩)
    (fun b hb => by
      rw [h1 b hb, reduce_shape]
      dsimp only
      rw [(hcomm b hb).1]
      rfl)
  have h2 : ∀ b ∈ group, lockstep (fun r => (comm r).AllReduce O T (vote r) (v r)) 2 b
      = ((comm b).Broadcast (.scalar T.type_size) root
          ((if b = root then some value else none).map T.bytes)).map T.ofBytes := by
    intro b hb
    show advance _ b = _
    rw [hres1 b hb]
    rw [reduce_next_value group comm O T root v b hcomm hiter hv hO hb, hvalue]
    rfl
  -- the broadcast
  obtain ⟨hmatched2, hres2⟩ := broadcast_round group comm (.scalar T.type_size) root
    (T.bytes value)
    (lockstep (fun r => (comm r).AllReduce O T (vote r) (v r)) 2)
    (fun _ received => .done (T.ofBytes (received.headD [])))
    hnodup hcomm hroot ⟨hsize, length_bytes T value⟩
    (by
      rw [h2 root hroot, if_pos rfl, Option.map_some',
        broadcast_at_root (comm root) (.scalar T.type_size) root _ (hcomm root hroot).1]
      rfl)
    (fun b hb hne => by
      rw [h2 b hb, broadcast_elsewhere (comm b) (.scalar T.type_size) root _
        (by rw [(hcomm b hb).1]; exact hne)]
      rfl)
  have h3 : ∀ b ∈ group, lockstep (fun r => (comm r).AllReduce O T (vote r) (v r)) 3 b
      = .done value := by
    intro b hb
    show advance _ b = _
    rw [hres2 b hb]
    rw [List.headD_cons, ofBytes_bytes T value hlt]
  refine ⟨root, value, hroot, hwin, hvalue, ?_, h1, h3⟩
  apply matched_of_done group _ 3 _ (fun b hb => ⟨value, h3 b hb⟩)
  intro j hj
  have hcases : j = 0 ∨ j = 1 ∨ j = 2 := by omega
  rcases hcases with rfl | rfl | rfl
  · rw [lockstep_zero]
    exact hmatched0
  · exact hmatched1
  · exact hmatched2

/-- The part of C16 that holds: in a group whose members `r` all call `AllReduce<O>(v r)`
on values of an integral type, signed or unsigned, with `O` one of SUM, PRODUCT, MAX, MIN
and the bitwise operators, whatever votes the members draw and whatever the order in which the
communicators iterate their maps: the election has one winner, the same at every member,
so that in every execution a member that has completed the election goes on with `Reduce`
and `Broadcast` rooted at the winner; a member that has returned has the fold of the
values of the members; and after any execution six more turns of every member make every
member return. -/
theorem all_reduce_agrees_on_fold (group : List Nat) (comm : Nat → MPICommunicator)
    (O : MPIOperator) (T : IntegralType) (vote : Nat → Nat) (v : Nat → Int)
    (schedule : List Nat) (b : Nat) (hnodup : group.Nodup)
    (hcomm : ∀ r ∈ group, (comm r).rankID = r ∧ (comm r).sockets.Perm group)
    (hiter : ∀ r ∈ group, ∀ m, ((comm r).iteration m).Perm m)
    (hsize : 0 < T.type_size) (hvote : ∀ r ∈ group, vote r < 2 ^ 64)
    (hv : ∀ r ∈ group, T.InRange (v r))
    (hO : O = .SUM ∨ O = .PRODUCT ∨ O = .MAX ∨ O = .MIN ∨ O = .BITWISE_AND ∨
      O = .BITWISE_OR ∨ O = .BITWISE_XOR)
    (hsched : ∀ r ∈ schedule, r ∈ group) (hb : b ∈ group) :
    ∃ root value, root ∈ group ∧
      electWinner (group.map (fun r => (r, vote r))) = some root ∧
      foldOperator O T (group.map v) = some value ∧
      ((((World.init (fun r => (comm r).AllReduce O T (vote r) (v r))).run
            schedule).rank b).phase = 1 →
        (((World.init (fun r => (comm r).AllReduce O T (vote r) (v r))).run
            schedule).rank b).program
          = ((comm b).Reduce O T root (v b)).bind (fun result =>
              ((comm b).Broadcast (.scalar T.type_size) root
                (result.map T.bytes)).map T.ofBytes)) ∧
      (∀ x, ((World.init (fun r => (comm r).AllReduce O T (vote r) (v r))).run
          schedule).result b = some x → x = value) ∧
      ((World.init (fun r => (comm r).AllReduce O T (vote r) (v r))).run
          (schedule ++ roundRobin group 6)).result b = some value := by
  obtain ⟨root, value, hroot, hwin, hvalue, hmatched, h1, h3⟩ :=
    all_reduce_rounds group comm O T vote v hnodup (List.ne_nil_of_mem hb) hcomm hiter
      hsize hvote hv hO
  obtain ⟨hsafe, x, hx, hlive⟩ := execution_follows_rounds group _ 3 hmatched
    (fun c hc => ⟨value, h3 c hc⟩) schedule hsched b hb
  have hxv : x = value := by
    have := hx.symm.trans (h3 b hb)
    cases this
    rfl
  subst hxv
  refine ⟨root, x, hroot, hwin, hvalue, ?_, ?_, hlive⟩
  · intro hphase
    have hinv := run_world_inv group _ hmatched schedule (World.init _) (init_inv group _)
      hsched
    rw [hinv.1 b hb, hphase]
    exact h1 b hb
  · intro y hy
    have := (hsafe y hy).symm.trans (h3 b hb)
    cases this
    rfl

theorem all_reduce_agrees_on_fold_witness :
    ∃ root value, root ∈ testGroup ∧
      electWinner (testGroup.map (fun r => (r, 7 * r % 3))) = some root ∧
      foldOperator .SUM ⟨4, true⟩ (testGroup.map (fun r => (r : Int) - 2)) = some value ∧
      ((((World.init (fun r => (testCommunicator r).AllReduce .SUM ⟨4, true⟩ (7 * r % 3)
            ((r : Int) - 2))).run [0, 1, 2, 1]).rank 1).phase = 1 →
        (((World.init (fun r => (testCommunicator r).AllReduce .SUM ⟨4, true⟩ (7 * r % 3)
            ((r : Int) - 2))).run [0, 1, 2, 1]).rank 1).program
          = ((testCommunicator 1).Reduce .SUM ⟨4, true⟩ root (((1 : Nat) : Int) - 2)).bind
            (fun result =>
              ((testCommunicator 1).Broadcast (.scalar (IntegralType.mk 4 true).type_size) root
                (result.map (IntegralType.mk 4 true).bytes)).map
                (IntegralType.mk 4 true).ofBytes)) ∧
      (∀ x, ((World.init (fun r => (testCommunicator r).AllReduce .SUM ⟨4, true⟩ (7 * r % 3)
          ((r : Int) - 2))).run [0, 1, 2, 1]).result 1 = some x → x = value) ∧
      ((World.init (fun r => (testCommunicator r).AllReduce .SUM ⟨4, true⟩ (7 * r % 3)
          ((r : Int) - 2))).run ([0, 1, 2, 1] ++ roundRobin testGroup 6)).result 1
        = some value :=
  all_reduce_agrees_on_fold testGroup testCommunicator .SUM ⟨4, true⟩ (fun r => 7 * r % 3)
    (fun r => (r : Int) - 2) [0, 1, 2, 1] 1 (by decide)
    (fun r _ => ⟨rfl, (by decide : [2, 0, 1].Perm [0, 1, 2])⟩)
    (fun _ _ m => List.reverse_perm m) (by decide)
    (by
      intro r _
      show 7 * r % 3 < 2 ^ 64
      have : 7 * r % 3 < 3 := Nat.mod_lt _ (by decide)
      omega)
    (by
      intro r hr
      simp only [testGroup, List.mem_cons, List.mem_singleton, List.not_mem_nil, or_false] at hr
      rcases hr with rfl | rfl | rfl <;> decide)
    (by decide) (by decide) (by decide)

theorem all_reduce_logical_xor (c : MPICommunicator) (T : IntegralType) (votes : Nat)
    (data : Int) :
    c.AllReduce .LOGICAL_XOR T votes data = c.AllReduce .BITWISE_XOR T votes data := rfl

/-- C16 fails for LOGICAL_XOR: when the three ranks of the test group call
`AllReduce<MPIOperator::LOGICAL_XOR>` on the `int` values 0, 1 and 2 (rank `r` has `r`),
in every execution a member that has returned has 3, and after any execution six more
turns of every member make every member return 3: the bitwise xor of the values, where
the fold of LOGICAL_XOR over these values, two of them non-zero, is 0. -/
theorem all_reduce_logical_xor_returns_bitwise_xor (schedule : List (Fin 3)) (b : Fin 3) :
    (∀ x, ((World.init (fun r => (testCommunicator r).AllReduce .LOGICAL_XOR ⟨4, true⟩
        (7 * r % 3) (r : Int))).run (schedule.map Fin.val)).result b.val = some x → x = 3) ∧
      ((World.init (fun r => (testCommunicator r).AllReduce .LOGICAL_XOR ⟨4, true⟩
        (7 * r % 3) (r : Int))).run
          (schedule.map Fin.val ++ roundRobin testGroup 6)).result b.val = some 3 ∧
      logicalXorFold (testGroup.map (fun r : Nat => (r : Int))) = 0 := by
  have hb : b.val ∈ testGroup := by
    fin_cases b <;> decide
  have hsched : ∀ r ∈ schedule.map Fin.val, r ∈ testGroup := by
    intro r hr
    obtain ⟨i, _, rfl⟩ := List.mem_map.mp hr
    fin_cases i <;> decide
  obtain ⟨root, value, _, _, hvalue, _, hsafe, hlive⟩ :=
    all_reduce_agrees_on_fold testGroup testCommunicator .BITWISE_XOR ⟨4, true⟩
      (fun r => 7 * r % 3) (fun r : Nat => (r : Int)) (schedule.map Fin.val) b.val (by decide)
      (fun r _ => ⟨rfl, (by decide : [2, 0, 1].Perm [0, 1, 2])⟩)
      (fun _ _ m => List.reverse_perm m) (by decide)
      (by
        intro r _
        show 7 * r % 3 < 2 ^ 64
        have : 7 * r % 3 < 3 := Nat.mod_lt _ (by decide)
        omega)
      (by
        intro r hr
        simp only [testGroup, List.mem_cons, List.mem_singleton, List.not_mem_nil,
          or_false] at hr
        rcases hr with rfl | rfl | rfl <;> decide)
      (by decide) hsched hb
  have hv : value = 3 := by
    have h3 : foldOperator .BITWISE_XOR ⟨4, true⟩ (testGroup.map (fun r : Nat => (r : Int)))
        = some 3 := by decide
    rw [h3] at hvalue
    exact (Option.some.inj hvalue).symm
  subst hv
  exact ⟨hsafe, hlive, by decide⟩

/-! ## Collective operations on empty vectors

The reader of `std::vector` asks the socket for `sizeof(T) * 0` bytes after the size of an
empty vector, and `receive(0)` waits for bytes that the writer of the empty vector never
sends. -/

theorem run_of_fixed {α : Type} (w : World α) (schedule : List Nat)
    (h : ∀ r ∈ schedule, w.step r = w) : w.run schedule = w := by
  induction schedule with
  | nil => rfl
  | cons r rest ih =>
    show (w.step r).run rest = w
    rw [h r (List.mem_cons_self _ _)]
    exact ih (fun x hx => h x (List.mem_cons_of_mem _ hx))

theorem run_of_fixed_members {α : Type} (w : World α) (schedule : List (Fin 3))
    (h : ∀ r : Fin 3, w.step r.val = w) : w.run (schedule.map Fin.val) = w := by
  apply run_of_fixed
  intro r hr
  obtain ⟨x, -, rfl⟩ := List.mem_map.1 hr
  exact h x

/-- C12: the three ranks of the unit tests call `Gather(0, std::vector<int>{})`. After two
turns of every rank the size of the vector of rank 1 has reached rank 0, ranks 1 and 2
have returned the empty map, no turn of any rank changes the state any more, and so,
whatever turns follow, the `Gather` of rank 0 never returns its map. -/
theorem gather_of_empty_vectors_never_returns :
    ((World.init (fun r => (testCommunicator r).Gather (.vector 4) 0 (vectorValue []))).run
        (roundRobin testGroup 2)).channel 1 0 = encodeSizeT 0 ∧
      ((World.init (fun r => (testCommunicator r).Gather (.vector 4) 0 (vectorValue []))).run
        (roundRobin testGroup 2)).result 1 = some [] ∧
      ((World.init (fun r => (testCommunicator r).Gather (.vector 4) 0 (vectorValue []))).run
        (roundRobin testGroup 2)).result 2 = some [] ∧
      (∀ r : Fin 3,
        ((World.init (fun r => (testCommunicator r).Gather (.vector 4) 0
          (vectorValue []))).run (roundRobin testGroup 2)).step r.val
        = (World.init (fun r => (testCommunicator r).Gather (.vector 4) 0
          (vectorValue []))).run (roundRobin testGroup 2)) ∧
      ∀ schedule : List (Fin 3),
        ((World.init (fun r => (testCommunicator r).Gather (.vector 4) 0
          (vectorValue []))).run
          (roundRobin testGroup 2 ++ schedule.map Fin.val)).result 0 = none := by
  have hfixed : ∀ r : Fin 3,
      ((World.init (fun r => (testCommunicator r).Gather (.vector 4) 0
        (vectorValue []))).run (roundRobin testGroup 2)).step r.val
      = (World.init (fun r => (testCommunicator r).Gather (.vector 4) 0
        (vectorValue []))).run (roundRobin testGroup 2) := by
    intro r
    fin_cases r <;> rfl
  refine ⟨rfl, rfl, rfl, hfixed, ?_⟩
  intro schedule
  rw [run_append, run_of_fixed_members _ schedule hfixed]
  rfl

/-- C13: the three ranks of the unit tests call `Scatter(0, ·)`, rank 0 with a map that
has an empty `std::vector<int>` for every rank. After two turns of every rank the size of
the vector for rank 1 has reached rank 1, no turn of any rank changes the state any more,
and so, whatever turns follow, no `Scatter` of any rank returns. -/
theorem scatter_of_empty_vectors_never_returns :
    ((World.init (fun r => (testCommunicator r).Scatter (.vector 4) 0
        (if r = 0 then testGroup.map (fun k => (k, vectorValue [])) else []))).run
        (roundRobin testGroup 2)).channel 0 1 = encodeSizeT 0 ∧
      (∀ r : Fin 3,
        ((World.init (fun r => (testCommunicator r).Scatter (.vector 4) 0
          (if r = 0 then testGroup.map (fun k => (k, vectorValue [])) else []))).run
          (roundRobin testGroup 2)).step r.val
        = (World.init (fun r => (testCommunicator r).Scatter (.vector 4) 0
          (if r = 0 then testGroup.map (fun k => (k, vectorValue [])) else []))).run
          (roundRobin testGroup 2)) ∧
      ∀ (schedule : List (Fin 3)) (b : Fin 3),
        ((World.init (fun r => (testCommunicator r).Scatter (.vector 4) 0
          (if r = 0 then testGroup.map (fun k => (k, vectorValue [])) else []))).run
          (roundRobin testGroup 2 ++ schedule.map Fin.val)).result b.val = none := by
  have hfixed : ∀ r : Fin 3,
      ((World.init (fun r => (testCommunicator r).Scatter (.vector 4) 0
        (if r = 0 then testGroup.map (fun k => (k, vectorValue [])) else []))).run
        (roundRobin testGroup 2)).step r.val
      = (World.init (fun r => (testCommunicator r).Scatter (.vector 4) 0
        (if r = 0 then testGroup.map (fun k => (k, vectorValue [])) else []))).run
        (roundRobin testGroup 2) := by
    intro r
    fin_cases r <;> rfl
  refine ⟨rfl, hfixed, ?_⟩
  intro schedule b
  rw [run_append, run_of_fixed_members _ schedule hfixed]
  fin_cases b <;> rfl

/-- C14: the three ranks of the unit tests call `Broadcast(0, ·)`, rank 0 with an empty
`std::vector<int>`. After two turns of every rank the size of the vector has reached
rank 2, no turn of any rank changes the state any more, and so, whatever turns follow, no
`Broadcast` of any rank returns. -/
theorem broadcast_of_empty_vector_never_returns :
    ((World.init (fun r => (testCommunicator r).Broadcast (.vector 4) 0
        (if r = 0 then some (vectorValue []) else none))).run
        (roundRobin testGroup 2)).channel 0 2 = encodeSizeT 0 ∧
      (∀ r : Fin 3,
        ((World.init (fun r => (testCommunicator r).Broadcast (.vector 4) 0
          (if r = 0 then some (vectorValue []) else none))).run
          (roundRobin testGroup 2)).step r.val
        = (World.init (fun r => (testCommunicator r).Broadcast (.vector 4) 0
          (if r = 0 then some (vectorValue []) else none))).run
          (roundRobin testGroup 2)) ∧
      ∀ (schedule : List (Fin 3)) (b : Fin 3),
        ((World.init (fun r => (testCommunicator r).Broadcast (.vector 4) 0
          (if r = 0 then some (vectorValue []) else none))).run
          (roundRobin testGroup 2 ++ schedule.map Fin.val)).result b.val = none := by
  have hfixed : ∀ r : Fin 3,
      ((World.init (fun r => (testCommunicator r).Broadcast (.vector 4) 0
        (if r = 0 then some (vectorValue []) else none))).run
        (roundRobin testGroup 2)).step r.val
      = (World.init (fun r => (testCommunicator r).Broadcast (.vector 4) 0
        (if r = 0 then some (vectorValue []) else none))).run
        (roundRobin testGroup 2) := by
    intro r
    fin_cases r <;> rfl
  refine ⟨rfl, hfixed, ?_⟩
  intro schedule b
  rw [run_append, run_of_fixed_members _ schedule hfixed]
  fin_cases b <;> rfl

/-- C17: the three ranks of the unit tests call `AllToAll` with a map that has an empty
`std::vector<int>` for every rank. After two turns of every rank the size of the vector of
rank 2 for rank 1 has reached rank 1, no turn of any rank changes the state any more, and
so, whatever turns follow, no `AllToAll` of any rank returns. -/
theorem all_to_all_of_empty_vectors_never_returns :
    ((World.init (fun r => (testCommunicator r).AllToAll (.vector 4)
        (testGroup.map (fun k => (k, vectorValue []))))).run
        (roundRobin testGroup 2)).channel 2 1 = encodeSizeT 0 ∧
      (∀ r : Fin 3,
        ((World.init (fun r => (testCommunicator r).AllToAll (.vector 4)
          (testGroup.map (fun k => (k, vectorValue []))))).run
          (roundRobin testGroup 2)).step r.val
        = (World.init (fun r => (testCommunicator r).AllToAll (.vector 4)
          (testGroup.map (fun k => (k, vectorValue []))))).run
          (roundRobin testGroup 2)) ∧
      ∀ (schedule : List (Fin 3)) (b : Fin 3),
        ((World.init (fun r => (testCommunicator r).AllToAll (.vector 4)
          (testGroup.map (fun k => (k, vectorValue []))))).run
          (roundRobin testGroup 2 ++ schedule.map Fin.val)).result b.val = none := by
  have hfixed : ∀ r : Fin 3,
      ((World.init (fun r => (testCommunicator r).AllToAll (.vector 4)
        (testGroup.map (fun k => (k, vectorValue []))))).run
        (roundRobin testGroup 2)).step r.val
      = (World.init (fun r => (testCommunicator r).AllToAll (.vector 4)
        (testGroup.map (fun k => (k, vectorValue []))))).run
        (roundRobin testGroup 2) := by
    intro r
    fin_cases r <;> rfl
  refine ⟨rfl, hfixed, ?_⟩
  intro schedule b
  rw [run_append, run_of_fixed_members _ schedule hfixed]
  fin_cases b <;> rfl

/-! ## Properties of the partitions of the ring all-reduce -/

/-- C21: `RingAllReduce` with `size = 1` in a group of three ranks computes the partition
length 1 and the partition sizes 1, 0 and -1: the size of partition 2 is negative and has
no conversion to the `std::size_t` count of `Send` and `Recv`, and the three sizes sum to
0 and not to 1; the rank at position 0 passes the negative size to `Recv` in the second
turn of the first loop and to `Send` in the first turn of the second loop. -/
theorem ring_partition_size_negative :
    ringPartition 1 3 = 1 ∧
      (List.range 3).map (ringPartitionSize 1 3) = [1, 0, -1] ∧
      toSizeT (ringPartitionSize 1 3 2) = none ∧
      ((List.range 3).map (ringPartitionSize 1 3)).sum = 0 ∧
      ringReceiveCounts 1 3 0 = [some 0, none, some 1, some 0] ∧
      ringSendCounts 1 3 0 = [some 1, some 0, none, some 1] := by
  refine ⟨by decide, by decide, by decide, by decide, by decide, by decide⟩

/-! ## Properties of the logical reducers -/

theorem convert_one (T : IntegralType) (h : 0 < T.type_size) : T.convert 1 = 1 := by
  apply convert_of_inRange
  have hbits : 8 ≤ T.bits := by
    unfold IntegralType.bits
    omega
  have hpow : (2 : Int) ^ 8 ≤ 2 ^ T.bits := pow_le_pow_right₀ (by norm_num) hbits
  unfold IntegralType.InRange
  split_ifs
  · constructor <;> linarith
  · constructor <;> linarith

theorem all_ones_ne_zero (T : IntegralType) (h : 0 < T.type_size) :
    T.value (2 ^ T.bits - 1) ≠ 0 := by
  have hbits : 8 ≤ T.bits := by
    unfold IntegralType.bits
    omega
  have hpow : 2 ^ 8 ≤ 2 ^ T.bits := Nat.pow_le_pow_right (by norm_num) hbits
  intro h0
  have h1 := representation_value T (2 ^ T.bits - 1)
  rw [h0] at h1
  have h2 : T.representation 0 = 0 := by
    unfold IntegralType.representation
    simp
  rw [h2, Nat.mod_eq_of_lt (by omega)] at h1
  omega

theorem foldl_logical_and (c : Int → Int) (h1 : c 1 = 1) (h0 : c 0 = 0) (l : List Int) :
    ∀ init : Int, l ≠ [] →
      l.foldl (fun a b => c (if a ≠ 0 ∧ b ≠ 0 then 1 else 0)) init
        = if init ≠ 0 ∧ ∀ x ∈ l, x ≠ 0 then 1 else 0 := by
  induction l with
  | nil => intro init h; exact absurd rfl h
  | cons x rest ih =>
    intro init _
    rw [List.foldl_cons]
    by_cases hrest : rest = []
    · subst hrest
      simp only [List.foldl_nil, List.mem_singleton, forall_eq]
      split_ifs <;> assumption
    · rw [ih _ hrest]
      by_cases hx : init ≠ 0 ∧ x ≠ 0
      · rw [if_pos hx, h1]
        simp only [List.mem_cons, forall_eq_or_imp]
        by_cases hall : ∀ y ∈ rest, y ≠ 0
        · rw [if_pos ⟨one_ne_zero, hall⟩, if_pos ⟨hx.1, hx.2, hall⟩]
        · rw [if_neg (fun h => hall h.2), if_neg (fun h => hall h.2.2)]
      · rw [if_neg hx, h0]
        simp only [List.mem_cons, forall_eq_or_imp]
        rw [if_neg (fun h => h.1 rfl), if_neg (fun h => hx ⟨h.1, h.2.1⟩)]

theorem foldl_logical_or (c : Int → Int) (h1 : c 1 = 1) (h0 : c 0 = 0) (l : List Int) :
    ∀ init : Int, l ≠ [] →
      l.foldl (fun a b => c (if a ≠ 0 ∨ b ≠ 0 then 1 else 0)) init
        = if init ≠ 0 ∨ ∃ x ∈ l, x ≠ 0 then 1 else 0 := by
  induction l with
  | nil => intro init h; exact absurd rfl h
  | cons x rest ih =>
    intro init _
    rw [List.foldl_cons]
    by_cases hrest : rest = []
    · subst hrest
      simp only [List.foldl_nil, List.mem_singleton, exists_eq_left]
      split_ifs <;> assumption
    · rw [ih _ hrest]
      by_cases hx : init ≠ 0 ∨ x ≠ 0
      · rw [if_pos hx, h1, if_pos (Or.inl one_ne_zero), if_pos]
        rcases hx with hx | hx
        · exact Or.inl hx
        · exact Or.inr ⟨x, List.mem_cons_self _ _, hx⟩
      · rw [if_neg hx, h0]
        have hi : init = 0 := by
          by_contra h
          exact hx (Or.inl h)
        have hx0 : x = 0 := by
          by_contra h
          exact hx (Or.inr h)
        by_cases hex : ∃ y ∈ rest, y ≠ 0
        · rw [if_pos (Or.inr hex), if_pos]
          obtain ⟨y, hy, hy0⟩ := hex
          exact Or.inr ⟨y, List.mem_cons_of_mem _ hy, hy0⟩
        · rw [if_neg, if_neg]
          · rintro (h | ⟨y, hy, hy0⟩)
            · exact h hi
            · rcases List.mem_cons.1 hy with rfl | hy
              · exact hy0 hx0
              · exact hex ⟨y, hy, hy0⟩
          · rintro (h | h)
            · exact h rfl
            · exact hex h

/-- The reducer LOGICAL_AND on a range that is not empty returns 1 when every value is
non-zero, and 0 otherwise. -/
theorem logical_and_reducer (T : IntegralType) (r : List Int) (hsize : 0 < T.type_size)
    (hne : r ≠ []) :
    MPIOperatorImplementation .LOGICAL_AND T r = some (if ∀ x ∈ r, x ≠ 0 then 1 else 0) := by
  simp only [MPIOperatorImplementation, accumulate, Option.some.injEq]
  rw [foldl_logical_and T.convert (convert_one T hsize) (convert_zero T) r _ hne]
  by_cases hall : ∀ x ∈ r, x ≠ 0
  · rw [if_pos ⟨all_ones_ne_zero T hsize, hall⟩, if_pos hall]
  · rw [if_neg (fun h => hall h.2), if_neg hall]

/-- The reducer LOGICAL_OR on a range that is not empty returns 1 when some value is
non-zero, and 0 otherwise. -/
theorem logical_or_reducer (T : IntegralType) (r : List Int) (hsize : 0 < T.type_size)
    (hne : r ≠ []) :
    MPIOperatorImplementation .LOGICAL_OR T r = some (if ∃ x ∈ r, x ≠ 0 then 1 else 0) := by
  simp only [MPIOperatorImplementation, accumulate, Option.some.injEq]
  rw [foldl_logical_or T.convert (convert_one T hsize) (convert_zero T) r _ hne]
  by_cases hex : ∃ x ∈ r, x ≠ 0
  · rw [if_pos (Or.inr hex), if_pos hex]
  · rw [if_neg, if_neg hex]
    rintro (h | h)
    · exact h rfl
    · exact hex h

/-- C29: the reducer LOGICAL_XOR runs `std::bit_xor` over the values, as BITWISE_XOR does:
on the values 1 and 2 of `int`, two non-zero values, it returns 3 and not 0, and on the
single value 2 it returns 2 and not 1; the reducers LOGICAL_AND and LOGICAL_OR on the same
values return 1. -/
theorem logical_xor_reducer_is_bitwise :
    MPIOperatorImplementation .LOGICAL_XOR ⟨4, true⟩ [1, 2] = some 3 ∧
      MPIOperatorImplementation .LOGICAL_XOR ⟨4, true⟩ [2] = some 2 ∧
      (∀ r, MPIOperatorImplementation .LOGICAL_XOR ⟨4, true⟩ r
        = MPIOperatorImplementation .BITWISE_XOR ⟨4, true⟩ r) ∧
      MPIOperatorImplementation .LOGICAL_AND ⟨4, true⟩ [1, 2] = some 1 ∧
      MPIOperatorImplementation .LOGICAL_OR ⟨4, true⟩ [1, 2] = some 1 := by
  refine ⟨by decide, by decide, fun _ => rfl, by decide, by decide⟩

/-! ## Properties of the byte counters of a communicator -/

theorem int_convert_size_t_convert (y : Int) : INT.convert (SIZE_T.convert y) = INT.convert y := by
  apply convert_congr
  have h := convert_emod SIZE_T y
  have hdvd : (2 : Int) ^ INT.bits ∣ 2 ^ SIZE_T.bits := by
    show (2 : Int) ^ (8 * 4) ∣ 2 ^ (8 * 8)
    exact pow_dvd_pow 2 (by norm_num)
  rw [← Int.emod_emod_of_dvd _ hdvd, h, Int.emod_emod_of_dvd _ hdvd]

theorem plusIntoInt_eq (init : Int) (x : Nat) :
    plusIntoInt init x = INT.convert (init + (x : Int)) := by
  unfold plusIntoInt
  rw [int_convert_size_t_convert]
  apply convert_congr
  have hdvd : (2 : Int) ^ INT.bits ∣ 2 ^ SIZE_T.bits := by
    show (2 : Int) ^ (8 * 4) ∣ 2 ^ (8 * 8)
    exact pow_dvd_pow 2 (by norm_num)
  have h1 := convert_emod SIZE_T init
  have h2 := convert_emod SIZE_T (x : Int)
  have h3 : (SIZE_T.convert init + SIZE_T.convert (x : Int)) % 2 ^ SIZE_T.bits
      = (init + (x : Int)) % 2 ^ SIZE_T.bits := by
    rw [Int.add_emod, h1, h2, ← Int.add_emod]
  rw [← Int.emod_emod_of_dvd _ hdvd, h3, Int.emod_emod_of_dvd _ hdvd]

theorem accumulate_plusIntoInt (l : List Nat) :
    ∀ init : Int, accumulate plusIntoInt (INT.convert init) l
      = INT.convert (init + ((l.sum : Nat) : Int)) := by
  induction l with
  | nil => intro init; simp [accumulate]
  | cons x rest ih =>
    intro init
    have := ih (init + (x : Int))
    simp only [accumulate, List.foldl_cons, List.sum_cons] at this ⊢
    rw [plusIntoInt_eq, convert_add_left, this]
    push_cast
    rw [add_assoc]

/-- What `std::accumulate` with the initial value `0` of type `int` returns for counters
that sum to `total`: the sum converted to `int` and from there to `std::size_t`. -/
theorem accumulate_counters (l : List Nat) :
    (SIZE_T.convert (accumulate plusIntoInt 0 l)).toNat
      = (SIZE_T.convert (INT.convert ((l.sum : Nat) : Int))).toNat := by
  have h := accumulate_plusIntoInt l 0
  rw [convert_zero, zero_add] at h
  rw [h]

/-- While the counters of the peers sum to less than `2 ^ 31`, `TxBytes()` is their
sum. -/
theorem tx_bytes_of_small_sum (rankID : Nat) (sockets : List (Nat × CoroutineSocket))
    (h : ((sockets.filter (fun p => decide (p.1 ≠ rankID))).map
      (fun p => p.2.tx_size)).sum < 2 ^ 31) :
    TxBytes rankID sockets = peerBytes (fun s => s.tx_size) rankID sockets := by
  unfold TxBytes peerBytes
  rw [accumulate_counters]
  generalize ((sockets.filter (fun p => decide (p.1 ≠ rankID))).map
    (fun p => p.2.tx_size)).sum = total at h ⊢
  have h1 : INT.convert (total : Int) = (total : Int) := by
    apply convert_of_inRange
    show -(2 ^ (8 * 4) : Int) ≤ 2 * (total : Int) ∧ 2 * (total : Int) < 2 ^ (8 * 4)
    have : (total : Int) < 2 ^ 31 := by exact_mod_cast h
    constructor <;> omega
  have h2 : SIZE_T.convert (total : Int) = (total : Int) := by
    apply convert_of_inRange
    show (0 : Int) ≤ (total : Int) ∧ (total : Int) < 2 ^ (8 * 8)
    have : (total : Int) < 2 ^ 31 := by exact_mod_cast h
    constructor <;> omega
  rw [h1, h2, Int.toNat_natCast, Nat.mod_eq_of_lt]
  unfold SIZE_MOD
  omega

/-- C23: a communicator of rank 0 with its loopback socket and one peer socket whose
counters stand at `2 ^ 31` bytes sent and `2 ^ 32 + 5` bytes received: `TxBytes()` returns
`2 ^ 64 - 2 ^ 31` and `RxBytes()` returns 5, and neither is the sum of the counters of the
peers, because the sum is accumulated in an `int`. -/
theorem tx_bytes_accumulates_in_int :
    TxBytes 0 [(0, CoroutineSocket.loopback 4096),
        (1, { socket := true, tx_size := 2147483648, rx_size := 4294967301 })]
      = 18446744071562067968 ∧
    peerBytes (fun s => s.tx_size) 0 [(0, CoroutineSocket.loopback 4096),
        (1, { socket := true, tx_size := 2147483648, rx_size := 4294967301 })]
      = 2147483648 ∧
    RxBytes 0 [(0, CoroutineSocket.loopback 4096),
        (1, { socket := true, tx_size := 2147483648, rx_size := 4294967301 })] = 5 ∧
    peerBytes (fun s => s.rx_size) 0 [(0, CoroutineSocket.loopback 4096),
        (1, { socket := true, tx_size := 2147483648, rx_size := 4294967301 })]
      = 4294967301 := by
  refine ⟨by decide, by decide, by decide, by decide⟩

/-! ## Properties of the priority flow control -/

/-- The header built by `send_pause` for a priority below 8: the opcode `0x0101`, the
mask `1 << priority` and the pause time `0xFFFF` for the priority. -/
theorem send_pause_header (indeterminate : List Nat) (priority : Nat)
    (hp : priority < PFC_PAUSE_TIME_VECTOR_LENGTH)
    (hlen : indeterminate.length = PFC_PAUSE_TIME_VECTOR_LENGTH) :
    ∃ header, send_pause true true indeterminate priority = some header ∧
      header.m_op_code = 0x0101 ∧ header.m_mask = 1 <<< priority ∧
      header.m_pause_time.getD priority 0 = 0xFFFF := by
  refine ⟨_, rfl, rfl, ?_, ?_⟩
  · show toUInt16 (1 <<< priority) = 1 <<< priority
    unfold PFC_PAUSE_TIME_VECTOR_LENGTH at hp
    unfold toUInt16
    interval_cases priority <;> rfl
  · show (indeterminate.set priority 0xffff).getD priority 0 = 0xFFFF
    rw [List.getD_eq_getElem?_getD, List.getElem?_set_self (by rw [hlen]; exact hp)]
    rfl

/-- C24: `send_resume` stores nothing in its local `vector`, so that the header has the
opcode and the mask of the priority and, as pause times, what the memory of `vector`
holds: when that is what a call of `send_pause` for priority 3 has left there, the header
of the RESUME frame is the header of the PAUSE frame, with the pause time `0xFFFF` and not
`0x0000` for priority 3. -/
theorem send_resume_pause_time_indeterminate :
    (∀ indeterminate priority, send_resume true true indeterminate priority
      = some { m_op_code := 0x0101, m_mask := toUInt16 (1 <<< priority)
               m_pause_time := indeterminate }) ∧
      send_resume true true [0, 0, 0, 0xFFFF, 0, 0, 0, 0] 3
        = send_pause true true [0, 0, 0, 0, 0, 0, 0, 0] 3 ∧
      (send_resume true true [0, 0, 0, 0xFFFF, 0, 0, 0, 0] 3).map
        (fun header => header.m_pause_time.getD 3 0) = some 0xFFFF := by
  refine ⟨fun _ _ => rfl, by decide, by decide⟩

theorem roundedQuotient_mul (quanta n : Nat) (hq : 0 < quanta) :
    roundedQuotient (quanta * n) quanta = n := by
  unfold roundedQuotient
  have h : 2 * (quanta * n) + quanta = quanta + 2 * quanta * n := by ring
  rw [h, Nat.add_mul_div_left _ _ (by omega), Nat.div_eq_of_lt (by omega)]
  omega

/-- C25, as stated, fails. With a quanta of 4 ticks: an entry of 10 is replaced by 8 after
7 ticks, the quotient 1.75 being rounded to 2, where the claim gives
`10 - ⌊7 / 4⌋ = 9`; and an entry of 5 is replaced by 65534 after 28 ticks, where the
claim gives 0: the entry has wrapped around and has increased. -/
theorem pause_timer_update_rounds_and_wraps :
    (PauseTimer.Update
        { quanta := 4, last_updated_time := 0, pause_time := [10, 0, 0, 0, 0, 0, 0, 0]
          operation := none } 7).pause_time = [8, 0, 0, 0, 0, 0, 0, 0] ∧
      decayedPause 10 7 0 4 = 9 ∧
      (PauseTimer.Update
        { quanta := 4, last_updated_time := 0, pause_time := [5, 0, 0, 0, 0, 0, 0, 0]
          operation := none } 28).pause_time = [65534, 0, 0, 0, 0, 0, 0, 0] ∧
      decayedPause 5 28 0 4 = 0 := by
  refine ⟨by decide, by decide, by decide, by decide⟩

/-- C25, amended: `Update` at a time `now` not before `last_updated_time` leaves the
number of entries, leaves each zero entry at zero, and replaces each positive entry `x`
that is at least `d`, the quotient `(now - last_updated_time) / quanta` rounded to the
nearest integer, by `x - d`, which is not more than `x`. -/
theorem pause_timer_update_subtracts_rounded_quotient (timer : PauseTimer) (now i : Nat)
    (_hnow : timer.last_updated_time ≤ now) (_hquanta : 0 < timer.quanta)
    (hentries : ∀ x ∈ timer.pause_time, x < 2 ^ 16) (hi : i < timer.pause_time.length) :
    (timer.Update now).pause_time.length = timer.pause_time.length ∧
      (timer.pause_time.getD i 0 = 0 → (timer.Update now).pause_time.getD i 0 = 0) ∧
      (0 < timer.pause_time.getD i 0 →
        roundedQuotient (now - timer.last_updated_time) timer.quanta
          ≤ timer.pause_time.getD i 0 →
        (timer.Update now).pause_time.getD i 0
            = timer.pause_time.getD i 0
              - roundedQuotient (now - timer.last_updated_time) timer.quanta ∧
          (timer.Update now).pause_time.getD i 0 ≤ timer.pause_time.getD i 0) := by
  have hget : timer.pause_time.getD i 0 = timer.pause_time[i] := by
    rw [List.getD_eq_getElem?_getD, List.getElem?_eq_getElem hi]
    rfl
  have hlt : timer.pause_time[i] < 2 ^ 16 := hentries _ (List.getElem_mem hi)
  have hnew : (timer.Update now).pause_time.getD i 0
      = if 0 < timer.pause_time[i] then
          toUInt16 (timer.pause_time[i] + 2 ^ 16
            - toUInt16 (roundedQuotient (now - timer.last_updated_time) timer.quanta))
        else timer.pause_time[i] := by
    unfold PauseTimer.Update
    rw [List.getD_eq_getElem?_getD, List.getElem?_map, List.getElem?_eq_getElem hi]
    rfl
  rw [hget, hnew]
  refine ⟨by simp [PauseTimer.Update], ?_, ?_⟩
  · intro h0
    rw [if_neg (by omega), h0]
  · intro hpos hle
    rw [if_pos hpos]
    generalize roundedQuotient (now - timer.last_updated_time) timer.quanta = d at hle ⊢
    unfold toUInt16
    rw [Nat.mod_eq_of_lt (show d < 2 ^ 16 by omega)]
    have h1 : timer.pause_time[i] + 2 ^ 16 - d = (timer.pause_time[i] - d) + 2 ^ 16 := by
      omega
    rw [h1, Nat.add_mod_right, Nat.mod_eq_of_lt (by omega)]
    exact ⟨rfl, Nat.sub_le _ _⟩

theorem pause_timer_update_subtracts_rounded_quotient_witness :
    (PauseTimer.Update
        { quanta := 4, last_updated_time := 3, pause_time := [10, 0, 7, 0, 0, 0, 0, 0]
          operation := some 31 } 17).pause_time.length = 8 ∧
      (([10, 0, 7, 0, 0, 0, 0, 0] : List Nat).getD 2 0 = 0 →
        (PauseTimer.Update
          { quanta := 4, last_updated_time := 3, pause_time := [10, 0, 7, 0, 0, 0, 0, 0]
            operation := some 31 } 17).pause_time.getD 2 0 = 0) ∧
      (0 < ([10, 0, 7, 0, 0, 0, 0, 0] : List Nat).getD 2 0 →
        roundedQuotient (17 - 3) 4 ≤ ([10, 0, 7, 0, 0, 0, 0, 0] : List Nat).getD 2 0 →
        (PauseTimer.Update
          { quanta := 4, last_updated_time := 3, pause_time := [10, 0, 7, 0, 0, 0, 0, 0]
            operation := some 31 } 17).pause_time.getD 2 0
            = ([10, 0, 7, 0, 0, 0, 0, 0] : List Nat).getD 2 0 - roundedQuotient (17 - 3) 4 ∧
          (PauseTimer.Update
            { quanta := 4, last_updated_time := 3, pause_time := [10, 0, 7, 0, 0, 0, 0, 0]
              operation := some 31 } 17).pause_time.getD 2 0
            ≤ ([10, 0, 7, 0, 0, 0, 0, 0] : List Nat).getD 2 0) :=
  pause_timer_update_subtracts_rounded_quotient
    { quanta := 4, last_updated_time := 3, pause_time := [10, 0, 7, 0, 0, 0, 0, 0]
      operation := some 31 } 17 2 (by decide) (by decide) (by decide) (by decide)

/-- C26: a device with a quanta of 512 ticks and no timer yet receives at time 0 a frame
with the mask `0b11` and the pause times 2 and 5 for the priorities 0 and 1, and no frame
afterwards. Queues 0 and 1 are paused; at time `2 * 512` queue 0 is resumed and 3 quanta
remain for queue 1; at time `5 * 512` the timer subtracts 5 quanta, counted from the time
0 because `last_updated_time` has stayed there, from the 3 that remain, which wraps to
65534: queue 1 is not resumed at `5 * 512`, and it is still paused after the next
timeout, at `65539 * 512`. -/
theorem second_priority_is_not_resumed_on_time :
    (NotifyPauseTimeUpdated
        { quanta := 512, timer := none, paused := List.replicate 8 false } 0 3
        [2, 5, 0, 0, 0, 0, 0, 0]).paused
      = [true, true, false, false, false, false, false, false] ∧
    (timeouts 3 (NotifyPauseTimeUpdated
        { quanta := 512, timer := none, paused := List.replicate 8 false } 0 3
        [2, 5, 0, 0, 0, 0, 0, 0])).map
      (fun p => (p.1, p.2.paused, p.2.timer.map (fun timer => timer.pause_time)))
      = [(2 * 512, [false, true, false, false, false, false, false, false],
            some [0, 3, 0, 0, 0, 0, 0, 0]),
          (5 * 512, [false, true, false, false, false, false, false, false],
            some [0, 65534, 0, 0, 0, 0, 0, 0]),
          (65539 * 512, [false, true, false, false, false, false, false, false],
            some [0, 65531, 0, 0, 0, 0, 0, 0])] ∧
    (timeouts 3 (NotifyPauseTimeUpdated
        { quanta := 512, timer := none, paused := List.replicate 8 false } 0 3
        [2, 5, 0, 0, 0, 0, 0, 0])).map
      (fun p => p.2.timer.map (fun timer => timer.last_updated_time))
      = [some 0, some 0, some 0] := by
  refine ⟨by decide, by decide, by decide⟩
theorem pause_time_of_single_priority (p v : Nat) (V : List Nat) (hp : p < 8)
    (hv : V.getD p 0 = v) :
    (List.range PFC_PAUSE_TIME_VECTOR_LENGTH).map (fun i =>
        if (1 <<< p) &&& (1 <<< i) ≠ 0 then V.getD i 0
        else (List.replicate PFC_PAUSE_TIME_VECTOR_LENGTH 0).getD i 0)
      = (List.replicate 8 0).set p v := by
  subst hv
  unfold PFC_PAUSE_TIME_VECTOR_LENGTH
  interval_cases p <;> rfl

theorem process_timer_getD (paused : List Bool) (timer : PauseTimer) (p : Nat)
    (hp : p < paused.length) (hlen : paused.length ≤ 8) :
    (process_timer paused timer).getD p false = decide (0 < timer.pause_time.getD p 0) := by
  unfold process_timer
  rw [List.getD_eq_getElem?_getD, List.getElem?_map,
    List.getElem?_eq_getElem (by rw [List.length_range]; exact hp), List.getElem_range]
  unfold PFC_PAUSE_TIME_VECTOR_LENGTH
  simp only [Option.map_some', Option.getD_some]
  rw [if_pos (by omega)]

/-- A frame that pauses one priority `p` for `v` quanta, received at the time `now` by a
device that has no timer yet, with no frame afterwards: queue `p` is paused, the next
timeout is at `now + quanta * v` and resumes it, and no timeout is pending afterwards. -/
theorem single_pause_resumes_on_time (quanta now p v : Nat) (V : List Nat)
    (paused : List Bool) (hq : 0 < quanta) (hp : p < paused.length)
    (hlen : paused.length ≤ 8) (hv : V.getD p 0 = v) (hpos : 0 < v) (hv16 : v < 2 ^ 16) :
    (NotifyPauseTimeUpdated { quanta := quanta, timer := none, paused := paused } now
        (1 <<< p) V).paused.getD p false = true ∧
      ∃ d, nextTimeout (NotifyPauseTimeUpdated
          { quanta := quanta, timer := none, paused := paused } now (1 <<< p) V)
          = some (now + quanta * v, d) ∧
        d.paused.getD p false = false ∧ nextTimeout d = none := by
  have hp8 : p < 8 := by omega
  have hpt := pause_time_of_single_priority p v V hp8 hv
  have hfilter : ((List.replicate 8 0).set p v).filter (fun x => decide (0 < x)) = [v] := by
    interval_cases p <;> simp [hpos]
  have hget : ((List.replicate 8 0).set p v).getD p 0 = v := by
    rw [List.getD_eq_getElem?_getD, List.getElem?_set_self (by simpa using hp8)]
    rfl
  have hupdated : ((List.replicate 8 0).set p v).map
      (fun x => if 0 < x then toUInt16 (x + 2 ^ 16 - toUInt16 v) else x)
      = List.replicate 8 0 := by
    have h1 : toUInt16 (v + 2 ^ 16 - toUInt16 v) = 0 := by
      unfold toUInt16
      rw [Nat.mod_eq_of_lt hv16, Nat.add_sub_cancel_left, Nat.mod_self]
    have h2 : toUInt16 (v + 65536 - toUInt16 v) = 0 := h1
    interval_cases p <;> simp [hpos, h2]
  have hnotify : NotifyPauseTimeUpdated { quanta := quanta, timer := none, paused := paused }
      now (1 <<< p) V
      = { quanta := quanta
          paused := process_timer paused
            { quanta := quanta, last_updated_time := now
              pause_time := (List.replicate 8 0).set p v, operation := none }
          timer := some
            { quanta := quanta, last_updated_time := now
              pause_time := (List.replicate 8 0).set p v
              operation := some (now + quanta * v) } } := by
    unfold NotifyPauseTimeUpdated
    simp only [hpt, register_timer, hfilter]
    rfl
  rw [hnotify]
  refine ⟨?_, ?_⟩
  · show (process_timer paused _).getD p false = true
    rw [process_timer_getD _ _ _ hp hlen]
    show decide (0 < ((List.replicate 8 0).set p v).getD p 0) = true
    rw [hget]
    exact decide_eq_true hpos
  · have hround : roundedQuotient (now + quanta * v - now) quanta = v := by
      rw [Nat.add_sub_cancel_left]
      exact roundedQuotient_mul quanta v hq
    refine ⟨_, rfl, ?_, ?_⟩
    · show (timeoutDue _ (now + quanta * v)).paused.getD p false = false
      simp only [timeoutDue, if_true, PauseTimer.Update, hround, hupdated]
      rw [process_timer_getD _ _ _ (by simpa [process_timer] using hp)
        (by simpa [process_timer] using hlen)]
      show decide (0 < (List.replicate 8 0).getD p 0) = false
      interval_cases p <;> rfl
    · show nextTimeout (timeoutDue _ (now + quanta * v)) = none
      simp only [timeoutDue, if_true, PauseTimer.Update, hround, hupdated]
      rfl

theorem single_pause_resumes_on_time_example :
    (NotifyPauseTimeUpdated { quanta := 5, timer := none, paused := [false, false] } 0
        (1 <<< 0) [1000, 0, 0, 0, 0, 0, 0, 0]).paused.getD 0 false = true ∧
      ∃ d, nextTimeout (NotifyPauseTimeUpdated
          { quanta := 5, timer := none, paused := [false, false] } 0 (1 <<< 0)
          [1000, 0, 0, 0, 0, 0, 0, 0]) = some (0 + 5 * 1000, d) ∧
        d.paused.getD 0 false = false ∧ nextTimeout d = none :=
  single_pause_resumes_on_time 5 0 0 1000 [1000, 0, 0, 0, 0, 0, 0, 0] [false, false]
    (by decide) (by decide) (by decide) rfl (by decide) (by decide)

/-! ## The cache of a loopback socket stays within its limit -/

theorem sendCondition_bounded (s : CoroutineSocket) (op : SendOperation)
    (h : CacheBounded s) : CacheBounded (sendCondition s op).2.1 := by
  unfold sendCondition
  by_cases h1 : s.closed = true
  · rw [if_pos h1]
    exact h
  · rw [if_neg h1]
    dsimp only
    by_cases h2 : (s.blocked || decide (sizeSub s.cacheLimit s.cache.length ≤ 0)) = true
    · rw [if_pos h2]
      exact h
    · rw [if_neg h2]
      obtain ⟨hle, hlt⟩ := h
      refine ⟨?_, hlt⟩
      show (s.cache ++ op.packet.take (min (sizeSub s.cacheLimit s.cache.length)
        op.packet.length)).length ≤ s.cacheLimit
      rw [List.length_append, List.length_take, sizeSub_of_le _ _ hle hlt]
      omega

theorem receiveCondition_bounded (s : CoroutineSocket) (op : ReceiveOperation)
    (h : CacheBounded s) : CacheBounded (receiveCondition s op).2.1 := by
  unfold receiveCondition
  by_cases h1 : s.closed = true
  · rw [if_pos h1]
    exact h
  · rw [if_neg h1]
    by_cases h2 : (s.blocked || decide (s.cache.length ≤ 0)) = true
    · rw [if_pos h2]
      exact h
    · rw [if_neg h2]
      obtain ⟨hle, hlt⟩ := h
      refine ⟨?_, hlt⟩
      show (s.cache.drop _).length ≤ s.cacheLimit
      rw [List.length_drop]
      omega

theorem resumeSends_bounded (ops : List SendOperation) :
    ∀ s : CoroutineSocket, CacheBounded s → CacheBounded (resumeSends s ops) := by
  induction ops with
  | nil => intro s h; exact h
  | cons op rest ih =>
    intro s h
    have h1 := sendCondition_bounded s op h
    unfold resumeSends
    dsimp only
    split_ifs
    · exact ih _ h1
    · exact h1

theorem resumeReceives_bounded (ops : List ReceiveOperation) :
    ∀ s : CoroutineSocket, CacheBounded s → CacheBounded (resumeReceives s ops) := by
  induction ops with
  | nil => intro s h; exact h
  | cons op rest ih =>
    intro s h
    have h1 := receiveCondition_bounded s op h
    unfold resumeReceives
    dsimp only
    split_ifs
    · exact ih _ h1
    · exact h1

theorem step_bounded (s : CoroutineSocket) (a : SocketCall) (h : CacheBounded s) :
    CacheBounded (s.step a) := by
  cases a with
  | send tag packet =>
    show CacheBounded (s.send tag packet).2
    unfold CoroutineSocket.send
    have h1 := sendCondition_bounded s { tag := tag, size := packet.length, packet := packet } h
    dsimp only
    split_ifs
    · exact h
    · exact h1
    · exact h1
  | receive tag size =>
    show CacheBounded (s.receive tag size).2
    unfold CoroutineSocket.receive
    have h1 := receiveCondition_bounded s
      { tag := tag, size := size % SIZE_MOD, data := [] } h
    dsimp only
    split_ifs
    · exact h
    · exact h1
    · exact h1
  | block => exact h
  | unblock =>
    show CacheBounded (CoroutineSocket.onReceive (CoroutineSocket.onSend { s with blocked := false }))
    exact resumeReceives_bounded _ _ (resumeSends_bounded _ _ h)
  | wake =>
    show CacheBounded s.wake
    unfold CoroutineSocket.wake
    split
    · exact h
    · exact resumeReceives_bounded _ _ h
    · exact resumeSends_bounded _ _ h

theorem run_bounded (t : List SocketCall) :
    ∀ s : CoroutineSocket, CacheBounded s → CacheBounded (s.run t) := by
  induction t with
  | nil => intro s h; exact h
  | cons a rest ih =>
    intro s h
    exact ih _ (step_bounded s a h)

theorem sendCondition_cacheLimit (s : CoroutineSocket) (op : SendOperation) :
    (sendCondition s op).2.1.cacheLimit = s.cacheLimit := by
  unfold sendCondition
  by_cases h1 : s.closed = true
  · rw [if_pos h1]
  · rw [if_neg h1]
    dsimp only
    by_cases h2 : (s.blocked || decide (sizeSub s.cacheLimit s.cache.length ≤ 0)) = true
    · rw [if_pos h2]
    · rw [if_neg h2]

theorem receiveCondition_cacheLimit (s : CoroutineSocket) (op : ReceiveOperation) :
    (receiveCondition s op).2.1.cacheLimit = s.cacheLimit := by
  unfold receiveCondition
  by_cases h1 : s.closed = true
  · rw [if_pos h1]
  · rw [if_neg h1]
    by_cases h2 : (s.blocked || decide (s.cache.length ≤ 0)) = true
    · rw [if_pos h2]
    · rw [if_neg h2]

theorem resumeSends_cacheLimit (ops : List SendOperation) :
    ∀ s : CoroutineSocket, (resumeSends s ops).cacheLimit = s.cacheLimit := by
  induction ops with
  | nil => intro s; rfl
  | cons op rest ih =>
    intro s
    have h1 := sendCondition_cacheLimit s op
    unfold resumeSends
    dsimp only
    split_ifs
    · rw [ih]
      exact h1
    · exact h1

theorem resumeReceives_cacheLimit (ops : List ReceiveOperation) :
    ∀ s : CoroutineSocket, (resumeReceives s ops).cacheLimit = s.cacheLimit := by
  induction ops with
  | nil => intro s; rfl
  | cons op rest ih =>
    intro s
    have h1 := receiveCondition_cacheLimit s op
    unfold resumeReceives
    dsimp only
    split_ifs
    · rw [ih]
      exact h1
    · exact h1

theorem step_cacheLimit (s : CoroutineSocket) (a : SocketCall) :
    (s.step a).cacheLimit = s.cacheLimit := by
  cases a with
  | send tag packet =>
    show (s.send tag packet).2.cacheLimit = s.cacheLimit
    unfold CoroutineSocket.send
    have h1 := sendCondition_cacheLimit s
      { tag := tag, size := packet.length, packet := packet }
    dsimp only
    split_ifs
    · rfl
    · exact h1
    · exact h1
  | receive tag size =>
    show (s.receive tag size).2.cacheLimit = s.cacheLimit
    unfold CoroutineSocket.receive
    have h1 := receiveCondition_cacheLimit s
      { tag := tag, size := size % SIZE_MOD, data := [] }
    dsimp only
    split_ifs
    · rfl
    · exact h1
    · exact h1
  | block => rfl
  | unblock =>
    show (CoroutineSocket.onReceive
      (CoroutineSocket.onSend { s with blocked := false })).cacheLimit = s.cacheLimit
    unfold CoroutineSocket.onReceive CoroutineSocket.onSend
    rw [resumeReceives_cacheLimit, resumeSends_cacheLimit]
  | wake =>
    show s.wake.cacheLimit = s.cacheLimit
    unfold CoroutineSocket.wake
    split
    · rfl
    · unfold CoroutineSocket.onReceive
      rw [resumeReceives_cacheLimit]
    · unfold CoroutineSocket.onSend
      rw [resumeSends_cacheLimit]

theorem run_cacheLimit (t : List SocketCall) :
    ∀ s : CoroutineSocket, (s.run t).cacheLimit = s.cacheLimit := by
  induction t with
  | nil => intro s; rfl
  | cons a rest ih =>
    intro s
    show ((s.step a).run rest).cacheLimit = s.cacheLimit
    rw [ih, step_cacheLimit]

/-- C27: in every state that a loopback socket with any cache limit reaches through
calls of `send`, `receive`, `block` and `unblock` and through the scheduled wake-ups, the
cache holds no more bytes than the cache limit, so that the free space that `send`
computes, `cacheLimit - cache->GetSize()` in `std::size_t`, is the difference of the two
numbers and has not wrapped around. -/
theorem loopback_cache_within_limit (cacheLimit : Nat) (t : List SocketCall) :
    ((CoroutineSocket.loopback cacheLimit).run t).cacheLimit = cacheLimit % SIZE_MOD ∧
      ((CoroutineSocket.loopback cacheLimit).run t).cache.length ≤ cacheLimit % SIZE_MOD ∧
      sizeSub ((CoroutineSocket.loopback cacheLimit).run t).cacheLimit
          ((CoroutineSocket.loopback cacheLimit).run t).cache.length
          + ((CoroutineSocket.loopback cacheLimit).run t).cache.length
        = cacheLimit % SIZE_MOD := by
  have hinit : CacheBounded (CoroutineSocket.loopback cacheLimit) :=
    ⟨Nat.zero_le _, Nat.mod_lt _ (by unfold SIZE_MOD; positivity)⟩
  have hlimit : ∀ (t : List SocketCall) (s : CoroutineSocket),
      (s.run t).cacheLimit = s.cacheLimit := run_cacheLimit
  obtain ⟨hle, hlt⟩ := run_bounded t _ hinit
  have h0 : ((CoroutineSocket.loopback cacheLimit).run t).cacheLimit
      = cacheLimit % SIZE_MOD := hlimit t _
  rw [sizeSub_of_le _ _ hle hlt]
  rw [h0] at hle ⊢
  exact ⟨rfl, hle, by omega⟩

/-! ## Properties of the neighbours of the ring all-reduce -/

theorem ranks_sorted_perm (ranks : List Nat) : (ranks_sorted ranks).Perm ranks :=
  List.perm_insertionSort _ ranks

theorem ranks_sorted_length (ranks : List Nat) : (ranks_sorted ranks).length = ranks.length :=
  (ranks_sorted_perm ranks).length_eq

theorem ranks_sorted_strict (ranks : List Nat) (hnodup : ranks.Nodup) :
    (ranks_sorted ranks).Pairwise (fun a b => a < b) := by
  have hsorted : (ranks_sorted ranks).Pairwise (fun a b => a ≤ b) :=
    List.sorted_insertionSort _ ranks
  have hnd : (ranks_sorted ranks).Pairwise (fun a b => a ≠ b) :=
    (ranks_sorted_perm ranks).nodup_iff.2 hnodup
  exact (hsorted.and hnd).imp (fun h => lt_of_le_of_ne h.1 h.2)

theorem countP_lt_of_strict (l : List Nat) (h : l.Pairwise (fun a b => a < b)) (k : Nat)
    (hk : k < l.length) : l.countP (fun item => decide (item < l[k])) = k := by
  have hget := List.pairwise_iff_getElem.1 h
  have h1 : (l.take k).countP (fun item => decide (item < l[k])) = k := by
    rw [List.countP_eq_length.2]
    · rw [List.length_take]
      omega
    · intro a ha
      obtain ⟨i, hi, rfl⟩ := List.getElem_of_mem ha
      rw [List.length_take] at hi
      rw [List.getElem_take]
      have hik : i < k := by omega
      exact decide_eq_true (hget i k (by omega) hk hik)
  have h2 : (l.drop k).countP (fun item => decide (item < l[k])) = 0 := by
    rw [List.countP_eq_zero]
    intro a ha
    obtain ⟨i, hi, rfl⟩ := List.getElem_of_mem ha
    rw [List.length_drop] at hi
    rw [List.getElem_drop]
    simp only [decide_eq_true_eq, not_lt]
    by_cases h0 : i = 0
    · subst h0
      exact le_of_eq rfl
    · exact le_of_lt (hget k (k + i) hk (by omega) (by omega))
  have h3 := List.countP_append (fun item => decide (item < l[k])) (l.take k) (l.drop k)
  rw [List.take_append_drop] at h3
  rw [h3, h1, h2, Nat.add_zero]

/-- The value `index` of the rank at position `k` of the sorted ranks is `k`. -/
theorem ringIndex_sorted (ranks : List Nat) (hnodup : ranks.Nodup) (k : Nat)
    (hk : k < ranks.length) : ringIndex ranks ((ranks_sorted ranks).getD k 0) = k := by
  have hk2 : k < (ranks_sorted ranks).length := by
    rw [ranks_sorted_length]
    exact hk
  unfold ringIndex
  rw [← (ranks_sorted_perm ranks).countP_eq, List.getD_eq_getElem?_getD,
    List.getElem?_eq_getElem hk2]
  exact countP_lt_of_strict _ (ranks_sorted_strict ranks hnodup) k hk2

/-- A member of the group is the rank at the position `index` of the sorted ranks. -/
theorem sorted_ringIndex (ranks : List Nat) (hnodup : ranks.Nodup) (rankID : Nat)
    (hmem : rankID ∈ ranks) :
    ringIndex ranks rankID < ranks.length ∧
      (ranks_sorted ranks).getD (ringIndex ranks rankID) 0 = rankID := by
  have hmem2 : rankID ∈ ranks_sorted ranks := (ranks_sorted_perm ranks).mem_iff.2 hmem
  obtain ⟨k, hk, hget⟩ := List.getElem_of_mem hmem2
  have hk2 : k < ranks.length := by
    rw [← ranks_sorted_length]
    exact hk
  have hidx := ringIndex_sorted ranks hnodup k hk2
  rw [List.getD_eq_getElem?_getD, List.getElem?_eq_getElem hk] at hidx
  simp only [Option.getD_some] at hidx
  rw [hget] at hidx
  rw [hidx]
  refine ⟨hk2, ?_⟩
  rw [List.getD_eq_getElem?_getD, List.getElem?_eq_getElem hk]
  exact hget

theorem ring_pred (k n : Nat) (hk : k < n) :
    (k + n - 1) % n = if k = 0 then n - 1 else k - 1 := by
  by_cases h0 : k = 0
  · subst h0
    rw [if_pos rfl, Nat.zero_add]
    exact Nat.mod_eq_of_lt (by omega)
  · have h1 : k + n - 1 = (k - 1) + n := by omega
    rw [if_neg h0, h1, Nat.add_mod_right]
    exact Nat.mod_eq_of_lt (by omega)

theorem ring_succ (k n : Nat) (hk : k < n) :
    (k + 1) % n = if k + 1 = n then 0 else k + 1 := by
  by_cases h0 : k + 1 = n
  · rw [if_pos h0, h0, Nat.mod_self]
  · rw [if_neg h0]
    exact Nat.mod_eq_of_lt (by omega)

theorem ring_pred_succ (k n : Nat) (hk : k < n) : ((k + n - 1) % n + 1) % n = k := by
  rw [ring_pred k n hk]
  split_ifs with h0
  · have h1 : n - 1 + 1 = n := by omega
    rw [h1, Nat.mod_self, h0]
  · have h1 : k - 1 + 1 = k := by omega
    rw [h1]
    exact Nat.mod_eq_of_lt hk

theorem ring_succ_pred (k n : Nat) (hk : k < n) : ((k + 1) % n + n - 1) % n = k := by
  rw [ring_succ k n hk]
  split_ifs with h0
  · rw [Nat.zero_add]
    have h1 : (n - 1) % n = n - 1 := Nat.mod_eq_of_lt (by omega)
    rw [h1]
    omega
  · have h1 : k + 1 + n - 1 = k + n := by omega
    rw [h1, Nat.add_mod_right]
    exact Nat.mod_eq_of_lt hk

theorem ring_pred_ne (k n : Nat) (hn : 2 ≤ n) (hk : k < n) : (k + n - 1) % n ≠ k := by
  rw [ring_pred k n hk]
  split_ifs with h0 <;> omega

/-- The partitions that the rank before position `k` in the ring receives are, turn by
turn, the partitions that the rank at position `k` sends. -/
theorem ringReceivePartitions_of_pred (n k : Nat) (hn : 0 < n) :
    ringReceivePartitions n ((k + n - 1) % n) = ringSendPartitions n k := by
  unfold ringReceivePartitions ringSendPartitions
  congr 1
  · apply List.map_congr_left
    intro i _
    rw [Nat.add_assoc, Nat.mod_add_mod]
    have h1 : k + n - 1 + (i + 1) = k + i + n := by omega
    rw [h1, Nat.add_mod_right]
  · apply List.map_congr_left
    intro i _
    rw [Nat.mod_add_mod]
    congr 1
    omega

/-- C30: in a group of at least two distinct ranks, for a member `rankID` and its
`send_target`: the target is another member, the rank before `rankID` in the ring of the
sorted ranks; the `receive_target` of the target is `rankID`, and the `send_target` of the
`receive_target` of `rankID` is `rankID`; and in every turn of both loops the partition
that the target receives is the partition that `rankID` sends, so that the partition size
and the element count of the `Recv` of the target are those of the `Send` of `rankID`. -/
theorem ring_send_is_matched_by_receive (ranks : List Nat) (rankID size : Nat)
    (hnodup : ranks.Nodup) (hN : 2 ≤ ranks.length) (hmem : rankID ∈ ranks) :
    ringSendTarget ranks rankID ∈ ranks ∧
      ringSendTarget ranks rankID ≠ rankID ∧
      ringIndex ranks (ringSendTarget ranks rankID)
        = (ringIndex ranks rankID + ranks.length - 1) % ranks.length ∧
      ringIndex ranks (ringReceiveTarget ranks rankID)
        = (ringIndex ranks rankID + 1) % ranks.length ∧
      ringReceiveTarget ranks (ringSendTarget ranks rankID) = rankID ∧
      ringSendTarget ranks (ringReceiveTarget ranks rankID) = rankID ∧
      ringReceivePartitions ranks.length (ringIndex ranks (ringSendTarget ranks rankID))
        = ringSendPartitions ranks.length (ringIndex ranks rankID) ∧
      (ringReceivePartitions ranks.length
          (ringIndex ranks (ringSendTarget ranks rankID))).map
          (ringPartitionSize size ranks.length)
        = (ringSendPartitions ranks.length (ringIndex ranks rankID)).map
          (ringPartitionSize size ranks.length) ∧
      ringReceiveCounts size ranks.length (ringIndex ranks (ringSendTarget ranks rankID))
        = ringSendCounts size ranks.length (ringIndex ranks rankID) := by
  obtain ⟨hk, hget⟩ := sorted_ringIndex ranks hnodup rankID hmem
  have hn : 0 < ranks.length := by omega
  have hpred : (ringIndex ranks rankID + ranks.length - 1) % ranks.length < ranks.length :=
    Nat.mod_lt _ hn
  have hsucc : (ringIndex ranks rankID + 1) % ranks.length < ranks.length := Nat.mod_lt _ hn
  have hi1 : ringIndex ranks (ringSendTarget ranks rankID)
      = (ringIndex ranks rankID + ranks.length - 1) % ranks.length :=
    ringIndex_sorted ranks hnodup _ hpred
  have hi2 : ringIndex ranks (ringReceiveTarget ranks rankID)
      = (ringIndex ranks rankID + 1) % ranks.length :=
    ringIndex_sorted ranks hnodup _ hsucc
  have hparts := ringReceivePartitions_of_pred ranks.length (ringIndex ranks rankID) hn
  refine ⟨?_, ?_, hi1, hi2, ?_, ?_, ?_, ?_, ?_⟩
  · apply (ranks_sorted_perm ranks).mem_iff.1
    unfold ringSendTarget
    rw [List.getD_eq_getElem?_getD,
      List.getElem?_eq_getElem (by rw [ranks_sorted_length]; exact hpred)]
    exact List.getElem_mem _
  · intro heq
    have := hi1
    rw [heq] at this
    exact ring_pred_ne _ _ hN hk this.symm
  · show (ranks_sorted ranks).getD
      ((ringIndex ranks (ringSendTarget ranks rankID) + 1) % ranks.length) 0 = rankID
    rw [hi1, ring_pred_succ _ _ hk]
    exact hget
  · show (ranks_sorted ranks).getD
      ((ringIndex ranks (ringReceiveTarget ranks rankID) + ranks.length - 1)
        % ranks.length) 0 = rankID
    rw [hi2, ring_succ_pred _ _ hk]
    exact hget
  · rw [hi1]
    exact hparts
  · rw [hi1, hparts]
  · unfold ringReceiveCounts ringSendCounts
    rw [hi1, hparts]

theorem ring_send_is_matched_by_receive_witness :
    ringSendTarget [4, 9, 7] 4 ∈ [4, 9, 7] ∧
      ringSendTarget [4, 9, 7] 4 ≠ 4 ∧
      ringIndex [4, 9, 7] (ringSendTarget [4, 9, 7] 4)
        = (ringIndex [4, 9, 7] 4 + [4, 9, 7].length - 1) % [4, 9, 7].length ∧
      ringIndex [4, 9, 7] (ringReceiveTarget [4, 9, 7] 4)
        = (ringIndex [4, 9, 7] 4 + 1) % [4, 9, 7].length ∧
      ringReceiveTarget [4, 9, 7] (ringSendTarget [4, 9, 7] 4) = 4 ∧
      ringSendTarget [4, 9, 7] (ringReceiveTarget [4, 9, 7] 4) = 4 ∧
      ringReceivePartitions [4, 9, 7].length (ringIndex [4, 9, 7] (ringSendTarget [4, 9, 7] 4))
        = ringSendPartitions [4, 9, 7].length (ringIndex [4, 9, 7] 4) ∧
      (ringReceivePartitions [4, 9, 7].length
          (ringIndex [4, 9, 7] (ringSendTarget [4, 9, 7] 4))).map
          (ringPartitionSize 10 [4, 9, 7].length)
        = (ringSendPartitions [4, 9, 7].length (ringIndex [4, 9, 7] 4)).map
          (ringPartitionSize 10 [4, 9, 7].length) ∧
      ringReceiveCounts 10 [4, 9, 7].length (ringIndex [4, 9, 7] (ringSendTarget [4, 9, 7] 4))
        = ringSendCounts 10 [4, 9, 7].length (ringIndex [4, 9, 7] 4) :=
  ring_send_is_matched_by_receive [4, 9, 7] 4 10 (by decide) (by decide) (by decide)

/-! ## Properties of the communicator registry -/

theorem lookup_append_single {β : Type} (l : List (Nat × β)) (key id : Nat) (value : β)
    (h : l.lookup key = none) :
    (l ++ [(key, value)]).lookup id = if id = key then some value else l.lookup id := by
  induction l with
  | nil =>
    rw [List.nil_append, List.lookup_cons]
    by_cases hid : id = key
    · rw [if_pos hid, hid, beq_self_eq_true]
    · rw [if_neg hid, beq_false_of_ne hid]
  | cons p rest ih =>
    obtain ⟨k, v⟩ := p
    rw [List.lookup_cons] at h
    have hk : (key == k) = false := by
      cases hb : key == k with
      | false => rfl
      | true => rw [hb] at h; cases h
    rw [hk] at h
    rw [List.cons_append, List.lookup_cons, List.lookup_cons]
    cases hb : id == k with
    | true =>
      have hidk : id = k := beq_iff_eq.1 hb
      have hne : id ≠ key := by
        intro h'
        rw [← hidk, ← h', beq_self_eq_true] at hk
        cases hk
      rw [if_neg hne]
    | false => exact ih h

/-- `Initialize` on an application that has not been initialized and has no communicator
yet registers the identifiers 1, 2 and 3 and leaves the identifier 0 unregistered. -/
theorem initialize_registers_reserved (rankID : Nat) (world self : MPICommunicator) :
    ((MPIApplication.mk .INITIAL rankID []).Initialize world self).2.status = .WORKING ∧
      ((MPIApplication.mk .INITIAL rankID []).Initialize world self).2.communicators
        = [(NULL_COMMUNICATOR, MPICommunicator.null), (WORLD_COMMUNICATOR, world),
            (SELF_COMMUNICATOR, self)] ∧
      ((MPIApplication.mk .INITIAL rankID []).Initialize world self).2.contains
        ERROR_COMMUNICATOR = false := by
  refine ⟨rfl, rfl, rfl⟩

/-- C22, as stated, fails for the reserved identifier 0: on the application of rank 0 of
the unit tests, which `Initialize` leaves with the identifiers 1, 2 and 3 registered,
`duplicate_communicator(WORLD_COMMUNICATOR, ERROR_COMMUNICATOR)` does not fail; it
registers a copy of the world communicator under the identifier 0. -/
theorem duplicate_communicator_accepts_error_id :
    testApplication.status = .WORKING ∧
      testApplication.communicators.map (fun p => p.1) = [1, 2, 3] ∧
      (testApplication.duplicate_communicator WORLD_COMMUNICATOR ERROR_COMMUNICATOR).1
        = .ok (testCommunicator 0) ∧
      (testApplication.duplicate_communicator WORLD_COMMUNICATOR
        ERROR_COMMUNICATOR).2.communicators.map (fun p => p.1) = [1, 2, 3, 0] ∧
      (testApplication.duplicate_communicator WORLD_COMMUNICATOR
        ERROR_COMMUNICATOR).2.communicators.lookup ERROR_COMMUNICATOR
        = some (testCommunicator 0) := by
  refine ⟨rfl, rfl, rfl, rfl, rfl⟩

/-- C22, amended: on an initialized application `duplicate_communicator(oldID, newID)`
throws and leaves the application as it is whenever `newID` is registered or `oldID` is
not; in every other case it returns a copy of the communicator registered as `oldID`,
registers it as `newID`, and leaves every other entry, and the number of the other
entries, as they are. -/
theorem duplicate_communicator_registers_copy (app : MPIApplication) (oldID newID : Nat)
    (hinit : app.status = .WORKING) :
    ((app.contains oldID = false ∨ app.contains newID = true) →
        ∃ e, app.duplicate_communicator oldID newID = (.error e, app)) ∧
      (app.contains oldID = true → app.contains newID = false →
        ∃ c, app.communicators.lookup oldID = some c ∧
          (app.duplicate_communicator oldID newID).1 = .ok c ∧
          (app.duplicate_communicator oldID newID).2.status = .WORKING ∧
          (app.duplicate_communicator oldID newID).2.communicators.lookup newID = some c ∧
          (∀ id, id ≠ newID →
            (app.duplicate_communicator oldID newID).2.communicators.lookup id
              = app.communicators.lookup id) ∧
          (app.duplicate_communicator oldID newID).2.communicators.length
            = app.communicators.length + 1) := by
  have hI : app.Initialized = true := by
    unfold MPIApplication.Initialized
    exact decide_eq_true hinit
  constructor
  · intro h
    unfold MPIApplication.duplicate_communicator
    rw [hI]
    by_cases hold : app.contains oldID = true
    · have hnew : app.contains newID = true := by
        rcases h with h | h
        · rw [hold] at h
          cases h
        · exact h
      rw [hold, hnew]
      exact ⟨_, rfl⟩
    · rw [Bool.not_eq_true] at hold
      rw [hold]
      exact ⟨_, rfl⟩
  · intro hold hnew
    have hsome : (app.communicators.lookup oldID).isSome = true := hold
    obtain ⟨c, hc⟩ := Option.isSome_iff_exists.1 hsome
    have hnone : app.communicators.lookup newID = none := by
      have : (app.communicators.lookup newID).isSome = false := hnew
      cases hl : app.communicators.lookup newID with
      | none => rfl
      | some x => rw [hl] at this; cases this
    have hdup : app.duplicate_communicator oldID newID
        = (.ok c, { app with communicators := app.communicators ++ [(newID, c)] }) := by
      unfold MPIApplication.duplicate_communicator
      rw [hI, hold, hnew, hc]
      simp only [emplace, hnone, Option.isSome_none]
      rfl
    rw [hdup]
    refine ⟨c, hc, rfl, hinit, ?_, ?_, ?_⟩
    · show (app.communicators ++ [(newID, c)]).lookup newID = some c
      rw [lookup_append_single _ _ _ _ hnone, if_pos rfl]
    · intro id hid
      show (app.communicators ++ [(newID, c)]).lookup id = app.communicators.lookup id
      rw [lookup_append_single _ _ _ _ hnone, if_neg hid]
    · show (app.communicators ++ [(newID, c)]).length = app.communicators.length + 1
      rw [List.length_append]
      rfl

theorem duplicate_communicator_registers_copy_witness :
    ((testApplication.contains 2 = false ∨ testApplication.contains 7 = true) →
        ∃ e, testApplication.duplicate_communicator 2 7 = (.error e, testApplication)) ∧
      (testApplication.contains 2 = true → testApplication.contains 7 = false →
        ∃ c, testApplication.communicators.lookup 2 = some c ∧
          (testApplication.duplicate_communicator 2 7).1 = .ok c ∧
          (testApplication.duplicate_communicator 2 7).2.status = .WORKING ∧
          (testApplication.duplicate_communicator 2 7).2.communicators.lookup 7 = some c ∧
          (∀ id, id ≠ 7 →
            (testApplication.duplicate_communicator 2 7).2.communicators.lookup id
              = testApplication.communicators.lookup id) ∧
          (testApplication.duplicate_communicator 2 7).2.communicators.length
            = testApplication.communicators.length + 1) :=
  duplicate_communicator_registers_copy testApplication 2 7 rfl

/-! ## A socket is not both connected and listening -/

theorem sendCondition_flags (s : CoroutineSocket) (op : SendOperation) :
    (sendCondition s op).2.1.connected = s.connected ∧
      (sendCondition s op).2.1.listening = s.listening := by
  unfold sendCondition
  by_cases h1 : s.closed = true
  · rw [if_pos h1]
    exact ⟨rfl, rfl⟩
  · rw [if_neg h1]
    dsimp only
    by_cases h2 : (s.blocked || decide (sizeSub s.cacheLimit s.cache.length ≤ 0)) = true
    · rw [if_pos h2]
      exact ⟨rfl, rfl⟩
    · rw [if_neg h2]
      exact ⟨rfl, rfl⟩

theorem receiveCondition_flags (s : CoroutineSocket) (op : ReceiveOperation) :
    (receiveCondition s op).2.1.connected = s.connected ∧
      (receiveCondition s op).2.1.listening = s.listening := by
  unfold receiveCondition
  by_cases h1 : s.closed = true
  · rw [if_pos h1]
    exact ⟨rfl, rfl⟩
  · rw [if_neg h1]
    by_cases h2 : (s.blocked || decide (s.cache.length ≤ 0)) = true
    · rw [if_pos h2]
      exact ⟨rfl, rfl⟩
    · rw [if_neg h2]
      exact ⟨rfl, rfl⟩

theorem resumeSends_flags (ops : List SendOperation) :
    ∀ s : CoroutineSocket, (resumeSends s ops).connected = s.connected ∧
      (resumeSends s ops).listening = s.listening := by
  induction ops with
  | nil => intro s; exact ⟨rfl, rfl⟩
  | cons op rest ih =>
    intro s
    have h1 := sendCondition_flags s op
    unfold resumeSends
    dsimp only
    split_ifs
    · rw [(ih _).1, (ih _).2]
      exact h1
    · exact h1

theorem resumeReceives_flags (ops : List ReceiveOperation) :
    ∀ s : CoroutineSocket, (resumeReceives s ops).connected = s.connected ∧
      (resumeReceives s ops).listening = s.listening := by
  induction ops with
  | nil => intro s; exact ⟨rfl, rfl⟩
  | cons op rest ih =>
    intro s
    have h1 := receiveCondition_flags s op
    unfold resumeReceives
    dsimp only
    split_ifs
    · rw [(ih _).1, (ih _).2]
      exact h1
    · exact h1

theorem step_flags (s : CoroutineSocket) (a : SocketCall) :
    (s.step a).connected = s.connected ∧ (s.step a).listening = s.listening := by
  cases a with
  | send tag packet =>
    show (s.send tag packet).2.connected = s.connected ∧
      (s.send tag packet).2.listening = s.listening
    unfold CoroutineSocket.send
    have h1 := sendCondition_flags s { tag := tag, size := packet.length, packet := packet }
    dsimp only
    split_ifs
    · exact ⟨rfl, rfl⟩
    · exact h1
    · exact h1
  | receive tag size =>
    show (s.receive tag size).2.connected = s.connected ∧
      (s.receive tag size).2.listening = s.listening
    unfold CoroutineSocket.receive
    have h1 := receiveCondition_flags s { tag := tag, size := size % SIZE_MOD, data := [] }
    dsimp only
    split_ifs
    · exact ⟨rfl, rfl⟩
    · exact h1
    · exact h1
  | block => exact ⟨rfl, rfl⟩
  | unblock =>
    show (CoroutineSocket.onReceive
        (CoroutineSocket.onSend { s with blocked := false })).connected = s.connected ∧
      (CoroutineSocket.onReceive
        (CoroutineSocket.onSend { s with blocked := false })).listening = s.listening
    unfold CoroutineSocket.onReceive CoroutineSocket.onSend
    rw [(resumeReceives_flags _ _).1, (resumeReceives_flags _ _).2,
      (resumeSends_flags _ _).1, (resumeSends_flags _ _).2]
    exact ⟨rfl, rfl⟩
  | wake =>
    show s.wake.connected = s.connected ∧ s.wake.listening = s.listening
    unfold CoroutineSocket.wake
    split
    · exact ⟨rfl, rfl⟩
    · unfold CoroutineSocket.onReceive
      rw [(resumeReceives_flags _ _).1, (resumeReceives_flags _ _).2]
      exact ⟨rfl, rfl⟩
    · unfold CoroutineSocket.onSend
      rw [(resumeSends_flags _ _).1, (resumeSends_flags _ _).2]
      exact ⟨rfl, rfl⟩

theorem onClose_flags (s : CoroutineSocket) (error : NS3Error) :
    (s.onClose error).connected = s.connected ∧ (s.onClose error).listening = s.listening :=
  ⟨rfl, rfl⟩

theorem close_flags (s : CoroutineSocket) (u : UnderlyingClose) :
    (s.close u).2.connected = s.connected ∧ (s.close u).2.listening = s.listening := by
  unfold CoroutineSocket.close
  split_ifs
  · exact ⟨rfl, rfl⟩
  · cases u.notified <;> exact ⟨rfl, rfl⟩
  · cases u.notified <;> exact ⟨rfl, rfl⟩

/-- No event makes a socket both connected and listening. -/
theorem handle_exclusive (s : CoroutineSocket) (event : SocketEvent)
    (h : ¬(s.connected = true ∧ s.listening = true)) :
    ¬((s.handle event).connected = true ∧ (s.handle event).listening = true) := by
  cases event with
  | call c =>
    show ¬((if s.socket then s else s.step c).connected = true ∧
      (if s.socket then s else s.step c).listening = true)
    split_ifs
    · exact h
    · rw [(step_flags s c).1, (step_flags s c).2]
      exact h
  | transfer after =>
    show ¬((if s.socket then _ else s).connected = true ∧
      (if s.socket then _ else s).listening = true)
    split_ifs
    · exact h
    · exact h
  | accept tag listen =>
    show ¬((s.accept tag listen).2.connected = true ∧ (s.accept tag listen).2.listening = true)
    unfold CoroutineSocket.accept
    split_ifs with h1 h2
    · exact h
    · exact h
    · intro hboth
      apply h1
      have hc : s.connected = true := hboth.1
      rw [hc]
      rfl
  | connect tag answer =>
    show ¬((s.connect tag answer).2.connected = true ∧
      (s.connect tag answer).2.listening = true)
    unfold CoroutineSocket.connect
    split_ifs with h1 h2
    · exact h
    · exact h
    · intro hboth
      apply h1
      have hl : s.listening = true := hboth.2
      rw [hl]
      rfl
  | close u =>
    show ¬((s.close u).2.connected = true ∧ (s.close u).2.listening = true)
    rw [(close_flags s u).1, (close_flags s u).2]
    exact h
  | onAccept errno =>
    show ¬((if s.socket then s.onAccept errno else s).connected = true ∧
      (if s.socket then s.onAccept errno else s).listening = true)
    unfold CoroutineSocket.onAccept
    split_ifs
    · split <;> exact h
    · exact h
  | onConnect error =>
    show ¬((if s.socket then s.onConnect error else s).connected = true ∧
      (if s.socket then s.onConnect error else s).listening = true)
    unfold CoroutineSocket.onConnect
    split_ifs
    · split <;> exact h
    · exact h
  | onClose error =>
    show ¬((if s.socket then s.onClose error else s).connected = true ∧
      (if s.socket then s.onClose error else s).listening = true)
    split_ifs
    · exact h
    · exact h

theorem handleAll_exclusive (events : List SocketEvent) :
    ∀ s : CoroutineSocket, ¬(s.connected = true ∧ s.listening = true) →
      ¬((s.handleAll events).connected = true ∧ (s.handleAll events).listening = true) := by
  induction events with
  | nil => intro s h; exact h
  | cons event rest ih =>
    intro s h
    exact ih _ (handle_exclusive s event h)

theorem accept_of_connected (s : CoroutineSocket) (h : s.connected = true) (tag : Nat)
    (listen : UnderlyingAnswer) :
    s.accept tag listen
      = (some .ERROR_BADF, { s with completed := s.completed ++ [.accept tag .ERROR_BADF] }) := by
  unfold CoroutineSocket.accept
  rw [if_pos (by rw [h]; rfl)]

theorem connect_of_listening (s : CoroutineSocket) (h : s.listening = true) (tag : Nat)
    (answer : UnderlyingAnswer) :
    s.connect tag answer
      = (some .ERROR_BADF,
          { s with completed := s.completed ++ [.connect tag .ERROR_BADF] }) := by
  unfold CoroutineSocket.connect
  rw [if_pos (by rw [h]; rfl)]

/-- C28: in every state that a newly constructed socket, with or without underlying
socket, reaches through calls of `accept`, `connect`, `send`, `receive`, `close`, `block`
and `unblock`, through the callbacks of the underlying socket and through the scheduled
wake-ups, `connected` and `listening` are not both true; when `connected` is true,
`accept` resolves at the call with `ERROR_BADF`, and when `listening` is true, `connect`
resolves at the call with `ERROR_BADF`, each leaving the flags and the queues of pending
operations as they are. -/
theorem connected_and_listening_exclude (socket : Bool) (cacheLimit : Nat)
    (events : List SocketEvent) :
    ¬(((CoroutineSocket.fresh socket cacheLimit).handleAll events).connected = true ∧
        ((CoroutineSocket.fresh socket cacheLimit).handleAll events).listening = true) ∧
      (((CoroutineSocket.fresh socket cacheLimit).handleAll events).connected = true →
        ∀ tag listen,
          ((CoroutineSocket.fresh socket cacheLimit).handleAll events).accept tag listen
            = (some .ERROR_BADF,
                { (CoroutineSocket.fresh socket cacheLimit).handleAll events with
                  completed :=
                    ((CoroutineSocket.fresh socket cacheLimit).handleAll events).completed
                      ++ [.accept tag .ERROR_BADF] })) ∧
      (((CoroutineSocket.fresh socket cacheLimit).handleAll events).listening = true →
        ∀ tag answer,
          ((CoroutineSocket.fresh socket cacheLimit).handleAll events).connect tag answer
            = (some .ERROR_BADF,
                { (CoroutineSocket.fresh socket cacheLimit).handleAll events with
                  completed :=
                    ((CoroutineSocket.fresh socket cacheLimit).handleAll events).completed
                      ++ [.connect tag .ERROR_BADF] })) := by
  refine ⟨handleAll_exclusive events _ (fun h => by cases h.1), ?_, ?_⟩
  · intro hc tag listen
    exact accept_of_connected _ hc tag listen
  · intro hl tag answer
    exact connect_of_listening _ hl tag answer

/-- A socket with an underlying socket that has called `accept` is listening and refuses
`connect`; one that has called `connect` is connected and refuses `accept`. -/
theorem listening_refuses_connect_example :
    ((CoroutineSocket.fresh true 4096).handleAll
        [.accept 1 { returned := 0, errno := .ERROR_NOTERROR }]).listening = true ∧
      (((CoroutineSocket.fresh true 4096).handleAll
        [.accept 1 { returned := 0, errno := .ERROR_NOTERROR }]).connect 2
          { returned := 0, errno := .ERROR_NOTERROR }).1 = some .ERROR_BADF ∧
      ((CoroutineSocket.fresh true 4096).handleAll
        [.connect 1 { returned := 0, errno := .ERROR_NOTERROR },
          .onConnect .ERROR_NOTERROR]).connected = true ∧
      (((CoroutineSocket.fresh true 4096).handleAll
        [.connect 1 { returned := 0, errno := .ERROR_NOTERROR },
          .onConnect .ERROR_NOTERROR]).accept 2
          { returned := 0, errno := .ERROR_NOTERROR }).1 = some .ERROR_BADF := by
  refine ⟨by decide, by decide, by decide, by decide⟩

/-! ## Execution of the ring all-reduce -/

theorem handed_append {α : Type} (a : Nat) (l1 l2 : List Nat) :
    ∀ w : World α, w.handed a (l1 ++ l2) = w.handed a l1 + (w.run l1).handed a l2 := by
  induction l1 with
  | nil =>
    intro w
    show w.handed a l2 = 0 + w.handed a l2
    rw [Nat.zero_add]
  | cons r rest ih =>
    intro w
    show (if r = a then w.handedBy r else 0) + (w.step r).handed a (rest ++ l2)
      = (if r = a then w.handedBy r else 0) + (w.step r).handed a rest
        + ((w.step r).run rest).handed a l2
    rw [ih, Nat.add_assoc]

theorem roundsBytes_succ {α : Type} (prog : Nat → Collective α) (a n : Nat) :
    roundsBytes prog a (n + 1)
      = roundsBytes prog a n + sendBytes (lockstep prog n a).sends := by
  unfold roundsBytes
  rw [List.range_succ, List.map_append, List.sum_append]
  simp

theorem step_rank_of_ne {α : Type} (w : World α) (r a : Nat) (h : r ≠ a) :
    (w.step r).rank a = w.rank a := by
  unfold World.step
  rcases hp : (w.rank r).program with x | _ | ⟨sends, recvs, next⟩
  · rfl
  · rfl
  · dsimp only
    by_cases hs : (w.rank r).started = true
    · rw [if_pos hs]
      rcases hrecv : receiveAll w.channel r recvs with _ | ⟨received, channel⟩
      · rfl
      · exact Function.update_noteq (Ne.symm h) _ _
    · rw [if_neg hs]
      exact Function.update_noteq (Ne.symm h) _ _

/-- In a turn of a rank whose operation is the one of the reference execution, the bytes
it hands to its sockets are those of the round whose `Send`s it issues. -/
theorem handed_step {α : Type} (prog : Nat → Collective α) (w : World α) (r a : Nat)
    (h : (w.rank a).program = lockstep prog (w.rank a).phase a) :
    roundsBytes prog a (w.rank a).sent + (if r = a then w.handedBy r else 0)
      = roundsBytes prog a ((w.step r).rank a).sent := by
  by_cases hra : r = a
  · subst hra
    rw [if_pos rfl]
    unfold World.handedBy World.step
    rcases hp : (w.rank r).program with x | _ | ⟨sends, recvs, next⟩
    · rfl
    · rfl
    · dsimp only
      have hsends : (lockstep prog (w.rank r).phase r).sends = sends := by
        rw [← h, hp]
        rfl
      by_cases hs : (w.rank r).started = true
      · rw [if_pos hs, if_pos hs]
        rcases hrecv : receiveAll w.channel r recvs with _ | ⟨received, channel⟩
        · rfl
        · dsimp only
          rw [Function.update_same]
          unfold RankState.sent
          rw [if_pos hs]
          rfl
      · rw [if_neg hs, if_neg hs]
        dsimp only
        rw [Function.update_same]
        unfold RankState.sent
        rw [if_neg hs]
        dsimp only
        rw [if_pos rfl, Nat.add_zero, roundsBytes_succ, hsends]
  · rw [if_neg hra, Nat.add_zero, step_rank_of_ne w r a hra]

/-- In an execution that follows the reference execution, the bytes that a rank hands
to its sockets are those of the rounds of which it has issued the `Send`s. -/
theorem handed_run {α : Type} (group : List Nat) (prog : Nat → Collective α)
    (hmatched : ∀ j, Matched group (lockstep prog j)) (a : Nat) (ha : a ∈ group)
    (schedule : List Nat) :
    ∀ w : World α, WorldInv group prog w → (∀ r ∈ schedule, r ∈ group) →
      roundsBytes prog a (w.rank a).sent + w.handed a schedule
        = roundsBytes prog a ((w.run schedule).rank a).sent := by
  induction schedule with
  | nil =>
    intro w _ _
    rfl
  | cons r rest ih =>
    intro w hinv hsched
    have hstep := handed_step prog w r a (hinv.1 a ha)
    have hrest := ih (w.step r)
      (step_world_inv group prog hmatched w r hinv (hsched r (List.mem_cons_self _ _)))
      (fun x hx => hsched x (List.mem_cons_of_mem _ hx))
    show roundsBytes prog a (w.rank a).sent
        + ((if r = a then w.handedBy r else 0) + (w.step r).handed a rest)
      = roundsBytes prog a (((w.step r).run rest).rank a).sent
    rw [← hrest, ← hstep, Nat.add_assoc]

theorem roundsBytes_of_done {α : Type} (prog : Nat → Collective α) (a n : Nat) (x : α)
    (h : lockstep prog n a = .done x) (k : Nat) :
    roundsBytes prog a (n + k) = roundsBytes prog a n := by
  induction k with
  | zero => rfl
  | succ k ih =>
    rw [← Nat.add_assoc, roundsBytes_succ, ih, lockstep_done_stable prog n a x h k]
    rfl

theorem ofSteps_nil : Collective.ofSteps [] = .done () := rfl

theorem ofSteps_cons (s : List (Nat × List Nat) × List (Nat × MPIType))
    (rest : List (List (Nat × List Nat) × List (Nat × MPIType))) :
    Collective.ofSteps (s :: rest) = .phase s.1 s.2 (fun _ => Collective.ofSteps rest) := rfl

theorem ofSteps_after (steps : List (List (Nat × List Nat) × List (Nat × MPIType)))
    (received : List (List Nat)) :
    (Collective.ofSteps steps).after received = Collective.ofSteps (steps.drop 1) := by
  cases steps with
  | nil => rfl
  | cons s rest => rfl

theorem lockstep_ofSteps (prog : Nat → Collective Unit) (b : Nat)
    (steps : List (List (Nat × List Nat) × List (Nat × MPIType)))
    (h : prog b = Collective.ofSteps steps) (j : Nat) :
    lockstep prog j b = Collective.ofSteps (steps.drop j) := by
  induction j with
  | zero => exact h
  | succ j ih =>
    rw [lockstep_succ, ih, ofSteps_after, List.drop_drop, Nat.add_comm]

theorem ofSteps_drop_of_lt (steps : List (List (Nat × List Nat) × List (Nat × MPIType)))
    (j : Nat) (hj : j < steps.length) :
    Collective.ofSteps (steps.drop j)
      = .phase steps[j].1 steps[j].2 (fun _ => Collective.ofSteps (steps.drop (j + 1))) := by
  rw [List.drop_eq_getElem_cons hj]
  rfl

theorem ofSteps_drop_of_le (steps : List (List (Nat × List Nat) × List (Nat × MPIType)))
    (j : Nat) (hj : steps.length ≤ j) : Collective.ofSteps (steps.drop j) = .done () := by
  rw [List.drop_eq_nil_of_le hj]
  rfl

theorem roundsBytes_ofSteps (prog : Nat → Collective Unit) (b : Nat)
    (steps : List (List (Nat × List Nat) × List (Nat × MPIType)))
    (h : prog b = Collective.ofSteps steps) (n : Nat) :
    roundsBytes prog b n = ((steps.take n).map (fun s => sendBytes s.1)).sum := by
  induction n with
  | zero => rfl
  | succ n ih =>
    rw [roundsBytes_succ, ih, lockstep_ofSteps prog b steps h n]
    by_cases hn : n < steps.length
    · rw [ofSteps_drop_of_lt steps n hn, List.take_succ, List.getElem?_eq_getElem hn,
        List.map_append, List.sum_append]
      rfl
    · rw [ofSteps_drop_of_le steps n (by omega), List.take_succ,
        List.getElem?_eq_none (by omega), List.map_append, List.sum_append]
      rfl

theorem ranks_sorted_eq_of_perm (l1 l2 : List Nat) (h : l1.Perm l2) :
    ranks_sorted l1 = ranks_sorted l2 :=
  List.eq_of_perm_of_sorted
    (((ranks_sorted_perm l1).trans h).trans (ranks_sorted_perm l2).symm)
    (List.sorted_insertionSort _ l1) (List.sorted_insertionSort _ l2)

theorem ringIndex_perm (l1 l2 : List Nat) (h : l1.Perm l2) (rankID : Nat) :
    ringIndex l1 rankID = ringIndex l2 rankID :=
  h.countP_eq _

theorem ringSendTarget_perm (l1 l2 : List Nat) (h : l1.Perm l2) (rankID : Nat) :
    ringSendTarget l1 rankID = ringSendTarget l2 rankID := by
  unfold ringSendTarget
  rw [ranks_sorted_eq_of_perm l1 l2 h, ringIndex_perm l1 l2 h, h.length_eq]

theorem ringReceiveTarget_perm (l1 l2 : List Nat) (h : l1.Perm l2) (rankID : Nat) :
    ringReceiveTarget l1 rankID = ringReceiveTarget l2 rankID := by
  unfold ringReceiveTarget
  rw [ranks_sorted_eq_of_perm l1 l2 h, ringIndex_perm l1 l2 h, h.length_eq]

theorem ranks_perm (c : MPICommunicator) (group : List Nat) (h : c.sockets.Perm group) :
    c.ranks.Perm group :=
  (ranks_sorted_perm c.sockets).trans h

/-- The neighbours of a member in the ring are members, lie one position after and one
position before it in the sorted ranks, and have it as their neighbour on the other
side. -/
theorem ring_neighbours (ranks : List Nat) (rankID : Nat) (hnodup : ranks.Nodup)
    (hmem : rankID ∈ ranks) :
    ringReceiveTarget ranks rankID ∈ ranks ∧
      ringSendTarget ranks rankID ∈ ranks ∧
      ringIndex ranks (ringReceiveTarget ranks rankID)
        = (ringIndex ranks rankID + 1) % ranks.length ∧
      ringIndex ranks (ringSendTarget ranks rankID)
        = (ringIndex ranks rankID + ranks.length - 1) % ranks.length ∧
      ringSendTarget ranks (ringReceiveTarget ranks rankID) = rankID ∧
      ringReceiveTarget ranks (ringSendTarget ranks rankID) = rankID := by
  obtain ⟨hk, hget⟩ := sorted_ringIndex ranks hnodup rankID hmem
  have hn : 0 < ranks.length := List.length_pos_of_mem hmem
  have hpred : (ringIndex ranks rankID + ranks.length - 1) % ranks.length < ranks.length :=
    Nat.mod_lt _ hn
  have hsucc : (ringIndex ranks rankID + 1) % ranks.length < ranks.length := Nat.mod_lt _ hn
  have hi1 : ringIndex ranks (ringSendTarget ranks rankID)
      = (ringIndex ranks rankID + ranks.length - 1) % ranks.length :=
    ringIndex_sorted ranks hnodup _ hpred
  have hi2 : ringIndex ranks (ringReceiveTarget ranks rankID)
      = (ringIndex ranks rankID + 1) % ranks.length :=
    ringIndex_sorted ranks hnodup _ hsucc
  refine ⟨?_, ?_, hi2, hi1, ?_, ?_⟩
  · apply (ranks_sorted_perm ranks).mem_iff.1
    unfold ringReceiveTarget
    rw [List.getD_eq_getElem?_getD,
      List.getElem?_eq_getElem (by rw [ranks_sorted_length]; exact hsucc)]
    exact List.getElem_mem _
  · apply (ranks_sorted_perm ranks).mem_iff.1
    unfold ringSendTarget
    rw [List.getD_eq_getElem?_getD,
      List.getElem?_eq_getElem (by rw [ranks_sorted_length]; exact hpred)]
    exact List.getElem_mem _
  · show (ranks_sorted ranks).getD
      ((ringIndex ranks (ringReceiveTarget ranks rankID) + ranks.length - 1)
        % ranks.length) 0 = rankID
    rw [hi2, ring_succ_pred _ _ hk]
    exact hget
  · show (ranks_sorted ranks).getD
      ((ringIndex ranks (ringSendTarget ranks rankID) + 1) % ranks.length) 0 = rankID
    rw [hi1, ring_pred_succ _ _ hk]
    exact hget

/-- The count of a partition of a payload of fewer than 2^32 bytes of which every
partition has at least one byte: the partition size converts to it, and it is at least 1
and at most the payload. -/
theorem ring_count (size groupSize k : Nat) (hk : k < groupSize)
    (hpart : (groupSize - 1) * ringPartition size groupSize < size)
    (hsize : size < UINT32_MOD) :
    toSizeT (ringPartitionSize size groupSize k) = some (ringCount size groupSize k) ∧
      0 < ringCount size groupSize k ∧ ringCount size groupSize k ≤ size ∧
      (ringCount size groupSize k : Int) = ringPartitionSize size groupSize k ∧
      ringCount size groupSize k
        = if k + 1 < groupSize then ringPartition size groupSize
          else size - (groupSize - 1) * ringPartition size groupSize := by
  have hN : 0 < groupSize := by omega
  have hcov := ringPartitionSize_covered size groupSize k hN hk (Nat.le_of_lt hpart)
  have hle := le_ringPartition_mul size groupSize hN
  have hval : ringCount size groupSize k
      = if k + 1 < groupSize then ringPartition size groupSize
        else size - (groupSize - 1) * ringPartition size groupSize := by
    unfold ringCount
    rw [hcov, Int.toNat_natCast]
  have hpos : 0 < ringCount size groupSize k ∧ ringCount size groupSize k ≤ size := by
    rw [hval]
    generalize ringPartition size groupSize = P at hpart hle
    by_cases h : k + 1 < groupSize
    · rw [if_pos h]
      have h1 : 1 * P ≤ (groupSize - 1) * P := Nat.mul_le_mul_right P (by omega)
      constructor
      · rcases Nat.eq_zero_or_pos P with h0 | h0
        · subst h0
          simp at hle
          omega
        · exact h0
      · omega
    · rw [if_neg h]
      omega
  have hint : (ringCount size groupSize k : Int) = ringPartitionSize size groupSize k := by
    rw [hcov, hval]
  have hlt : ringCount size groupSize k < SIZE_MOD :=
    lt_of_le_of_lt hpos.2 (Nat.lt_trans hsize (by decide))
  have hlt2 : (ringCount size groupSize k : Int) < (SIZE_MOD : Int) := by exact_mod_cast hlt
  refine ⟨?_, hpos.1, hpos.2, hint, hval⟩
  unfold toSizeT
  rw [← hint, if_pos ⟨Int.natCast_nonneg _, hlt2⟩, Int.toNat_natCast]

theorem ringTurn_of_counts (c : MPICommunicator) (type_size size : Nat) (p : Nat × Nat)
    (rest : Collective Unit)
    (h1 : toSizeT (ringPartitionSize size c.sockets.length p.1)
      = some (ringCount size c.sockets.length p.1))
    (h2 : toSizeT (ringPartitionSize size c.sockets.length p.2)
      = some (ringCount size c.sockets.length p.2)) :
    c.ringTurn type_size size p rest
      = .phase (c.SendFake type_size (ringSendTarget c.ranks c.rankID)
          (ringCount size c.sockets.length p.1))
        [(ringReceiveTarget c.ranks c.rankID,
          .fakeVector type_size (ringCount size c.sockets.length p.2))]
        (fun _ => rest) := by
  unfold MPICommunicator.ringTurn
  rw [h1, h2]

theorem foldr_ringTurn (c : MPICommunicator) (type_size size : Nat)
    (turns : List (Nat × Nat))
    (h : ∀ p ∈ turns,
      toSizeT (ringPartitionSize size c.sockets.length p.1)
          = some (ringCount size c.sockets.length p.1) ∧
        toSizeT (ringPartitionSize size c.sockets.length p.2)
          = some (ringCount size c.sockets.length p.2)) :
    turns.foldr (c.ringTurn type_size size) (.done ())
      = Collective.ofSteps (turns.map (fun p =>
        (c.SendFake type_size (ringSendTarget c.ranks c.rankID)
            (ringCount size c.sockets.length p.1),
          [(ringReceiveTarget c.ranks c.rankID,
            .fakeVector type_size (ringCount size c.sockets.length p.2))]))) := by
  induction turns with
  | nil => rfl
  | cons p rest ih =>
    rw [List.foldr_cons, ih (fun q hq => h q (List.mem_cons_of_mem _ hq)),
      ringTurn_of_counts c type_size size p _ (h p (List.mem_cons_self _ _)).1
        (h p (List.mem_cons_self _ _)).2]
    rfl

theorem mem_ringSendPartitions (groupSize index k : Nat) (hN : 0 < groupSize)
    (h : k ∈ ringSendPartitions groupSize index) : k < groupSize := by
  simp only [ringSendPartitions, List.mem_append, List.mem_map] at h
  rcases h with ⟨i, _, rfl⟩ | ⟨i, _, rfl⟩ <;> exact Nat.mod_lt _ hN

theorem mem_ringReceivePartitions (groupSize index k : Nat) (hN : 0 < groupSize)
    (h : k ∈ ringReceivePartitions groupSize index) : k < groupSize := by
  simp only [ringReceivePartitions, List.mem_append, List.mem_map] at h
  rcases h with ⟨i, _, rfl⟩ | ⟨i, _, rfl⟩ <;> exact Nat.mod_lt _ hN

theorem length_ringSendPartitions (groupSize index : Nat) :
    (ringSendPartitions groupSize index).length = 2 * (groupSize - 1) := by
  simp [ringSendPartitions]
  omega

theorem length_ringReceivePartitions (groupSize index : Nat) :
    (ringReceivePartitions groupSize index).length = 2 * (groupSize - 1) := by
  simp [ringReceivePartitions]
  omega

/-- With a payload of fewer than 2^32 bytes of which every partition has at least one
byte, `RingAllReduce` is the sequence of its turns. -/
theorem ringAllReduce_steps (c : MPICommunicator) (type_size size : Nat)
    (hN : 0 < c.sockets.length)
    (hpart : (c.sockets.length - 1) * ringPartition size c.sockets.length < size)
    (hsize : size < UINT32_MOD) :
    c.RingAllReduce type_size size = Collective.ofSteps (c.ringSteps type_size size) := by
  unfold MPICommunicator.RingAllReduce MPICommunicator.ringSteps
  apply foldr_ringTurn
  intro p hp
  obtain ⟨h1, h2⟩ := List.of_mem_zip hp
  exact ⟨(ring_count size _ p.1 (mem_ringSendPartitions _ _ _ hN h1) hpart hsize).1,
    (ring_count size _ p.2 (mem_ringReceivePartitions _ _ _ hN h2) hpart hsize).1⟩

theorem length_ringSteps (c : MPICommunicator) (type_size size : Nat) :
    (c.ringSteps type_size size).length = 2 * (c.sockets.length - 1) := by
  unfold MPICommunicator.ringSteps
  rw [List.length_map, List.length_zip, length_ringSendPartitions,
    length_ringReceivePartitions, Nat.min_self]

theorem getElem_ringSteps (c : MPICommunicator) (type_size size j : Nat)
    (hj : j < (c.ringSteps type_size size).length) :
    (c.ringSteps type_size size)[j]
      = (c.SendFake type_size (ringSendTarget c.ranks c.rankID)
          (ringCount size c.sockets.length
            ((ringSendPartitions c.sockets.length (ringIndex c.ranks c.rankID)).getD j 0)),
        [(ringReceiveTarget c.ranks c.rankID,
          .fakeVector type_size (ringCount size c.sockets.length
            ((ringReceivePartitions c.sockets.length
              (ringIndex c.ranks c.rankID)).getD j 0)))]) := by
  have hj2 := hj
  rw [length_ringSteps] at hj2
  have h1 : j < (ringSendPartitions c.sockets.length (ringIndex c.ranks c.rankID)).length := by
    rw [length_ringSendPartitions]
    exact hj2
  have h2 : j < (ringReceivePartitions c.sockets.length
      (ringIndex c.ranks c.rankID)).length := by
    rw [length_ringReceivePartitions]
    exact hj2
  rw [List.getD_eq_getElem _ _ h1, List.getD_eq_getElem _ _ h2]
  simp only [MPICommunicator.ringSteps, List.getElem_map, List.getElem_zip]

/-- The packets of `SendFake` are the packets of the value of the fake vector. -/
theorem send_fakeVector (c : MPICommunicator) (type_size rank count : Nat) :
    c.Send (.fakeVector type_size count) rank (fakeVectorValue type_size count)
      = c.SendFake type_size rank count := by
  have hlen : (encodeSizeT count).length = SIZEOF_SIZE_T := by simp [encodeSizeT]
  show List.map (fun packet => (rank, packet))
      [List.take SIZEOF_SIZE_T (fakeVectorValue type_size count),
        List.drop SIZEOF_SIZE_T (fakeVectorValue type_size count)]
    = c.SendFake type_size rank count
  unfold MPICommunicator.SendFake fakeVectorValue
  rw [List.take_left' hlen, List.drop_left' hlen]
  rfl

theorem outBytes_SendFake (c : MPICommunicator) (type_size rank count dst : Nat) :
    outBytes (c.SendFake type_size rank count) dst
      = if rank = dst then fakeVectorValue type_size count else [] := by
  unfold outBytes MPICommunicator.SendFake fakeVectorValue
  by_cases h : rank = dst
  · simp [h]
  · simp [h]

theorem sendBytes_SendFake (c : MPICommunicator) (rank count : Nat)
    (hcount : count < UINT32_MOD) :
    sendBytes (c.SendFake 1 rank count) = SIZEOF_SIZE_T + count := by
  have h64 : count < SIZE_MOD := Nat.lt_trans hcount (by decide)
  unfold sendBytes MPICommunicator.SendFake
  simp [encodeSizeT, fakePacket, Nat.mod_eq_of_lt hcount, Nat.mod_eq_of_lt h64, SIZEOF_SIZE_T]

/-- The round `j` of `RingAllReduce` in a group whose payload has fewer than 2^32 bytes
and no empty partition: before the last round every member sends the partition of the
turn to its send target and awaits the partition of the turn from its receive target;
from then on it has returned. -/
theorem ring_round (group : List Nat) (comm : Nat → MPICommunicator) (size : Nat)
    (hcomm : ∀ r ∈ group, (comm r).rankID = r ∧ (comm r).sockets.Perm group)
    (hpart : (group.length - 1) * ringPartition size group.length < size)
    (hsize : size < UINT32_MOD) (a : Nat) (ha : a ∈ group) (j : Nat) :
    (j < 2 * (group.length - 1) →
      (lockstep (fun r => (comm r).RingAllReduce 1 size) j a).sends
          = (comm a).SendFake 1 (ringSendTarget group a)
            (ringCount size group.length
              ((ringSendPartitions group.length (ringIndex group a)).getD j 0)) ∧
        (lockstep (fun r => (comm r).RingAllReduce 1 size) j a).recvs
          = [(ringReceiveTarget group a,
            .fakeVector 1 (ringCount size group.length
              ((ringReceivePartitions group.length (ringIndex group a)).getD j 0)))]) ∧
      (2 * (group.length - 1) ≤ j →
        lockstep (fun r => (comm r).RingAllReduce 1 size) j a = .done ()) := by
  obtain ⟨hid, hperm⟩ := hcomm a ha
  have hlen : (comm a).sockets.length = group.length := hperm.length_eq
  have hN : 0 < (comm a).sockets.length := by
    rw [hlen]
    exact List.length_pos_of_mem ha
  have hranks := ranks_perm (comm a) group hperm
  have hshape := lockstep_ofSteps (fun r => (comm r).RingAllReduce 1 size) a
    ((comm a).ringSteps 1 size)
    (ringAllReduce_steps (comm a) 1 size hN (by rw [hlen]; exact hpart) hsize) j
  have hsteps := length_ringSteps (comm a) 1 size
  rw [hlen] at hsteps
  constructor
  · intro hj
    have hj2 : j < ((comm a).ringSteps 1 size).length := by
      rw [hsteps]
      exact hj
    rw [hshape, ofSteps_drop_of_lt _ j hj2, getElem_ringSteps _ _ _ _ hj2, hid, hlen,
      ringSendTarget_perm _ _ hranks, ringReceiveTarget_perm _ _ hranks,
      ringIndex_perm _ _ hranks]
    exact ⟨rfl, rfl⟩
  · intro hj
    rw [hshape]
    exact ofSteps_drop_of_le _ j (by rw [hsteps]; exact hj)

theorem ringReceivePartitions_of_succ (n k : Nat) (hk : k < n) :
    ringReceivePartitions n k = ringSendPartitions n ((k + 1) % n) := by
  have h := ringReceivePartitions_of_pred n ((k + 1) % n) (by omega)
  rw [ring_succ_pred k n hk] at h
  exact h

theorem getD_ringSendPartitions_lt (groupSize index j : Nat) (hN : 0 < groupSize) :
    (ringSendPartitions groupSize index).getD j 0 < groupSize := by
  by_cases hj : j < (ringSendPartitions groupSize index).length
  · rw [List.getD_eq_getElem _ _ hj]
    exact mem_ringSendPartitions groupSize index _ hN (List.getElem_mem _)
  · rw [List.getD_eq_default _ _ (by omega)]
    exact hN

/-- In every round of `RingAllReduce`, in a group whose payload has fewer than 2^32 bytes
and no empty partition, what a member awaits is what its receive target sends it. -/
theorem ring_matched (group : List Nat) (comm : Nat → MPICommunicator) (size : Nat)
    (hnodup : group.Nodup)
    (hcomm : ∀ r ∈ group, (comm r).rankID = r ∧ (comm r).sockets.Perm group)
    (hpart : (group.length - 1) * ringPartition size group.length < size)
    (hsize : size < UINT32_MOD) (j : Nat) :
    Matched group (lockstep (fun r => (comm r).RingAllReduce 1 size) j) := by
  intro b hb
  have hN : 0 < group.length := List.length_pos_of_mem hb
  have hround := fun a ha => ring_round group comm size hcomm hpart hsize a ha j
  by_cases hj : j < 2 * (group.length - 1)
  · obtain ⟨-, hrecvs⟩ := (hround b hb).1 hj
    obtain ⟨hrt, -, hirt, -, hsr, -⟩ := ring_neighbours group b hnodup hb
    obtain ⟨hidx, -⟩ := sorted_ringIndex group hnodup b hb
    rw [hrecvs]
    refine ⟨List.nodup_singleton _, ?_, ?_⟩
    · intro p hp
      rw [List.mem_singleton] at hp
      subst hp
      refine ⟨hrt, ?_⟩
      obtain ⟨hsends, -⟩ := (hround _ hrt).1 hj
      dsimp only
      rw [hsends, outBytes_SendFake, hsr, if_pos rfl, hirt,
        ← ringReceivePartitions_of_succ _ _ hidx]
      have hk : (ringReceivePartitions group.length (ringIndex group b)).getD j 0
          < group.length := by
        rw [ringReceivePartitions_of_succ _ _ hidx]
        exact getD_ringSendPartitions_lt _ _ _ hN
      obtain ⟨-, hpos, hle, -, -⟩ := ring_count size group.length _ hk hpart hsize
      exact ⟨by rw [Nat.mul_one]; exact hpos,
        by rw [Nat.mul_one]; exact lt_of_le_of_lt hle hsize, rfl⟩
    · intro a ha hne
      obtain ⟨hsends, -⟩ := (hround a ha).1 hj
      rw [hsends, outBytes_SendFake] at hne
      have hst : ringSendTarget group a = b := by
        by_contra h
        rw [if_neg h] at hne
        exact hne rfl
      obtain ⟨-, -, -, -, -, hrs⟩ := ring_neighbours group a hnodup ha
      rw [hst] at hrs
      rw [List.map_singleton, List.mem_singleton]
      exact hrs.symm
  · have hdone := fun a ha => (hround a ha).2 (by omega)
    rw [hdone b hb]
    refine ⟨List.nodup_nil, ?_, ?_⟩
    · intro p hp
      cases hp
    · intro a ha hne
      rw [hdone a ha] at hne
      exact absurd rfl hne

/-- The partitions that a rank sends are all the partitions taken twice except the two
partitions before its own, taken once each. -/
theorem ring_send_partitions_sum (size groupSize index : Nat) (hN : 0 < groupSize)
    (hcover : (groupSize - 1) * ringPartition size groupSize ≤ size) (f : Nat → Nat)
    (hf : ∀ k, k < groupSize → f k = if k + 1 < groupSize then ringPartition size groupSize
      else size - (groupSize - 1) * ringPartition size groupSize) :
    ((ringSendPartitions groupSize index).map f).sum
        + f ((index + (groupSize - 1)) % groupSize)
        + f ((index + groupSize - 1 + (groupSize - 1)) % groupSize)
      = 2 * size := by
  obtain ⟨m, rfl⟩ : ∃ m, groupSize = m + 1 := ⟨groupSize - 1, by omega⟩
  simp only [Nat.add_sub_cancel] at hcover hf ⊢
  generalize ringPartition size (m + 1) = P at hcover hf
  have h1 := cyclic_sum f (m + 1) index hN
  have h2 := cyclic_sum f (m + 1) (index + m) hN
  have h3 : ((List.range (m + 1)).map f).sum = size := by
    rw [← sum_covered_partitions size P m hcover]
    congr 1
    apply List.map_congr_left
    intro k hk
    exact hf k (List.mem_range.1 hk)
  have h4 : (fun i => (index + i + (m + 1) - 1) % (m + 1))
      = (fun i => (index + m + i) % (m + 1)) := by
    funext i
    congr 1
    omega
  have h8 : index + (m + 1) - 1 = index + m := by omega
  simp only [Nat.add_sub_cancel] at h1 h2
  rw [ringSendPartitions, Nat.add_sub_cancel, h4, h8, List.map_append, List.sum_append,
    List.map_map, List.map_map]
  simp only [Function.comp_def]
  omega

theorem sum_map_add_const (l : List Nat) (f : Nat → Nat) (c : Nat) :
    (l.map (fun k => c + f k)).sum = c * l.length + (l.map f).sum := by
  induction l with
  | nil => rfl
  | cons x xs ih =>
    rw [List.map_cons, List.sum_cons, ih, List.map_cons, List.sum_cons, List.length_cons]
    ring

/-- The bytes of all the `Send`s of `RingAllReduce` on a payload of fewer than 2^32
one-byte elements of which no partition is empty: 8 bytes of count and the bytes of the
partition, for every partition sent. -/
theorem sendBytes_ringSteps (c : MPICommunicator) (size : Nat) (hN : 0 < c.sockets.length)
    (hpart : (c.sockets.length - 1) * ringPartition size c.sockets.length < size)
    (hsize : size < UINT32_MOD) :
    ((c.ringSteps 1 size).map (fun s => sendBytes s.1)).sum
      = 16 * (c.sockets.length - 1)
        + ((ringSendPartitions c.sockets.length (ringIndex c.ranks c.rankID)).map
          (ringCount size c.sockets.length)).sum := by
  have hmap : (c.ringSteps 1 size).map (fun s => sendBytes s.1)
      = (ringSendPartitions c.sockets.length (ringIndex c.ranks c.rankID)).map
        (fun k => SIZEOF_SIZE_T + ringCount size c.sockets.length k) := by
    have hzip : (ringSendPartitions c.sockets.length (ringIndex c.ranks c.rankID)).map
          (fun k => SIZEOF_SIZE_T + ringCount size c.sockets.length k)
        = (((ringSendPartitions c.sockets.length (ringIndex c.ranks c.rankID)).zip
          (ringReceivePartitions c.sockets.length (ringIndex c.ranks c.rankID))).map
            Prod.fst).map (fun k => SIZEOF_SIZE_T + ringCount size c.sockets.length k) := by
      rw [List.map_fst_zip]
      rw [length_ringSendPartitions, length_ringReceivePartitions]
    rw [hzip, MPICommunicator.ringSteps, List.map_map, List.map_map]
    apply List.map_congr_left
    intro p hp
    obtain ⟨h1, -⟩ := List.of_mem_zip hp
    obtain ⟨-, -, hle, -, -⟩ := ring_count size _ p.1
      (mem_ringSendPartitions _ _ _ hN h1) hpart hsize
    exact sendBytes_SendFake c _ _ (lt_of_le_of_lt hle hsize)
  rw [hmap, sum_map_add_const, length_ringSendPartitions]
  simp only [SIZEOF_SIZE_T]
  omega

/-- The bytes that a member has handed to its sockets once its `RingAllReduce` has
returned, on a payload of fewer than 2^32 one-byte elements of which no partition is
empty: the bytes of all its `Send`s. -/
theorem ring_handed_of_returned (group : List Nat) (comm : Nat → MPICommunicator)
    (size : Nat) (schedule : List Nat) (b : Nat) (hnodup : group.Nodup)
    (hcomm : ∀ r ∈ group, (comm r).rankID = r ∧ (comm r).sockets.Perm group)
    (hpart : (group.length - 1) * ringPartition size group.length < size)
    (hsize : size < UINT32_MOD) (hsched : ∀ r ∈ schedule, r ∈ group) (hb : b ∈ group)
    (hreturned : ((World.init (fun r => (comm r).RingAllReduce 1 size)).run
      schedule).result b = some ()) :
    (World.init (fun r => (comm r).RingAllReduce 1 size)).handed b schedule
      = 16 * (group.length - 1)
        + ((ringSendPartitions group.length (ringIndex group b)).map
          (ringCount size group.length)).sum := by
  obtain ⟨hid, hperm⟩ := hcomm b hb
  have hlen : (comm b).sockets.length = group.length := hperm.length_eq
  have hN : 0 < group.length := List.length_pos_of_mem hb
  have hranks := ranks_perm (comm b) group hperm
  have hmatched := ring_matched group comm size hnodup hcomm hpart hsize
  have hinv := run_world_inv group _ hmatched schedule (World.init _) (init_inv group _)
    hsched
  have hrun := handed_run group _ hmatched b hb schedule (World.init _) (init_inv group _)
    hsched
  have hzero : roundsBytes (fun r => (comm r).RingAllReduce 1 size) b
      ((World.init (fun r => (comm r).RingAllReduce 1 size)).rank b).sent = 0 := rfl
  rw [hzero, Nat.zero_add] at hrun
  have hprog : (((World.init (fun r => (comm r).RingAllReduce 1 size)).run
      schedule).rank b).program = .done () := by
    unfold World.result at hreturned
    rcases hp : (((World.init (fun r => (comm r).RingAllReduce 1 size)).run
      schedule).rank b).program with z | _ | ⟨s, r, nx⟩
    · rfl
    · rw [hp] at hreturned
      cases hreturned
    · rw [hp] at hreturned
      cases hreturned
  have hphase : 2 * (group.length - 1)
      ≤ (((World.init (fun r => (comm r).RingAllReduce 1 size)).run schedule).rank b).phase := by
    by_contra hlt
    have hr := ((ring_round group comm size hcomm hpart hsize b hb
      (((World.init (fun r => (comm r).RingAllReduce 1 size)).run schedule).rank b).phase).1
      (by omega)).2
    rw [← hinv.1 b hb, hprog] at hr
    cases hr
  have hsent : (((World.init (fun r => (comm r).RingAllReduce 1 size)).run
      schedule).rank b).sent
      = 2 * (group.length - 1)
        + ((((World.init (fun r => (comm r).RingAllReduce 1 size)).run
          schedule).rank b).sent - 2 * (group.length - 1)) := by
    unfold RankState.sent
    omega
  have hsteps := ringAllReduce_steps (comm b) 1 size (by rw [hlen]; exact hN)
    (by rw [hlen]; exact hpart) hsize
  rw [hrun, hsent,
    roundsBytes_of_done _ b _ () ((ring_round group comm size hcomm hpart hsize b hb _).2
      (Nat.le_refl _)),
    roundsBytes_ofSteps _ b _ hsteps, List.take_of_length_le (by rw [length_ringSteps, hlen]),
    sendBytes_ringSteps (comm b) size (by rw [hlen]; exact hN) (by rw [hlen]; exact hpart)
      hsize,
    hlen, hid, ringIndex_perm _ _ hranks]

/-- C20, amended: in a group whose members all call `RingAllReduce` with one-byte elements
on a payload of fewer than 2^32 bytes of which every partition has at least one byte,
after any execution two more turns of every member for each of the `2 * (N - 1)` rounds
make every member return, and the member has then handed to its sockets
`16 * (N - 1)` bytes of counts plus the sizes of all the partitions taken twice except the
two partitions before its own, taken once each; when `N` divides the payload this is
`2 * (N - 1) * (size / N) + 16 * (N - 1)` bytes. -/
theorem ring_all_reduce_hands_bytes (group : List Nat) (comm : Nat → MPICommunicator)
    (size : Nat) (schedule : List Nat) (b : Nat) (hnodup : group.Nodup)
    (hcomm : ∀ r ∈ group, (comm r).rankID = r ∧ (comm r).sockets.Perm group)
    (hpart : (group.length - 1) * ringPartition size group.length < size)
    (hsize : size < UINT32_MOD) (hsched : ∀ r ∈ schedule, r ∈ group) (hb : b ∈ group) :
    ((World.init (fun r => (comm r).RingAllReduce 1 size)).run
        (schedule ++ roundRobin group (2 * (2 * (group.length - 1))))).result b = some () ∧
      ((World.init (fun r => (comm r).RingAllReduce 1 size)).handed b
          (schedule ++ roundRobin group (2 * (2 * (group.length - 1)))) : Int)
          + ringPartitionSize size group.length
            ((ringIndex group b + (group.length - 1)) % group.length)
          + ringPartitionSize size group.length
            ((ringIndex group b + group.length - 1 + (group.length - 1)) % group.length)
        = 16 * ((group.length : Int) - 1) + 2 * (size : Int) ∧
      (group.length ∣ size →
        (World.init (fun r => (comm r).RingAllReduce 1 size)).handed b
            (schedule ++ roundRobin group (2 * (2 * (group.length - 1))))
          = 2 * (group.length - 1) * (size / group.length) + 16 * (group.length - 1)) := by
  have hN : 0 < group.length := List.length_pos_of_mem hb
  have hmatched := ring_matched group comm size hnodup hcomm hpart hsize
  obtain ⟨-, x, -, hlive⟩ := execution_follows_rounds group _ (2 * (group.length - 1))
    hmatched
    (fun a ha => ⟨(), (ring_round group comm size hcomm hpart hsize a ha _).2 (Nat.le_refl _)⟩)
    schedule hsched b hb
  have hfull : ∀ r ∈ schedule ++ roundRobin group (2 * (2 * (group.length - 1))),
      r ∈ group := by
    intro r hr
    rcases List.mem_append.1 hr with h | h
    · exact hsched r h
    · unfold roundRobin at h
      obtain ⟨l, hl, hrl⟩ := List.mem_flatten.1 h
      rw [List.eq_of_mem_replicate hl] at hrl
      exact hrl
  have hhanded := ring_handed_of_returned group comm size _ b hnodup hcomm hpart hsize
    hfull hb hlive
  have hcount := fun k hk => ring_count size group.length k hk hpart hsize
  have hlt : ∀ a, a % group.length < group.length := fun a => Nat.mod_lt _ hN
  have hsum := ring_send_partitions_sum size group.length (ringIndex group b) hN
    (Nat.le_of_lt hpart) (ringCount size group.length) (fun k hk => (hcount k hk).2.2.2.2)
  refine ⟨hlive, ?_, ?_⟩
  · rw [hhanded, ← (hcount _ (hlt _)).2.2.2.1, ← (hcount _ (hlt _)).2.2.2.1]
    have h7 : ((((ringSendPartitions group.length (ringIndex group b)).map
          (ringCount size group.length)).sum : Nat) : Int)
        + (ringCount size group.length
          ((ringIndex group b + (group.length - 1)) % group.length) : Int)
        + (ringCount size group.length
          ((ringIndex group b + group.length - 1 + (group.length - 1)) % group.length) : Int)
        = 2 * (size : Int) := by exact_mod_cast hsum
    generalize ((ringSendPartitions group.length (ringIndex group b)).map
      (ringCount size group.length)).sum = total at h7 ⊢
    have h9 : ((group.length - 1 : Nat) : Int) = (group.length : Int) - 1 := by
      rw [Nat.cast_sub hN]
      rfl
    push_cast
    rw [h9]
    linarith
  · intro hdvd
    rw [hhanded]
    obtain ⟨q, hq⟩ := hdvd
    have hP : ringPartition size group.length = q := by
      rw [hq, ringPartition]
      have : group.length * q + group.length - 1 = (group.length - 1) + group.length * q := by
        have := Nat.le_mul_of_pos_right q hN
        omega
      rw [this, Nat.add_mul_div_left _ _ hN, Nat.div_eq_of_lt (by omega)]
      omega
    have h5 : group.length * q = (group.length - 1) * q + q := by
      conv_lhs => rw [show group.length = (group.length - 1) + 1 from by omega]
      ring
    have hall : ∀ k, k < group.length → ringCount size group.length k = q := by
      intro k hk
      rw [(hcount k hk).2.2.2.2, hP]
      split_ifs
      · rfl
      · omega
    have hdiv : size / group.length = q := by
      rw [hq, Nat.mul_div_cancel_left q hN]
    have h6 : 2 * (group.length - 1) * q = 2 * ((group.length - 1) * q) := by ring
    rw [hall _ (hlt _), hall _ (hlt _)] at hsum
    rw [hdiv, h6]
    generalize ((ringSendPartitions group.length (ringIndex group b)).map
      (ringCount size group.length)).sum = total at hsum ⊢
    omega

theorem ring_all_reduce_hands_bytes_witness :
    ((World.init (fun r => (testCommunicator r).RingAllReduce 1 7)).run
        ([0, 1, 2, 1] ++ roundRobin testGroup (2 * (2 * (testGroup.length - 1))))).result 1
        = some () ∧
      ((World.init (fun r => (testCommunicator r).RingAllReduce 1 7)).handed 1
          ([0, 1, 2, 1] ++ roundRobin testGroup (2 * (2 * (testGroup.length - 1)))) : Int)
          + ringPartitionSize 7 testGroup.length
            ((ringIndex testGroup 1 + (testGroup.length - 1)) % testGroup.length)
          + ringPartitionSize 7 testGroup.length
            ((ringIndex testGroup 1 + testGroup.length - 1 + (testGroup.length - 1))
              % testGroup.length)
        = 16 * ((testGroup.length : Int) - 1) + 2 * ((7 : Nat) : Int) ∧
      (testGroup.length ∣ 7 →
        (World.init (fun r => (testCommunicator r).RingAllReduce 1 7)).handed 1
            ([0, 1, 2, 1] ++ roundRobin testGroup (2 * (2 * (testGroup.length - 1))))
          = 2 * (testGroup.length - 1) * (7 / testGroup.length)
            + 16 * (testGroup.length - 1)) :=
  ring_all_reduce_hands_bytes testGroup testCommunicator 7 [0, 1, 2, 1] 1 (by decide)
    (fun r _ => ⟨rfl, (by decide : [2, 0, 1].Perm [0, 1, 2])⟩)
    (by decide) (by decide) (by decide) (by decide)

set_option maxRecDepth 100000 in
/-- C20, as stated, fails: when the three ranks of the test group call
`RingAllReduce<uint8_t>(FakePacket, 6)`, after eight turns of every rank every rank has
returned and has handed 40 bytes to its sockets, four partitions of 2 bytes each preceded
by the 8 bytes of its count, and 40 is not within one byte of `2 * (3 - 1) * 6 / 3 = 8`. -/
theorem ring_all_reduce_hands_more_than_formula :
    (∀ b : Fin 3,
      ((World.init (fun r => (testCommunicator r).RingAllReduce 1 6)).run
          (roundRobin testGroup 8)).result b.val = some () ∧
        (World.init (fun r => (testCommunicator r).RingAllReduce 1 6)).handed b.val
          (roundRobin testGroup 8) = 40) ∧
      ¬ withinOneByteOfRingFormula 40 6 3 := by
  refine ⟨?_, by decide⟩
  intro b
  fin_cases b
  · exact ⟨rfl, by decide⟩
  · exact ⟨rfl, by decide⟩
  · exact ⟨rfl, by decide⟩

theorem handed_of_fixed {α : Type} (w : World α) (a : Nat) (schedule : List Nat)
    (h : ∀ r ∈ schedule, w.step r = w ∧ w.handedBy r = 0) : w.handed a schedule = 0 := by
  induction schedule with
  | nil => rfl
  | cons r rest ih =>
    show (if r = a then w.handedBy r else 0) + (w.step r).handed a rest = 0
    rw [(h r (List.mem_cons_self _ _)).1, (h r (List.mem_cons_self _ _)).2,
      ih (fun x hx => h x (List.mem_cons_of_mem _ hx))]
    simp

set_option maxRecDepth 100000 in
/-- A payload with an empty partition: the three ranks of the test group call
`RingAllReduce<uint8_t>(FakePacket, 2)`, whose partitions have 1, 1 and 0 bytes. The
`Recv` of the empty partition asks the socket for 0 bytes and takes the message of the
next turn with it; after nine turns of every rank no turn of any rank changes the state
any more, every rank is in the first turn of the second loop, and so, whatever turns
follow, no rank returns and every rank has handed 26 bytes to its sockets, the bytes of
three of its four `Send`s. -/
theorem ring_all_reduce_of_empty_partition_never_returns :
    (∀ r : Fin 3,
      ((World.init (fun r => (testCommunicator r).RingAllReduce 1 2)).run
          (roundRobin testGroup 9)).step r.val
        = (World.init (fun r => (testCommunicator r).RingAllReduce 1 2)).run
          (roundRobin testGroup 9)) ∧
      ∀ (schedule : List (Fin 3)) (b : Fin 3),
        (((World.init (fun r => (testCommunicator r).RingAllReduce 1 2)).run
          (roundRobin testGroup 9 ++ schedule.map Fin.val)).rank b.val).phase = 2 ∧
        ((World.init (fun r => (testCommunicator r).RingAllReduce 1 2)).run
          (roundRobin testGroup 9 ++ schedule.map Fin.val)).result b.val = none ∧
        (World.init (fun r => (testCommunicator r).RingAllReduce 1 2)).handed b.val
          (roundRobin testGroup 9 ++ schedule.map Fin.val) = 26 := by
  have hfixed : ∀ r : Fin 3,
      ((World.init (fun r => (testCommunicator r).RingAllReduce 1 2)).run
          (roundRobin testGroup 9)).step r.val
        = (World.init (fun r => (testCommunicator r).RingAllReduce 1 2)).run
          (roundRobin testGroup 9) := by
    intro r
    fin_cases r <;> rfl
  have hzero : ∀ r : Fin 3,
      ((World.init (fun r => (testCommunicator r).RingAllReduce 1 2)).run
          (roundRobin testGroup 9)).handedBy r.val = 0 := by
    intro r
    fin_cases r <;> rfl
  refine ⟨hfixed, ?_⟩
  intro schedule b
  have hrest : ((World.init (fun r => (testCommunicator r).RingAllReduce 1 2)).run
      (roundRobin testGroup 9)).handed b.val (schedule.map Fin.val) = 0 := by
    apply handed_of_fixed
    intro r hr
    obtain ⟨x, -, rfl⟩ := List.mem_map.1 hr
    exact ⟨hfixed x, hzero x⟩
  rw [run_append, run_of_fixed_members _ schedule hfixed, handed_append, hrest, Nat.add_zero]
  fin_cases b
  · exact ⟨rfl, rfl, by decide⟩
  · exact ⟨rfl, rfl, by decide⟩
  · exact ⟨rfl, rfl, by decide⟩

end CoDES
